import Mathlib

/-!
# Out-of-place matrix transposition (`matrix transposition/out-of-place.cpp`)

A shallow embedding of the four transposers of the file and of the 4x4 vector
micro-kernel, followed by the proofs of their contract.

Modelling conventions.

* A `float*` is a pair of a buffer (`List α`) and an offset into it.  The source
  buffer `src` is read-only, the destination buffer `dst` is threaded through as
  the state.  The parameters called `a` and `b` are the offsets, so that the
  pointer arithmetic of the source (`a + (i * lda + j)`) reads the same here.
  Source and destination are two distinct lists: the no-overlap precondition of
  the C code is built into the model.
* Every load and every store is bounds-checked: an access outside the buffer
  yields `none`, and `none` is never produced in any other way.
* The element type is a parameter `α`: the code only moves elements.
* Two semantics of `int` are embedded.  The functions `transpose_naive`,
  `transpose_4x4`, `transpose_blocked4x4`, `transpose_blocked`, `transpose_oblivious`
  and `transpose_oblivious2` are the programs in unbounded integers: dimensions,
  strides, counters and indices are natural numbers and their arithmetic is exact.
  The functions with the suffix `_i32` are the same programs on the machine: every
  `int` value is an integer and the result of every `int` operation goes through
  the 32-bit arithmetic, wrapping or trapping.
* The unbounded programs describe the code only where no `int` operation
  overflows.  The contract of the code is therefore stated either for the `_i32`
  programs, or for the unbounded ones under explicit bounds on the arguments, under
  which the two are proved to coincide (`Strategy.run_i32_eq`).
-/

namespace Transpose

variable {α β : Type} {σ τ : Type}

/-! ## Memory accesses -/

/-- Read `m[p]`; `none` when `p` is out of bounds. -/
def load (m : List α) (p : Nat) : Option α := m[p]?

/-- Write `m[p] = v`; `none` when `p` is out of bounds. -/
def store (m : List α) (p : Nat) (v : α) : Option (List α) :=
  if p < m.length then some (m.set p v) else none

/-! ## Loops -/

/-- The loop `for (; i + k < n; i += step) body(i)`, started at counter value `i`
in state `s`.  It returns the value of the counter on exit together with the
final state (the C code reads the counters `i` and `j` after some loops).  The
monad is `Option` for the programs and `Id` for their call traces. -/
def forStep {m : Type → Type} [Monad m] (k step n : Nat) (hstep : 0 < step)
    (body : Nat → σ → m σ) (i : Nat) (s : σ) : m (Nat × σ) :=
  if i + k < n then do
    let s' ← body i s
    forStep k step n hstep body (i + step) s'
  else pure (i, s)
termination_by n - i
decreasing_by omega

/-! ## 1. Naive transposition -/

/-- Lines 51-57: `b[j * ldb + i] = a[i * lda + j]` for all `i < rows`, `j < cols`. -/
def transpose_naive (src dst : List α) (a b rows cols lda ldb : Nat) : Option (List α) :=
  Prod.snd <$> forStep 0 1 rows (by decide) (fun i dst =>
    Prod.snd <$> forStep 0 1 cols (by decide) (fun j dst => do
      let v ← load src (a + (i * lda + j))
      store dst (b + (j * ldb + i)) v) 0 dst) 0 dst

/-! ## 2. The 4x4 vector micro-kernel -/

/-- A 128-bit vector register holding four lanes, lane 0 first. -/
structure M128 (α : Type) where
  f0 : α
  f1 : α
  f2 : α
  f3 : α
deriving DecidableEq, Repr

/-- Unaligned load of the four consecutive elements `m[p .. p+3]`. -/
def _mm_loadu_ps (m : List α) (p : Nat) : Option (M128 α) := do
  let x0 ← load m p
  let x1 ← load m (p + 1)
  let x2 ← load m (p + 2)
  let x3 ← load m (p + 3)
  pure ⟨x0, x1, x2, x3⟩

/-- Unaligned store of the four lanes to `m[p .. p+3]`. -/
def _mm_storeu_ps (m : List α) (p : Nat) (v : M128 α) : Option (List α) := do
  let m ← store m p v.f0
  let m ← store m (p + 1) v.f1
  let m ← store m (p + 2) v.f2
  store m (p + 3) v.f3

/-- Modelled from the spec: a shuffle of the in-register transpose network of
section 4.2.  The repository takes it from the compiler header `<xmmintrin.h>`
(`_mm_unpacklo_ps`); it interleaves the low halves of its operands. -/
def _mm_unpacklo_ps (x y : M128 α) : M128 α := ⟨x.f0, y.f0, x.f1, y.f1⟩

/-- Modelled from the spec: a shuffle of the in-register transpose network of
section 4.2.  The repository takes it from the compiler header `<xmmintrin.h>`
(`_mm_unpackhi_ps`); it interleaves the high halves of its operands. -/
def _mm_unpackhi_ps (x y : M128 α) : M128 α := ⟨x.f2, y.f2, x.f3, y.f3⟩

/-- Modelled from the spec: a shuffle of the in-register transpose network of
section 4.2.  The repository takes it from the compiler header `<xmmintrin.h>`
(`_mm_movelh_ps`); the low half of `x` followed by the low half of `y`. -/
def _mm_movelh_ps (x y : M128 α) : M128 α := ⟨x.f0, x.f1, y.f0, y.f1⟩

/-- Modelled from the spec: a shuffle of the in-register transpose network of
section 4.2.  The repository takes it from the compiler header `<xmmintrin.h>`
(`_mm_movehl_ps`); the high half of `y` followed by the high half of `x`. -/
def _mm_movehl_ps (x y : M128 α) : M128 α := ⟨y.f2, y.f3, x.f2, x.f3⟩

/-- Modelled from the spec: the macro `_MM_TRANSPOSE4_PS`, which the repository
takes from the compiler header `<xmmintrin.h>`.  The spec (section 4.2) describes
it as the in-register transpose network of shuffles after which register `k` holds
column `k` of the tile; the network written here is the unpack/move network of that
header.  The macro assigns to its four arguments: the function returns their new
contents. -/
def _MM_TRANSPOSE4_PS (row0 row1 row2 row3 : M128 α) :
    M128 α × M128 α × M128 α × M128 α :=
  let tmp0 := _mm_unpacklo_ps row0 row1
  let tmp2 := _mm_unpacklo_ps row2 row3
  let tmp1 := _mm_unpackhi_ps row0 row1
  let tmp3 := _mm_unpackhi_ps row2 row3
  (_mm_movelh_ps tmp0 tmp2, _mm_movehl_ps tmp2 tmp0,
   _mm_movelh_ps tmp1 tmp3, _mm_movehl_ps tmp3 tmp1)

/-- Lines 69-81: four vector loads, the in-register transpose, four vector stores. -/
def transpose_4x4 (src dst : List α) (a b lda ldb : Nat) : Option (List α) := do
  let row1 ← _mm_loadu_ps src (a + 0 * lda)
  let row2 ← _mm_loadu_ps src (a + 1 * lda)
  let row3 ← _mm_loadu_ps src (a + 2 * lda)
  let row4 ← _mm_loadu_ps src (a + 3 * lda)
  let (row1, row2, row3, row4) := _MM_TRANSPOSE4_PS row1 row2 row3 row4
  let dst ← _mm_storeu_ps dst (b + 0 * ldb) row1
  let dst ← _mm_storeu_ps dst (b + 1 * ldb) row2
  let dst ← _mm_storeu_ps dst (b + 2 * ldb) row3
  _mm_storeu_ps dst (b + 3 * ldb) row4

/-! ## 2. Cache-aware transposition (loop blocking) -/

/-- Lines 84-108: 4x4 tiles through the micro-kernel, the trailing columns and
rows through `transpose_naive`. -/
def transpose_blocked4x4 (src dst : List α) (a b rows cols lda ldb : Nat) :
    Option (List α) := do
  let (i, dst) ← forStep 3 4 rows (by decide) (fun i dst => do
    let (j, dst) ← forStep 3 4 cols (by decide) (fun j dst =>
      transpose_4x4 src dst (a + (i * lda + j)) (b + (j * ldb + i)) lda ldb) 0 dst
    if j < cols then
      transpose_naive src dst (a + (i * lda + j)) (b + (j * ldb + i)) 4 (cols - j) lda ldb
    else pure dst) 0 dst
  if i < rows then
    let (j, dst) ← forStep 3 4 cols (by decide) (fun j dst =>
      transpose_naive src dst (a + (i * lda + j)) (b + (j * ldb + i)) (rows - i) 4 lda ldb)
      0 dst
    if j < cols then
      transpose_naive src dst (a + (i * lda + j)) (b + (j * ldb + i)) (rows - i) (cols - j)
        lda ldb
    else pure dst
  else pure dst

/-- Line 113: `static constexpr int block_size = 128`. -/
def block_size : Nat := 128

/-- Lines 111-128: `block_size` x `block_size` blocks, each handed to
`transpose_blocked4x4`. -/
def transpose_blocked (src dst : List α) (a b rows cols lda ldb : Nat) : Option (List α) :=
  Prod.snd <$> forStep 0 block_size rows (by decide) (fun i dst =>
    let r := min block_size (rows - i)
    Prod.snd <$> forStep 0 block_size cols (by decide) (fun j dst =>
      let c := min block_size (cols - j)
      transpose_blocked4x4 src dst (a + (i * lda + j)) (b + (j * ldb + i)) r c lda ldb)
      0 dst) 0 dst

/-! ## 3. Cache-oblivious transposition (recursive) -/

/-- The C expression `x & (~0b11)` on a non-negative `int`: bitwise and with the
two's complement integer `~3 = -4`. -/
def maskLow2 (x : Nat) : Nat := (Int.land (x : Int) (~~~(3 : Int))).toNat

/-- Lines 142-158: symmetric quartering, `transpose_naive` at the leaves. -/
def transpose_oblivious (src dst : List α) (a b rows cols lda ldb : Nat) : Option (List α) :=
  if rows ≤ 16 ∧ cols ≤ 16 then
    transpose_naive src dst a b rows cols lda ldb
  else do
    let halfRow := maskLow2 (rows / 2)
    let halfCol := maskLow2 (cols / 2)
    let dst ← transpose_oblivious src dst a b halfRow halfCol lda ldb
    let dst ← transpose_oblivious src dst (a + halfCol) (b + (halfCol * ldb))
      halfRow (cols - halfCol) lda ldb
    let dst ← transpose_oblivious src dst (a + (halfRow * lda)) (b + halfRow)
      (rows - halfRow) halfCol lda ldb
    transpose_oblivious src dst (a + (halfRow * lda + halfCol)) (b + (halfCol * ldb + halfRow))
      (rows - halfRow) (cols - halfCol) lda ldb
termination_by rows + cols
decreasing_by
  all_goals simp_wf
  all_goals
    have key : ∀ m : Nat, maskLow2 m = 4 * (m / 4) := by
      intro m
      show (((Nat.ldiff m 3 : Nat) : Int)).toNat = _
      rw [Int.toNat_natCast]
      apply Nat.eq_of_testBit_eq
      intro i
      rw [Nat.testBit_ldiff, show (4 : Nat) = 2 ^ 2 by rfl, Nat.testBit_mul_pow_two]
      rcases i with _ | _ | i
      · simp [Nat.testBit_zero]
      · simp [Nat.testBit_succ]
      · have h : 3 < 2 ^ (i + 2) := by
          have := Nat.one_le_two_pow (n := i)
          rw [pow_add]; omega
        have h3 : Nat.testBit 3 (i + 2) = false := by
          simp [Nat.testBit, Nat.shiftRight_eq_div_pow, Nat.div_eq_of_lt h]
        rw [h3]
        simp [Nat.testBit_succ, Nat.div_div_eq_div_mul]
    have hr := key (rows / 2)
    have hc := key (cols / 2)
    omega

/-- Lines 161-189: the adaptive variant; a side of length at most 8 is not split,
and the leaves go through `transpose_blocked4x4`. -/
def transpose_oblivious2 (src dst : List α) (a b rows cols lda ldb : Nat) : Option (List α) :=
  if rows ≤ 16 ∧ cols ≤ 16 then
    transpose_blocked4x4 src dst a b rows cols lda ldb
  else if rows ≤ 8 then do
    let halfCol := maskLow2 (cols / 2)
    let dst ← transpose_oblivious2 src dst a b rows halfCol lda ldb
    transpose_oblivious2 src dst (a + halfCol) (b + (halfCol * ldb)) rows (cols - halfCol)
      lda ldb
  else if cols ≤ 8 then do
    let halfRow := maskLow2 (rows / 2)
    let dst ← transpose_oblivious2 src dst a b halfRow cols lda ldb
    transpose_oblivious2 src dst (a + (halfRow * lda)) (b + halfRow) (rows - halfRow) cols
      lda ldb
  else do
    let halfRow := maskLow2 (rows / 2)
    let halfCol := maskLow2 (cols / 2)
    let dst ← transpose_oblivious2 src dst a b halfRow halfCol lda ldb
    let dst ← transpose_oblivious2 src dst (a + halfCol) (b + (halfCol * ldb))
      halfRow (cols - halfCol) lda ldb
    let dst ← transpose_oblivious2 src dst (a + (halfRow * lda)) (b + halfRow)
      (rows - halfRow) halfCol lda ldb
    transpose_oblivious2 src dst (a + (halfRow * lda + halfCol))
      (b + (halfCol * ldb + halfRow)) (rows - halfRow) (cols - halfCol) lda ldb
termination_by rows + cols
decreasing_by
  all_goals simp_wf
  all_goals
    have key : ∀ m : Nat, maskLow2 m = 4 * (m / 4) := by
      intro m
      show (((Nat.ldiff m 3 : Nat) : Int)).toNat = _
      rw [Int.toNat_natCast]
      apply Nat.eq_of_testBit_eq
      intro i
      rw [Nat.testBit_ldiff, show (4 : Nat) = 2 ^ 2 by rfl, Nat.testBit_mul_pow_two]
      rcases i with _ | _ | i
      · simp [Nat.testBit_zero]
      · simp [Nat.testBit_succ]
      · have h : 3 < 2 ^ (i + 2) := by
          have := Nat.one_le_two_pow (n := i)
          rw [pow_add]; omega
        have h3 : Nat.testBit 3 (i + 2) = false := by
          simp [Nat.testBit, Nat.shiftRight_eq_div_pow, Nat.div_eq_of_lt h]
        rw [h3]
        simp [Nat.testBit_succ, Nat.div_div_eq_div_mul]
    have hr := key (rows / 2)
    have hc := key (cols / 2)
    omega

/-! ## The four strategies behind one signature -/

/-- The drop-in transposers of the file. -/
inductive Strategy where
  | naive
  | blocked
  | oblivious
  | oblivious2
deriving DecidableEq, Repr

/-- Run a strategy: `S(a, b, rows, cols, lda, ldb)`. -/
def Strategy.run (S : Strategy) (src dst : List α) (a b rows cols lda ldb : Nat) :
    Option (List α) :=
  match S with
  | .naive => transpose_naive src dst a b rows cols lda ldb
  | .blocked => transpose_blocked src dst a b rows cols lda ldb
  | .oblivious => transpose_oblivious src dst a b rows cols lda ldb
  | .oblivious2 => transpose_oblivious2 src dst a b rows cols lda ldb

/-! ## The calls made by `transpose_blocked4x4` -/

/-- A call made by `transpose_blocked4x4`, recorded with the values `(i, j)` of the
loop counters at the call site (the origin of the rectangle inside the matrix) and,
for `transpose_naive`, the `rows` and `cols` arguments. -/
inductive Call where
  | kernel (i j : Nat)
  | naive (i j rows cols : Nat)
deriving DecidableEq, Repr

/-- Execute one recorded call of `transpose_blocked4x4(a, b, .., lda, ldb)`. -/
def Call.run (src : List α) (a b lda ldb : Nat) (dst : List α) : Call → Option (List α)
  | .kernel i j => transpose_4x4 src dst (a + (i * lda + j)) (b + (j * ldb + i)) lda ldb
  | .naive i j r c =>
    transpose_naive src dst (a + (i * lda + j)) (b + (j * ldb + i)) r c lda ldb

/-- The call trace of `transpose_blocked4x4` (lines 84-108): the same loops with
each call replaced by a record of it, in execution order. -/
def transpose_blocked4x4_calls (rows cols : Nat) : List Call := Id.run do
  let (i, log) ← forStep 3 4 rows (by decide) (fun i log => do
    let (j, log) ← forStep 3 4 cols (by decide) (fun j log =>
      pure (log ++ [Call.kernel i j])) 0 log
    if j < cols then
      pure (log ++ [Call.naive i j 4 (cols - j)])
    else pure log) 0 []
  if i < rows then
    let (j, log) ← forStep 3 4 cols (by decide) (fun j log =>
      pure (log ++ [Call.naive i j (rows - i) 4])) 0 log
    if j < cols then
      pure (log ++ [Call.naive i j (rows - i) (cols - j)])
    else pure log
  else pure log

/-- Specification of the trace: `c` is a call that `transpose_blocked4x4` makes
before its loops reach position `(I, J)`.  The kernel runs at the 4-aligned origins
of full tiles, `transpose_naive` at the 4-aligned origins of partial tiles, on the
tile clipped to the matrix. -/
def CallBefore (rows cols I J : Nat) : Call → Prop
  | .kernel i j => i % 4 = 0 ∧ j % 4 = 0 ∧ i + 4 ≤ rows ∧ j + 4 ≤ cols ∧ (i < I ∨ (i = I ∧ j < J))
  | .naive i j r c => i % 4 = 0 ∧ j % 4 = 0 ∧ i < rows ∧ j < cols ∧
      (rows < i + 4 ∨ cols < j + 4) ∧ r = min 4 (rows - i) ∧ c = min 4 (cols - j) ∧
      (i < I ∨ (i = I ∧ j < J))

/-! ## The index map of the contiguous layout -/

/-- With `lda = cols` and `ldb = rows` the source index `k = i * cols + j` is sent
to the destination index `j * rows + i`, where `i = k / cols` and `j = k % cols`. -/
def transposeIndex (rows cols k : Nat) : Nat := (k % cols) * rows + k / cols

/-! ## Specification vocabulary -/

/-- A `rows` x `cols` view with stride `ld` starting at offset `p` lies inside a
buffer of length `len`: every cell index `p + (i * ld + j)` is below `len`. -/
def Fits (p rows cols ld len : Nat) : Prop :=
  ∀ i < rows, ∀ j < cols, p + (i * ld + j) < len

instance (p rows cols ld len : Nat) : Decidable (Fits p rows cols ld len) := by
  unfold Fits; infer_instance

/-- The destination `dst'` is `dst` in which exactly the cells `(i, j)` selected by
`P` have been transposed from `src`: cell `b[j * ldb + i]` holds `a[i * lda + j]`,
every other index holds what `dst` held, and the length is unchanged. -/
def Moved (src dst : List α) (a b lda ldb : Nat) (P : Nat → Nat → Prop)
    (dst' : List α) : Prop :=
  dst'.length = dst.length ∧
  (∀ i j, P i j → dst'[b + (j * ldb + i)]? = src[a + (i * lda + j)]?) ∧
  (∀ d, (∀ i j, P i j → d ≠ b + (j * ldb + i)) → dst'[d]? = dst[d]?)

/-- The contract of a transposer on a `rows` x `cols` matrix: see `Moved`. -/
def Transposed (src dst : List α) (a b rows cols lda ldb : Nat) (dst' : List α) : Prop :=
  Moved src dst a b lda ldb (fun i j => i < rows ∧ j < cols) dst'

/-! ## The split point on 32-bit patterns, and the quadrant decomposition -/

/-- The same expression `x & (~0b11)` on the 32-bit two's complement patterns of
`int`: `~0b11` is the pattern `0xFFFFFFFC`. -/
def maskLow2_i32 (x : Nat) : Nat := x &&& 0xFFFFFFFC

/-- The quadrant decomposition of lines 154-157 with `transpose_naive` in the place
of the recursive calls, for an arbitrary split point `(hr, hc)`. -/
def transpose_naive_quadrants (src dst : List α) (a b rows cols hr hc lda ldb : Nat) :
    Option (List α) := do
  let dst ← transpose_naive src dst a b hr hc lda ldb
  let dst ← transpose_naive src dst (a + hc) (b + (hc * ldb)) hr (cols - hc) lda ldb
  let dst ← transpose_naive src dst (a + (hr * lda)) (b + hr) (rows - hr) hc lda ldb
  transpose_naive src dst (a + (hr * lda + hc)) (b + (hc * ldb + hr))
    (rows - hr) (cols - hc) lda ldb

/-! ## The recursive calls of the cache-oblivious transposers -/

/-- A call on a sub-matrix (a recursive call, or a block handed to
`transpose_blocked4x4`), recorded with the origin `(i, j)` of the sub-matrix inside
the caller's matrix and with its `rows` and `cols` arguments. -/
structure SubCall where
  i : Nat
  j : Nat
  rows : Nat
  cols : Nat
deriving DecidableEq, Repr

/-- The recursive calls made by `transpose_oblivious(.., rows, cols, ..)` itself
(lines 145-157), in order: none in the base case, the four quadrants otherwise. -/
def transpose_oblivious_calls (rows cols : Nat) : List SubCall :=
  if rows ≤ 16 ∧ cols ≤ 16 then []
  else
    let halfRow := maskLow2 (rows / 2)
    let halfCol := maskLow2 (cols / 2)
    [⟨0, 0, halfRow, halfCol⟩,
     ⟨0, halfCol, halfRow, cols - halfCol⟩,
     ⟨halfRow, 0, rows - halfRow, halfCol⟩,
     ⟨halfRow, halfCol, rows - halfRow, cols - halfCol⟩]

/-- The recursive calls made by `transpose_oblivious2(.., rows, cols, ..)` itself
(lines 164-188), in order. -/
def transpose_oblivious2_calls (rows cols : Nat) : List SubCall :=
  if rows ≤ 16 ∧ cols ≤ 16 then []
  else if rows ≤ 8 then
    let halfCol := maskLow2 (cols / 2)
    [⟨0, 0, rows, halfCol⟩,
     ⟨0, halfCol, rows, cols - halfCol⟩]
  else if cols ≤ 8 then
    let halfRow := maskLow2 (rows / 2)
    [⟨0, 0, halfRow, cols⟩,
     ⟨halfRow, 0, rows - halfRow, cols⟩]
  else
    let halfRow := maskLow2 (rows / 2)
    let halfCol := maskLow2 (cols / 2)
    [⟨0, 0, halfRow, halfCol⟩,
     ⟨0, halfCol, halfRow, cols - halfCol⟩,
     ⟨halfRow, 0, rows - halfRow, halfCol⟩,
     ⟨halfRow, halfCol, rows - halfRow, cols - halfCol⟩]

/-- The call relation on dimension pairs: a call with dimensions `parent` makes a
recursive call with dimensions `child`. -/
def CalledBy (calls : Nat → Nat → List SubCall) (child parent : Nat × Nat) : Prop :=
  ∃ c ∈ calls parent.1 parent.2, child = (c.rows, c.cols)

/-! ## The blocks of `transpose_blocked` -/

/-- The blocks that `transpose_blocked` (lines 111-128) hands to
`transpose_blocked4x4`, in order: the same loops with the call replaced by a record
of the counters `(i, j)` and of the arguments `(r, c)`. -/
def transpose_blocked_blocks (rows cols : Nat) : List SubCall := Id.run do
  Prod.snd <$> forStep 0 block_size rows (by decide) (fun i log =>
    let r := min block_size (rows - i)
    Prod.snd <$> forStep 0 block_size cols (by decide) (fun j log =>
      let c := min block_size (cols - j)
      pure (log ++ [⟨i, j, r, c⟩])) 0 log) 0 []

/-- Specification of the block trace: `blk` is a block that `transpose_blocked`
reaches before its loops are at position `(I, J)`. -/
def BlockBefore (rows cols I J : Nat) (blk : SubCall) : Prop :=
  blk.i % 128 = 0 ∧ blk.j % 128 = 0 ∧ blk.i < rows ∧ blk.j < cols ∧
    blk.rows = min 128 (rows - blk.i) ∧ blk.cols = min 128 (cols - blk.j) ∧
    (blk.i < I ∨ (blk.i = I ∧ blk.j < J))

/-! ## Element-wise images -/

/-- Apply a function on element values to the four lanes of a register. -/
def M128.map (g : α → β) (v : M128 α) : M128 β := ⟨g v.f0, g v.f1, g v.f2, g v.f3⟩

/-! ## Logged execution: the programs with a record of every store

The functions of this section are the programs above, word for word, on a state
that pairs the destination buffer with the list of the destination indices written
so far; only `store` is replaced by `store_logged`.  Erasing the log gives back the
programs (`Strategy.run_logged_erase`). -/

/-- `store` with a record: the index `p` is appended to the log of writes. -/
def store_logged (s : List α × List Nat) (p : Nat) (v : α) : Option (List α × List Nat) :=
  (store s.1 p v).map (fun m => (m, s.2 ++ [p]))

/-- `transpose_naive` (lines 51-57) with logged stores. -/
def transpose_naive_logged (src : List α) (s : List α × List Nat)
    (a b rows cols lda ldb : Nat) : Option (List α × List Nat) :=
  Prod.snd <$> forStep 0 1 rows (by decide) (fun i s =>
    Prod.snd <$> forStep 0 1 cols (by decide) (fun j s => do
      let v ← load src (a + (i * lda + j))
      store_logged s (b + (j * ldb + i)) v) 0 s) 0 s

/-- `_mm_storeu_ps` with logged stores: four element writes. -/
def _mm_storeu_ps_logged (s : List α × List Nat) (p : Nat) (v : M128 α) :
    Option (List α × List Nat) := do
  let s ← store_logged s p v.f0
  let s ← store_logged s (p + 1) v.f1
  let s ← store_logged s (p + 2) v.f2
  store_logged s (p + 3) v.f3

/-- `transpose_4x4` (lines 69-81) with logged stores: sixteen element writes. -/
def transpose_4x4_logged (src : List α) (s : List α × List Nat) (a b lda ldb : Nat) :
    Option (List α × List Nat) := do
  let row1 ← _mm_loadu_ps src (a + 0 * lda)
  let row2 ← _mm_loadu_ps src (a + 1 * lda)
  let row3 ← _mm_loadu_ps src (a + 2 * lda)
  let row4 ← _mm_loadu_ps src (a + 3 * lda)
  let (row1, row2, row3, row4) := _MM_TRANSPOSE4_PS row1 row2 row3 row4
  let s ← _mm_storeu_ps_logged s (b + 0 * ldb) row1
  let s ← _mm_storeu_ps_logged s (b + 1 * ldb) row2
  let s ← _mm_storeu_ps_logged s (b + 2 * ldb) row3
  _mm_storeu_ps_logged s (b + 3 * ldb) row4

/-- `transpose_blocked4x4` (lines 84-108) with logged stores. -/
def transpose_blocked4x4_logged (src : List α) (s : List α × List Nat)
    (a b rows cols lda ldb : Nat) : Option (List α × List Nat) := do
  let (i, s) ← forStep 3 4 rows (by decide) (fun i s => do
    let (j, s) ← forStep 3 4 cols (by decide) (fun j s =>
      transpose_4x4_logged src s (a + (i * lda + j)) (b + (j * ldb + i)) lda ldb) 0 s
    if j < cols then
      transpose_naive_logged src s (a + (i * lda + j)) (b + (j * ldb + i)) 4 (cols - j)
        lda ldb
    else pure s) 0 s
  if i < rows then
    let (j, s) ← forStep 3 4 cols (by decide) (fun j s =>
      transpose_naive_logged src s (a + (i * lda + j)) (b + (j * ldb + i)) (rows - i) 4
        lda ldb) 0 s
    if j < cols then
      transpose_naive_logged src s (a + (i * lda + j)) (b + (j * ldb + i)) (rows - i)
        (cols - j) lda ldb
    else pure s
  else pure s

/-- `transpose_blocked` (lines 111-128) with logged stores. -/
def transpose_blocked_logged (src : List α) (s : List α × List Nat)
    (a b rows cols lda ldb : Nat) : Option (List α × List Nat) :=
  Prod.snd <$> forStep 0 block_size rows (by decide) (fun i s =>
    let r := min block_size (rows - i)
    Prod.snd <$> forStep 0 block_size cols (by decide) (fun j s =>
      let c := min block_size (cols - j)
      transpose_blocked4x4_logged src s (a + (i * lda + j)) (b + (j * ldb + i)) r c lda ldb)
      0 s) 0 s

/-- `transpose_oblivious` (lines 142-158) with logged stores. -/
def transpose_oblivious_logged (src : List α) (s : List α × List Nat)
    (a b rows cols lda ldb : Nat) : Option (List α × List Nat) :=
  if rows ≤ 16 ∧ cols ≤ 16 then
    transpose_naive_logged src s a b rows cols lda ldb
  else do
    let halfRow := maskLow2 (rows / 2)
    let halfCol := maskLow2 (cols / 2)
    let s ← transpose_oblivious_logged src s a b halfRow halfCol lda ldb
    let s ← transpose_oblivious_logged src s (a + halfCol) (b + (halfCol * ldb))
      halfRow (cols - halfCol) lda ldb
    let s ← transpose_oblivious_logged src s (a + (halfRow * lda)) (b + halfRow)
      (rows - halfRow) halfCol lda ldb
    transpose_oblivious_logged src s (a + (halfRow * lda + halfCol))
      (b + (halfCol * ldb + halfRow)) (rows - halfRow) (cols - halfCol) lda ldb
termination_by rows + cols
decreasing_by
  all_goals simp_wf
  all_goals
    have key : ∀ m : Nat, maskLow2 m = 4 * (m / 4) := by
      intro m
      show (((Nat.ldiff m 3 : Nat) : Int)).toNat = _
      rw [Int.toNat_natCast]
      refine Nat.eq_of_testBit_eq fun i => ?_
      rw [Nat.testBit_ldiff, show (4 : Nat) = 2 ^ 2 by rfl, Nat.testBit_mul_pow_two,
        show (3 : Nat) = 2 ^ 2 - 1 by rfl, Nat.testBit_two_pow_sub_one,
        ← Nat.shiftRight_eq_div_pow, Nat.testBit_shiftRight]
      by_cases h : i < 2
      · simp [h]
      · simp [h, Nat.add_sub_cancel' (Nat.le_of_not_lt h), Nat.le_of_not_lt h]
    have hr := key (rows / 2)
    have hc := key (cols / 2)
    omega

/-- `transpose_oblivious2` (lines 161-189) with logged stores. -/
def transpose_oblivious2_logged (src : List α) (s : List α × List Nat)
    (a b rows cols lda ldb : Nat) : Option (List α × List Nat) :=
  if rows ≤ 16 ∧ cols ≤ 16 then
    transpose_blocked4x4_logged src s a b rows cols lda ldb
  else if rows ≤ 8 then do
    let halfCol := maskLow2 (cols / 2)
    let s ← transpose_oblivious2_logged src s a b rows halfCol lda ldb
    transpose_oblivious2_logged src s (a + halfCol) (b + (halfCol * ldb)) rows
      (cols - halfCol) lda ldb
  else if cols ≤ 8 then do
    let halfRow := maskLow2 (rows / 2)
    let s ← transpose_oblivious2_logged src s a b halfRow cols lda ldb
    transpose_oblivious2_logged src s (a + (halfRow * lda)) (b + halfRow) (rows - halfRow)
      cols lda ldb
  else do
    let halfRow := maskLow2 (rows / 2)
    let halfCol := maskLow2 (cols / 2)
    let s ← transpose_oblivious2_logged src s a b halfRow halfCol lda ldb
    let s ← transpose_oblivious2_logged src s (a + halfCol) (b + (halfCol * ldb))
      halfRow (cols - halfCol) lda ldb
    let s ← transpose_oblivious2_logged src s (a + (halfRow * lda)) (b + halfRow)
      (rows - halfRow) halfCol lda ldb
    transpose_oblivious2_logged src s (a + (halfRow * lda + halfCol))
      (b + (halfCol * ldb + halfRow)) (rows - halfRow) (cols - halfCol) lda ldb
termination_by rows + cols
decreasing_by
  all_goals simp_wf
  all_goals
    have key : ∀ m : Nat, maskLow2 m = 4 * (m / 4) := by
      intro m
      show (((Nat.ldiff m 3 : Nat) : Int)).toNat = _
      rw [Int.toNat_natCast]
      refine Nat.eq_of_testBit_eq fun i => ?_
      rw [Nat.testBit_ldiff, show (4 : Nat) = 2 ^ 2 by rfl, Nat.testBit_mul_pow_two,
        show (3 : Nat) = 2 ^ 2 - 1 by rfl, Nat.testBit_two_pow_sub_one,
        ← Nat.shiftRight_eq_div_pow, Nat.testBit_shiftRight]
      by_cases h : i < 2
      · simp [h]
      · simp [h, Nat.add_sub_cancel' (Nat.le_of_not_lt h), Nat.le_of_not_lt h]
    have hr := key (rows / 2)
    have hc := key (cols / 2)
    omega

/-- Run a strategy with logged stores, starting from the empty log. -/
def Strategy.run_logged (S : Strategy) (src dst : List α) (a b rows cols lda ldb : Nat) :
    Option (List α × List Nat) :=
  match S with
  | .naive => transpose_naive_logged src (dst, []) a b rows cols lda ldb
  | .blocked => transpose_blocked_logged src (dst, []) a b rows cols lda ldb
  | .oblivious => transpose_oblivious_logged src (dst, []) a b rows cols lda ldb
  | .oblivious2 => transpose_oblivious2_logged src (dst, []) a b rows cols lda ldb

/-- The list `W` of written indices consists of the destination cells
`b[j * ldb + i]` of the matrix cells `(i, j)` selected by `P`, each exactly once. -/
def Wrote (b ldb : Nat) (P : Nat → Nat → Prop) (W : List Nat) : Prop :=
  W.Nodup ∧ ∀ d, d ∈ W ↔ ∃ i j, P i j ∧ d = b + (j * ldb + i)

/-- The state `s` extends the log `L0` by a list of writes that is `Wrote` for the
cells `P`. -/
def Logs (b ldb : Nat) (L0 : List Nat) (P : Nat → Nat → Prop) (s : List α × List Nat) :
    Prop :=
  ∃ W, s.2 = L0 ++ W ∧ Wrote b ldb P W

/-! ## One address space: the programs on a single memory

The functions of this section are the programs above, word for word, on one buffer
`m` that holds both matrices: `a` and `b` are offsets into the same memory, every
load reads the current memory and every store writes it.  Nothing is assumed about
the regions: they may overlap, and then a load can see an earlier store. -/

/-- `transpose_naive` (lines 51-57) on one memory. -/
def transpose_naive_mem (m : List α) (a b rows cols lda ldb : Nat) : Option (List α) :=
  Prod.snd <$> forStep 0 1 rows (by decide) (fun i m =>
    Prod.snd <$> forStep 0 1 cols (by decide) (fun j m => do
      let v ← load m (a + (i * lda + j))
      store m (b + (j * ldb + i)) v) 0 m) 0 m

/-- `transpose_4x4` (lines 69-81) on one memory: the four loads precede the four
stores. -/
def transpose_4x4_mem (m : List α) (a b lda ldb : Nat) : Option (List α) := do
  let row1 ← _mm_loadu_ps m (a + 0 * lda)
  let row2 ← _mm_loadu_ps m (a + 1 * lda)
  let row3 ← _mm_loadu_ps m (a + 2 * lda)
  let row4 ← _mm_loadu_ps m (a + 3 * lda)
  let (row1, row2, row3, row4) := _MM_TRANSPOSE4_PS row1 row2 row3 row4
  let m ← _mm_storeu_ps m (b + 0 * ldb) row1
  let m ← _mm_storeu_ps m (b + 1 * ldb) row2
  let m ← _mm_storeu_ps m (b + 2 * ldb) row3
  _mm_storeu_ps m (b + 3 * ldb) row4

/-- `transpose_blocked4x4` (lines 84-108) on one memory. -/
def transpose_blocked4x4_mem (m : List α) (a b rows cols lda ldb : Nat) :
    Option (List α) := do
  let (i, m) ← forStep 3 4 rows (by decide) (fun i m => do
    let (j, m) ← forStep 3 4 cols (by decide) (fun j m =>
      transpose_4x4_mem m (a + (i * lda + j)) (b + (j * ldb + i)) lda ldb) 0 m
    if j < cols then
      transpose_naive_mem m (a + (i * lda + j)) (b + (j * ldb + i)) 4 (cols - j) lda ldb
    else pure m) 0 m
  if i < rows then
    let (j, m) ← forStep 3 4 cols (by decide) (fun j m =>
      transpose_naive_mem m (a + (i * lda + j)) (b + (j * ldb + i)) (rows - i) 4 lda ldb)
      0 m
    if j < cols then
      transpose_naive_mem m (a + (i * lda + j)) (b + (j * ldb + i)) (rows - i) (cols - j)
        lda ldb
    else pure m
  else pure m

/-- `transpose_blocked` (lines 111-128) on one memory. -/
def transpose_blocked_mem (m : List α) (a b rows cols lda ldb : Nat) : Option (List α) :=
  Prod.snd <$> forStep 0 block_size rows (by decide) (fun i m =>
    let r := min block_size (rows - i)
    Prod.snd <$> forStep 0 block_size cols (by decide) (fun j m =>
      let c := min block_size (cols - j)
      transpose_blocked4x4_mem m (a + (i * lda + j)) (b + (j * ldb + i)) r c lda ldb)
      0 m) 0 m

/-- `transpose_oblivious` (lines 142-158) on one memory. -/
def transpose_oblivious_mem (m : List α) (a b rows cols lda ldb : Nat) : Option (List α) :=
  if rows ≤ 16 ∧ cols ≤ 16 then
    transpose_naive_mem m a b rows cols lda ldb
  else do
    let halfRow := maskLow2 (rows / 2)
    let halfCol := maskLow2 (cols / 2)
    let m ← transpose_oblivious_mem m a b halfRow halfCol lda ldb
    let m ← transpose_oblivious_mem m (a + halfCol) (b + (halfCol * ldb))
      halfRow (cols - halfCol) lda ldb
    let m ← transpose_oblivious_mem m (a + (halfRow * lda)) (b + halfRow)
      (rows - halfRow) halfCol lda ldb
    transpose_oblivious_mem m (a + (halfRow * lda + halfCol)) (b + (halfCol * ldb + halfRow))
      (rows - halfRow) (cols - halfCol) lda ldb
termination_by rows + cols
decreasing_by
  all_goals simp_wf
  all_goals
    have key : ∀ x : Nat, maskLow2 x = 4 * (x / 4) := by
      intro x
      show (((Nat.ldiff x 3 : Nat) : Int)).toNat = _
      rw [Int.toNat_natCast]
      refine Nat.eq_of_testBit_eq fun i => ?_
      rw [Nat.testBit_ldiff, show (4 : Nat) = 2 ^ 2 by rfl, Nat.testBit_mul_pow_two,
        show (3 : Nat) = 2 ^ 2 - 1 by rfl, Nat.testBit_two_pow_sub_one,
        ← Nat.shiftRight_eq_div_pow, Nat.testBit_shiftRight]
      by_cases h : i < 2
      · simp [h]
      · simp [h, Nat.add_sub_cancel' (Nat.le_of_not_lt h), Nat.le_of_not_lt h]
    have hr := key (rows / 2)
    have hc := key (cols / 2)
    omega

/-- `transpose_oblivious2` (lines 161-189) on one memory. -/
def transpose_oblivious2_mem (m : List α) (a b rows cols lda ldb : Nat) : Option (List α) :=
  if rows ≤ 16 ∧ cols ≤ 16 then
    transpose_blocked4x4_mem m a b rows cols lda ldb
  else if rows ≤ 8 then do
    let halfCol := maskLow2 (cols / 2)
    let m ← transpose_oblivious2_mem m a b rows halfCol lda ldb
    transpose_oblivious2_mem m (a + halfCol) (b + (halfCol * ldb)) rows (cols - halfCol)
      lda ldb
  else if cols ≤ 8 then do
    let halfRow := maskLow2 (rows / 2)
    let m ← transpose_oblivious2_mem m a b halfRow cols lda ldb
    transpose_oblivious2_mem m (a + (halfRow * lda)) (b + halfRow) (rows - halfRow) cols
      lda ldb
  else do
    let halfRow := maskLow2 (rows / 2)
    let halfCol := maskLow2 (cols / 2)
    let m ← transpose_oblivious2_mem m a b halfRow halfCol lda ldb
    let m ← transpose_oblivious2_mem m (a + halfCol) (b + (halfCol * ldb))
      halfRow (cols - halfCol) lda ldb
    let m ← transpose_oblivious2_mem m (a + (halfRow * lda)) (b + halfRow)
      (rows - halfRow) halfCol lda ldb
    transpose_oblivious2_mem m (a + (halfRow * lda + halfCol))
      (b + (halfCol * ldb + halfRow)) (rows - halfRow) (cols - halfCol) lda ldb
termination_by rows + cols
decreasing_by
  all_goals simp_wf
  all_goals
    have key : ∀ x : Nat, maskLow2 x = 4 * (x / 4) := by
      intro x
      show (((Nat.ldiff x 3 : Nat) : Int)).toNat = _
      rw [Int.toNat_natCast]
      refine Nat.eq_of_testBit_eq fun i => ?_
      rw [Nat.testBit_ldiff, show (4 : Nat) = 2 ^ 2 by rfl, Nat.testBit_mul_pow_two,
        show (3 : Nat) = 2 ^ 2 - 1 by rfl, Nat.testBit_two_pow_sub_one,
        ← Nat.shiftRight_eq_div_pow, Nat.testBit_shiftRight]
      by_cases h : i < 2
      · simp [h]
      · simp [h, Nat.add_sub_cancel' (Nat.le_of_not_lt h), Nat.le_of_not_lt h]
    have hr := key (rows / 2)
    have hc := key (cols / 2)
    omega

/-- Run a strategy on one memory. -/
def Strategy.run_mem (S : Strategy) (m : List α) (a b rows cols lda ldb : Nat) :
    Option (List α) :=
  match S with
  | .naive => transpose_naive_mem m a b rows cols lda ldb
  | .blocked => transpose_blocked_mem m a b rows cols lda ldb
  | .oblivious => transpose_oblivious_mem m a b rows cols lda ldb
  | .oblivious2 => transpose_oblivious2_mem m a b rows cols lda ldb

/-- No cell of the source view `a` is a cell of the destination view `b`: the
no-overlap precondition, for two views inside one memory. -/
def Apart (a b rows cols lda ldb : Nat) : Prop :=
  ∀ i < rows, ∀ j < cols, ∀ i' < rows, ∀ j' < cols,
    a + (i * lda + j) ≠ b + (j' * ldb + i')

instance (a b rows cols lda ldb : Nat) : Decidable (Apart a b rows cols lda ldb) := by
  unfold Apart; infer_instance

/-- The memory `m` holds, at every cell of the `rows` x `cols` view `a`, what `src`
holds there. -/
def Agree (src m : List α) (a rows cols lda : Nat) : Prop :=
  ∀ i < rows, ∀ j < cols, m[a + (i * lda + j)]? = src[a + (i * lda + j)]?

/-- The runs `x` and `y` agree, and a result of theirs satisfies `Inv`. -/
def Sim (Inv : τ → Prop) (x y : Option τ) : Prop :=
  x = y ∧ ∀ s, y = some s → Inv s

/-! ## 32-bit `int` arithmetic: `transpose_blocked` on the machine

The functions reached from `transpose_blocked`, once more, with every value of type
`int` an integer and the result of every `int` operation (`+`, `-`, `*`, `+=`, `++`)
passed through the arithmetic `ar` of the machine: `wrapping` for two's complement
wrap-around, `checked` for arithmetic without a result on overflow.  Pointers are
offsets into their buffer and pointer arithmetic is exact.  Since a wrapped counter
may never pass its bound, every loop is given `fuel`: the number of times its test
may be evaluated; a loop that runs out of fuel has no result. -/

/-- The 32-bit two's complement value of an integer: its residue modulo `2^32` in
the range `[-2^31, 2^31)`. -/
def wrap32 (x : Int) : Int := (x + 2 ^ 31) % 2 ^ 32 - 2 ^ 31

/-- Wrap-around arithmetic: the stored result of an `int` operation whose exact
result is `x`. -/
def wrapping (x : Int) : Option Int := some (wrap32 x)

/-- Trapping arithmetic: an `int` operation whose exact result `x` is not
representable has no result. -/
def checked (x : Int) : Option Int :=
  if -(2 ^ 31) ≤ x ∧ x ≤ 2 ^ 31 - 1 then some x else none

/-- Read through the pointer `p`. -/
def loadAt (m : List α) (p : Int) : Option α :=
  if 0 ≤ p then load m p.toNat else none

/-- Write through the pointer `p`. -/
def storeAt (m : List α) (p : Int) (v : α) : Option (List α) :=
  if 0 ≤ p then store m p.toNat v else none

/-- The load `_mm_loadu_ps(a + k * ld)`: the offset is an `int` product. -/
def loaduAt (ar : Int → Option Int) (m : List α) (a k ld : Int) : Option (M128 α) := do
  let o ← ar (k * ld)
  if 0 ≤ a + o then _mm_loadu_ps m (a + o).toNat else none

/-- The store `_mm_storeu_ps(b + k * ld, v)`: the offset is an `int` product. -/
def storeuAt (ar : Int → Option Int) (m : List α) (b k ld : Int) (v : M128 α) :
    Option (List α) := do
  let o ← ar (k * ld)
  if 0 ≤ b + o then _mm_storeu_ps m (b + o).toNat v else none

/-- The `int` expression `i * ld + j`. -/
def index32 (ar : Int → Option Int) (i ld j : Int) : Option Int := do
  let x ← ar (i * ld)
  ar (x + j)

/-- The loop `for (; t < n; i += step) body(i)` on an `int` counter, where `t` is the
left-hand side of the test computed by `tst` (`i` itself, or `i + 3`).  It returns the
value of the counter on exit together with the final state. -/
def forInt (ar : Int → Option Int) (fuel : Nat) (tst : Int → Option Int) (step n : Int)
    (body : Int → σ → Option σ) (i : Int) (s : σ) : Option (Int × σ) :=
  match fuel with
  | 0 => none
  | fuel + 1 => do
    let t ← tst i
    if t < n then
      let s ← body i s
      let i ← ar (i + step)
      forInt ar fuel tst step n body i s
    else pure (i, s)

/-- `transpose_naive` (lines 51-57) in `int` arithmetic. -/
def transpose_naive_i32 (ar : Int → Option Int) (fuel : Nat) (src dst : List α)
    (a b rows cols lda ldb : Int) : Option (List α) :=
  Prod.snd <$> forInt ar fuel pure 1 rows (fun i dst =>
    Prod.snd <$> forInt ar fuel pure 1 cols (fun j dst => do
      let p ← index32 ar i lda j
      let q ← index32 ar j ldb i
      let v ← loadAt src (a + p)
      storeAt dst (b + q) v) 0 dst) 0 dst

/-- `transpose_4x4` (lines 69-81) in `int` arithmetic. -/
def transpose_4x4_i32 (ar : Int → Option Int) (src dst : List α) (a b lda ldb : Int) :
    Option (List α) := do
  let row1 ← loaduAt ar src a 0 lda
  let row2 ← loaduAt ar src a 1 lda
  let row3 ← loaduAt ar src a 2 lda
  let row4 ← loaduAt ar src a 3 lda
  let (row1, row2, row3, row4) := _MM_TRANSPOSE4_PS row1 row2 row3 row4
  let dst ← storeuAt ar dst b 0 ldb row1
  let dst ← storeuAt ar dst b 1 ldb row2
  let dst ← storeuAt ar dst b 2 ldb row3
  storeuAt ar dst b 3 ldb row4

/-- `transpose_blocked4x4` (lines 84-108) in `int` arithmetic. -/
def transpose_blocked4x4_i32 (ar : Int → Option Int) (fuel : Nat) (src dst : List α)
    (a b rows cols lda ldb : Int) : Option (List α) := do
  let (i, dst) ← forInt ar fuel (fun i => ar (i + 3)) 4 rows (fun i dst => do
    let (j, dst) ← forInt ar fuel (fun j => ar (j + 3)) 4 cols (fun j dst => do
      let p ← index32 ar i lda j
      let q ← index32 ar j ldb i
      transpose_4x4_i32 ar src dst (a + p) (b + q) lda ldb) 0 dst
    if j < cols then do
      let p ← index32 ar i lda j
      let q ← index32 ar j ldb i
      let c ← ar (cols - j)
      transpose_naive_i32 ar fuel src dst (a + p) (b + q) 4 c lda ldb
    else pure dst) 0 dst
  if i < rows then do
    let (j, dst) ← forInt ar fuel (fun j => ar (j + 3)) 4 cols (fun j dst => do
      let p ← index32 ar i lda j
      let q ← index32 ar j ldb i
      let r ← ar (rows - i)
      transpose_naive_i32 ar fuel src dst (a + p) (b + q) r 4 lda ldb) 0 dst
    if j < cols then do
      let p ← index32 ar i lda j
      let q ← index32 ar j ldb i
      let r ← ar (rows - i)
      let c ← ar (cols - j)
      transpose_naive_i32 ar fuel src dst (a + p) (b + q) r c lda ldb
    else pure dst
  else pure dst

/-- `transpose_blocked` (lines 111-128) in `int` arithmetic. -/
def transpose_blocked_i32 (ar : Int → Option Int) (fuel : Nat) (src dst : List α)
    (a b rows cols lda ldb : Int) : Option (List α) :=
  Prod.snd <$> forInt ar fuel pure block_size rows (fun i dst => do
    let d ← ar (rows - i)
    let r := min (block_size : Int) d
    Prod.snd <$> forInt ar fuel pure block_size cols (fun j dst => do
      let e ← ar (cols - j)
      let c := min (block_size : Int) e
      let p ← index32 ar i lda j
      let q ← index32 ar j ldb i
      transpose_blocked4x4_i32 ar fuel src dst (a + p) (b + q) r c lda ldb) 0 dst) 0 dst

/-- The arithmetic `ar` is exact on the values `0 .. 2^31 - 1`. -/
def ExactBelow (ar : Int → Option Int) : Prop :=
  ∀ x : Nat, x ≤ 2 ^ 31 - 1 → ar (x : Int) = some (x : Int)

/-! ## 32-bit `int` arithmetic: the recursive transposers and the strategies -/

/-- The C expression `x & (~0b11)` on an `int`. -/
def maskLow2_int (x : Int) : Int := Int.land x (~~~(3 : Int))

/-- `transpose_oblivious` (lines 142-158) in `int` arithmetic.  The fuel also bounds
the nesting depth of the recursive calls; `rows / 2` is the truncating division of
C. -/
def transpose_oblivious_i32 (ar : Int → Option Int) (fuel : Nat) (src dst : List α)
    (a b rows cols lda ldb : Int) : Option (List α) :=
  match fuel with
  | 0 => none
  | k + 1 =>
    if rows ≤ 16 ∧ cols ≤ 16 then
      transpose_naive_i32 ar (k + 1) src dst a b rows cols lda ldb
    else do
      let halfRow := maskLow2_int (Int.tdiv rows 2)
      let halfCol := maskLow2_int (Int.tdiv cols 2)
      let dst ← transpose_oblivious_i32 ar k src dst a b halfRow halfCol lda ldb
      let q ← ar (halfCol * ldb)
      let c ← ar (cols - halfCol)
      let dst ← transpose_oblivious_i32 ar k src dst (a + halfCol) (b + q) halfRow c lda ldb
      let p ← ar (halfRow * lda)
      let r ← ar (rows - halfRow)
      let dst ← transpose_oblivious_i32 ar k src dst (a + p) (b + halfRow) r halfCol lda ldb
      let p ← index32 ar halfRow lda halfCol
      let q ← index32 ar halfCol ldb halfRow
      let r ← ar (rows - halfRow)
      let c ← ar (cols - halfCol)
      transpose_oblivious_i32 ar k src dst (a + p) (b + q) r c lda ldb

/-- `transpose_oblivious2` (lines 161-189) in `int` arithmetic. -/
def transpose_oblivious2_i32 (ar : Int → Option Int) (fuel : Nat) (src dst : List α)
    (a b rows cols lda ldb : Int) : Option (List α) :=
  match fuel with
  | 0 => none
  | k + 1 =>
    if rows ≤ 16 ∧ cols ≤ 16 then
      transpose_blocked4x4_i32 ar (k + 1) src dst a b rows cols lda ldb
    else if rows ≤ 8 then do
      let halfCol := maskLow2_int (Int.tdiv cols 2)
      let dst ← transpose_oblivious2_i32 ar k src dst a b rows halfCol lda ldb
      let q ← ar (halfCol * ldb)
      let c ← ar (cols - halfCol)
      transpose_oblivious2_i32 ar k src dst (a + halfCol) (b + q) rows c lda ldb
    else if cols ≤ 8 then do
      let halfRow := maskLow2_int (Int.tdiv rows 2)
      let dst ← transpose_oblivious2_i32 ar k src dst a b halfRow cols lda ldb
      let p ← ar (halfRow * lda)
      let r ← ar (rows - halfRow)
      transpose_oblivious2_i32 ar k src dst (a + p) (b + halfRow) r cols lda ldb
    else do
      let halfRow := maskLow2_int (Int.tdiv rows 2)
      let halfCol := maskLow2_int (Int.tdiv cols 2)
      let dst ← transpose_oblivious2_i32 ar k src dst a b halfRow halfCol lda ldb
      let q ← ar (halfCol * ldb)
      let c ← ar (cols - halfCol)
      let dst ← transpose_oblivious2_i32 ar k src dst (a + halfCol) (b + q) halfRow c lda ldb
      let p ← ar (halfRow * lda)
      let r ← ar (rows - halfRow)
      let dst ← transpose_oblivious2_i32 ar k src dst (a + p) (b + halfRow) r halfCol lda ldb
      let p ← index32 ar halfRow lda halfCol
      let q ← index32 ar halfCol ldb halfRow
      let r ← ar (rows - halfRow)
      let c ← ar (cols - halfCol)
      transpose_oblivious2_i32 ar k src dst (a + p) (b + q) r c lda ldb

/-- Run a strategy in `int` arithmetic. -/
def Strategy.run_i32 (S : Strategy) (ar : Int → Option Int) (fuel : Nat) (src dst : List α)
    (a b rows cols lda ldb : Int) : Option (List α) :=
  match S with
  | .naive => transpose_naive_i32 ar fuel src dst a b rows cols lda ldb
  | .blocked => transpose_blocked_i32 ar fuel src dst a b rows cols lda ldb
  | .oblivious => transpose_oblivious_i32 ar fuel src dst a b rows cols lda ldb
  | .oblivious2 => transpose_oblivious2_i32 ar fuel src dst a b rows cols lda ldb

/-- The quadrant decomposition of lines 154-157 with `transpose_naive` in the place
of the recursive calls, in `int` arithmetic. -/
def transpose_naive_quadrants_i32 (ar : Int → Option Int) (fuel : Nat) (src dst : List α)
    (a b rows cols hr hc lda ldb : Int) : Option (List α) := do
  let dst ← transpose_naive_i32 ar fuel src dst a b hr hc lda ldb
  let q ← ar (hc * ldb)
  let c ← ar (cols - hc)
  let dst ← transpose_naive_i32 ar fuel src dst (a + hc) (b + q) hr c lda ldb
  let p ← ar (hr * lda)
  let r ← ar (rows - hr)
  let dst ← transpose_naive_i32 ar fuel src dst (a + p) (b + hr) r hc lda ldb
  let p ← index32 ar hr lda hc
  let q ← index32 ar hc ldb hr
  let r ← ar (rows - hr)
  let c ← ar (cols - hc)
  transpose_naive_i32 ar fuel src dst (a + p) (b + q) r c lda ldb

/-! ## The arguments on which no `int` operation overflows -/

/-- Every index expression `i * lda + j` and `j * ldb + i` of a cell fits in a
signed 32-bit `int`. -/
def IndexFits (rows cols lda ldb : Nat) : Prop :=
  ∀ i < rows, ∀ j < cols, i * lda + j ≤ 2 ^ 31 - 1 ∧ j * ldb + i ≤ 2 ^ 31 - 1

instance (rows cols lda ldb : Nat) : Decidable (IndexFits rows cols lda ldb) := by
  unfold IndexFits; infer_instance

/-- The dimensions, the largest source index `(rows-1)*lda + cols-1` and the largest
destination index `(cols-1)*ldb + rows-1` fit in a signed 32-bit `int`; an empty
dimension counts as 1, which bounds the offsets that the recursive transposers
compute for empty sub-rectangles. -/
def IntFits (rows cols lda ldb : Nat) : Prop :=
  rows ≤ 2 ^ 31 - 1 ∧ cols ≤ 2 ^ 31 - 1 ∧
    (rows - 1) * lda + (cols - 1) ≤ 2 ^ 31 - 1 ∧ (cols - 1) * ldb + (rows - 1) ≤ 2 ^ 31 - 1

instance (rows cols lda ldb : Nat) : Decidable (IntFits rows cols lda ldb) := by
  unfold IntFits; infer_instance

/-- The counters `i += 128`, `j += 128` of `transpose_blocked` do not overflow. -/
def BlockFits (rows cols : Nat) : Prop :=
  rows ≤ 2 ^ 31 - 128 ∧ (rows = 0 ∨ cols ≤ 2 ^ 31 - 128)

instance (rows cols : Nat) : Decidable (BlockFits rows cols) := by
  unfold BlockFits; infer_instance

/-- The arguments of a strategy on which none of its `int` operations overflows. -/
def Strategy.Fits32 (S : Strategy) (rows cols lda ldb : Nat) : Prop :=
  match S with
  | .naive => rows ≤ 2 ^ 31 - 1 ∧ cols ≤ 2 ^ 31 - 1 ∧ IndexFits rows cols lda ldb
  | .blocked => IndexFits rows cols lda ldb ∧ BlockFits rows cols
  | .oblivious => IntFits rows cols lda ldb
  | .oblivious2 => IntFits rows cols lda ldb

instance (S : Strategy) (rows cols lda ldb : Nat) : Decidable (S.Fits32 rows cols lda ldb) := by
  cases S <;> unfold Strategy.Fits32 <;> infer_instance

/-! ## The blocks of `transpose_blocked` on the machine -/

/-- A block handed to `transpose_blocked4x4` on the machine: the values `(i, j)` of
the `int` counters and the `int` arguments `rows = r`, `cols = c` of the call. -/
structure Block32 where
  i : Int
  j : Int
  rows : Int
  cols : Int
deriving DecidableEq, Repr

/-- A block of the run in unbounded integers, as a block of the machine. -/
def SubCall.toBlock32 (c : SubCall) : Block32 := ⟨c.i, c.j, c.rows, c.cols⟩

/-- The loop `for (; i < n; i += step) body(i)` on an `int` counter, observed for at
most `fuel` tests.  The result `.ok s` says that the loop has exited in state `s`;
`.error s` says that it has not (an `int` operation has no result, or the fuel is
used up) and that `s` is the state reached. -/
def forIntObs (ar : Int → Option Int) (fuel : Nat) (step n : Int)
    (body : Int → σ → Except σ σ) (i : Int) (s : σ) : Except σ σ :=
  match fuel with
  | 0 => .error s
  | fuel + 1 =>
    if i < n then
      match body i s with
      | .error s => .error s
      | .ok s =>
        match ar (i + step) with
        | none => .error s
        | some i => forIntObs ar fuel step n body i s
    else .ok s

/-- The blocks that `transpose_blocked` (lines 111-128) hands to
`transpose_blocked4x4` on the machine, in order: the loops of
`transpose_blocked_i32` with the call replaced by a record of the counters `(i, j)`
and of the arguments `(r, c)`, observed for at most `fuel` tests of each loop. -/
def transpose_blocked_blocks_i32 (ar : Int → Option Int) (fuel : Nat) (rows cols : Int) :
    Except (List Block32) (List Block32) :=
  forIntObs ar fuel block_size rows (fun i log =>
    match ar (rows - i) with
    | none => .error log
    | some d =>
      let r := min (block_size : Int) d
      forIntObs ar fuel block_size cols (fun j log =>
        match ar (cols - j) with
        | none => .error log
        | some e =>
          let c := min (block_size : Int) e
          .ok (log ++ [⟨i, j, r, c⟩])) 0 log) 0 []

/-! ## Logged execution on the machine

The functions of this section are the programs on the machine, word for word, on a
state that pairs the destination buffer with the list of the destination indices
written so far; only the stores are replaced by logged stores. -/

/-- Write through the pointer `p`, with a record: the index `p` is appended to the
log of writes. -/
def storeAt_logged (s : List α × List Nat) (p : Int) (v : α) :
    Option (List α × List Nat) :=
  if 0 ≤ p then store_logged s p.toNat v else none

/-- The store `_mm_storeu_ps(b + k * ld, v)` with a record: four element writes. -/
def storeuAt_logged (ar : Int → Option Int) (s : List α × List Nat) (b k ld : Int)
    (v : M128 α) : Option (List α × List Nat) := do
  let o ← ar (k * ld)
  if 0 ≤ b + o then _mm_storeu_ps_logged s (b + o).toNat v else none

/-- `transpose_naive` (lines 51-57) in `int` arithmetic, with logged stores. -/
def transpose_naive_i32_logged (ar : Int → Option Int) (fuel : Nat) (src : List α)
    (s : List α × List Nat)
    (a b rows cols lda ldb : Int) : Option (List α × List Nat) :=
  Prod.snd <$> forInt ar fuel pure 1 rows (fun i s =>
    Prod.snd <$> forInt ar fuel pure 1 cols (fun j s => do
      let p ← index32 ar i lda j
      let q ← index32 ar j ldb i
      let v ← loadAt src (a + p)
      storeAt_logged s (b + q) v) 0 s) 0 s

/-- `transpose_4x4` (lines 69-81) in `int` arithmetic, with logged stores. -/
def transpose_4x4_i32_logged (ar : Int → Option Int) (src : List α)
    (s : List α × List Nat) (a b lda ldb : Int) :
    Option (List α × List Nat) := do
  let row1 ← loaduAt ar src a 0 lda
  let row2 ← loaduAt ar src a 1 lda
  let row3 ← loaduAt ar src a 2 lda
  let row4 ← loaduAt ar src a 3 lda
  let (row1, row2, row3, row4) := _MM_TRANSPOSE4_PS row1 row2 row3 row4
  let s ← storeuAt_logged ar s b 0 ldb row1
  let s ← storeuAt_logged ar s b 1 ldb row2
  let s ← storeuAt_logged ar s b 2 ldb row3
  storeuAt_logged ar s b 3 ldb row4

/-- `transpose_blocked4x4` (lines 84-108) in `int` arithmetic, with logged stores. -/
def transpose_blocked4x4_i32_logged (ar : Int → Option Int) (fuel : Nat) (src : List α)
    (s : List α × List Nat)
    (a b rows cols lda ldb : Int) : Option (List α × List Nat) := do
  let (i, s) ← forInt ar fuel (fun i => ar (i + 3)) 4 rows (fun i s => do
    let (j, s) ← forInt ar fuel (fun j => ar (j + 3)) 4 cols (fun j s => do
      let p ← index32 ar i lda j
      let q ← index32 ar j ldb i
      transpose_4x4_i32_logged ar src s (a + p) (b + q) lda ldb) 0 s
    if j < cols then do
      let p ← index32 ar i lda j
      let q ← index32 ar j ldb i
      let c ← ar (cols - j)
      transpose_naive_i32_logged ar fuel src s (a + p) (b + q) 4 c lda ldb
    else pure s) 0 s
  if i < rows then do
    let (j, s) ← forInt ar fuel (fun j => ar (j + 3)) 4 cols (fun j s => do
      let p ← index32 ar i lda j
      let q ← index32 ar j ldb i
      let r ← ar (rows - i)
      transpose_naive_i32_logged ar fuel src s (a + p) (b + q) r 4 lda ldb) 0 s
    if j < cols then do
      let p ← index32 ar i lda j
      let q ← index32 ar j ldb i
      let r ← ar (rows - i)
      let c ← ar (cols - j)
      transpose_naive_i32_logged ar fuel src s (a + p) (b + q) r c lda ldb
    else pure s
  else pure s

/-- `transpose_blocked` (lines 111-128) in `int` arithmetic, with logged stores. -/
def transpose_blocked_i32_logged (ar : Int → Option Int) (fuel : Nat) (src : List α)
    (s : List α × List Nat)
    (a b rows cols lda ldb : Int) : Option (List α × List Nat) :=
  Prod.snd <$> forInt ar fuel pure block_size rows (fun i s => do
    let d ← ar (rows - i)
    let r := min (block_size : Int) d
    Prod.snd <$> forInt ar fuel pure block_size cols (fun j s => do
      let e ← ar (cols - j)
      let c := min (block_size : Int) e
      let p ← index32 ar i lda j
      let q ← index32 ar j ldb i
      transpose_blocked4x4_i32_logged ar fuel src s (a + p) (b + q) r c lda ldb) 0 s) 0 s

/-- `transpose_oblivious` (lines 142-158) in `int` arithmetic, with logged stores.  The fuel
also bounds the nesting depth of the recursive calls; `rows / 2` is the truncating division of
C. -/
def transpose_oblivious_i32_logged (ar : Int → Option Int) (fuel : Nat) (src : List α)
    (s : List α × List Nat)
    (a b rows cols lda ldb : Int) : Option (List α × List Nat) :=
  match fuel with
  | 0 => none
  | k + 1 =>
    if rows ≤ 16 ∧ cols ≤ 16 then
      transpose_naive_i32_logged ar (k + 1) src s a b rows cols lda ldb
    else do
      let halfRow := maskLow2_int (Int.tdiv rows 2)
      let halfCol := maskLow2_int (Int.tdiv cols 2)
      let s ← transpose_oblivious_i32_logged ar k src s a b halfRow halfCol lda ldb
      let q ← ar (halfCol * ldb)
      let c ← ar (cols - halfCol)
      let s ← transpose_oblivious_i32_logged ar k src s (a + halfCol) (b + q) halfRow c lda ldb
      let p ← ar (halfRow * lda)
      let r ← ar (rows - halfRow)
      let s ← transpose_oblivious_i32_logged ar k src s (a + p) (b + halfRow) r halfCol lda ldb
      let p ← index32 ar halfRow lda halfCol
      let q ← index32 ar halfCol ldb halfRow
      let r ← ar (rows - halfRow)
      let c ← ar (cols - halfCol)
      transpose_oblivious_i32_logged ar k src s (a + p) (b + q) r c lda ldb

/-- `transpose_oblivious2` (lines 161-189) in `int` arithmetic, with logged stores. -/
def transpose_oblivious2_i32_logged (ar : Int → Option Int) (fuel : Nat) (src : List α)
    (s : List α × List Nat)
    (a b rows cols lda ldb : Int) : Option (List α × List Nat) :=
  match fuel with
  | 0 => none
  | k + 1 =>
    if rows ≤ 16 ∧ cols ≤ 16 then
      transpose_blocked4x4_i32_logged ar (k + 1) src s a b rows cols lda ldb
    else if rows ≤ 8 then do
      let halfCol := maskLow2_int (Int.tdiv cols 2)
      let s ← transpose_oblivious2_i32_logged ar k src s a b rows halfCol lda ldb
      let q ← ar (halfCol * ldb)
      let c ← ar (cols - halfCol)
      transpose_oblivious2_i32_logged ar k src s (a + halfCol) (b + q) rows c lda ldb
    else if cols ≤ 8 then do
      let halfRow := maskLow2_int (Int.tdiv rows 2)
      let s ← transpose_oblivious2_i32_logged ar k src s a b halfRow cols lda ldb
      let p ← ar (halfRow * lda)
      let r ← ar (rows - halfRow)
      transpose_oblivious2_i32_logged ar k src s (a + p) (b + halfRow) r cols lda ldb
    else do
      let halfRow := maskLow2_int (Int.tdiv rows 2)
      let halfCol := maskLow2_int (Int.tdiv cols 2)
      let s ← transpose_oblivious2_i32_logged ar k src s a b halfRow halfCol lda ldb
      let q ← ar (halfCol * ldb)
      let c ← ar (cols - halfCol)
      let s ← transpose_oblivious2_i32_logged ar k src s (a + halfCol) (b + q) halfRow c lda ldb
      let p ← ar (halfRow * lda)
      let r ← ar (rows - halfRow)
      let s ← transpose_oblivious2_i32_logged ar k src s (a + p) (b + halfRow) r halfCol lda ldb
      let p ← index32 ar halfRow lda halfCol
      let q ← index32 ar halfCol ldb halfRow
      let r ← ar (rows - halfRow)
      let c ← ar (cols - halfCol)
      transpose_oblivious2_i32_logged ar k src s (a + p) (b + q) r c lda ldb

/-- Run a strategy in `int` arithmetic with logged stores, starting from the empty
log. -/
def Strategy.run_i32_logged (S : Strategy) (ar : Int → Option Int) (fuel : Nat)
    (src dst : List α) (a b rows cols lda ldb : Int) : Option (List α × List Nat) :=
  match S with
  | .naive => transpose_naive_i32_logged ar fuel src (dst, []) a b rows cols lda ldb
  | .blocked => transpose_blocked_i32_logged ar fuel src (dst, []) a b rows cols lda ldb
  | .oblivious => transpose_oblivious_i32_logged ar fuel src (dst, []) a b rows cols lda ldb
  | .oblivious2 => transpose_oblivious2_i32_logged ar fuel src (dst, []) a b rows cols lda ldb

/-! ## One address space on the machine

The functions of this section are the programs on the machine, word for word, on one
buffer `m` that holds both matrices: `a` and `b` are offsets into the same memory,
every load reads the current memory and every store writes it. -/

/-- `transpose_naive` (lines 51-57) in `int` arithmetic, on one memory. -/
def transpose_naive_i32_mem (ar : Int → Option Int) (fuel : Nat) (m : List α)
    (a b rows cols lda ldb : Int) : Option (List α) :=
  Prod.snd <$> forInt ar fuel pure 1 rows (fun i m =>
    Prod.snd <$> forInt ar fuel pure 1 cols (fun j m => do
      let p ← index32 ar i lda j
      let q ← index32 ar j ldb i
      let v ← loadAt m (a + p)
      storeAt m (b + q) v) 0 m) 0 m

/-- `transpose_4x4` (lines 69-81) in `int` arithmetic, on one memory. -/
def transpose_4x4_i32_mem (ar : Int → Option Int) (m : List α) (a b lda ldb : Int) :
    Option (List α) := do
  let row1 ← loaduAt ar m a 0 lda
  let row2 ← loaduAt ar m a 1 lda
  let row3 ← loaduAt ar m a 2 lda
  let row4 ← loaduAt ar m a 3 lda
  let (row1, row2, row3, row4) := _MM_TRANSPOSE4_PS row1 row2 row3 row4
  let m ← storeuAt ar m b 0 ldb row1
  let m ← storeuAt ar m b 1 ldb row2
  let m ← storeuAt ar m b 2 ldb row3
  storeuAt ar m b 3 ldb row4

/-- `transpose_blocked4x4` (lines 84-108) in `int` arithmetic, on one memory. -/
def transpose_blocked4x4_i32_mem (ar : Int → Option Int) (fuel : Nat) (m : List α)
    (a b rows cols lda ldb : Int) : Option (List α) := do
  let (i, m) ← forInt ar fuel (fun i => ar (i + 3)) 4 rows (fun i m => do
    let (j, m) ← forInt ar fuel (fun j => ar (j + 3)) 4 cols (fun j m => do
      let p ← index32 ar i lda j
      let q ← index32 ar j ldb i
      transpose_4x4_i32_mem ar m (a + p) (b + q) lda ldb) 0 m
    if j < cols then do
      let p ← index32 ar i lda j
      let q ← index32 ar j ldb i
      let c ← ar (cols - j)
      transpose_naive_i32_mem ar fuel m (a + p) (b + q) 4 c lda ldb
    else pure m) 0 m
  if i < rows then do
    let (j, m) ← forInt ar fuel (fun j => ar (j + 3)) 4 cols (fun j m => do
      let p ← index32 ar i lda j
      let q ← index32 ar j ldb i
      let r ← ar (rows - i)
      transpose_naive_i32_mem ar fuel m (a + p) (b + q) r 4 lda ldb) 0 m
    if j < cols then do
      let p ← index32 ar i lda j
      let q ← index32 ar j ldb i
      let r ← ar (rows - i)
      let c ← ar (cols - j)
      transpose_naive_i32_mem ar fuel m (a + p) (b + q) r c lda ldb
    else pure m
  else pure m

/-- `transpose_blocked` (lines 111-128) in `int` arithmetic, on one memory. -/
def transpose_blocked_i32_mem (ar : Int → Option Int) (fuel : Nat) (m : List α)
    (a b rows cols lda ldb : Int) : Option (List α) :=
  Prod.snd <$> forInt ar fuel pure block_size rows (fun i m => do
    let d ← ar (rows - i)
    let r := min (block_size : Int) d
    Prod.snd <$> forInt ar fuel pure block_size cols (fun j m => do
      let e ← ar (cols - j)
      let c := min (block_size : Int) e
      let p ← index32 ar i lda j
      let q ← index32 ar j ldb i
      transpose_blocked4x4_i32_mem ar fuel m (a + p) (b + q) r c lda ldb) 0 m) 0 m

/-- `transpose_oblivious` (lines 142-158) in `int` arithmetic, on one memory.  The fuel
also bounds the nesting depth of the recursive calls; `rows / 2` is the truncating division of
C. -/
def transpose_oblivious_i32_mem (ar : Int → Option Int) (fuel : Nat) (m : List α)
    (a b rows cols lda ldb : Int) : Option (List α) :=
  match fuel with
  | 0 => none
  | k + 1 =>
    if rows ≤ 16 ∧ cols ≤ 16 then
      transpose_naive_i32_mem ar (k + 1) m a b rows cols lda ldb
    else do
      let halfRow := maskLow2_int (Int.tdiv rows 2)
      let halfCol := maskLow2_int (Int.tdiv cols 2)
      let m ← transpose_oblivious_i32_mem ar k m a b halfRow halfCol lda ldb
      let q ← ar (halfCol * ldb)
      let c ← ar (cols - halfCol)
      let m ← transpose_oblivious_i32_mem ar k m (a + halfCol) (b + q) halfRow c lda ldb
      let p ← ar (halfRow * lda)
      let r ← ar (rows - halfRow)
      let m ← transpose_oblivious_i32_mem ar k m (a + p) (b + halfRow) r halfCol lda ldb
      let p ← index32 ar halfRow lda halfCol
      let q ← index32 ar halfCol ldb halfRow
      let r ← ar (rows - halfRow)
      let c ← ar (cols - halfCol)
      transpose_oblivious_i32_mem ar k m (a + p) (b + q) r c lda ldb

/-- `transpose_oblivious2` (lines 161-189) in `int` arithmetic, on one memory. -/
def transpose_oblivious2_i32_mem (ar : Int → Option Int) (fuel : Nat) (m : List α)
    (a b rows cols lda ldb : Int) : Option (List α) :=
  match fuel with
  | 0 => none
  | k + 1 =>
    if rows ≤ 16 ∧ cols ≤ 16 then
      transpose_blocked4x4_i32_mem ar (k + 1) m a b rows cols lda ldb
    else if rows ≤ 8 then do
      let halfCol := maskLow2_int (Int.tdiv cols 2)
      let m ← transpose_oblivious2_i32_mem ar k m a b rows halfCol lda ldb
      let q ← ar (halfCol * ldb)
      let c ← ar (cols - halfCol)
      transpose_oblivious2_i32_mem ar k m (a + halfCol) (b + q) rows c lda ldb
    else if cols ≤ 8 then do
      let halfRow := maskLow2_int (Int.tdiv rows 2)
      let m ← transpose_oblivious2_i32_mem ar k m a b halfRow cols lda ldb
      let p ← ar (halfRow * lda)
      let r ← ar (rows - halfRow)
      transpose_oblivious2_i32_mem ar k m (a + p) (b + halfRow) r cols lda ldb
    else do
      let halfRow := maskLow2_int (Int.tdiv rows 2)
      let halfCol := maskLow2_int (Int.tdiv cols 2)
      let m ← transpose_oblivious2_i32_mem ar k m a b halfRow halfCol lda ldb
      let q ← ar (halfCol * ldb)
      let c ← ar (cols - halfCol)
      let m ← transpose_oblivious2_i32_mem ar k m (a + halfCol) (b + q) halfRow c lda ldb
      let p ← ar (halfRow * lda)
      let r ← ar (rows - halfRow)
      let m ← transpose_oblivious2_i32_mem ar k m (a + p) (b + halfRow) r halfCol lda ldb
      let p ← index32 ar halfRow lda halfCol
      let q ← index32 ar halfCol ldb halfRow
      let r ← ar (rows - halfRow)
      let c ← ar (cols - halfCol)
      transpose_oblivious2_i32_mem ar k m (a + p) (b + q) r c lda ldb

/-- Run a strategy in `int` arithmetic on one memory. -/
def Strategy.run_i32_mem (S : Strategy) (ar : Int → Option Int) (fuel : Nat) (m : List α)
    (a b rows cols lda ldb : Int) : Option (List α) :=
  match S with
  | .naive => transpose_naive_i32_mem ar fuel m a b rows cols lda ldb
  | .blocked => transpose_blocked_i32_mem ar fuel m a b rows cols lda ldb
  | .oblivious => transpose_oblivious_i32_mem ar fuel m a b rows cols lda ldb
  | .oblivious2 => transpose_oblivious2_i32_mem ar fuel m a b rows cols lda ldb

/-! # Proofs -/


/-! ## Loop rule -/

/-- Invariant rule for `forStep`: an invariant established at entry and preserved
by every iteration (which must succeed) holds at exit, the loop succeeds, and the
loop condition is false at exit. -/
theorem forStep_inv (k step n : Nat) (hstep : 0 < step) (body : Nat → σ → Option σ)
    (Inv : Nat → σ → Prop)
    (hbody : ∀ i s, Inv i s → i + k < n → ∃ s', body i s = some s' ∧ Inv (i + step) s')
    (i : Nat) (s : σ) (h0 : Inv i s) :
    ∃ i' s', forStep k step n hstep body i s = some (i', s') ∧ Inv i' s' ∧ ¬ (i' + k < n) := by
  obtain ⟨m, hm⟩ : ∃ m, n - i = m := ⟨_, rfl⟩
  induction m using Nat.strong_induction_on generalizing i s with
  | _ m ih =>
    rw [forStep]
    by_cases hc : i + k < n
    · obtain ⟨s', hs', hinv⟩ := hbody i s h0 hc
      rw [if_pos hc, hs']
      simp only [Option.bind_eq_bind, Option.some_bind]
      exact ih (n - (i + step)) (by omega) (i + step) s' hinv rfl
    · rw [if_neg hc]
      exact ⟨i, s, rfl, h0, hc⟩

/-! ## Index arithmetic -/

theorem cell_inj {ld i j i' j' : Nat} (hi : i < ld) (hi' : i' < ld)
    (h : j * ld + i = j' * ld + i') : i = i' ∧ j = j' := by
  have h1 : (j * ld + i) % ld = i := by
    rw [Nat.add_comm, Nat.add_mul_mod_self_right, Nat.mod_eq_of_lt hi]
  have h2 : (j' * ld + i') % ld = i' := by
    rw [Nat.add_comm, Nat.add_mul_mod_self_right, Nat.mod_eq_of_lt hi']
  have hii : i = i' := by rw [← h1, ← h2, h]
  subst hii
  have hpos : 0 < ld := by omega
  have : j * ld = j' * ld := by omega
  exact ⟨rfl, Nat.eq_of_mul_eq_mul_right hpos this⟩

theorem Fits.sub {p rows cols ld len : Nat} (h : Fits p rows cols ld len)
    {i0 j0 r c p' : Nat} (hr : i0 + r ≤ rows) (hc : j0 + c ≤ cols)
    (hp : p' = p + (i0 * ld + j0)) : Fits p' r c ld len := by
  intro i hi j hj
  have := h (i0 + i) (by omega) (j0 + j) (by omega)
  rw [Nat.add_mul] at this
  omega

theorem Fits.of_length_eq {p rows cols ld len len' : Nat} (h : Fits p rows cols ld len)
    (hl : len' = len) : Fits p rows cols ld len' := hl ▸ h

/-! ## Algebra of `Moved` -/

theorem Moved.refl (src dst : List α) (a b lda ldb : Nat) (P : Nat → Nat → Prop)
    (hP : ∀ i j, ¬ P i j) : Moved src dst a b lda ldb P dst :=
  ⟨rfl, fun i j h => absurd h (hP i j), fun _ _ => rfl⟩

theorem Moved.congr {src dst dst' : List α} {a b lda ldb : Nat} {P Q : Nat → Nat → Prop}
    (h : Moved src dst a b lda ldb P dst') (hPQ : ∀ i j, P i j ↔ Q i j) :
    Moved src dst a b lda ldb Q dst' := by
  have : P = Q := by funext i j; exact propext (hPQ i j)
  exact this ▸ h

theorem Moved.trans {src dst d1 d2 : List α} {a b lda ldb : Nat} {P Q : Nat → Nat → Prop}
    (h1 : Moved src dst a b lda ldb P d1) (h2 : Moved src d1 a b lda ldb Q d2)
    (hP : ∀ i j, P i j → i < ldb) (hQ : ∀ i j, Q i j → i < ldb) :
    Moved src dst a b lda ldb (fun i j => P i j ∨ Q i j) d2 := by
  obtain ⟨l1, c1, f1⟩ := h1
  obtain ⟨l2, c2, f2⟩ := h2
  refine ⟨l2.trans l1, ?_, ?_⟩
  · intro i j hij
    by_cases hq : Q i j
    · exact c2 i j hq
    · have hp : P i j := hij.resolve_right hq
      rw [f2 _ ?_, c1 i j hp]
      intro i' j' hq' heq
      have := @cell_inj ldb i j i' j' (hP i j hp) (hQ i' j' hq') (by omega)
      rw [this.1, this.2] at hq
      exact hq hq'
  · intro d hd
    rw [f2 d (fun i j h => hd i j (Or.inr h)), f1 d (fun i j h => hd i j (Or.inl h))]

theorem Moved.shift {src dst dst' : List α} {a b lda ldb a' b' i0 j0 : Nat}
    {P : Nat → Nat → Prop} (h : Moved src dst a' b' lda ldb P dst')
    (ha : a' = a + (i0 * lda + j0)) (hb : b' = b + (j0 * ldb + i0)) :
    Moved src dst a b lda ldb (fun i j => i0 ≤ i ∧ j0 ≤ j ∧ P (i - i0) (j - j0)) dst' := by
  obtain ⟨l, c, f⟩ := h
  subst ha hb
  refine ⟨l, ?_, ?_⟩
  · rintro i j ⟨hi, hj, hP⟩
    have := c _ _ hP
    obtain ⟨i', rfl⟩ := Nat.exists_eq_add_of_le hi
    obtain ⟨j', rfl⟩ := Nat.exists_eq_add_of_le hj
    simp only [Nat.add_sub_cancel_left] at this
    rw [Nat.add_mul, Nat.add_mul]
    rw [show b + (j0 * ldb + j' * ldb + (i0 + i')) = b + (j0 * ldb + i0) + (j' * ldb + i') by omega,
      show a + (i0 * lda + i' * lda + (j0 + j')) = a + (i0 * lda + j0) + (i' * lda + j') by omega]
    exact this
  · intro d hd
    apply f
    intro i j hP heq
    apply hd (i0 + i) (j0 + j) ⟨by omega, by omega, by simpa using hP⟩
    rw [Nat.add_mul]
    omega

/-- One sub-call: after the cells `P` are done, a transposer run on the `r` x `c`
sub-rectangle with origin `(i0, j0)` adds exactly that rectangle. -/
theorem Moved.step {src dst d1 d2 : List α} {a b lda ldb a' b' i0 j0 r c : Nat}
    {P : Nat → Nat → Prop} (h1 : Moved src dst a b lda ldb P d1)
    (h2 : Transposed src d1 a' b' r c lda ldb d2)
    (ha : a' = a + (i0 * lda + j0)) (hb : b' = b + (j0 * ldb + i0))
    (hP : ∀ i j, P i j → i < ldb) (hr : c = 0 ∨ i0 + r ≤ ldb) :
    Moved src dst a b lda ldb
      (fun i j => P i j ∨ (i0 ≤ i ∧ i < i0 + r ∧ j0 ≤ j ∧ j < j0 + c)) d2 := by
  have h3 := Moved.trans h1 (Moved.shift h2 ha hb) hP (by intro i j h; omega)
  exact h3.congr (by intro i j; constructor <;> (rintro (h | h) <;> [left; right] <;> first | exact h | omega))

theorem Moved.unique {src dst d1 d2 : List α} {a b lda ldb : Nat} {P : Nat → Nat → Prop}
    (h1 : Moved src dst a b lda ldb P d1) (h2 : Moved src dst a b lda ldb P d2) : d1 = d2 := by
  apply List.ext_getElem?
  intro d
  by_cases hd : ∃ i j, P i j ∧ d = b + (j * ldb + i)
  · obtain ⟨i, j, hP, rfl⟩ := hd
    rw [h1.2.1 i j hP, h2.2.1 i j hP]
  · have hd' : ∀ i j, P i j → d ≠ b + (j * ldb + i) := fun i j hP he => hd ⟨i, j, hP, he⟩
    rw [h1.2.2 d hd', h2.2.2 d hd']

theorem Moved.single {src dst : List α} {a b lda ldb i j : Nat} {v : α}
    (hv : src[a + (i * lda + j)]? = some v) (hd : b + (j * ldb + i) < dst.length) :
    Moved src dst a b lda ldb (fun i' j' => i' = i ∧ j' = j) (dst.set (b + (j * ldb + i)) v) := by
  refine ⟨List.length_set _ _ _, ?_, ?_⟩
  · rintro i' j' ⟨rfl, rfl⟩
    rw [List.getElem?_set, if_pos rfl, if_pos hd, hv]
  · intro d hd'
    rw [List.getElem?_set_ne (Ne.symm (hd' i j ⟨rfl, rfl⟩))]

/-! ## The naive transposer meets the contract -/

theorem transpose_naive_spec (src dst : List α) (a b rows cols lda ldb : Nat)
    (hldb : cols = 0 ∨ rows ≤ ldb) (hs : Fits a rows cols lda src.length)
    (hd : Fits b cols rows ldb dst.length) :
    ∃ dst', transpose_naive src dst a b rows cols lda ldb = some dst' ∧
      Transposed src dst a b rows cols lda ldb dst' := by
  obtain ⟨i', s', hrun, ⟨hle, hinv⟩, hexit⟩ := forStep_inv 0 1 rows (by decide)
    (fun i dst => Prod.snd <$> forStep 0 1 cols (by decide) (fun j dst => do
      let v ← load src (a + (i * lda + j))
      store dst (b + (j * ldb + i)) v) 0 dst)
    (fun i s => i ≤ rows ∧ Moved src dst a b lda ldb (fun i' j' => i' < i ∧ j' < cols) s)
    (by
      rintro i s ⟨_, hI⟩ hi
      obtain ⟨j', s', hrun, ⟨hle, hinv⟩, hexit⟩ := forStep_inv 0 1 cols (by decide)
        (fun j dst => do
          let v ← load src (a + (i * lda + j))
          store dst (b + (j * ldb + i)) v)
        (fun j s => j ≤ cols ∧ Moved src dst a b lda ldb
          (fun i' j' => (i' < i ∧ j' < cols) ∨ (i' = i ∧ j' < j)) s)
        (by
          rintro j s ⟨_, hJ⟩ hj
          have hsrc := hs i (by omega) j (by omega)
          have hdst := hd j (by omega) i (by omega)
          rw [← hJ.1] at hdst
          refine ⟨s.set (b + (j * ldb + i)) src[a + (i * lda + j)], ?_, by omega, ?_⟩
          · simp [load, store, hsrc, hdst]
          · have h1 := Moved.trans hJ
              (Moved.single (List.getElem?_eq_getElem hsrc) hdst)
              (by intro i' j' h; omega) (by intro i' j' h; omega)
            exact h1.congr (by intro i' j'; omega))
        0 s ⟨by omega, hI.congr (by intro i' j'; omega)⟩
      refine ⟨s', by beta_reduce; rw [hrun]; rfl, by omega, ?_⟩
      exact hinv.congr (by intro i' j'; omega))
    0 dst ⟨by omega, Moved.refl _ _ _ _ _ _ _ (by intro i j; omega)⟩
  refine ⟨s', ?_, ?_⟩
  · unfold transpose_naive; rw [hrun]; rfl
  · exact hinv.congr (by intro i' j'; omega)

/-! ## The micro-kernel meets the contract -/

theorem loadu_spec (m : List α) (p : Nat) (h : p + 3 < m.length) :
    ∃ r, _mm_loadu_ps m p = some r ∧ m[p]? = some r.f0 ∧ m[p + 1]? = some r.f1 ∧
      m[p + 2]? = some r.f2 ∧ m[p + 3]? = some r.f3 := by
  have h0 : p < m.length := by omega
  have h1 : p + 1 < m.length := by omega
  have h2 : p + 2 < m.length := by omega
  refine ⟨⟨m[p], m[p + 1], m[p + 2], m[p + 3]⟩, ?_, ?_, ?_, ?_, ?_⟩ <;>
    simp [_mm_loadu_ps, load, List.getElem?_eq_getElem, h, h0, h1, h2]

theorem storeu_spec (m : List α) (p : Nat) (v : M128 α) (h : p + 3 < m.length) :
    ∃ m', _mm_storeu_ps m p v = some m' ∧ m'.length = m.length ∧
      m'[p]? = some v.f0 ∧ m'[p + 1]? = some v.f1 ∧ m'[p + 2]? = some v.f2 ∧
      m'[p + 3]? = some v.f3 ∧ ∀ d, (d < p ∨ p + 3 < d) → m'[d]? = m[d]? := by
  have h0 : p < m.length := by omega
  have h1 : p + 1 < m.length := by omega
  have h2 : p + 2 < m.length := by omega
  refine ⟨(((m.set p v.f0).set (p + 1) v.f1).set (p + 2) v.f2).set (p + 3) v.f3,
    ?_, ?_, ?_, ?_, ?_, ?_, ?_⟩
  · simp [_mm_storeu_ps, store, h, h0, h1, h2]
  · simp
  · simp [List.getElem?_set, h0]
  · simp [List.getElem?_set, h1]
  · simp [List.getElem?_set, h2]
  · simp [List.getElem?_set, h]
  · intro d hd
    rw [List.getElem?_set_ne (by omega), List.getElem?_set_ne (by omega),
      List.getElem?_set_ne (by omega), List.getElem?_set_ne (by omega)]

/-- Storing a register that holds column `k` of the source tile to row `k` of the
destination transposes the four cells `(0, k) .. (3, k)`. -/
theorem storeu_moved (src dst : List α) (a b lda ldb k p : Nat) (v : M128 α)
    (hp : p = b + k * ldb) (hfit : p + 3 < dst.length)
    (h0 : src[a + (0 * lda + k)]? = some v.f0) (h1 : src[a + (1 * lda + k)]? = some v.f1)
    (h2 : src[a + (2 * lda + k)]? = some v.f2) (h3 : src[a + (3 * lda + k)]? = some v.f3) :
    ∃ dst', _mm_storeu_ps dst p v = some dst' ∧
      Moved src dst a b lda ldb (fun i j => i < 4 ∧ j = k) dst' := by
  obtain ⟨m', hrun, hlen, e0, e1, e2, e3, hframe⟩ := storeu_spec dst p v hfit
  refine ⟨m', hrun, hlen, ?_, ?_⟩
  · rintro i j ⟨hi, rfl⟩
    have hcases : i = 0 ∨ i = 1 ∨ i = 2 ∨ i = 3 := by omega
    rcases hcases with rfl | rfl | rfl | rfl
    · rw [h0, ← e0]; congr 1; omega
    · rw [h1, ← e1]; congr 1; omega
    · rw [h2, ← e2]; congr 1; omega
    · rw [h3, ← e3]; congr 1; omega
  · intro d hd
    apply hframe
    have c0 := hd 0 k ⟨by omega, rfl⟩
    have c1 := hd 1 k ⟨by omega, rfl⟩
    have c2 := hd 2 k ⟨by omega, rfl⟩
    have c3 := hd 3 k ⟨by omega, rfl⟩
    omega

theorem transpose_4x4_spec (src dst : List α) (a b lda ldb : Nat)
    (hldb : 4 ≤ ldb) (hs : Fits a 4 4 lda src.length) (hd : Fits b 4 4 ldb dst.length) :
    ∃ dst', transpose_4x4 src dst a b lda ldb = some dst' ∧
      Transposed src dst a b 4 4 lda ldb dst' := by
  obtain ⟨r1, hl1, r10, r11, r12, r13⟩ := loadu_spec src (a + 0 * lda)
    (by have := hs 0 (by omega) 3 (by omega); omega)
  obtain ⟨r2, hl2, r20, r21, r22, r23⟩ := loadu_spec src (a + 1 * lda)
    (by have := hs 1 (by omega) 3 (by omega); omega)
  obtain ⟨r3, hl3, r30, r31, r32, r33⟩ := loadu_spec src (a + 2 * lda)
    (by have := hs 2 (by omega) 3 (by omega); omega)
  obtain ⟨r4, hl4, r40, r41, r42, r43⟩ := loadu_spec src (a + 3 * lda)
    (by have := hs 3 (by omega) 3 (by omega); omega)
  have f0 := hd 0 (by omega) 3 (by omega)
  have f1 := hd 1 (by omega) 3 (by omega)
  have f2 := hd 2 (by omega) 3 (by omega)
  have f3 := hd 3 (by omega) 3 (by omega)
  obtain ⟨d1, hs1, m1⟩ := storeu_moved src dst a b lda ldb 0 (b + 0 * ldb)
    ⟨r1.f0, r2.f0, r3.f0, r4.f0⟩ rfl (by omega)
    (by rw [← r10]; congr 1) (by rw [← r20]; congr 1) (by rw [← r30]; congr 1)
    (by rw [← r40]; congr 1)
  obtain ⟨d2, hs2, m2⟩ := storeu_moved src d1 a b lda ldb 1 (b + 1 * ldb)
    ⟨r1.f1, r2.f1, r3.f1, r4.f1⟩ rfl (by rw [m1.1]; omega)
    (by rw [← r11]; congr 1) (by rw [← r21]; congr 1)
    (by rw [← r31]; congr 1) (by rw [← r41]; congr 1)
  obtain ⟨d3, hs3, m3⟩ := storeu_moved src d2 a b lda ldb 2 (b + 2 * ldb)
    ⟨r1.f2, r2.f2, r3.f2, r4.f2⟩ rfl (by rw [m2.1, m1.1]; omega)
    (by rw [← r12]; congr 1) (by rw [← r22]; congr 1)
    (by rw [← r32]; congr 1) (by rw [← r42]; congr 1)
  obtain ⟨d4, hs4, m4⟩ := storeu_moved src d3 a b lda ldb 3 (b + 3 * ldb)
    ⟨r1.f3, r2.f3, r3.f3, r4.f3⟩ rfl (by rw [m3.1, m2.1, m1.1]; omega)
    (by rw [← r13]; congr 1) (by rw [← r23]; congr 1)
    (by rw [← r33]; congr 1) (by rw [← r43]; congr 1)
  refine ⟨d4, ?_, ?_⟩
  · simp only [transpose_4x4, hl1, hl2, hl3, hl4, Option.bind_eq_bind, Option.some_bind,
      _MM_TRANSPOSE4_PS, _mm_unpacklo_ps, _mm_unpackhi_ps, _mm_movelh_ps, _mm_movehl_ps,
      hs1, hs2, hs3, hs4]
  · have h12 := Moved.trans m1 m2 (by intro i j h; omega) (by intro i j h; omega)
    have h123 := Moved.trans h12 m3 (by intro i j h; omega) (by intro i j h; omega)
    have h1234 := Moved.trans h123 m4 (by intro i j h; omega) (by intro i j h; omega)
    exact h1234.congr (by intro i j; omega)

/-! ## Proof rules for the `Option` programs -/

theorem forStep_spec (k step n : Nat) (hstep : 0 < step) (body : Nat → σ → Option σ)
    (Inv : Nat → σ → Prop)
    (hbody : ∀ i s, Inv i s → i + k < n → ∃ s', body i s = some s' ∧ Inv (i + step) s')
    (i : Nat) (s : σ) (h0 : Inv i s) :
    ∃ x, forStep k step n hstep body i s = some x ∧ Inv x.1 x.2 ∧ ¬ (x.1 + k < n) := by
  obtain ⟨i', s', h, hI, hx⟩ := forStep_inv k step n hstep body Inv hbody i s h0
  exact ⟨(i', s'), h, hI, hx⟩

theorem bind_rule {β γ : Type} {m : Option β} {f : β → Option γ} {R : γ → Prop}
    (Q : β → Prop) (hm : ∃ x, m = some x ∧ Q x)
    (hf : ∀ x, Q x → ∃ y, f x = some y ∧ R y) : ∃ y, (m >>= f) = some y ∧ R y := by
  obtain ⟨x, rfl, hx⟩ := hm
  exact hf x hx

theorem map_rule {β γ : Type} {m : Option β} {f : β → γ} {R : γ → Prop}
    (hm : ∃ x, m = some x ∧ R (f x)) : ∃ y, (f <$> m) = some y ∧ R y := by
  obtain ⟨x, rfl, hx⟩ := hm
  exact ⟨f x, rfl, hx⟩

/-- A call on the `r` x `c` sub-rectangle with origin `(i0, j0)` that meets the
contract extends the set of transposed cells by that rectangle. -/
theorem call_rule {src dst d1 : List α} {a b lda ldb a' b' r c : Nat}
    {P : Nat → Nat → Prop} {run : Option (List α)} (i0 j0 : Nat) {Q : Nat → Nat → Prop}
    (h1 : Moved src dst a b lda ldb P d1)
    (hcall : ∃ d2, run = some d2 ∧ Transposed src d1 a' b' r c lda ldb d2)
    (ha : a' = a + (i0 * lda + j0)) (hb : b' = b + (j0 * ldb + i0))
    (hP : ∀ i j, P i j → i < ldb) (hr : c = 0 ∨ i0 + r ≤ ldb)
    (hQ : ∀ i j, (P i j ∨ (i0 ≤ i ∧ i < i0 + r ∧ j0 ≤ j ∧ j < j0 + c)) ↔ Q i j) :
    ∃ d2, run = some d2 ∧ Moved src dst a b lda ldb Q d2 := by
  obtain ⟨d2, hrun, h2⟩ := hcall
  exact ⟨d2, hrun, (Moved.step h1 h2 ha hb hP hr).congr hQ⟩

/-! ## The blocked transposers meet the contract -/

theorem transpose_blocked4x4_spec (src dst : List α) (a b rows cols lda ldb : Nat)
    (hldb : cols = 0 ∨ rows ≤ ldb) (hs : Fits a rows cols lda src.length)
    (hd : Fits b cols rows ldb dst.length) :
    ∃ dst', transpose_blocked4x4 src dst a b rows cols lda ldb = some dst' ∧
      Transposed src dst a b rows cols lda ldb dst' := by
  unfold transpose_blocked4x4
  refine bind_rule (fun x => Moved src dst a b lda ldb
    (fun i' j' => i' < x.1 ∧ i' < rows ∧ j' < cols) x.2 ∧ ¬ (x.1 + 3 < rows)) ?_ ?_
  · -- the bands of four rows
    refine forStep_spec 3 4 rows _ _
      (fun i s => Moved src dst a b lda ldb (fun i' j' => i' < i ∧ i' < rows ∧ j' < cols) s)
      ?_ 0 dst (Moved.refl _ _ _ _ _ _ _ (by intro i j; omega))
    intro i s hI hi
    refine bind_rule (fun x => Moved src dst a b lda ldb
      (fun i' j' => (i' < i ∧ j' < cols) ∨ (i ≤ i' ∧ i' < i + 4 ∧ j' < x.1 ∧ j' < cols)) x.2
        ∧ ¬ (x.1 + 3 < cols)) ?_ ?_
    · -- full tiles of the band
      refine forStep_spec 3 4 cols _ _
        (fun j s => Moved src dst a b lda ldb
          (fun i' j' => (i' < i ∧ j' < cols) ∨ (i ≤ i' ∧ i' < i + 4 ∧ j' < j ∧ j' < cols)) s)
        ?_ 0 s (hI.congr (by intro i' j'; omega))
      intro j s hJ hj
      exact call_rule i j hJ
        (transpose_4x4_spec src s _ _ lda ldb (by omega)
          (hs.sub (by omega : i + 4 ≤ rows) (by omega : j + 4 ≤ cols) rfl)
          ((hd.sub (by omega : j + 4 ≤ cols) (by omega : i + 4 ≤ rows) rfl).of_length_eq hJ.1))
        rfl rfl (by intro i' j' h; omega) (by omega) (by intro i' j'; omega)
    · -- trailing columns of the band
      rintro ⟨j, s⟩ ⟨hJ, hj⟩
      dsimp only at hJ hj ⊢
      split
      · exact call_rule i j hJ
          (transpose_naive_spec src s _ _ 4 (cols - j) lda ldb (by omega)
            (hs.sub (by omega : i + 4 ≤ rows) (by omega : j + (cols - j) ≤ cols) rfl)
            ((hd.sub (by omega : j + (cols - j) ≤ cols) (by omega : i + 4 ≤ rows)
              rfl).of_length_eq hJ.1))
          rfl rfl (by intro i' j' h; omega) (by omega) (by intro i' j'; omega)
      · exact ⟨s, rfl, hJ.congr (by intro i' j'; omega)⟩
  · -- trailing rows
    rintro ⟨i, s⟩ ⟨hI, hi⟩
    dsimp only at hI hi ⊢
    split
    · refine bind_rule (fun x => Moved src dst a b lda ldb
        (fun i' j' => (i' < i ∧ j' < cols) ∨ (i ≤ i' ∧ i' < rows ∧ j' < x.1 ∧ j' < cols)) x.2
          ∧ ¬ (x.1 + 3 < cols)) ?_ ?_
      · refine forStep_spec 3 4 cols _ _
          (fun j s => Moved src dst a b lda ldb
            (fun i' j' => (i' < i ∧ j' < cols) ∨ (i ≤ i' ∧ i' < rows ∧ j' < j ∧ j' < cols)) s)
          ?_ 0 s (hI.congr (by intro i' j'; omega))
        intro j s hJ hj
        exact call_rule i j hJ
          (transpose_naive_spec src s _ _ (rows - i) 4 lda ldb (by omega)
            (hs.sub (by omega : i + (rows - i) ≤ rows) (by omega : j + 4 ≤ cols) rfl)
            ((hd.sub (by omega : j + 4 ≤ cols) (by omega : i + (rows - i) ≤ rows)
              rfl).of_length_eq hJ.1))
          rfl rfl (by intro i' j' h; omega) (by omega) (by intro i' j'; omega)
      · rintro ⟨j, s⟩ ⟨hJ, hj⟩
        dsimp only at hJ hj ⊢
        split
        · exact call_rule i j hJ
            (transpose_naive_spec src s _ _ (rows - i) (cols - j) lda ldb (by omega)
              (hs.sub (by omega : i + (rows - i) ≤ rows) (by omega : j + (cols - j) ≤ cols) rfl)
              ((hd.sub (by omega : j + (cols - j) ≤ cols) (by omega : i + (rows - i) ≤ rows)
                rfl).of_length_eq hJ.1))
            rfl rfl (by intro i' j' h; omega) (by omega) (by intro i' j'; omega)
        · exact ⟨s, rfl, hJ.congr (by intro i' j'; omega)⟩
    · exact ⟨s, rfl, hI.congr (by intro i' j'; omega)⟩

theorem forStep_rule (k step n : Nat) (hstep : 0 < step) (body : Nat → σ → Option σ)
    (Inv : Nat → σ → Prop) (Q : Nat × σ → Prop)
    (hbody : ∀ i s, Inv i s → i + k < n → ∃ s', body i s = some s' ∧ Inv (i + step) s')
    (i : Nat) (s : σ) (h0 : Inv i s)
    (hexit : ∀ i s, Inv i s → ¬ (i + k < n) → Q (i, s)) :
    ∃ x, forStep k step n hstep body i s = some x ∧ Q x := by
  obtain ⟨i', s', h, hI, hx⟩ := forStep_inv k step n hstep body Inv hbody i s h0
  exact ⟨(i', s'), h, hexit i' s' hI hx⟩

theorem transpose_blocked_spec (src dst : List α) (a b rows cols lda ldb : Nat)
    (hldb : cols = 0 ∨ rows ≤ ldb) (hs : Fits a rows cols lda src.length)
    (hd : Fits b cols rows ldb dst.length) :
    ∃ dst', transpose_blocked src dst a b rows cols lda ldb = some dst' ∧
      Transposed src dst a b rows cols lda ldb dst' := by
  unfold transpose_blocked
  refine map_rule ?_
  refine forStep_rule 0 block_size rows _ _
    (fun i s => Moved src dst a b lda ldb (fun i' j' => i' < i ∧ i' < rows ∧ j' < cols) s) _
    ?_ 0 dst (Moved.refl _ _ _ _ _ _ _ (by intro i j; omega))
    (fun i s hI hi => hI.congr (by intro i' j'; omega))
  intro i s hI hi
  dsimp only
  refine map_rule ?_
  refine forStep_rule 0 block_size cols _ _
    (fun j s => Moved src dst a b lda ldb
      (fun i' j' => (i' < i ∧ j' < cols) ∨
        (i ≤ i' ∧ i' < i + block_size ∧ i' < rows ∧ j' < j ∧ j' < cols)) s) _
    ?_ 0 s (hI.congr (by intro i' j'; omega))
    (fun j s hJ hj => hJ.congr (by intro i' j'; omega))
  intro j s hJ hj
  have hbs : block_size = 128 := rfl
  exact call_rule i j hJ
    (transpose_blocked4x4_spec src s _ _ (min block_size (rows - i))
      (min block_size (cols - j)) lda ldb (by omega)
      (hs.sub (by omega : i + min block_size (rows - i) ≤ rows)
        (by omega : j + min block_size (cols - j) ≤ cols) rfl)
      ((hd.sub (by omega : j + min block_size (cols - j) ≤ cols)
        (by omega : i + min block_size (rows - i) ≤ rows) rfl).of_length_eq hJ.1))
    rfl rfl (by intro i' j' h; omega) (by omega) (by intro i' j'; omega)

/-! ## The recursive transposers meet the contract -/

theorem maskLow2_eq (m : Nat) : maskLow2 m = 4 * (m / 4) := by
  show (((Nat.ldiff m 3 : Nat) : Int)).toNat = _
  rw [Int.toNat_natCast]
  apply Nat.eq_of_testBit_eq
  intro i
  rw [Nat.testBit_ldiff, show (4 : Nat) = 2 ^ 2 by rfl, Nat.testBit_mul_pow_two]
  rcases i with _ | _ | i
  · simp [Nat.testBit_zero]
  · simp [Nat.testBit_succ]
  · have h : 3 < 2 ^ (i + 2) := by
      have := Nat.one_le_two_pow (n := i)
      rw [pow_add]; omega
    have h3 : Nat.testBit 3 (i + 2) = false := by
      simp [Nat.testBit, Nat.shiftRight_eq_div_pow, Nat.div_eq_of_lt h]
    rw [h3]
    simp [Nat.testBit_succ, Nat.div_div_eq_div_mul]

theorem transpose_oblivious_spec (src : List α) (lda ldb : Nat) :
    ∀ (n rows cols : Nat), rows + cols = n → ∀ (dst : List α) (a b : Nat), (cols = 0 ∨ rows ≤ ldb) →
      Fits a rows cols lda src.length → Fits b cols rows ldb dst.length →
      ∃ dst', transpose_oblivious src dst a b rows cols lda ldb = some dst' ∧
        Transposed src dst a b rows cols lda ldb dst' := by
  intro n
  induction n using Nat.strong_induction_on with
  | _ n ih =>
    intro rows cols hn dst a b hldb hs hd
    rw [transpose_oblivious]
    split
    · exact transpose_naive_spec src dst a b rows cols lda ldb hldb hs hd
    · rename_i hbase
      have hr : maskLow2 (rows / 2) = 4 * (rows / 2 / 4) := maskLow2_eq _
      have hc : maskLow2 (cols / 2) = 4 * (cols / 2 / 4) := maskLow2_eq _
      dsimp only
      generalize maskLow2 (rows / 2) = halfRow at hr ⊢
      generalize maskLow2 (cols / 2) = halfCol at hc ⊢
      have h0 : Moved src dst a b lda ldb (fun _ _ => False) dst :=
        Moved.refl _ _ _ _ _ _ _ (by intro i j h; exact h)
      refine bind_rule
        (Moved src dst a b lda ldb (fun i j => i < halfRow ∧ j < halfCol)) ?_ ?_
      · exact call_rule 0 0 h0
          (ih (halfRow + halfCol) (by omega) halfRow halfCol rfl dst a b (by omega)
            (hs.sub (by omega : 0 + halfRow ≤ rows) (by omega : 0 + halfCol ≤ cols) (by omega))
            (hd.sub (by omega : 0 + halfCol ≤ cols) (by omega : 0 + halfRow ≤ rows) (by omega)))
          (by omega) (by omega) (by intro i j h; exact h.elim) (by omega)
          (by intro i j; simp)
      intro s1 h1
      refine bind_rule
        (Moved src dst a b lda ldb (fun i j => i < halfRow ∧ j < cols)) ?_ ?_
      · exact call_rule 0 halfCol h1
          (ih (halfRow + (cols - halfCol)) (by omega) halfRow (cols - halfCol) rfl s1 _ _
            (by omega)
            (hs.sub (by omega : 0 + halfRow ≤ rows) (by omega : halfCol + (cols - halfCol) ≤ cols)
              (by omega))
            ((hd.sub (by omega : halfCol + (cols - halfCol) ≤ cols)
              (by omega : 0 + halfRow ≤ rows) (by omega)).of_length_eq h1.1))
          (by omega) (by omega) (by intro i j h; omega) (by omega) (by intro i j; omega)
      intro s2 h2
      refine bind_rule
        (Moved src dst a b lda ldb
          (fun i j => (i < halfRow ∧ j < cols) ∨ (i < rows ∧ j < halfCol))) ?_ ?_
      · exact call_rule halfRow 0 h2
          (ih ((rows - halfRow) + halfCol) (by omega) (rows - halfRow) halfCol rfl s2 _ _
            (by omega)
            (hs.sub (by omega : halfRow + (rows - halfRow) ≤ rows) (by omega : 0 + halfCol ≤ cols)
              (by omega))
            ((hd.sub (by omega : 0 + halfCol ≤ cols)
              (by omega : halfRow + (rows - halfRow) ≤ rows) (by omega)).of_length_eq h2.1))
          (by omega) (by omega) (by intro i j h; omega) (by omega) (by intro i j; omega)
      intro s3 h3
      exact call_rule halfRow halfCol h3
        (ih ((rows - halfRow) + (cols - halfCol)) (by omega) (rows - halfRow) (cols - halfCol)
          rfl s3 _ _ (by omega)
          (hs.sub (by omega : halfRow + (rows - halfRow) ≤ rows)
            (by omega : halfCol + (cols - halfCol) ≤ cols) (by omega))
          ((hd.sub (by omega : halfCol + (cols - halfCol) ≤ cols)
            (by omega : halfRow + (rows - halfRow) ≤ rows) (by omega)).of_length_eq h3.1))
        rfl rfl (by intro i j h; omega) (by omega) (by intro i j; omega)

theorem transpose_oblivious2_spec (src : List α) (lda ldb : Nat) :
    ∀ (n rows cols : Nat), rows + cols = n → ∀ (dst : List α) (a b : Nat), (cols = 0 ∨ rows ≤ ldb) →
      Fits a rows cols lda src.length → Fits b cols rows ldb dst.length →
      ∃ dst', transpose_oblivious2 src dst a b rows cols lda ldb = some dst' ∧
        Transposed src dst a b rows cols lda ldb dst' := by
  intro n
  induction n using Nat.strong_induction_on with
  | _ n ih =>
    intro rows cols hn dst a b hldb hs hd
    have hr : maskLow2 (rows / 2) = 4 * (rows / 2 / 4) := maskLow2_eq _
    have hc : maskLow2 (cols / 2) = 4 * (cols / 2 / 4) := maskLow2_eq _
    have h0 : Moved src dst a b lda ldb (fun _ _ => False) dst :=
      Moved.refl _ _ _ _ _ _ _ (by intro i j h; exact h)
    rw [transpose_oblivious2]
    split
    · exact transpose_blocked4x4_spec src dst a b rows cols lda ldb hldb hs hd
    split
    · -- split only on the columns
      dsimp only
      generalize maskLow2 (cols / 2) = halfCol at hc ⊢
      refine bind_rule
        (Moved src dst a b lda ldb (fun i j => i < rows ∧ j < halfCol)) ?_ ?_
      · exact call_rule 0 0 h0
          (ih (rows + halfCol) (by omega) rows halfCol rfl dst a b (by omega)
            (hs.sub (by omega : 0 + rows ≤ rows) (by omega : 0 + halfCol ≤ cols) (by omega))
            (hd.sub (by omega : 0 + halfCol ≤ cols) (by omega : 0 + rows ≤ rows) (by omega)))
          (by omega) (by omega) (by intro i j h; exact h.elim) (by omega)
          (by intro i j; simp)
      intro s1 h1
      exact call_rule 0 halfCol h1
        (ih (rows + (cols - halfCol)) (by omega) rows (cols - halfCol) rfl s1 _ _
          (by omega)
          (hs.sub (by omega : 0 + rows ≤ rows) (by omega : halfCol + (cols - halfCol) ≤ cols)
            (by omega))
          ((hd.sub (by omega : halfCol + (cols - halfCol) ≤ cols)
            (by omega : 0 + rows ≤ rows) (by omega)).of_length_eq h1.1))
        (by omega) (by omega) (by intro i j h; omega) (by omega) (by intro i j; omega)
    split
    · -- split only on the rows
      dsimp only
      generalize maskLow2 (rows / 2) = halfRow at hr ⊢
      refine bind_rule
        (Moved src dst a b lda ldb (fun i j => i < halfRow ∧ j < cols)) ?_ ?_
      · exact call_rule 0 0 h0
          (ih (halfRow + cols) (by omega) halfRow cols rfl dst a b (by omega)
            (hs.sub (by omega : 0 + halfRow ≤ rows) (by omega : 0 + cols ≤ cols) (by omega))
            (hd.sub (by omega : 0 + cols ≤ cols) (by omega : 0 + halfRow ≤ rows) (by omega)))
          (by omega) (by omega) (by intro i j h; exact h.elim) (by omega)
          (by intro i j; simp)
      intro s1 h1
      exact call_rule halfRow 0 h1
        (ih ((rows - halfRow) + cols) (by omega) (rows - halfRow) cols rfl s1 _ _
          (by omega)
          (hs.sub (by omega : halfRow + (rows - halfRow) ≤ rows) (by omega : 0 + cols ≤ cols)
            (by omega))
          ((hd.sub (by omega : 0 + cols ≤ cols)
            (by omega : halfRow + (rows - halfRow) ≤ rows) (by omega)).of_length_eq h1.1))
        (by omega) (by omega) (by intro i j h; omega) (by omega) (by intro i j; omega)
    · -- split both sides
      dsimp only
      generalize maskLow2 (rows / 2) = halfRow at hr ⊢
      generalize maskLow2 (cols / 2) = halfCol at hc ⊢
      refine bind_rule
        (Moved src dst a b lda ldb (fun i j => i < halfRow ∧ j < halfCol)) ?_ ?_
      · exact call_rule 0 0 h0
          (ih (halfRow + halfCol) (by omega) halfRow halfCol rfl dst a b (by omega)
            (hs.sub (by omega : 0 + halfRow ≤ rows) (by omega : 0 + halfCol ≤ cols) (by omega))
            (hd.sub (by omega : 0 + halfCol ≤ cols) (by omega : 0 + halfRow ≤ rows) (by omega)))
          (by omega) (by omega) (by intro i j h; exact h.elim) (by omega)
          (by intro i j; simp)
      intro s1 h1
      refine bind_rule
        (Moved src dst a b lda ldb (fun i j => i < halfRow ∧ j < cols)) ?_ ?_
      · exact call_rule 0 halfCol h1
          (ih (halfRow + (cols - halfCol)) (by omega) halfRow (cols - halfCol) rfl s1 _ _
            (by omega)
            (hs.sub (by omega : 0 + halfRow ≤ rows) (by omega : halfCol + (cols - halfCol) ≤ cols)
              (by omega))
            ((hd.sub (by omega : halfCol + (cols - halfCol) ≤ cols)
              (by omega : 0 + halfRow ≤ rows) (by omega)).of_length_eq h1.1))
          (by omega) (by omega) (by intro i j h; omega) (by omega) (by intro i j; omega)
      intro s2 h2
      refine bind_rule
        (Moved src dst a b lda ldb
          (fun i j => (i < halfRow ∧ j < cols) ∨ (i < rows ∧ j < halfCol))) ?_ ?_
      · exact call_rule halfRow 0 h2
          (ih ((rows - halfRow) + halfCol) (by omega) (rows - halfRow) halfCol rfl s2 _ _
            (by omega)
            (hs.sub (by omega : halfRow + (rows - halfRow) ≤ rows) (by omega : 0 + halfCol ≤ cols)
              (by omega))
            ((hd.sub (by omega : 0 + halfCol ≤ cols)
              (by omega : halfRow + (rows - halfRow) ≤ rows) (by omega)).of_length_eq h2.1))
          (by omega) (by omega) (by intro i j h; omega) (by omega) (by intro i j; omega)
      intro s3 h3
      exact call_rule halfRow halfCol h3
        (ih ((rows - halfRow) + (cols - halfCol)) (by omega) (rows - halfRow) (cols - halfCol)
          rfl s3 _ _ (by omega)
          (hs.sub (by omega : halfRow + (rows - halfRow) ≤ rows)
            (by omega : halfCol + (cols - halfCol) ≤ cols) (by omega))
          ((hd.sub (by omega : halfCol + (cols - halfCol) ≤ cols)
            (by omega : halfRow + (rows - halfRow) ≤ rows) (by omega)).of_length_eq h3.1))
        rfl rfl (by intro i j h; omega) (by omega) (by intro i j; omega)

/-- Every strategy succeeds on buffers that hold the two views and leaves the
destination transposed. -/
theorem Strategy.run_spec (S : Strategy) (src dst : List α) (a b rows cols lda ldb : Nat)
    (hldb : cols = 0 ∨ rows ≤ ldb) (hs : Fits a rows cols lda src.length)
    (hd : Fits b cols rows ldb dst.length) :
    ∃ dst', S.run src dst a b rows cols lda ldb = some dst' ∧
      Transposed src dst a b rows cols lda ldb dst' := by
  cases S
  · exact transpose_naive_spec src dst a b rows cols lda ldb hldb hs hd
  · exact transpose_blocked_spec src dst a b rows cols lda ldb hldb hs hd
  · exact transpose_oblivious_spec src lda ldb _ rows cols rfl dst a b hldb hs hd
  · exact transpose_oblivious2_spec src lda ldb _ rows cols rfl dst a b hldb hs hd


/-! # The contract in unbounded integers -/

theorem Transposed.cell {src dst dst' : List α} {a b rows cols lda ldb : Nat}
    (h : Transposed src dst a b rows cols lda ldb dst')
    (hs : Fits a rows cols lda src.length) {i j : Nat} (hi : i < rows) (hj : j < cols) :
    ∃ v, src[a + (i * lda + j)]? = some v ∧ dst'[b + (j * ldb + i)]? = some v := by
  have hlt := hs i hi j hj
  exact ⟨src[a + (i * lda + j)], List.getElem?_eq_getElem hlt,
    by rw [h.2.1 i j ⟨hi, hj⟩, List.getElem?_eq_getElem hlt]⟩

theorem Transposed.empty {src dst dst' : List α} {a b rows cols lda ldb : Nat}
    (h : Transposed src dst a b rows cols lda ldb dst') (h0 : rows = 0 ∨ cols = 0) :
    dst' = dst :=
  Moved.unique h (Moved.refl src dst a b lda ldb _ (by intro i j; omega))

/-- In unbounded integers.  Correspondence of the naive transposer.  For all `rows`, `cols`, every
destination stride `ldb ≥ rows` and all buffers that hold the source view and the
destination view, `transpose_naive(a, b, rows, cols, lda, ldb)` succeeds and
afterwards `b[j*ldb + i] == a[i*lda + j]` for every `i < rows`, `j < cols` (both
sides are an element `v` actually stored in the buffers).  The hypothesis
`lda ≥ cols` of the contract is not needed for this. -/
theorem transpose_naive_correspondence (src dst : List α) (a b rows cols lda ldb : Nat)
    (hldb : rows ≤ ldb) (hs : Fits a rows cols lda src.length)
    (hd : Fits b cols rows ldb dst.length) :
    ∃ dst', transpose_naive src dst a b rows cols lda ldb = some dst' ∧
      ∀ i j, i < rows → j < cols →
        ∃ v, src[a + (i * lda + j)]? = some v ∧ dst'[b + (j * ldb + i)]? = some v := by
  obtain ⟨dst', hrun, ht⟩ :=
    transpose_naive_spec src dst a b rows cols lda ldb (Or.inr hldb) hs hd
  exact ⟨dst', hrun, fun i j hi hj => ht.cell hs hi hj⟩

/-- In unbounded integers.  `transpose_blocked` is equivalent to `transpose_naive`: for all `rows`,
`cols`, `ldb ≥ rows`, every source buffer and every initial destination buffer
that hold the two views, both calls succeed and leave the same final destination
buffer.  (The hypothesis `lda ≥ cols` is not needed.) -/
theorem transpose_blocked_eq_naive (src dst : List α) (a b rows cols lda ldb : Nat)
    (hldb : rows ≤ ldb) (hs : Fits a rows cols lda src.length)
    (hd : Fits b cols rows ldb dst.length) :
    ∃ dst', transpose_blocked src dst a b rows cols lda ldb = some dst' ∧
      transpose_naive src dst a b rows cols lda ldb = some dst' := by
  obtain ⟨d1, h1, t1⟩ := transpose_blocked_spec src dst a b rows cols lda ldb (Or.inr hldb) hs hd
  obtain ⟨d2, h2, t2⟩ := transpose_naive_spec src dst a b rows cols lda ldb (Or.inr hldb) hs hd
  exact ⟨d1, h1, by rw [h2, Moved.unique t2 t1]⟩

/-- In unbounded integers.  The adaptive recursive transposer `transpose_oblivious2` is equivalent to
`transpose_naive`: for all `rows`, `cols`, `ldb ≥ rows`, every source buffer and
every initial destination buffer that hold the two views, both calls succeed and
leave the same final destination buffer.  (The hypothesis `lda ≥ cols` is not
needed.) -/
theorem transpose_oblivious2_eq_naive (src dst : List α) (a b rows cols lda ldb : Nat)
    (hldb : rows ≤ ldb) (hs : Fits a rows cols lda src.length)
    (hd : Fits b cols rows ldb dst.length) :
    ∃ dst', transpose_oblivious2 src dst a b rows cols lda ldb = some dst' ∧
      transpose_naive src dst a b rows cols lda ldb = some dst' := by
  obtain ⟨d1, h1, t1⟩ :=
    transpose_oblivious2_spec src lda ldb _ rows cols rfl dst a b (Or.inr hldb) hs hd
  obtain ⟨d2, h2, t2⟩ := transpose_naive_spec src dst a b rows cols lda ldb (Or.inr hldb) hs hd
  exact ⟨d1, h1, by rw [h2, Moved.unique t2 t1]⟩

/-- In unbounded integers.  The symmetric recursive transposer `transpose_oblivious` is equivalent to
`transpose_naive`: for all `rows`, `cols`, `ldb ≥ rows`, every source buffer and
every initial destination buffer that hold the two views, both calls succeed and
leave the same final destination buffer.  (The hypothesis `lda ≥ cols` is not
needed.) -/
theorem transpose_oblivious_eq_naive (src dst : List α) (a b rows cols lda ldb : Nat)
    (hldb : rows ≤ ldb) (hs : Fits a rows cols lda src.length)
    (hd : Fits b cols rows ldb dst.length) :
    ∃ dst', transpose_oblivious src dst a b rows cols lda ldb = some dst' ∧
      transpose_naive src dst a b rows cols lda ldb = some dst' := by
  obtain ⟨d1, h1, t1⟩ :=
    transpose_oblivious_spec src lda ldb _ rows cols rfl dst a b (Or.inr hldb) hs hd
  obtain ⟨d2, h2, t2⟩ := transpose_naive_spec src dst a b rows cols lda ldb (Or.inr hldb) hs hd
  exact ⟨d1, h1, by rw [h2, Moved.unique t2 t1]⟩

/-- In unbounded integers.  The micro-kernel.  The `_MM_TRANSPOSE4_PS` network leaves in register `k`
column `k` of the four loaded rows; and for every `ldb ≥ 4` and buffers that hold
the two 4x4 tiles, `transpose_4x4(a, b, lda, ldb)` succeeds, afterwards
`b[k*ldb + l] == a[l*lda + k]` for all `k, l < 4`, and the final destination
buffer is the one `transpose_naive` leaves with `rows = cols = 4`.  (The
hypothesis `lda ≥ 4` is not needed.) -/
theorem transpose_4x4_correct (src dst : List α) (a b lda ldb : Nat) (hldb : 4 ≤ ldb)
    (hs : Fits a 4 4 lda src.length) (hd : Fits b 4 4 ldb dst.length) :
    (∀ r0 r1 r2 r3 : M128 α, _MM_TRANSPOSE4_PS r0 r1 r2 r3 =
      (⟨r0.f0, r1.f0, r2.f0, r3.f0⟩, ⟨r0.f1, r1.f1, r2.f1, r3.f1⟩,
       ⟨r0.f2, r1.f2, r2.f2, r3.f2⟩, ⟨r0.f3, r1.f3, r2.f3, r3.f3⟩)) ∧
    ∃ dst', transpose_4x4 src dst a b lda ldb = some dst' ∧
      (∀ k l, k < 4 → l < 4 →
        ∃ v, src[a + (l * lda + k)]? = some v ∧ dst'[b + (k * ldb + l)]? = some v) ∧
      transpose_naive src dst a b 4 4 lda ldb = some dst' := by
  refine ⟨fun r0 r1 r2 r3 => rfl, ?_⟩
  obtain ⟨d1, h1, t1⟩ := transpose_4x4_spec src dst a b lda ldb hldb hs hd
  obtain ⟨d2, h2, t2⟩ := transpose_naive_spec src dst a b 4 4 lda ldb (Or.inr hldb) hs hd
  exact ⟨d1, h1, fun k l hk hl => t1.cell hs hl hk, by rw [h2, Moved.unique t2 t1]⟩

/-- In unbounded integers.  Involution with stride bookkeeping.  For each of the four strategies `S`,
all `rows`, `cols`, `ldb ≥ rows`, `ldc ≥ cols` and buffers that hold the three
views, `S(a, b, rows, cols, lda, ldb)` followed by `S(b, c, cols, rows, ldb, ldc)`
succeeds and yields `c[i*ldc + j] == a[i*lda + j]` for every `i < rows`,
`j < cols`.  (The hypothesis `lda ≥ cols` is not needed.) -/
theorem transpose_involution (S : Strategy) (srcA dstB dstC : List α)
    (a b c rows cols lda ldb ldc : Nat) (hldb : rows ≤ ldb) (hldc : cols ≤ ldc)
    (hA : Fits a rows cols lda srcA.length) (hB : Fits b cols rows ldb dstB.length)
    (hC : Fits c rows cols ldc dstC.length) :
    ∃ bufB bufC, S.run srcA dstB a b rows cols lda ldb = some bufB ∧
      S.run bufB dstC b c cols rows ldb ldc = some bufC ∧
      ∀ i j, i < rows → j < cols →
        ∃ v, srcA[a + (i * lda + j)]? = some v ∧ bufC[c + (i * ldc + j)]? = some v := by
  obtain ⟨bufB, h1, t1⟩ := S.run_spec srcA dstB a b rows cols lda ldb (Or.inr hldb) hA hB
  have hB' : Fits b cols rows ldb bufB.length := hB.of_length_eq t1.1
  obtain ⟨bufC, h2, t2⟩ := S.run_spec bufB dstC b c cols rows ldb ldc (Or.inr hldc) hB' hC
  refine ⟨bufB, bufC, h1, h2, fun i j hi hj => ?_⟩
  obtain ⟨v, hv, hb⟩ := t1.cell hA hi hj
  obtain ⟨w, hw, hc⟩ := t2.cell hB' hj hi
  rw [hb] at hw
  exact ⟨v, hv, by rw [hc, ← hw]⟩

/-- In unbounded integers.  Empty input is a no-op.  If `rows == 0` or `cols == 0` (whatever the other
dimension, the strides and the buffers are), each of the four strategies returns
with the destination buffer unchanged.  The buffers are arbitrary, the empty ones
included, on which any load or store would fail: no access is attempted. -/
theorem transpose_empty_noop (S : Strategy) (src dst : List α)
    (a b rows cols lda ldb : Nat) (h0 : rows = 0 ∨ cols = 0) :
    S.run src dst a b rows cols lda ldb = some dst := by
  obtain ⟨dst', hrun, ht⟩ := S.run_spec src dst a b rows cols lda ldb (by omega)
    (by intro i hi j hj; omega) (by intro j hj i hi; omega)
  rw [hrun, ht.empty h0]

/-- In unbounded integers.  In-bounds access.  For all `rows, cols ≥ 1`, `ldb ≥ rows`, a source buffer of
length `(rows-1)*lda + cols` and a destination buffer of length
`(cols-1)*ldb + rows`, each of the four strategies, and `transpose_blocked4x4`
with its 4-wide vector loads and stores, runs to completion: the bounds-checked
loads and stores never take their out-of-bounds branch.  (The hypothesis
`lda ≥ cols` is not needed.) -/
theorem transpose_in_bounds (src dst : List α) (rows cols lda ldb : Nat)
    (hrows : 1 ≤ rows) (hcols : 1 ≤ cols) (hldb : rows ≤ ldb)
    (hsrc : src.length = (rows - 1) * lda + cols)
    (hdst : dst.length = (cols - 1) * ldb + rows) :
    (∀ S : Strategy, (S.run src dst 0 0 rows cols lda ldb).isSome) ∧
      (transpose_blocked4x4 src dst 0 0 rows cols lda ldb).isSome := by
  have hs : Fits 0 rows cols lda src.length := by
    intro i hi j hj
    have := Nat.mul_le_mul_right lda (by omega : i ≤ rows - 1)
    omega
  have hd : Fits 0 cols rows ldb dst.length := by
    intro j hj i hi
    have := Nat.mul_le_mul_right ldb (by omega : j ≤ cols - 1)
    omega
  constructor
  · intro S
    obtain ⟨dst', hrun, -⟩ := S.run_spec src dst 0 0 rows cols lda ldb (Or.inr hldb) hs hd
    rw [hrun]; rfl
  · obtain ⟨dst', hrun, -⟩ :=
      transpose_blocked4x4_spec src dst 0 0 rows cols lda ldb (Or.inr hldb) hs hd
    rw [hrun]; rfl

/-! ## Shape law -/

theorem transposeIndex_cell {rows cols i j : Nat} (hj : j < cols) :
    transposeIndex rows cols (i * cols + j) = j * rows + i := by
  unfold transposeIndex
  have hpos : 0 < cols := by omega
  rw [Nat.add_comm (i * cols) j, Nat.add_mul_mod_self_right, Nat.mod_eq_of_lt hj,
    Nat.add_mul_div_right _ _ hpos, Nat.div_eq_of_lt hj, Nat.zero_add]

theorem cell_lt {rows cols i j : Nat} (hi : i < rows) (hj : j < cols) :
    i * cols + j < rows * cols := by
  have h1 := Nat.mul_le_mul_right cols (by omega : i + 1 ≤ rows)
  rw [Nat.add_mul] at h1
  omega

theorem transposeIndex_bijOn (rows cols : Nat) :
    Set.BijOn (transposeIndex rows cols) (Set.Iio (rows * cols)) (Set.Iio (rows * cols)) := by
  have decomp : ∀ k, k < rows * cols →
      k / cols < rows ∧ k % cols < cols ∧ k = k / cols * cols + k % cols := by
    intro k hk
    have hpos : 0 < cols := Nat.pos_of_ne_zero (by rintro rfl; simp at hk)
    refine ⟨(Nat.div_lt_iff_lt_mul hpos).2 hk, Nat.mod_lt _ hpos, ?_⟩
    rw [Nat.mul_comm]; exact (Nat.div_add_mod k cols).symm
  refine ⟨?_, ?_, ?_⟩
  · intro k hk
    obtain ⟨hi, hj, -⟩ := decomp k hk
    show (k % cols) * rows + k / cols < rows * cols
    rw [Nat.mul_comm rows cols]
    exact cell_lt hj hi
  · intro k hk k' hk' h
    obtain ⟨hi, hj, e⟩ := decomp k hk
    obtain ⟨hi', hj', e'⟩ := decomp k' hk'
    have := @cell_inj rows (k / cols) (k % cols) (k' / cols) (k' % cols) hi hi' h
    rw [e, e', this.1, this.2]
  · intro d hd
    have hd' : d < cols * rows := by rw [Nat.mul_comm]; exact hd
    have hpos : 0 < rows := Nat.pos_of_ne_zero (by rintro rfl; simp at hd)
    have hq : d / rows < cols := (Nat.div_lt_iff_lt_mul hpos).2 hd'
    have hr : d % rows < rows := Nat.mod_lt _ hpos
    refine ⟨d % rows * cols + d / rows, cell_lt hr hq, ?_⟩
    rw [transposeIndex_cell hq, Nat.mul_comm]
    exact Nat.div_add_mod d rows

theorem take_map_some (l : List α) (n : Nat) (h : n ≤ l.length) :
    (l.take n).map some = (List.range n).map (fun d => l[d]?) := by
  apply List.ext_getElem?
  intro d
  rw [List.getElem?_map, List.getElem?_map]
  by_cases hd : d < n
  · rw [List.getElem?_take_of_lt hd, List.getElem?_range hd]
    show (l[d]?).map some = some l[d]?
    rw [List.getElem?_eq_getElem (by omega : d < l.length)]
    rfl
  · have h1 : (List.take n l)[d]? = none :=
      List.getElem?_eq_none (by rw [List.length_take]; omega)
    have h2 : (List.range n)[d]? = none :=
      List.getElem?_eq_none (by rw [List.length_range]; omega)
    rw [h1, h2]; rfl

theorem perm_of_map_some {l1 l2 : List α} (h : (l1.map some).Perm (l2.map some)) :
    l1.Perm l2 := by
  have h' := h.filterMap id
  rw [List.filterMap_map, List.filterMap_map] at h'
  have e : (id ∘ some : α → Option α) = some := rfl
  rw [e, List.filterMap_some, List.filterMap_some] at h'
  exact h'

theorem range_map_perm {n : Nat} {f : Nat → Nat} (hf : Set.BijOn f (Set.Iio n) (Set.Iio n)) :
    ((List.range n).map f).Perm (List.range n) := by
  rw [List.perm_ext_iff_of_nodup
    ((List.nodup_range n).map_on (fun x hx y hy h =>
      hf.injOn (List.mem_range.1 hx) (List.mem_range.1 hy) h)) (List.nodup_range n)]
  intro d
  rw [List.mem_map, List.mem_range]
  constructor
  · rintro ⟨k, hk, rfl⟩
    exact hf.mapsTo (List.mem_range.1 hk)
  · intro hd
    obtain ⟨k, hk, rfl⟩ := hf.surjOn hd
    exact ⟨k, List.mem_range.2 hk, rfl⟩

/-- In unbounded integers.  Shape law.  For all `rows`, `cols` and the contiguous layout `lda = cols`,
`ldb = rows`: the index map `i*cols + j ↦ j*rows + i` is a bijection of
`[0, rows*cols)`; each strategy succeeds on buffers of at least `rows*cols`
elements, fills destination position `transposeIndex k` with source element `k`,
and the first `rows*cols` destination elements are a permutation of the first
`rows*cols` source elements. -/
theorem transpose_shape_law (S : Strategy) (src dst : List α) (rows cols : Nat)
    (hs : rows * cols ≤ src.length) (hd : rows * cols ≤ dst.length) :
    Set.BijOn (transposeIndex rows cols) (Set.Iio (rows * cols)) (Set.Iio (rows * cols)) ∧
    (∀ i j, i < rows → j < cols → transposeIndex rows cols (i * cols + j) = j * rows + i) ∧
    ∃ dst', S.run src dst 0 0 rows cols cols rows = some dst' ∧
      (∀ k, k < rows * cols → dst'[transposeIndex rows cols k]? = src[k]?) ∧
      (dst'.take (rows * cols)).Perm (src.take (rows * cols)) := by
  have hbij := transposeIndex_bijOn rows cols
  refine ⟨hbij, fun i j _ hj => transposeIndex_cell hj, ?_⟩
  obtain ⟨dst', hrun, ht⟩ := S.run_spec src dst 0 0 rows cols cols rows (Or.inr le_rfl)
    (by intro i hi j hj; have := cell_lt hi hj; omega)
    (by intro j hj i hi; have := cell_lt hj hi; rw [Nat.mul_comm cols rows] at this; omega)
  have hcell : ∀ k, k < rows * cols → dst'[transposeIndex rows cols k]? = src[k]? := by
    intro k hk
    have hpos : 0 < cols := Nat.pos_of_ne_zero (by rintro rfl; simp at hk)
    have h := ht.2.1 (k / cols) (k % cols)
      ⟨(Nat.div_lt_iff_lt_mul hpos).2 hk, Nat.mod_lt _ hpos⟩
    rw [Nat.zero_add, Nat.zero_add, Nat.mul_comm (k / cols) cols, Nat.div_add_mod] at h
    exact h
  refine ⟨dst', hrun, hcell, ?_⟩
  have hlen : rows * cols ≤ dst'.length := by rw [ht.1]; exact hd
  have hmap : ((dst'.take (rows * cols)).map some).Perm ((src.take (rows * cols)).map some) := by
    rw [take_map_some dst' _ hlen, take_map_some src _ hs]
    have h1 := (range_map_perm hbij).map (fun d => dst'[d]?)
    rw [List.map_map] at h1
    refine h1.symm.trans (List.Perm.of_eq ?_)
    apply List.map_congr_left
    intro k hk
    exact hcell k (List.mem_range.1 hk)
  exact perm_of_map_some hmap

/-! ## The call trace of `transpose_blocked4x4` -/

theorem forStep_id_rule (k step n : Nat) (hstep : 0 < step) (body : Nat → σ → Id σ)
    (Inv : Nat → σ → Prop) (Q : Nat × σ → Prop)
    (hbody : ∀ i s, Inv i s → i + k < n → ∃ s', body i s = s' ∧ Inv (i + step) s')
    (i : Nat) (s : σ) (h0 : Inv i s)
    (hexit : ∀ i s, Inv i s → ¬ (i + k < n) → Q (i, s)) :
    ∃ x, forStep k step n hstep body i s = x ∧ Q x := by
  obtain ⟨m, hm⟩ : ∃ m, n - i = m := ⟨_, rfl⟩
  induction m using Nat.strong_induction_on generalizing i s with
  | _ m ih =>
    rw [forStep]
    by_cases hc : i + k < n
    · obtain ⟨s', hs', hinv⟩ := hbody i s h0 hc
      rw [if_pos hc, hs']
      exact ih (n - (i + step)) (by omega) (i + step) s' hinv rfl
    · rw [if_neg hc]
      exact ⟨(i, s), rfl, hexit i s h0 hc⟩

theorem id_bind_rule {β γ : Type} {m : Id β} {f : β → Id γ} {R : γ → Prop}
    (Q : β → Prop) (hm : ∃ x, m = x ∧ Q x)
    (hf : ∀ x, Q x → ∃ y, f x = y ∧ R y) : ∃ y, (m >>= f) = y ∧ R y := by
  obtain ⟨x, rfl, hx⟩ := hm
  exact hf m hx

theorem transpose_blocked4x4_calls_spec (rows cols : Nat) :
    ∃ L, transpose_blocked4x4_calls rows cols = L ∧
      ∀ c, c ∈ L ↔ CallBefore rows cols rows 0 c := by
  unfold transpose_blocked4x4_calls Id.run
  refine id_bind_rule (fun x => x.1 % 4 = 0 ∧ x.1 ≤ rows ∧ ¬ (x.1 + 3 < rows) ∧
    ∀ c, c ∈ x.2 ↔ CallBefore rows cols x.1 0 c) ?_ ?_
  · refine forStep_id_rule 3 4 rows _ _
      (fun i log => i % 4 = 0 ∧ i ≤ rows ∧ ∀ c, c ∈ log ↔ CallBefore rows cols i 0 c) _
      ?_ 0 [] ⟨rfl, by omega, by intro c; cases c <;> simp [CallBefore]⟩
      (fun i log h hx => ⟨h.1, h.2.1, hx, h.2.2⟩)
    rintro i log ⟨hi4, hile, hlog⟩ hi
    refine id_bind_rule (fun x => x.1 % 4 = 0 ∧ x.1 ≤ cols ∧ ¬ (x.1 + 3 < cols) ∧
      ∀ c, c ∈ x.2 ↔ CallBefore rows cols i x.1 c) ?_ ?_
    · refine forStep_id_rule 3 4 cols _ _
        (fun j log => j % 4 = 0 ∧ j ≤ cols ∧ ∀ c, c ∈ log ↔ CallBefore rows cols i j c) _
        ?_ 0 log ⟨rfl, by omega, hlog⟩
        (fun j log h hx => ⟨h.1, h.2.1, hx, h.2.2⟩)
      rintro j log ⟨hj4, hjle, hlog⟩ hj
      refine ⟨_, rfl, by omega, by omega, ?_⟩
      intro c
      show c ∈ _ ++ [_] ↔ _
      rw [List.mem_append, List.mem_singleton, hlog]
      cases c <;> simp only [CallBefore, Call.kernel.injEq, reduceCtorEq, or_false] <;> omega
    · rintro ⟨j, log⟩ ⟨hj4, hjle, hjx, hlog⟩
      dsimp only at hj4 hjle hjx hlog ⊢
      split
      · refine ⟨_, rfl, by omega, by omega, ?_⟩
        intro c
        show c ∈ _ ++ [_] ↔ _
        rw [List.mem_append, List.mem_singleton, hlog]
        cases c <;> simp only [CallBefore, Call.naive.injEq, reduceCtorEq, or_false] <;> omega
      · refine ⟨_, rfl, by omega, by omega, ?_⟩
        intro c
        show c ∈ log ↔ _
        rw [hlog]
        cases c <;> simp only [CallBefore] <;> omega
  · rintro ⟨i, log⟩ ⟨hi4, hile, hix, hlog⟩
    dsimp only at hi4 hile hix hlog ⊢
    split
    · refine id_bind_rule (fun x => x.1 % 4 = 0 ∧ x.1 ≤ cols ∧ ¬ (x.1 + 3 < cols) ∧
        ∀ c, c ∈ x.2 ↔ CallBefore rows cols i x.1 c) ?_ ?_
      · refine forStep_id_rule 3 4 cols _ _
          (fun j log => j % 4 = 0 ∧ j ≤ cols ∧ ∀ c, c ∈ log ↔ CallBefore rows cols i j c) _
          ?_ 0 log ⟨rfl, by omega, hlog⟩
          (fun j log h hx => ⟨h.1, h.2.1, hx, h.2.2⟩)
        rintro j log ⟨hj4, hjle, hlog⟩ hj
        refine ⟨_, rfl, by omega, by omega, ?_⟩
        intro c
        show c ∈ _ ++ [_] ↔ _
        rw [List.mem_append, List.mem_singleton, hlog]
        cases c <;> simp only [CallBefore, Call.naive.injEq, reduceCtorEq, or_false] <;> omega
      · rintro ⟨j, log⟩ ⟨hj4, hjle, hjx, hlog⟩
        dsimp only at hj4 hjle hjx hlog ⊢
        split
        · refine ⟨_, rfl, ?_⟩
          intro c
          show c ∈ _ ++ [_] ↔ _
          rw [List.mem_append, List.mem_singleton, hlog]
          cases c <;> simp only [CallBefore, Call.naive.injEq, reduceCtorEq, or_false] <;> omega
        · refine ⟨_, rfl, ?_⟩
          intro c
          show c ∈ log ↔ _
          rw [hlog]
          cases c <;> simp only [CallBefore] <;> omega
    · refine ⟨_, rfl, ?_⟩
      intro c
      show c ∈ log ↔ _
      rw [hlog]
      cases c <;> simp only [CallBefore] <;> omega

/-- A loop of the program and the loop that records its calls run in lock step:
if each iteration of the program is the execution of the calls its twin records,
the whole loop is the execution of the recorded calls, and both exit with the same
counter. -/
theorem forStep_trace {C : Type} (k step n : Nat) (hstep : 0 < step)
    (body : Nat → σ → Option σ) (tbody : Nat → List C → Id (List C))
    (exec : σ → C → Option σ)
    (hsim : ∀ i, i + k < n →
      ∃ e, (∀ log, tbody i log = log ++ e) ∧ (∀ s, body i s = e.foldlM exec s))
    (i : Nat) :
    ∃ i' E, (∀ log, forStep k step n hstep tbody i log = (i', log ++ E)) ∧
      (∀ s, forStep k step n hstep body i s = (E.foldlM exec s).map (fun s' => (i', s'))) := by
  obtain ⟨m, hm⟩ : ∃ m, n - i = m := ⟨_, rfl⟩
  induction m using Nat.strong_induction_on generalizing i with
  | _ m ih =>
    by_cases hc : i + k < n
    · obtain ⟨e, he, hb⟩ := hsim i hc
      obtain ⟨i', E, hI, hO⟩ := ih (n - (i + step)) (by omega) (i + step) rfl
      refine ⟨i', e ++ E, ?_, ?_⟩
      · intro log
        rw [forStep, if_pos hc, he]
        show forStep k step n hstep tbody (i + step) (log ++ e) = _
        rw [hI, List.append_assoc]
      · intro s
        rw [forStep, if_pos hc, hb, List.foldlM_append]
        cases h : List.foldlM exec s e with
        | none => rfl
        | some s' => simp only [Option.bind_eq_bind, Option.some_bind, hO]
    · refine ⟨i, [], ?_, ?_⟩
      · intro log
        rw [forStep, if_neg hc, List.append_nil]; rfl
      · intro s
        rw [forStep, if_neg hc]; rfl

/-- One band of four rows (lines 88-95) executes the calls it records. -/
theorem band_trace (src : List α) (a b cols lda ldb i : Nat) :
    ∃ e, (∀ log : List Call, (do
        let (j, log) ← forStep (m := Id) 3 4 cols (by decide) (fun j log =>
          pure (log ++ [Call.kernel i j])) 0 log
        if j < cols then
          pure (log ++ [Call.naive i j 4 (cols - j)])
        else pure log : Id (List Call)) = log ++ e) ∧
      (∀ s : List α, (do
        let (j, dst) ← forStep 3 4 cols (by decide) (fun j dst =>
          transpose_4x4 src dst (a + (i * lda + j)) (b + (j * ldb + i)) lda ldb) 0 s
        if j < cols then
          transpose_naive src dst (a + (i * lda + j)) (b + (j * ldb + i)) 4 (cols - j) lda ldb
        else pure dst) = e.foldlM (Call.run src a b lda ldb) s) := by
  obtain ⟨j', E, hI, hO⟩ := forStep_trace 3 4 cols (by decide)
    (fun j dst => transpose_4x4 src dst (a + (i * lda + j)) (b + (j * ldb + i)) lda ldb)
    (fun j log => pure (log ++ [Call.kernel i j])) (Call.run src a b lda ldb)
    (fun j _ => ⟨[Call.kernel i j], fun log => rfl, fun s => by
      simp [Call.run]⟩) 0
  by_cases hj : j' < cols
  · refine ⟨E ++ [Call.naive i j' 4 (cols - j')], ?_, ?_⟩
    · intro log
      rw [hI]
      show (if j' < cols then _ else _) = _
      rw [if_pos hj, List.append_assoc]; rfl
    · intro s
      rw [hO, List.foldlM_append]
      cases h : List.foldlM (Call.run src a b lda ldb) s E with
      | none => rfl
      | some s' => simp [hj, Call.run]
  · refine ⟨E, ?_, ?_⟩
    · intro log
      rw [hI]
      show (if j' < cols then _ else _) = _
      rw [if_neg hj]; rfl
    · intro s
      rw [hO]
      cases h : List.foldlM (Call.run src a b lda ldb) s E with
      | none => rfl
      | some s' => simp [hj]

/-- The program `transpose_blocked4x4` is the sequential execution of its recorded
call trace. -/
theorem transpose_blocked4x4_eq_calls (src dst : List α) (a b rows cols lda ldb : Nat) :
    transpose_blocked4x4 src dst a b rows cols lda ldb =
      (transpose_blocked4x4_calls rows cols).foldlM (Call.run src a b lda ldb) dst := by
  obtain ⟨i', E, hI, hO⟩ := forStep_trace 3 4 rows (by decide) _ _
    (Call.run src a b lda ldb) (fun i _ => band_trace src a b cols lda ldb i) 0
  unfold transpose_blocked4x4 transpose_blocked4x4_calls Id.run
  rw [hO]
  rw [hI, List.nil_append]
  by_cases hi : i' < rows
  · obtain ⟨j', F, hJ, hP⟩ := forStep_trace 3 4 cols (by decide)
      (fun j dst => transpose_naive src dst (a + (i' * lda + j)) (b + (j * ldb + i'))
        (rows - i') 4 lda ldb)
      (fun j log => pure (log ++ [Call.naive i' j (rows - i') 4])) (Call.run src a b lda ldb)
      (fun j _ => ⟨[Call.naive i' j (rows - i') 4], fun log => rfl, fun s => by
        simp [Call.run]⟩) 0
    show _ = List.foldlM _ dst (if i' < rows then _ else _)
    rw [if_pos hi]
    rw [hJ]
    cases h : List.foldlM (Call.run src a b lda ldb) dst E with
    | none =>
      by_cases hj : j' < cols
      · show _ = List.foldlM _ dst (if j' < cols then _ else _)
        rw [if_pos hj]
        show _ = List.foldlM _ dst ((E ++ F) ++ [_])
        rw [List.append_assoc, List.foldlM_append, h]; rfl
      · show _ = List.foldlM _ dst (if j' < cols then _ else _)
        rw [if_neg hj]
        show _ = List.foldlM _ dst (E ++ F)
        rw [List.foldlM_append, h]; rfl
    | some s =>
      simp only [Option.map_some', Option.bind_eq_bind, Option.some_bind, if_pos hi, hP]
      by_cases hj : j' < cols
      · show _ = List.foldlM _ dst (if j' < cols then _ else _)
        rw [if_pos hj]
        show _ = List.foldlM _ dst ((E ++ F) ++ [_])
        rw [List.append_assoc, List.foldlM_append, h]
        simp only [Option.bind_eq_bind, Option.some_bind, List.foldlM_append]
        cases h2 : List.foldlM (Call.run src a b lda ldb) s F with
        | none => rfl
        | some s2 => simp [hj, Call.run]
      · show _ = List.foldlM _ dst (if j' < cols then _ else _)
        rw [if_neg hj]
        show _ = List.foldlM _ dst (E ++ F)
        rw [List.foldlM_append, h]
        simp only [Option.bind_eq_bind, Option.some_bind]
        cases h2 : List.foldlM (Call.run src a b lda ldb) s F with
        | none => rfl
        | some s2 => simp [hj]
  · show _ = List.foldlM _ dst (if i' < rows then _ else _)
    rw [if_neg hi]
    show _ = List.foldlM _ dst E
    cases h : List.foldlM (Call.run src a b lda ldb) dst E with
    | none => rfl
    | some s => simp [hi]

/-- C10. Tile origins of the micro-kernel.  For all `rows`, `cols`:
`transpose_blocked4x4` invokes `transpose_4x4` exactly at the origins `(4p, 4q)`
with `4p + 4 ≤ rows` and `4q + 4 ≤ cols` (every full tile, never a partial or
out-of-range one); every `transpose_naive` call it makes is a non-empty rectangle
inside the matrix with fewer than 4 rows or fewer than 4 columns, lying in a partial
tile; every cell of the matrix lies in a full tile given to the kernel or else in a
rectangle given to `transpose_naive`; and the program is the execution, in order,
of exactly these calls. -/
theorem transpose_blocked4x4_tile_origins (rows cols : Nat) :
    (∀ i j, Call.kernel i j ∈ transpose_blocked4x4_calls rows cols ↔
      ∃ p q, i = 4 * p ∧ j = 4 * q ∧ 4 * p + 4 ≤ rows ∧ 4 * q + 4 ≤ cols) ∧
    (∀ i j r c, Call.naive i j r c ∈ transpose_blocked4x4_calls rows cols →
      0 < r ∧ 0 < c ∧ i + r ≤ rows ∧ j + c ≤ cols ∧ (r < 4 ∨ c < 4) ∧
        (rows < i + 4 ∨ cols < j + 4)) ∧
    (∀ x y, x < rows → y < cols →
      if 4 * (x / 4) + 4 ≤ rows ∧ 4 * (y / 4) + 4 ≤ cols then
        Call.kernel (4 * (x / 4)) (4 * (y / 4)) ∈ transpose_blocked4x4_calls rows cols
      else
        ∃ i j r c, Call.naive i j r c ∈ transpose_blocked4x4_calls rows cols ∧
          i ≤ x ∧ x < i + r ∧ j ≤ y ∧ y < j + c) ∧
    (∀ (β : Type) (src dst : List β) (a b lda ldb : Nat),
      transpose_blocked4x4 src dst a b rows cols lda ldb =
        (transpose_blocked4x4_calls rows cols).foldlM (Call.run src a b lda ldb) dst) := by
  obtain ⟨L, hL, hmem⟩ := transpose_blocked4x4_calls_spec rows cols
  refine ⟨?_, ?_, ?_, fun β src dst a b lda ldb =>
    transpose_blocked4x4_eq_calls src dst a b rows cols lda ldb⟩
  · intro i j
    rw [hL, hmem]
    simp only [CallBefore]
    constructor
    · intro h
      exact ⟨i / 4, j / 4, by omega, by omega, by omega, by omega⟩
    · rintro ⟨p, q, rfl, rfl, hp, hq⟩
      omega
  · intro i j r c
    rw [hL, hmem]
    simp only [CallBefore]
    omega
  · intro x y hx hy
    split
    · rw [hL, hmem]
      simp only [CallBefore]
      omega
    · refine ⟨4 * (x / 4), 4 * (y / 4), min 4 (rows - 4 * (x / 4)),
        min 4 (cols - 4 * (y / 4)), ?_, by omega, by omega, by omega, by omega⟩
      rw [hL, hmem]
      simp only [CallBefore, true_and]
      omega

/-! # Further contract claims -/

/-! ## Blocked 4x4, quadrants, split point -/

theorem maskLow2_i32_eq (x : Nat) (hx : x < 2 ^ 31) : maskLow2_i32 x = 4 * (x / 4) := by
  apply Nat.eq_of_testBit_eq
  intro i
  unfold maskLow2_i32
  rw [Nat.testBit_land, show (4 : Nat) = 2 ^ 2 by rfl, Nat.testBit_mul_pow_two]
  by_cases hi : i < 32
  · interval_cases i <;> simp [Nat.testBit_succ, Nat.div_div_eq_div_mul]
  · have hpow : 2 ^ 30 ≤ 2 ^ (i - 2) := Nat.pow_le_pow_right (by decide) (by omega)
    have hpow' : 2 ^ 31 ≤ 2 ^ i := Nat.pow_le_pow_right (by decide) (by omega)
    have hx4 : x / 2 ^ 2 < 2 ^ 30 := by omega
    rw [Nat.testBit_lt_two_pow (lt_of_lt_of_le hx hpow'),
      Nat.testBit_lt_two_pow (lt_of_lt_of_le hx4 hpow)]
    simp

/-- In unbounded integers.  `transpose_blocked4x4` is equivalent to `transpose_naive`: for all `rows`,
`cols` (divisible by 4 or not), `ldb ≥ rows` and buffers that hold the two views,
both calls succeed and leave the same final destination buffer, in which every
cell `b[j*ldb + i]` holds `a[i*lda + j]`: the full tiles and the three naive
fall-back rectangles cover every cell with the correct value.  (The hypothesis
`lda ≥ cols` is not needed.) -/
theorem transpose_blocked4x4_eq_naive (src dst : List α) (a b rows cols lda ldb : Nat)
    (hldb : rows ≤ ldb) (hs : Fits a rows cols lda src.length)
    (hd : Fits b cols rows ldb dst.length) :
    ∃ dst', transpose_blocked4x4 src dst a b rows cols lda ldb = some dst' ∧
      transpose_naive src dst a b rows cols lda ldb = some dst' ∧
      ∀ i j, i < rows → j < cols →
        ∃ v, src[a + (i * lda + j)]? = some v ∧ dst'[b + (j * ldb + i)]? = some v := by
  obtain ⟨d1, h1, t1⟩ :=
    transpose_blocked4x4_spec src dst a b rows cols lda ldb (Or.inr hldb) hs hd
  obtain ⟨d2, h2, t2⟩ := transpose_naive_spec src dst a b rows cols lda ldb (Or.inr hldb) hs hd
  exact ⟨d1, h1, by rw [h2, Moved.unique t2 t1], fun i j hi hj => t1.cell hs hi hj⟩

/-- In unbounded integers.  Quadrant decomposition identity.  For every split point `hr ≤ rows`,
`hc ≤ cols`, `ldb ≥ rows` and buffers that hold the two views, running
`transpose_naive` on the four quadrants with the offsets used by
`transpose_oblivious` succeeds and leaves the same destination buffer as a single
`transpose_naive` call on the whole `rows` x `cols` matrix.  (The hypothesis
`lda ≥ cols` is not needed.) -/
theorem transpose_naive_quadrants_eq (src dst : List α) (a b rows cols hr hc lda ldb : Nat)
    (hhr : hr ≤ rows) (hhc : hc ≤ cols) (hldb : rows ≤ ldb)
    (hs : Fits a rows cols lda src.length) (hd : Fits b cols rows ldb dst.length) :
    ∃ dst', transpose_naive_quadrants src dst a b rows cols hr hc lda ldb = some dst' ∧
      transpose_naive src dst a b rows cols lda ldb = some dst' := by
  obtain ⟨d0, h0, t0⟩ := transpose_naive_spec src dst a b rows cols lda ldb (Or.inr hldb) hs hd
  have hq : ∃ dst', transpose_naive_quadrants src dst a b rows cols hr hc lda ldb = some dst' ∧
      Transposed src dst a b rows cols lda ldb dst' := by
    unfold transpose_naive_quadrants
    have hm : Moved src dst a b lda ldb (fun _ _ => False) dst :=
      Moved.refl _ _ _ _ _ _ _ (by intro i j h; exact h)
    refine bind_rule (Moved src dst a b lda ldb (fun i j => i < hr ∧ j < hc)) ?_ ?_
    · exact call_rule 0 0 hm
        (transpose_naive_spec src dst a b hr hc lda ldb (by omega)
          (hs.sub (by omega : 0 + hr ≤ rows) (by omega : 0 + hc ≤ cols) (by omega))
          (hd.sub (by omega : 0 + hc ≤ cols) (by omega : 0 + hr ≤ rows) (by omega)))
        (by omega) (by omega) (by intro i j h; exact h.elim) (by omega)
        (by intro i j; simp)
    intro s1 h1
    refine bind_rule (Moved src dst a b lda ldb (fun i j => i < hr ∧ j < cols)) ?_ ?_
    · exact call_rule 0 hc h1
        (transpose_naive_spec src s1 _ _ hr (cols - hc) lda ldb (by omega)
          (hs.sub (by omega : 0 + hr ≤ rows) (by omega : hc + (cols - hc) ≤ cols) (by omega))
          ((hd.sub (by omega : hc + (cols - hc) ≤ cols) (by omega : 0 + hr ≤ rows)
            (by omega)).of_length_eq h1.1))
        (by omega) (by omega) (by intro i j h; omega) (by omega) (by intro i j; omega)
    intro s2 h2
    refine bind_rule
      (Moved src dst a b lda ldb (fun i j => (i < hr ∧ j < cols) ∨ (i < rows ∧ j < hc))) ?_ ?_
    · exact call_rule hr 0 h2
        (transpose_naive_spec src s2 _ _ (rows - hr) hc lda ldb (by omega)
          (hs.sub (by omega : hr + (rows - hr) ≤ rows) (by omega : 0 + hc ≤ cols) (by omega))
          ((hd.sub (by omega : 0 + hc ≤ cols) (by omega : hr + (rows - hr) ≤ rows)
            (by omega)).of_length_eq h2.1))
        (by omega) (by omega) (by intro i j h; omega) (by omega) (by intro i j; omega)
    intro s3 h3
    exact call_rule hr hc h3
      (transpose_naive_spec src s3 _ _ (rows - hr) (cols - hc) lda ldb (by omega)
        (hs.sub (by omega : hr + (rows - hr) ≤ rows) (by omega : hc + (cols - hc) ≤ cols) rfl)
        ((hd.sub (by omega : hc + (cols - hc) ≤ cols) (by omega : hr + (rows - hr) ≤ rows)
          rfl).of_length_eq h3.1))
      rfl rfl (by intro i j h; omega) (by omega) (by intro i j; omega)
  obtain ⟨d1, h1, t1⟩ := hq
  exact ⟨d1, h1, by rw [h0, Moved.unique t0 t1]⟩

/-- C15. The split point.  For every `n ≥ 0`, `(n / 2) & ~0b11` equals
`4 * floor(n / 8)`: it is a multiple of 4, it is at most `n / 2`, and it is the
largest multiple of 4 not exceeding `n / 2`.  For `n` in the range of a 32-bit
`int`, the bitwise and of the 32-bit patterns gives the same value. -/
theorem split_point_value (n : Nat) :
    maskLow2 (n / 2) = 4 * (n / 8) ∧ 4 ∣ maskLow2 (n / 2) ∧ maskLow2 (n / 2) ≤ n / 2 ∧
      (∀ m, 4 ∣ m → m ≤ n / 2 → m ≤ maskLow2 (n / 2)) ∧
      (n < 2 ^ 31 → maskLow2_i32 (n / 2) = maskLow2 (n / 2)) := by
  have h : maskLow2 (n / 2) = 4 * (n / 8) := by rw [maskLow2_eq]; omega
  refine ⟨h, ?_, ?_, ?_, ?_⟩
  · rw [h]; exact ⟨_, rfl⟩
  · rw [h]; omega
  · intro m hm hle
    rw [h]; omega
  · intro hn
    rw [maskLow2_i32_eq _ (by omega), maskLow2_eq]

/-- Witness for C15 at `n = 2147483647`, the largest `int`: the split point is
`1073741820` in both readings. -/
theorem split_point_value_witness :
    maskLow2_i32 (2147483647 / 2) = 1073741820 ∧ maskLow2 (2147483647 / 2) = 1073741820 :=
  have h := split_point_value 2147483647
  ⟨by rw [h.2.2.2.2 (by decide), h.1], by rw [h.1]⟩

/-! ## The recursion of the cache-oblivious transposers -/

/-- Outside the base case `transpose_oblivious` is the execution, in order, of its
recorded recursive calls; in the base case it is `transpose_naive`. -/
theorem transpose_oblivious_eq_calls (src dst : List α) (a b rows cols lda ldb : Nat) :
    transpose_oblivious src dst a b rows cols lda ldb =
      if rows ≤ 16 ∧ cols ≤ 16 then transpose_naive src dst a b rows cols lda ldb
      else (transpose_oblivious_calls rows cols).foldlM (fun dst c =>
        transpose_oblivious src dst (a + (c.i * lda + c.j)) (b + (c.j * ldb + c.i))
          c.rows c.cols lda ldb) dst := by
  rw [transpose_oblivious]
  split
  · rfl
  · rename_i h
    simp only [transpose_oblivious_calls, if_neg h, List.foldlM_cons, List.foldlM_nil,
      Nat.zero_mul, Nat.zero_add, Nat.add_zero, bind_pure]

/-- Outside the base case `transpose_oblivious2` is the execution, in order, of its
recorded recursive calls; in the base case it is `transpose_blocked4x4`. -/
theorem transpose_oblivious2_eq_calls (src dst : List α) (a b rows cols lda ldb : Nat) :
    transpose_oblivious2 src dst a b rows cols lda ldb =
      if rows ≤ 16 ∧ cols ≤ 16 then transpose_blocked4x4 src dst a b rows cols lda ldb
      else (transpose_oblivious2_calls rows cols).foldlM (fun dst c =>
        transpose_oblivious2 src dst (a + (c.i * lda + c.j)) (b + (c.j * ldb + c.i))
          c.rows c.cols lda ldb) dst := by
  rw [transpose_oblivious2]
  split
  · rfl
  · rename_i h
    unfold transpose_oblivious2_calls
    rw [if_neg h]
    split
    · simp only [List.foldlM_cons, List.foldlM_nil,
        Nat.zero_mul, Nat.zero_add, Nat.add_zero, bind_pure]
    · split
      · simp only [List.foldlM_cons, List.foldlM_nil,
          Nat.zero_mul, Nat.zero_add, Nat.add_zero, bind_pure]
      · simp only [List.foldlM_cons, List.foldlM_nil,
          Nat.zero_mul, Nat.zero_add, Nat.add_zero, bind_pure]

theorem maskLow2_half (n : Nat) : maskLow2 (n / 2) = 4 * (n / 8) := by
  rw [maskLow2_eq]; omega

theorem mem_oblivious_calls {rows cols : Nat} {c : SubCall}
    (h : c ∈ transpose_oblivious_calls rows cols) :
    ¬ (rows ≤ 16 ∧ cols ≤ 16) ∧
      (c = ⟨0, 0, 4 * (rows / 8), 4 * (cols / 8)⟩ ∨
       c = ⟨0, 4 * (cols / 8), 4 * (rows / 8), cols - 4 * (cols / 8)⟩ ∨
       c = ⟨4 * (rows / 8), 0, rows - 4 * (rows / 8), 4 * (cols / 8)⟩ ∨
       c = ⟨4 * (rows / 8), 4 * (cols / 8), rows - 4 * (rows / 8), cols - 4 * (cols / 8)⟩) := by
  unfold transpose_oblivious_calls at h
  split at h
  · simp at h
  · rename_i hb
    simp only [maskLow2_half, List.mem_cons, List.mem_singleton, List.not_mem_nil,
      or_false] at h
    exact ⟨hb, h⟩

theorem mem_oblivious2_calls {rows cols : Nat} {c : SubCall}
    (h : c ∈ transpose_oblivious2_calls rows cols) :
    ¬ (rows ≤ 16 ∧ cols ≤ 16) ∧
      ((rows ≤ 8 ∧
        (c = ⟨0, 0, rows, 4 * (cols / 8)⟩ ∨
         c = ⟨0, 4 * (cols / 8), rows, cols - 4 * (cols / 8)⟩)) ∨
       (8 < rows ∧ cols ≤ 8 ∧
        (c = ⟨0, 0, 4 * (rows / 8), cols⟩ ∨
         c = ⟨4 * (rows / 8), 0, rows - 4 * (rows / 8), cols⟩)) ∨
       (8 < rows ∧ 8 < cols ∧
        (c = ⟨0, 0, 4 * (rows / 8), 4 * (cols / 8)⟩ ∨
         c = ⟨0, 4 * (cols / 8), 4 * (rows / 8), cols - 4 * (cols / 8)⟩ ∨
         c = ⟨4 * (rows / 8), 0, rows - 4 * (rows / 8), 4 * (cols / 8)⟩ ∨
         c = ⟨4 * (rows / 8), 4 * (cols / 8), rows - 4 * (rows / 8),
           cols - 4 * (cols / 8)⟩))) := by
  unfold transpose_oblivious2_calls at h
  split at h
  · simp at h
  · rename_i hb
    refine ⟨hb, ?_⟩
    split at h
    · rename_i h8
      simp only [maskLow2_half, List.mem_cons, List.mem_singleton, List.not_mem_nil,
        or_false] at h
      exact Or.inl ⟨h8, h⟩
    · rename_i h8
      split at h
      · rename_i hc8
        simp only [maskLow2_half, List.mem_cons, List.mem_singleton, List.not_mem_nil,
          or_false] at h
        exact Or.inr (Or.inl ⟨by omega, hc8, h⟩)
      · rename_i hc8
        simp only [maskLow2_half, List.mem_cons, List.mem_singleton, List.not_mem_nil,
          or_false] at h
        exact Or.inr (Or.inr ⟨by omega, by omega, h⟩)

theorem oblivious_calls_lt {rows cols : Nat} {c : SubCall}
    (h : c ∈ transpose_oblivious_calls rows cols) : c.rows + c.cols < rows + cols := by
  obtain ⟨hb, h | h | h | h⟩ := mem_oblivious_calls h <;> subst h <;> simp only <;> omega

theorem oblivious2_calls_lt {rows cols : Nat} {c : SubCall}
    (h : c ∈ transpose_oblivious2_calls rows cols) : c.rows + c.cols < rows + cols := by
  obtain ⟨hb, ⟨h8, h | h⟩ | ⟨h8, hc8, h | h⟩ | ⟨h8, hc8, h | h | h | h⟩⟩ :=
    mem_oblivious2_calls h <;> subst h <;> simp only <;> omega

theorem calledBy_wf (calls : Nat → Nat → List SubCall)
    (h : ∀ rows cols, ∀ c ∈ calls rows cols, c.rows + c.cols < rows + cols) :
    WellFounded (CalledBy calls) := by
  refine Subrelation.wf ?_ (measure (fun p : Nat × Nat => p.1 + p.2)).wf
  rintro child parent ⟨c, hc, rfl⟩
  exact h parent.1 parent.2 c hc

/-- C11. Termination of the recursive transposers.  For all `rows`, `cols` the split
points do not exceed the sides (so the differences `rows - halfRow` and
`cols - halfCol`, computed in `int`, are non-negative and are the natural-number
differences of the model); every recursive call made by `transpose_oblivious` and
by `transpose_oblivious2` (there is none in the base case) receives dimensions with
`rows' + cols' < rows + cols`; hence the call relation of each function is
well-founded: no infinite chain of nested calls exists.  The recorded calls are the
calls of the programs: outside the base case each program is the execution, in
order, of its recorded recursive calls.  (The embedded programs themselves are
defined by well-founded recursion on `rows + cols`, so they are total.) -/
theorem transpose_oblivious_terminates :
    (∀ n, maskLow2 (n / 2) ≤ n) ∧
    (∀ rows cols, ∀ c ∈ transpose_oblivious_calls rows cols,
      c.rows + c.cols < rows + cols) ∧
    (∀ rows cols, ∀ c ∈ transpose_oblivious2_calls rows cols,
      c.rows + c.cols < rows + cols) ∧
    WellFounded (CalledBy transpose_oblivious_calls) ∧
    WellFounded (CalledBy transpose_oblivious2_calls) ∧
    (∀ (γ : Type) (src dst : List γ) (a b rows cols lda ldb : Nat),
      transpose_oblivious src dst a b rows cols lda ldb =
        if rows ≤ 16 ∧ cols ≤ 16 then transpose_naive src dst a b rows cols lda ldb
        else (transpose_oblivious_calls rows cols).foldlM (fun dst c =>
          transpose_oblivious src dst (a + (c.i * lda + c.j)) (b + (c.j * ldb + c.i))
            c.rows c.cols lda ldb) dst) ∧
    (∀ (γ : Type) (src dst : List γ) (a b rows cols lda ldb : Nat),
      transpose_oblivious2 src dst a b rows cols lda ldb =
        if rows ≤ 16 ∧ cols ≤ 16 then transpose_blocked4x4 src dst a b rows cols lda ldb
        else (transpose_oblivious2_calls rows cols).foldlM (fun dst c =>
          transpose_oblivious2 src dst (a + (c.i * lda + c.j)) (b + (c.j * ldb + c.i))
            c.rows c.cols lda ldb) dst) :=
  ⟨fun n => by rw [maskLow2_half]; omega,
    fun _ _ _ h => oblivious_calls_lt h, fun _ _ _ h => oblivious2_calls_lt h,
    calledBy_wf _ (fun _ _ _ h => oblivious_calls_lt h),
    calledBy_wf _ (fun _ _ _ h => oblivious2_calls_lt h),
    fun _ src dst a b rows cols lda ldb =>
      transpose_oblivious_eq_calls src dst a b rows cols lda ldb,
    fun _ src dst a b rows cols lda ldb =>
      transpose_oblivious2_eq_calls src dst a b rows cols lda ldb⟩

/-- C18. Sides above the threshold are split.  In every non-base call of
`transpose_oblivious` and of `transpose_oblivious2` recursive calls are made, and a
side of length `s > 16` is cut at the split point `h = (s / 2) & ~0b11`: each
recursive call receives either the piece `[0, h)` or the piece `[h, s)` of that
side, of a length between 4 and `s - 4`. -/
theorem transpose_oblivious_split_sides (rows cols : Nat) :
    (¬ (rows ≤ 16 ∧ cols ≤ 16) →
      transpose_oblivious_calls rows cols ≠ [] ∧ transpose_oblivious2_calls rows cols ≠ []) ∧
    (∀ c, c ∈ transpose_oblivious_calls rows cols ∨ c ∈ transpose_oblivious2_calls rows cols →
      (16 < rows → 4 ≤ c.rows ∧ c.rows + 4 ≤ rows ∧
        ((c.i = 0 ∧ c.rows = maskLow2 (rows / 2)) ∨
          (c.i = maskLow2 (rows / 2) ∧ c.rows = rows - maskLow2 (rows / 2)))) ∧
      (16 < cols → 4 ≤ c.cols ∧ c.cols + 4 ≤ cols ∧
        ((c.j = 0 ∧ c.cols = maskLow2 (cols / 2)) ∨
          (c.j = maskLow2 (cols / 2) ∧ c.cols = cols - maskLow2 (cols / 2))))) := by
  refine ⟨fun hb => ⟨?_, ?_⟩, ?_⟩
  · unfold transpose_oblivious_calls
    rw [if_neg hb]
    exact List.cons_ne_nil _ _
  · unfold transpose_oblivious2_calls
    rw [if_neg hb]
    split
    · exact List.cons_ne_nil _ _
    · split <;> exact List.cons_ne_nil _ _
  · intro c h
    rw [maskLow2_half, maskLow2_half]
    rcases h with h | h
    · obtain ⟨hb, h | h | h | h⟩ := mem_oblivious_calls h
      all_goals
        subst h
        dsimp only
        refine ⟨fun h1 => ⟨by omega, by omega, ?_⟩, fun h1 => ⟨by omega, by omega, ?_⟩⟩ <;>
          first
            | exact Or.inl ⟨by omega, by omega⟩
            | exact Or.inr ⟨by omega, by omega⟩
    · obtain ⟨hb, ⟨h8, h | h⟩ | ⟨h8, hc8, h | h⟩ | ⟨h8, hc8, h | h | h | h⟩⟩ :=
        mem_oblivious2_calls h
      all_goals
        subst h
        dsimp only
        refine ⟨fun h1 => ⟨by omega, by omega, ?_⟩, fun h1 => ⟨by omega, by omega, ?_⟩⟩ <;>
          first
            | exact Or.inl ⟨by omega, by omega⟩
            | exact Or.inr ⟨by omega, by omega⟩

/-- Witness for C18: the calls of a 17x40 matrix (both sides above 16). -/
theorem transpose_oblivious_split_sides_witness :
    transpose_oblivious_calls 17 40 ≠ [] ∧ transpose_oblivious2_calls 17 40 ≠ [] :=
  (transpose_oblivious_split_sides 17 40).1 (by decide)

/-- C14. Adaptive split.  For `rows ≤ 8` and `cols > 16`, `transpose_oblivious2`
makes exactly two recursive calls, `(rows, halfCol)` and `(rows, cols - halfCol)`,
and every call of the whole recursion tree (every call reachable from the root
through the call relation) has the original `rows`: the short axis is never split.
Symmetrically for `cols ≤ 8` and `rows > 16`, with `halfRow` and `cols` kept. -/
theorem transpose_oblivious2_adaptive_split (rows cols : Nat) :
    (rows ≤ 8 → 16 < cols →
      transpose_oblivious2_calls rows cols =
        [⟨0, 0, rows, maskLow2 (cols / 2)⟩,
         ⟨0, maskLow2 (cols / 2), rows, cols - maskLow2 (cols / 2)⟩] ∧
      ∀ p, Relation.ReflTransGen
          (fun parent child => CalledBy transpose_oblivious2_calls child parent)
          (rows, cols) p → p.1 = rows) ∧
    (cols ≤ 8 → 16 < rows →
      transpose_oblivious2_calls rows cols =
        [⟨0, 0, maskLow2 (rows / 2), cols⟩,
         ⟨maskLow2 (rows / 2), 0, rows - maskLow2 (rows / 2), cols⟩] ∧
      ∀ p, Relation.ReflTransGen
          (fun parent child => CalledBy transpose_oblivious2_calls child parent)
          (rows, cols) p → p.2 = cols) := by
  constructor
  · intro h8 h16
    constructor
    · unfold transpose_oblivious2_calls
      rw [if_neg (by omega), if_pos h8]
    · intro p hp
      induction hp with
      | refl => rfl
      | tail _ hstep ih =>
        obtain ⟨c, hc, rfl⟩ := hstep
        obtain ⟨hb, ⟨h, e | e⟩ | ⟨h, _, _⟩ | ⟨h, _, _⟩⟩ := mem_oblivious2_calls hc
        · subst e; exact ih
        · subst e; exact ih
        · omega
        · omega
  · intro h8 h16
    constructor
    · unfold transpose_oblivious2_calls
      rw [if_neg (by omega), if_neg (by omega), if_pos h8]
    · intro p hp
      induction hp with
      | refl => rfl
      | tail _ hstep ih =>
        obtain ⟨c, hc, rfl⟩ := hstep
        obtain ⟨hb, ⟨h, _⟩ | ⟨h, _, e | e⟩ | ⟨_, h, _⟩⟩ := mem_oblivious2_calls hc
        · omega
        · subst e; exact ih
        · subst e; exact ih
        · omega

/-- Witness for C14: the skewed 4x400 matrix and its mirror image 400x4. -/
theorem transpose_oblivious2_adaptive_split_witness :
    (transpose_oblivious2_calls 4 400 =
        [⟨0, 0, 4, maskLow2 (400 / 2)⟩,
         ⟨0, maskLow2 (400 / 2), 4, 400 - maskLow2 (400 / 2)⟩] ∧
      ∀ p, Relation.ReflTransGen
          (fun parent child => CalledBy transpose_oblivious2_calls child parent)
          (4, 400) p → p.1 = 4) ∧
    (transpose_oblivious2_calls 400 4 =
        [⟨0, 0, maskLow2 (400 / 2), 4⟩,
         ⟨maskLow2 (400 / 2), 0, 400 - maskLow2 (400 / 2), 4⟩] ∧
      ∀ p, Relation.ReflTransGen
          (fun parent child => CalledBy transpose_oblivious2_calls child parent)
          (400, 4) p → p.2 = 4) :=
  ⟨(transpose_oblivious2_adaptive_split 4 400).1 (by decide) (by decide),
    (transpose_oblivious2_adaptive_split 400 4).2 (by decide) (by decide)⟩

/-- Every chain of nested calls of a recursion whose larger side `M > 16` shrinks at
each call to at most `(M - 8) / 2 + 8` has at most `log2 (M - 8)` calls below the
root. -/
theorem chain_length_le (calls : Nat → Nat → List SubCall)
    (hstep : ∀ rows cols, ∀ c ∈ calls rows cols,
      16 < max rows cols ∧
        (max c.rows c.cols ≤ 16 ∨ max c.rows c.cols - 8 ≤ (max rows cols - 8) / 2))
    (l : List (Nat × Nat)) :
    ∀ p, List.Chain (fun p q => CalledBy calls q p) p l →
      l.length ≤ if max p.1 p.2 ≤ 16 then 0 else Nat.log 2 (max p.1 p.2 - 8) := by
  induction l with
  | nil => intro p _; exact Nat.zero_le _
  | cons q l ih =>
    intro p hp
    rw [List.chain_cons] at hp
    obtain ⟨⟨c, hc, rfl⟩, hl⟩ := hp
    have hlen := ih _ hl
    obtain ⟨hM, hq⟩ := hstep p.1 p.2 c hc
    rw [if_neg (by omega)]
    have hpos : 0 < Nat.log 2 (max p.1 p.2 - 8) := Nat.log_pos (by decide) (by omega)
    rw [List.length_cons]
    dsimp only at hlen
    by_cases h16 : max c.rows c.cols ≤ 16
    · rw [if_pos h16] at hlen
      omega
    · rw [if_neg h16] at hlen
      have hmono : Nat.log 2 (max c.rows c.cols - 8) ≤ Nat.log 2 ((max p.1 p.2 - 8) / 2) :=
        Nat.log_mono_right (by omega)
      rw [Nat.log_div_base] at hmono
      omega

/-- C17. Logarithmic recursion depth.  With the constant `c = 1`: for all `rows`,
`cols`, every chain of nested calls of `transpose_oblivious`, and of
`transpose_oblivious2`, that starts at the call `(rows, cols)` consists of at most
`c * (1 + log2 (1 + max rows cols))` calls (the root and the `l.length` calls nested
below it; `log2` rounded down). -/
theorem transpose_oblivious_depth_log :
    ∃ c : Nat, ∀ (rows cols : Nat) (l : List (Nat × Nat)),
      (List.Chain (fun p q => CalledBy transpose_oblivious_calls q p) (rows, cols) l ∨
        List.Chain (fun p q => CalledBy transpose_oblivious2_calls q p) (rows, cols) l) →
      l.length + 1 ≤ c * (1 + Nat.log 2 (1 + max rows cols)) := by
  refine ⟨1, fun rows cols l h => ?_⟩
  have hbound : l.length ≤
      if max rows cols ≤ 16 then 0 else Nat.log 2 (max rows cols - 8) := by
    rcases h with h | h
    · refine chain_length_le _ ?_ l (rows, cols) h
      intro rows cols c hc
      obtain ⟨hb, e | e | e | e⟩ := mem_oblivious_calls hc <;> subst e <;> simp only <;> omega
    · refine chain_length_le _ ?_ l (rows, cols) h
      intro rows cols c hc
      obtain ⟨hb, ⟨h8, e | e⟩ | ⟨h8, hc8, e | e⟩ | ⟨h8, hc8, e | e | e | e⟩⟩ :=
        mem_oblivious2_calls hc <;> subst e <;> simp only <;> omega
  have hmono : Nat.log 2 (max rows cols - 8) ≤ Nat.log 2 (1 + max rows cols) :=
    Nat.log_mono_right (by omega)
  split at hbound <;> omega

/-- Witness for C17: the chain `(100, 100) → (52, 52) → (28, 28) → (16, 16)` of
nested calls of `transpose_oblivious`. -/
theorem transpose_oblivious_depth_log_witness :
    ∃ c : Nat, [(52, 52), (28, 28), (16, 16)].length + 1
      ≤ c * (1 + Nat.log 2 (1 + max 100 100)) := by
  obtain ⟨c, hc⟩ := transpose_oblivious_depth_log
  refine ⟨c, hc 100 100 [(52, 52), (28, 28), (16, 16)] (Or.inl ?_)⟩
  have e : ∀ n, maskLow2 (n / 2) = 4 * (n / 8) := maskLow2_half
  simp [List.chain_cons, CalledBy, transpose_oblivious_calls, e]

/-! ## The blocks of `transpose_blocked` -/

theorem id_map_rule {β γ : Type} {m : Id β} {f : β → γ} {R : γ → Prop}
    (hm : ∃ x, m = x ∧ R (f x)) : ∃ y, (f <$> m) = y ∧ R y := by
  obtain ⟨x, rfl, hx⟩ := hm
  exact ⟨f m, rfl, hx⟩

theorem transpose_blocked_blocks_spec (rows cols : Nat) :
    ∃ L, transpose_blocked_blocks rows cols = L ∧ L.Nodup ∧
      ∀ blk, blk ∈ L ↔ BlockBefore rows cols rows 0 blk := by
  have hbs : block_size = 128 := rfl
  unfold transpose_blocked_blocks Id.run
  refine id_map_rule ?_
  refine forStep_id_rule 0 block_size rows _ _
    (fun i log => i % 128 = 0 ∧ log.Nodup ∧
      ∀ blk, blk ∈ log ↔ BlockBefore rows cols i 0 blk) _
    ?_ 0 [] ⟨rfl, List.nodup_nil, by intro blk; simp [BlockBefore]⟩ ?_
  · rintro i log ⟨hi4, hnd, hlog⟩ hi
    dsimp only
    refine id_map_rule ?_
    refine forStep_id_rule 0 block_size cols _ _
      (fun j log => j % 128 = 0 ∧ log.Nodup ∧
        ∀ blk, blk ∈ log ↔ BlockBefore rows cols i j blk) _
      ?_ 0 log ⟨rfl, hnd, hlog⟩ ?_
    · rintro j log ⟨hj4, hnd, hlog⟩ hj
      have hmem : ∀ blk, blk ∈ log ++ [(⟨i, j, min block_size (rows - i),
          min block_size (cols - j)⟩ : SubCall)] ↔
          BlockBefore rows cols i (j + block_size) blk := by
        intro blk
        rw [List.mem_append, List.mem_singleton, hlog]
        cases blk
        simp only [BlockBefore, SubCall.mk.injEq]
        omega
      refine ⟨_, rfl, by omega, ?_, hmem⟩
      show (log ++ [_]).Nodup
      rw [List.nodup_append]
      refine ⟨hnd, List.nodup_singleton _, ?_⟩
      intro blk h1 h2
      rw [List.mem_singleton] at h2
      subst h2
      have := (hlog _).1 h1
      simp only [BlockBefore] at this
      omega
    · rintro j log ⟨hj4, hnd, hlog⟩ hj
      refine ⟨by omega, hnd, ?_⟩
      intro blk
      rw [hlog]
      cases blk
      simp only [BlockBefore]
      omega
  · rintro i log ⟨hi4, hnd, hlog⟩ hi
    refine ⟨hnd, ?_⟩
    intro blk
    show blk ∈ log ↔ _
    rw [hlog]
    cases blk
    simp only [BlockBefore]
    omega

/-- The program `transpose_blocked` is the execution of `transpose_blocked4x4` on
its recorded blocks, in order. -/
theorem transpose_blocked_eq_blocks (src dst : List α) (a b rows cols lda ldb : Nat) :
    transpose_blocked src dst a b rows cols lda ldb =
      (transpose_blocked_blocks rows cols).foldlM (fun dst blk =>
        transpose_blocked4x4 src dst (a + (blk.i * lda + blk.j)) (b + (blk.j * ldb + blk.i))
          blk.rows blk.cols lda ldb) dst := by
  obtain ⟨i', E, hI, hO⟩ := forStep_trace 0 block_size rows (by decide)
    (fun i dst =>
      let r := min block_size (rows - i)
      Prod.snd <$> forStep 0 block_size cols (by decide) (fun j dst =>
        let c := min block_size (cols - j)
        transpose_blocked4x4 src dst (a + (i * lda + j)) (b + (j * ldb + i)) r c lda ldb)
        0 dst)
    (fun i log =>
      let r := min block_size (rows - i)
      Prod.snd <$> forStep (m := Id) 0 block_size cols (by decide) (fun j log =>
        let c := min block_size (cols - j)
        pure (log ++ [(⟨i, j, r, c⟩ : SubCall)])) 0 log)
    (fun dst blk =>
      transpose_blocked4x4 src dst (a + (blk.i * lda + blk.j)) (b + (blk.j * ldb + blk.i))
        blk.rows blk.cols lda ldb)
    (fun i _ => by
      obtain ⟨j', F, hJ, hP⟩ := forStep_trace 0 block_size cols (by decide)
        (fun j dst =>
          let c := min block_size (cols - j)
          transpose_blocked4x4 src dst (a + (i * lda + j)) (b + (j * ldb + i))
            (min block_size (rows - i)) c lda ldb)
        (fun j log =>
          let c := min block_size (cols - j)
          pure (log ++ [(⟨i, j, min block_size (rows - i), c⟩ : SubCall)]))
        (fun dst blk =>
          transpose_blocked4x4 src dst (a + (blk.i * lda + blk.j))
            (b + (blk.j * ldb + blk.i)) blk.rows blk.cols lda ldb)
        (fun j _ => ⟨[⟨i, j, min block_size (rows - i), min block_size (cols - j)⟩],
          fun log => rfl, fun s => by simp⟩) 0
      refine ⟨F, fun log => ?_, fun s => ?_⟩
      · dsimp only
        rw [hJ]; rfl
      · dsimp only
        rw [hP]
        cases List.foldlM (fun dst blk =>
          transpose_blocked4x4 src dst (a + (blk.i * lda + blk.j))
            (b + (blk.j * ldb + blk.i)) blk.rows blk.cols lda ldb) s F <;> rfl) 0
  unfold transpose_blocked transpose_blocked_blocks Id.run
  rw [hO, hI, List.nil_append]
  cases List.foldlM (fun dst blk =>
    transpose_blocked4x4 src dst (a + (blk.i * lda + blk.j))
      (b + (blk.j * ldb + blk.i)) blk.rows blk.cols lda ldb) dst E <;> rfl

/-- In unbounded integers.  Outer blocking.  For all `rows`, `cols`: every block `(i, j, r, c)` that
`transpose_blocked` passes to `transpose_blocked4x4` has `1 ≤ r ≤ 128`,
`1 ≤ c ≤ 128`, `i + r ≤ rows`, `j + c ≤ cols`, `r = min(128, rows - i)` and
`c = min(128, cols - j)`; no block is passed twice; every cell of
`[0, rows) x [0, cols)` lies in exactly one block; and the program is the execution
of `transpose_blocked4x4` on exactly these blocks, in order. -/
theorem transpose_blocked_partition (rows cols : Nat) :
    (∀ blk ∈ transpose_blocked_blocks rows cols,
      1 ≤ blk.rows ∧ blk.rows ≤ 128 ∧ 1 ≤ blk.cols ∧ blk.cols ≤ 128 ∧
      blk.i + blk.rows ≤ rows ∧ blk.j + blk.cols ≤ cols ∧
      blk.rows = min 128 (rows - blk.i) ∧ blk.cols = min 128 (cols - blk.j)) ∧
    (transpose_blocked_blocks rows cols).Nodup ∧
    (∀ x y, x < rows → y < cols →
      ∃! blk, blk ∈ transpose_blocked_blocks rows cols ∧
        blk.i ≤ x ∧ x < blk.i + blk.rows ∧ blk.j ≤ y ∧ y < blk.j + blk.cols) ∧
    (∀ (β : Type) (src dst : List β) (a b lda ldb : Nat),
      transpose_blocked src dst a b rows cols lda ldb =
        (transpose_blocked_blocks rows cols).foldlM (fun dst blk =>
          transpose_blocked4x4 src dst (a + (blk.i * lda + blk.j))
            (b + (blk.j * ldb + blk.i)) blk.rows blk.cols lda ldb) dst) := by
  obtain ⟨L, hL, hnd, hmem⟩ := transpose_blocked_blocks_spec rows cols
  rw [hL]
  refine ⟨?_, hnd, ?_, fun β src dst a b lda ldb => by
    rw [← hL]; exact transpose_blocked_eq_blocks src dst a b rows cols lda ldb⟩
  · intro blk hblk
    have := (hmem blk).1 hblk
    simp only [BlockBefore] at this
    omega
  · intro x y hx hy
    refine ⟨⟨128 * (x / 128), 128 * (y / 128), min 128 (rows - 128 * (x / 128)),
      min 128 (cols - 128 * (y / 128))⟩, ⟨?_, by dsimp only; omega, by dsimp only; omega,
      by dsimp only; omega, by dsimp only; omega⟩, ?_⟩
    · rw [hmem]
      simp only [BlockBefore, true_and]
      omega
    · rintro ⟨i, j, r, c⟩ ⟨hblk, h1, h2, h3, h4⟩
      have := (hmem _).1 hblk
      simp only [BlockBefore] at this h1 h2 h3 h4
      simp only [SubCall.mk.injEq]
      omega

/-! ## Value-agnosticism -/

theorem load_map (g : α → β) (m : List α) (p : Nat) :
    load (m.map g) p = (load m p).map g := by
  simp [load, List.getElem?_map]

theorem store_map (g : α → β) (m : List α) (p : Nat) (v : α) :
    store (m.map g) p (g v) = (store m p v).map (List.map g) := by
  unfold store
  rw [List.length_map]
  split
  · simp [List.map_set]
  · rfl

theorem bind_map_rule {β' γ γ' : Type} {m : Option β} {m' : Option β'} {f : β → Option γ}
    {f' : β' → Option γ'} (φ : β → β') (ψ : γ → γ') (hm : m' = m.map φ)
    (hf : ∀ x, f' (φ x) = (f x).map ψ) : (m' >>= f') = (m >>= f).map ψ := by
  subst hm
  cases m with
  | none => rfl
  | some x => exact hf x

theorem forStep_map (φ : σ → τ) (k step n : Nat) (hstep : 0 < step)
    (body : Nat → σ → Option σ) (body' : Nat → τ → Option τ)
    (hbody : ∀ i s, body' i (φ s) = (body i s).map φ) (i : Nat) (s : σ) :
    forStep k step n hstep body' i (φ s) =
      (forStep k step n hstep body i s).map (Prod.map id φ) := by
  obtain ⟨m, hm⟩ : ∃ m, n - i = m := ⟨_, rfl⟩
  induction m using Nat.strong_induction_on generalizing i s with
  | _ m ih =>
    rw [forStep, forStep.eq_1 k step n hstep body]
    by_cases hc : i + k < n
    · rw [if_pos hc, if_pos hc, hbody]
      cases h : body i s with
      | none => rfl
      | some s' =>
        simp only [Option.map_some', Option.bind_eq_bind, Option.some_bind]
        exact ih (n - (i + step)) (by omega) (i + step) s' rfl
    · rw [if_neg hc, if_neg hc]; rfl

theorem snd_map_rule {m : Option (Nat × σ)} {m' : Option (Nat × τ)} (φ : σ → τ)
    (hm : m' = m.map (Prod.map id φ)) : (Prod.snd <$> m') = (Prod.snd <$> m).map φ := by
  subst hm
  cases m <;> rfl

theorem transpose_naive_map (g : α → β) (src dst : List α) (a b rows cols lda ldb : Nat) :
    transpose_naive (src.map g) (dst.map g) a b rows cols lda ldb =
      (transpose_naive src dst a b rows cols lda ldb).map (List.map g) := by
  unfold transpose_naive
  refine snd_map_rule _ (forStep_map (List.map g) _ _ _ _ _ _ ?_ 0 dst)
  intro i s
  refine snd_map_rule _ (forStep_map (List.map g) _ _ _ _ _ _ ?_ 0 s)
  intro j s
  refine bind_map_rule g (List.map g) (load_map g src _) ?_
  intro v
  exact store_map g s _ v

theorem loadu_map (g : α → β) (m : List α) (p : Nat) :
    _mm_loadu_ps (m.map g) p = (_mm_loadu_ps m p).map (M128.map g) := by
  unfold _mm_loadu_ps
  refine bind_map_rule g _ (load_map g m _) fun x0 => ?_
  refine bind_map_rule g _ (load_map g m _) fun x1 => ?_
  refine bind_map_rule g _ (load_map g m _) fun x2 => ?_
  refine bind_map_rule g _ (load_map g m _) fun x3 => ?_
  rfl

theorem storeu_map (g : α → β) (m : List α) (p : Nat) (v : M128 α) :
    _mm_storeu_ps (m.map g) p (v.map g) = (_mm_storeu_ps m p v).map (List.map g) := by
  unfold _mm_storeu_ps
  refine bind_map_rule (List.map g) _ (store_map g m _ _) fun m1 => ?_
  refine bind_map_rule (List.map g) _ (store_map g m1 _ _) fun m2 => ?_
  refine bind_map_rule (List.map g) _ (store_map g m2 _ _) fun m3 => ?_
  exact store_map g m3 _ _

theorem transpose_4x4_map (g : α → β) (src dst : List α) (a b lda ldb : Nat) :
    transpose_4x4 (src.map g) (dst.map g) a b lda ldb =
      (transpose_4x4 src dst a b lda ldb).map (List.map g) := by
  unfold transpose_4x4
  refine bind_map_rule (M128.map g) _ (loadu_map g src _) fun r1 => ?_
  refine bind_map_rule (M128.map g) _ (loadu_map g src _) fun r2 => ?_
  refine bind_map_rule (M128.map g) _ (loadu_map g src _) fun r3 => ?_
  refine bind_map_rule (M128.map g) _ (loadu_map g src _) fun r4 => ?_
  simp only [_MM_TRANSPOSE4_PS, _mm_unpacklo_ps, _mm_unpackhi_ps, _mm_movelh_ps,
    _mm_movehl_ps]
  refine bind_map_rule (List.map g) _
    (storeu_map g dst _ ⟨r1.f0, r2.f0, r3.f0, r4.f0⟩) fun d1 => ?_
  refine bind_map_rule (List.map g) _
    (storeu_map g d1 _ ⟨r1.f1, r2.f1, r3.f1, r4.f1⟩) fun d2 => ?_
  refine bind_map_rule (List.map g) _
    (storeu_map g d2 _ ⟨r1.f2, r2.f2, r3.f2, r4.f2⟩) fun d3 => ?_
  exact storeu_map g d3 _ ⟨r1.f3, r2.f3, r3.f3, r4.f3⟩

theorem transpose_blocked4x4_map (g : α → β) (src dst : List α)
    (a b rows cols lda ldb : Nat) :
    transpose_blocked4x4 (src.map g) (dst.map g) a b rows cols lda ldb =
      (transpose_blocked4x4 src dst a b rows cols lda ldb).map (List.map g) := by
  unfold transpose_blocked4x4
  refine bind_map_rule (Prod.map id (List.map g)) _
    (forStep_map (List.map g) _ _ _ _ _ _ ?_ 0 dst) ?_
  · intro i s
    refine bind_map_rule (Prod.map id (List.map g)) _
      (forStep_map (List.map g) _ _ _ _ _ _ ?_ 0 s) ?_
    · intro j s
      exact transpose_4x4_map g src s _ _ lda ldb
    · rintro ⟨j, s⟩
      dsimp only [Prod.map, id]
      split
      · exact transpose_naive_map g src s _ _ _ _ lda ldb
      · rfl
  · rintro ⟨i, s⟩
    dsimp only [Prod.map, id]
    split
    · refine bind_map_rule (Prod.map id (List.map g)) _
        (forStep_map (List.map g) _ _ _ _ _ _ ?_ 0 s) ?_
      · intro j s
        exact transpose_naive_map g src s _ _ _ _ lda ldb
      · rintro ⟨j, s⟩
        dsimp only [Prod.map, id]
        split
        · exact transpose_naive_map g src s _ _ _ _ lda ldb
        · rfl
    · rfl

theorem transpose_blocked_map (g : α → β) (src dst : List α) (a b rows cols lda ldb : Nat) :
    transpose_blocked (src.map g) (dst.map g) a b rows cols lda ldb =
      (transpose_blocked src dst a b rows cols lda ldb).map (List.map g) := by
  unfold transpose_blocked
  refine snd_map_rule _ (forStep_map (List.map g) _ _ _ _ _ _ ?_ 0 dst)
  intro i s
  refine snd_map_rule _ (forStep_map (List.map g) _ _ _ _ _ _ ?_ 0 s)
  intro j s
  exact transpose_blocked4x4_map g src s _ _ _ _ lda ldb

theorem foldlM_map {C : Type} (φ : σ → τ) (exec : σ → C → Option σ)
    (exec' : τ → C → Option τ) (l : List C)
    (h : ∀ s, ∀ c ∈ l, exec' (φ s) c = (exec s c).map φ) (s : σ) :
    l.foldlM exec' (φ s) = (l.foldlM exec s).map φ := by
  induction l generalizing s with
  | nil => rfl
  | cons c l ih =>
    rw [List.foldlM_cons, List.foldlM_cons, h s c (List.mem_cons_self _ _)]
    cases exec s c with
    | none => rfl
    | some s' => exact ih (fun s c hc => h s c (List.mem_cons_of_mem _ hc)) s'

theorem transpose_oblivious_map (g : α → β) (src : List α) (lda ldb : Nat) :
    ∀ (n rows cols : Nat), rows + cols = n → ∀ (dst : List α) (a b : Nat),
      transpose_oblivious (src.map g) (dst.map g) a b rows cols lda ldb =
        (transpose_oblivious src dst a b rows cols lda ldb).map (List.map g) := by
  intro n
  induction n using Nat.strong_induction_on with
  | _ n ih =>
    intro rows cols hn dst a b
    rw [transpose_oblivious_eq_calls, transpose_oblivious_eq_calls src]
    split
    · exact transpose_naive_map g src dst a b rows cols lda ldb
    · refine foldlM_map (List.map g) _ _ _ ?_ dst
      intro s c hc
      exact ih _ (by have := oblivious_calls_lt hc; omega) c.rows c.cols rfl s _ _

theorem transpose_oblivious2_map (g : α → β) (src : List α) (lda ldb : Nat) :
    ∀ (n rows cols : Nat), rows + cols = n → ∀ (dst : List α) (a b : Nat),
      transpose_oblivious2 (src.map g) (dst.map g) a b rows cols lda ldb =
        (transpose_oblivious2 src dst a b rows cols lda ldb).map (List.map g) := by
  intro n
  induction n using Nat.strong_induction_on with
  | _ n ih =>
    intro rows cols hn dst a b
    rw [transpose_oblivious2_eq_calls, transpose_oblivious2_eq_calls src]
    split
    · exact transpose_blocked4x4_map g src dst a b rows cols lda ldb
    · refine foldlM_map (List.map g) _ _ _ ?_ dst
      intro s c hc
      exact ih _ (by have := oblivious2_calls_lt hc; omega) c.rows c.cols rfl s _ _

theorem Strategy.run_map (S : Strategy) (g : α → β) (src dst : List α)
    (a b rows cols lda ldb : Nat) :
    S.run (src.map g) (dst.map g) a b rows cols lda ldb =
      (S.run src dst a b rows cols lda ldb).map (List.map g) := by
  cases S
  · exact transpose_naive_map g src dst a b rows cols lda ldb
  · exact transpose_blocked_map g src dst a b rows cols lda ldb
  · exact transpose_oblivious_map g src lda ldb _ rows cols rfl dst a b
  · exact transpose_oblivious2_map g src lda ldb _ rows cols rfl dst a b

/-! ## Erasing the log gives back the programs -/

theorem store_logged_erase (s : List α × List Nat) (p : Nat) (v : α) :
    store s.1 p v = (store_logged s p v).map Prod.fst := by
  unfold store_logged
  cases store s.1 p v <;> rfl

theorem option_map_id {γ : Type} (m : Option γ) : m = m.map id := by
  cases m <;> rfl

theorem transpose_naive_logged_erase (src : List α) (s : List α × List Nat)
    (a b rows cols lda ldb : Nat) :
    transpose_naive src s.1 a b rows cols lda ldb =
      (transpose_naive_logged src s a b rows cols lda ldb).map Prod.fst := by
  unfold transpose_naive transpose_naive_logged
  refine snd_map_rule _ (forStep_map Prod.fst _ _ _ _ _ _ ?_ 0 s)
  intro i s
  refine snd_map_rule _ (forStep_map Prod.fst _ _ _ _ _ _ ?_ 0 s)
  intro j s
  refine bind_map_rule id Prod.fst (option_map_id _) ?_
  intro v
  exact store_logged_erase s _ v

theorem storeu_logged_erase (s : List α × List Nat) (p : Nat) (v : M128 α) :
    _mm_storeu_ps s.1 p v = (_mm_storeu_ps_logged s p v).map Prod.fst := by
  unfold _mm_storeu_ps _mm_storeu_ps_logged
  refine bind_map_rule Prod.fst _ (store_logged_erase s _ _) fun s1 => ?_
  refine bind_map_rule Prod.fst _ (store_logged_erase s1 _ _) fun s2 => ?_
  refine bind_map_rule Prod.fst _ (store_logged_erase s2 _ _) fun s3 => ?_
  exact store_logged_erase s3 _ _

theorem transpose_4x4_logged_erase (src : List α) (s : List α × List Nat)
    (a b lda ldb : Nat) :
    transpose_4x4 src s.1 a b lda ldb =
      (transpose_4x4_logged src s a b lda ldb).map Prod.fst := by
  unfold transpose_4x4 transpose_4x4_logged
  refine bind_map_rule id _ (option_map_id _) fun r1 => ?_
  refine bind_map_rule id _ (option_map_id _) fun r2 => ?_
  refine bind_map_rule id _ (option_map_id _) fun r3 => ?_
  refine bind_map_rule id _ (option_map_id _) fun r4 => ?_
  simp only [_MM_TRANSPOSE4_PS, _mm_unpacklo_ps, _mm_unpackhi_ps, _mm_movelh_ps,
    _mm_movehl_ps, id]
  refine bind_map_rule Prod.fst _ (storeu_logged_erase s _ _) fun s1 => ?_
  refine bind_map_rule Prod.fst _ (storeu_logged_erase s1 _ _) fun s2 => ?_
  refine bind_map_rule Prod.fst _ (storeu_logged_erase s2 _ _) fun s3 => ?_
  exact storeu_logged_erase s3 _ _

theorem transpose_blocked4x4_logged_erase (src : List α) (s : List α × List Nat)
    (a b rows cols lda ldb : Nat) :
    transpose_blocked4x4 src s.1 a b rows cols lda ldb =
      (transpose_blocked4x4_logged src s a b rows cols lda ldb).map Prod.fst := by
  unfold transpose_blocked4x4 transpose_blocked4x4_logged
  refine bind_map_rule (Prod.map id Prod.fst) _
    (forStep_map Prod.fst _ _ _ _ _ _ ?_ 0 s) ?_
  · intro i s
    refine bind_map_rule (Prod.map id Prod.fst) _
      (forStep_map Prod.fst _ _ _ _ _ _ ?_ 0 s) ?_
    · intro j s
      exact transpose_4x4_logged_erase src s _ _ lda ldb
    · rintro ⟨j, s⟩
      dsimp only [Prod.map, id]
      split
      · exact transpose_naive_logged_erase src s _ _ _ _ lda ldb
      · rfl
  · rintro ⟨i, s⟩
    dsimp only [Prod.map, id]
    split
    · refine bind_map_rule (Prod.map id Prod.fst) _
        (forStep_map Prod.fst _ _ _ _ _ _ ?_ 0 s) ?_
      · intro j s
        exact transpose_naive_logged_erase src s _ _ _ _ lda ldb
      · rintro ⟨j, s⟩
        dsimp only [Prod.map, id]
        split
        · exact transpose_naive_logged_erase src s _ _ _ _ lda ldb
        · rfl
    · rfl

theorem transpose_blocked_logged_erase (src : List α) (s : List α × List Nat)
    (a b rows cols lda ldb : Nat) :
    transpose_blocked src s.1 a b rows cols lda ldb =
      (transpose_blocked_logged src s a b rows cols lda ldb).map Prod.fst := by
  unfold transpose_blocked transpose_blocked_logged
  refine snd_map_rule _ (forStep_map Prod.fst _ _ _ _ _ _ ?_ 0 s)
  intro i s
  refine snd_map_rule _ (forStep_map Prod.fst _ _ _ _ _ _ ?_ 0 s)
  intro j s
  exact transpose_blocked4x4_logged_erase src s _ _ _ _ lda ldb

theorem transpose_oblivious_logged_erase (src : List α) (lda ldb : Nat) :
    ∀ (n rows cols : Nat), rows + cols = n → ∀ (s : List α × List Nat) (a b : Nat),
      transpose_oblivious src s.1 a b rows cols lda ldb =
        (transpose_oblivious_logged src s a b rows cols lda ldb).map Prod.fst := by
  intro n
  induction n using Nat.strong_induction_on with
  | _ n ih =>
    intro rows cols hn s a b
    have hr : maskLow2 (rows / 2) = 4 * (rows / 8) := maskLow2_half rows
    have hc : maskLow2 (cols / 2) = 4 * (cols / 8) := maskLow2_half cols
    rw [transpose_oblivious, transpose_oblivious_logged]
    split
    · exact transpose_naive_logged_erase src s a b rows cols lda ldb
    · dsimp only
      refine bind_map_rule Prod.fst _ (ih _ (by omega) _ _ rfl s _ _) fun s1 => ?_
      refine bind_map_rule Prod.fst _ (ih _ (by omega) _ _ rfl s1 _ _) fun s2 => ?_
      refine bind_map_rule Prod.fst _ (ih _ (by omega) _ _ rfl s2 _ _) fun s3 => ?_
      exact ih _ (by omega) _ _ rfl s3 _ _

theorem transpose_oblivious2_logged_erase (src : List α) (lda ldb : Nat) :
    ∀ (n rows cols : Nat), rows + cols = n → ∀ (s : List α × List Nat) (a b : Nat),
      transpose_oblivious2 src s.1 a b rows cols lda ldb =
        (transpose_oblivious2_logged src s a b rows cols lda ldb).map Prod.fst := by
  intro n
  induction n using Nat.strong_induction_on with
  | _ n ih =>
    intro rows cols hn s a b
    have hr : maskLow2 (rows / 2) = 4 * (rows / 8) := maskLow2_half rows
    have hc : maskLow2 (cols / 2) = 4 * (cols / 8) := maskLow2_half cols
    rw [transpose_oblivious2, transpose_oblivious2_logged]
    split
    · exact transpose_blocked4x4_logged_erase src s a b rows cols lda ldb
    split
    · dsimp only
      refine bind_map_rule Prod.fst _ (ih _ (by omega) _ _ rfl s _ _) fun s1 => ?_
      exact ih _ (by omega) _ _ rfl s1 _ _
    split
    · dsimp only
      refine bind_map_rule Prod.fst _ (ih _ (by omega) _ _ rfl s _ _) fun s1 => ?_
      exact ih _ (by omega) _ _ rfl s1 _ _
    · dsimp only
      refine bind_map_rule Prod.fst _ (ih _ (by omega) _ _ rfl s _ _) fun s1 => ?_
      refine bind_map_rule Prod.fst _ (ih _ (by omega) _ _ rfl s1 _ _) fun s2 => ?_
      refine bind_map_rule Prod.fst _ (ih _ (by omega) _ _ rfl s2 _ _) fun s3 => ?_
      exact ih _ (by omega) _ _ rfl s3 _ _

/-- Erasing the log of a logged run gives the run of the program. -/
theorem Strategy.run_logged_erase (S : Strategy) (src dst : List α)
    (a b rows cols lda ldb : Nat) :
    S.run src dst a b rows cols lda ldb =
      (S.run_logged src dst a b rows cols lda ldb).map Prod.fst := by
  cases S
  · exact transpose_naive_logged_erase src (dst, []) a b rows cols lda ldb
  · exact transpose_blocked_logged_erase src (dst, []) a b rows cols lda ldb
  · exact transpose_oblivious_logged_erase src lda ldb _ rows cols rfl (dst, []) a b
  · exact transpose_oblivious2_logged_erase src lda ldb _ rows cols rfl (dst, []) a b

/-! ## Algebra of `Wrote` -/

theorem Wrote.congr_wrote {b ldb : Nat} {P Q : Nat → Nat → Prop} {W : List Nat}
    (h : Wrote b ldb P W) (hPQ : ∀ i j, P i j ↔ Q i j) : Wrote b ldb Q W := by
  have : P = Q := by funext i j; exact propext (hPQ i j)
  exact this ▸ h

theorem Wrote.nil (b ldb : Nat) (P : Nat → Nat → Prop) (hP : ∀ i j, ¬ P i j) :
    Wrote b ldb P [] :=
  ⟨List.nodup_nil, fun d => ⟨fun h => absurd h (List.not_mem_nil d),
    fun ⟨i, j, h, _⟩ => absurd h (hP i j)⟩⟩

theorem Wrote.one_cell (b ldb i j : Nat) :
    Wrote b ldb (fun i' j' => i' = i ∧ j' = j) [b + (j * ldb + i)] := by
  refine ⟨List.nodup_singleton _, fun d => ?_⟩
  rw [List.mem_singleton]
  constructor
  · rintro rfl
    exact ⟨i, j, ⟨rfl, rfl⟩, rfl⟩
  · rintro ⟨i', j', ⟨rfl, rfl⟩, rfl⟩
    rfl

theorem Wrote.append {b ldb : Nat} {P Q : Nat → Nat → Prop} {W1 W2 : List Nat}
    (h1 : Wrote b ldb P W1) (h2 : Wrote b ldb Q W2)
    (hP : ∀ i j, P i j → i < ldb) (hQ : ∀ i j, Q i j → i < ldb)
    (hdisj : ∀ i j, P i j → ¬ Q i j) :
    Wrote b ldb (fun i j => P i j ∨ Q i j) (W1 ++ W2) := by
  refine ⟨?_, fun d => ?_⟩
  · rw [List.nodup_append]
    refine ⟨h1.1, h2.1, ?_⟩
    intro d hd1 hd2
    obtain ⟨i, j, hp, rfl⟩ := (h1.2 d).1 hd1
    obtain ⟨i', j', hq, heq⟩ := (h2.2 _).1 hd2
    have := @cell_inj ldb i j i' j' (hP i j hp) (hQ i' j' hq) (by omega)
    rw [← this.1, ← this.2] at hq
    exact hdisj i j hp hq
  · rw [List.mem_append, h1.2, h2.2]
    constructor
    · rintro (⟨i, j, h, e⟩ | ⟨i, j, h, e⟩)
      · exact ⟨i, j, Or.inl h, e⟩
      · exact ⟨i, j, Or.inr h, e⟩
    · rintro ⟨i, j, h | h, e⟩
      · exact Or.inl ⟨i, j, h, e⟩
      · exact Or.inr ⟨i, j, h, e⟩

theorem Wrote.shift_origin {b b' ldb i0 j0 : Nat} {P : Nat → Nat → Prop} {W : List Nat}
    (h : Wrote b' ldb P W) (hb : b' = b + (j0 * ldb + i0)) :
    Wrote b ldb (fun i j => i0 ≤ i ∧ j0 ≤ j ∧ P (i - i0) (j - j0)) W := by
  subst hb
  refine ⟨h.1, fun d => ?_⟩
  rw [h.2]
  constructor
  · rintro ⟨i, j, hp, rfl⟩
    refine ⟨i0 + i, j0 + j, ⟨by omega, by omega, by simpa using hp⟩, ?_⟩
    rw [Nat.add_mul]; omega
  · rintro ⟨i, j, ⟨hi, hj, hp⟩, rfl⟩
    refine ⟨i - i0, j - j0, hp, ?_⟩
    obtain ⟨i', rfl⟩ := Nat.exists_eq_add_of_le hi
    obtain ⟨j', rfl⟩ := Nat.exists_eq_add_of_le hj
    simp only [Nat.add_sub_cancel_left]
    rw [Nat.add_mul]; omega

theorem Wrote.length {b ldb rows cols : Nat} {W : List Nat}
    (h : Wrote b ldb (fun i j => i < rows ∧ j < cols) W) (hldb : cols = 0 ∨ rows ≤ ldb) :
    W.length = rows * cols := by
  have hset : W.toFinset = (Finset.range rows ×ˢ Finset.range cols).image
      (fun p : Nat × Nat => b + (p.2 * ldb + p.1)) := by
    ext d
    rw [List.mem_toFinset, h.2, Finset.mem_image]
    constructor
    · rintro ⟨i, j, ⟨hi, hj⟩, rfl⟩
      exact ⟨(i, j), by simp [hi, hj], rfl⟩
    · rintro ⟨⟨i, j⟩, hp, rfl⟩
      simp only [Finset.mem_product, Finset.mem_range] at hp
      exact ⟨i, j, hp, rfl⟩
  rw [← List.toFinset_card_of_nodup h.1, hset, Finset.card_image_of_injOn,
    Finset.card_product, Finset.card_range, Finset.card_range]
  rintro ⟨i, j⟩ hp ⟨i', j'⟩ hp' heq
  simp only [Finset.coe_product, Finset.coe_range, Set.mem_prod, Set.mem_Iio] at hp hp'
  have := @cell_inj ldb i j i' j' (by omega) (by omega) (by simpa using heq)
  rw [this.1, this.2]

theorem Logs.start (b ldb : Nat) (P : Nat → Nat → Prop) (s : List α × List Nat)
    (hP : ∀ i j, ¬ P i j) : Logs b ldb s.2 P s :=
  ⟨[], (List.append_nil _).symm, Wrote.nil b ldb P hP⟩

theorem Logs.congr_logs {b ldb : Nat} {L0 : List Nat} {P Q : Nat → Nat → Prop}
    {s : List α × List Nat} (h : Logs b ldb L0 P s) (hPQ : ∀ i j, P i j ↔ Q i j) :
    Logs b ldb L0 Q s := by
  obtain ⟨W, hW, hw⟩ := h
  exact ⟨W, hW, hw.congr_wrote hPQ⟩

/-- A logged call on the `r` x `c` sub-rectangle with origin `(i0, j0)`, disjoint
from the cells `P` written so far, extends the log by exactly that rectangle. -/
theorem Logs.call {b b' ldb r c : Nat} {L0 : List Nat} {P Q : Nat → Nat → Prop}
    {s s' : List α × List Nat} (i0 j0 : Nat) (h1 : Logs b ldb L0 P s)
    (h2 : Logs b' ldb s.2 (fun i j => i < r ∧ j < c) s')
    (hb : b' = b + (j0 * ldb + i0))
    (hP : ∀ i j, P i j → i < ldb) (hr : c = 0 ∨ i0 + r ≤ ldb)
    (hdisj : ∀ i j, P i j → ¬ (i0 ≤ i ∧ i < i0 + r ∧ j0 ≤ j ∧ j < j0 + c))
    (hQ : ∀ i j, (P i j ∨ (i0 ≤ i ∧ i < i0 + r ∧ j0 ≤ j ∧ j < j0 + c)) ↔ Q i j) :
    Logs b ldb L0 Q s' := by
  obtain ⟨W1, hW1, hw1⟩ := h1
  obtain ⟨W2, hW2, hw2⟩ := h2
  refine ⟨W1 ++ W2, by rw [hW2, hW1, List.append_assoc], ?_⟩
  have h3 := Wrote.append hw1 (hw2.shift_origin hb) hP (by intro i j h; omega)
    (by intro i j hp hq; exact hdisj i j hp (by omega))
  exact h3.congr_wrote (by
    intro i j
    rw [← hQ]
    constructor <;> (rintro (h | h) <;> [left; right] <;> first | exact h | omega))

/-! ## Partial-correctness rules -/

theorem forStep_some_inv (k step n : Nat) (hstep : 0 < step) (body : Nat → σ → Option σ)
    (Inv : Nat → σ → Prop)
    (hbody : ∀ i s s', Inv i s → i + k < n → body i s = some s' → Inv (i + step) s')
    (i : Nat) (s : σ) (h0 : Inv i s) {x : Nat × σ}
    (hx : forStep k step n hstep body i s = some x) : Inv x.1 x.2 ∧ ¬ (x.1 + k < n) := by
  obtain ⟨m, hm⟩ : ∃ m, n - i = m := ⟨_, rfl⟩
  induction m using Nat.strong_induction_on generalizing i s with
  | _ m ih =>
    rw [forStep] at hx
    by_cases hc : i + k < n
    · rw [if_pos hc] at hx
      cases hb : body i s with
      | none => rw [hb] at hx; exact absurd hx (by simp)
      | some s' =>
        rw [hb] at hx
        simp only [Option.bind_eq_bind, Option.some_bind] at hx
        exact ih (n - (i + step)) (by omega) (i + step) s' (hbody i s s' h0 hc hb) hx rfl
    · rw [if_neg hc] at hx
      cases hx
      exact ⟨h0, hc⟩

theorem of_map_some {γ δ : Type} {m : Option γ} {f : γ → δ} {y : δ}
    (h : (f <$> m) = some y) : ∃ x, m = some x ∧ f x = y := by
  cases m with
  | none => exact absurd h (by simp)
  | some x => exact ⟨x, rfl, by simpa using h⟩

theorem of_bind_some {γ δ : Type} {m : Option γ} {f : γ → Option δ} {y : δ}
    (h : (m >>= f) = some y) : ∃ x, m = some x ∧ f x = some y := by
  cases m with
  | none => exact absurd h (by simp)
  | some x => exact ⟨x, rfl, h⟩

theorem store_logged_log {s s' : List α × List Nat} {p : Nat} {v : α}
    (h : store_logged s p v = some s') : s'.2 = s.2 ++ [p] := by
  unfold store_logged at h
  obtain ⟨m, _, rfl⟩ := of_map_some h
  rfl

/-! ## The log of each logged program -/

theorem transpose_naive_logged_spec (src : List α) (s s' : List α × List Nat)
    (a b rows cols lda ldb : Nat) (hldb : cols = 0 ∨ rows ≤ ldb)
    (h : transpose_naive_logged src s a b rows cols lda ldb = some s') :
    Logs b ldb s.2 (fun i j => i < rows ∧ j < cols) s' := by
  unfold transpose_naive_logged at h
  obtain ⟨⟨i', s1⟩, hx, rfl⟩ := of_map_some h
  have hI := (forStep_some_inv 0 1 rows _ _
    (fun i t => Logs b ldb s.2 (fun i' j' => i' < i ∧ i' < rows ∧ j' < cols) t)
    ?_ 0 s (Logs.start b ldb _ s (by intro i j; omega)) hx)
  · exact hI.1.congr_logs (by intro i j; have := hI.2; omega)
  intro i t t' hI hi ht
  obtain ⟨⟨j', t1⟩, hy, rfl⟩ := of_map_some ht
  have hJ := (forStep_some_inv 0 1 cols _ _
    (fun j u => Logs b ldb s.2
      (fun i' j' => (i' < i ∧ j' < cols) ∨ (i' = i ∧ j' < j ∧ j' < cols)) u)
    ?_ 0 t (hI.congr_logs (by intro i' j'; omega)) hy)
  · exact hJ.1.congr_logs (by intro i' j'; have := hJ.2; omega)
  intro j u u' hJ hj hu
  obtain ⟨v, _, hst⟩ := of_bind_some hu
  have hlog := store_logged_log hst
  obtain ⟨W, hW, hw⟩ := hJ
  refine ⟨W ++ [b + (j * ldb + i)], by rw [hlog, hW, List.append_assoc], ?_⟩
  have h3 := Wrote.append hw (Wrote.one_cell b ldb i j) (by intro i' j' h; omega)
    (by intro i' j' h; omega) (by intro i' j' h; omega)
  exact h3.congr_wrote (by intro i' j'; omega)

theorem storeu_logged_log {s s' : List α × List Nat} {p : Nat} {v : M128 α}
    (h : _mm_storeu_ps_logged s p v = some s') :
    s'.2 = s.2 ++ [p, p + 1, p + 2, p + 3] := by
  unfold _mm_storeu_ps_logged at h
  obtain ⟨s1, h1, h⟩ := of_bind_some h
  obtain ⟨s2, h2, h⟩ := of_bind_some h
  obtain ⟨s3, h3, h⟩ := of_bind_some h
  rw [store_logged_log h, store_logged_log h3, store_logged_log h2, store_logged_log h1]
  simp

/-- The four writes of one vector store are the cells `(0, k) .. (3, k)`. -/
theorem Wrote.row (b ldb k : Nat) :
    Wrote b ldb (fun i j => i < 4 ∧ j = k)
      [b + k * ldb, b + k * ldb + 1, b + k * ldb + 2, b + k * ldb + 3] := by
  refine ⟨by simp, fun d => ?_⟩
  simp only [List.mem_cons, List.mem_singleton, List.not_mem_nil, or_false]
  constructor
  · rintro (rfl | rfl | rfl | rfl)
    · exact ⟨0, k, ⟨by omega, rfl⟩, by omega⟩
    · exact ⟨1, k, ⟨by omega, rfl⟩, by omega⟩
    · exact ⟨2, k, ⟨by omega, rfl⟩, by omega⟩
    · exact ⟨3, k, ⟨by omega, rfl⟩, by omega⟩
  · rintro ⟨i, j, ⟨hi, rfl⟩, rfl⟩
    omega

theorem transpose_4x4_logged_spec (src : List α) (s s' : List α × List Nat)
    (a b lda ldb : Nat) (hldb : 4 ≤ ldb)
    (h : transpose_4x4_logged src s a b lda ldb = some s') :
    Logs b ldb s.2 (fun i j => i < 4 ∧ j < 4) s' := by
  unfold transpose_4x4_logged at h
  obtain ⟨r1, _, h⟩ := of_bind_some h
  obtain ⟨r2, _, h⟩ := of_bind_some h
  obtain ⟨r3, _, h⟩ := of_bind_some h
  obtain ⟨r4, _, h⟩ := of_bind_some h
  simp only [_MM_TRANSPOSE4_PS, _mm_unpacklo_ps, _mm_unpackhi_ps, _mm_movelh_ps,
    _mm_movehl_ps] at h
  obtain ⟨s1, h1, h⟩ := of_bind_some h
  obtain ⟨s2, h2, h⟩ := of_bind_some h
  obtain ⟨s3, h3, h⟩ := of_bind_some h
  refine ⟨([b + 0 * ldb, b + 0 * ldb + 1, b + 0 * ldb + 2, b + 0 * ldb + 3] ++
      [b + 1 * ldb, b + 1 * ldb + 1, b + 1 * ldb + 2, b + 1 * ldb + 3]) ++
    ([b + 2 * ldb, b + 2 * ldb + 1, b + 2 * ldb + 2, b + 2 * ldb + 3] ++
      [b + 3 * ldb, b + 3 * ldb + 1, b + 3 * ldb + 2, b + 3 * ldb + 3]), ?_, ?_⟩
  · rw [storeu_logged_log h, storeu_logged_log h3, storeu_logged_log h2,
      storeu_logged_log h1]
    simp only [List.append_assoc]
  have w01 := Wrote.append (Wrote.row b ldb 0) (Wrote.row b ldb 1)
    (by intro i j h; omega) (by intro i j h; omega) (by intro i j h; omega)
  have w23 := Wrote.append (Wrote.row b ldb 2) (Wrote.row b ldb 3)
    (by intro i j h; omega) (by intro i j h; omega) (by intro i j h; omega)
  have w := Wrote.append w01 w23
    (by intro i j h; omega) (by intro i j h; omega) (by intro i j h; omega)
  exact w.congr_wrote (by intro i j; omega)

theorem transpose_blocked4x4_logged_spec (src : List α) (s s' : List α × List Nat)
    (a b rows cols lda ldb : Nat) (hldb : cols = 0 ∨ rows ≤ ldb)
    (h : transpose_blocked4x4_logged src s a b rows cols lda ldb = some s') :
    Logs b ldb s.2 (fun i j => i < rows ∧ j < cols) s' := by
  unfold transpose_blocked4x4_logged at h
  obtain ⟨⟨i, t⟩, hx, h⟩ := of_bind_some h
  have hI := forStep_some_inv 3 4 rows _ _
    (fun i t => i % 4 = 0 ∧ Logs b ldb s.2 (fun i' j' => i' < i ∧ i' < rows ∧ j' < cols) t)
    ?_ 0 s ⟨rfl, Logs.start b ldb _ s (by intro i j; omega)⟩ hx
  · obtain ⟨⟨hi4, hI⟩, hix⟩ := hI
    dsimp only at hi4 hI hix h
    split at h
    · obtain ⟨⟨j, u⟩, hy, h⟩ := of_bind_some h
      have hJ := forStep_some_inv 3 4 cols _ _
        (fun j u => j % 4 = 0 ∧ Logs b ldb s.2
          (fun i' j' => (i' < i ∧ j' < cols) ∨ (i ≤ i' ∧ i' < rows ∧ j' < j ∧ j' < cols)) u)
        ?_ 0 t ⟨rfl, hI.congr_logs (by intro i' j'; omega)⟩ hy
      · obtain ⟨⟨hj4, hJ⟩, hjx⟩ := hJ
        dsimp only at hj4 hJ hjx h
        split at h
        · exact Logs.call i j hJ
            (transpose_naive_logged_spec src u s' _ _ _ _ lda ldb (by omega) h)
            rfl
            (by intro i' j' h; omega) (by omega) (by intro i' j' h; omega)
            (by intro i' j'; omega)
        · cases h
          exact hJ.congr_logs (by intro i' j'; omega)
      · rintro j u u' ⟨hj4, hJ⟩ hj hu
        refine ⟨by omega, ?_⟩
        exact Logs.call i j hJ
          (transpose_naive_logged_spec src u u' _ _ _ _ lda ldb (by omega) hu)
          rfl
          (by intro i' j' h; omega) (by omega) (by intro i' j' h; omega)
          (by intro i' j'; omega)
    · cases h
      exact hI.congr_logs (by intro i' j'; omega)
  · rintro i t t' ⟨hi4, hI⟩ hi ht
    refine ⟨by omega, ?_⟩
    obtain ⟨⟨j, u⟩, hy, ht⟩ := of_bind_some ht
    have hJ := forStep_some_inv 3 4 cols _ _
      (fun j u => j % 4 = 0 ∧ Logs b ldb s.2
        (fun i' j' => (i' < i ∧ j' < cols) ∨ (i ≤ i' ∧ i' < i + 4 ∧ j' < j ∧ j' < cols)) u)
      ?_ 0 t ⟨rfl, hI.congr_logs (by intro i' j'; omega)⟩ hy
    · obtain ⟨⟨hj4, hJ⟩, hjx⟩ := hJ
      dsimp only at hj4 hJ hjx ht
      split at ht
      · exact Logs.call i j hJ
          (transpose_naive_logged_spec src u t' _ _ _ _ lda ldb (by omega) ht)
          rfl
          (by intro i' j' h; omega) (by omega) (by intro i' j' h; omega)
          (by intro i' j'; omega)
      · cases ht
        exact hJ.congr_logs (by intro i' j'; omega)
    · rintro j u u' ⟨hj4, hJ⟩ hj hu
      refine ⟨by omega, ?_⟩
      exact Logs.call i j hJ
        (transpose_4x4_logged_spec src u u' _ _ lda ldb (by omega) hu)
        rfl
        (by intro i' j' h; omega) (by omega) (by intro i' j' h; omega)
        (by intro i' j'; omega)

theorem transpose_blocked_logged_spec (src : List α) (s s' : List α × List Nat)
    (a b rows cols lda ldb : Nat) (hldb : cols = 0 ∨ rows ≤ ldb)
    (h : transpose_blocked_logged src s a b rows cols lda ldb = some s') :
    Logs b ldb s.2 (fun i j => i < rows ∧ j < cols) s' := by
  have hbs : block_size = 128 := rfl
  unfold transpose_blocked_logged at h
  obtain ⟨⟨i', s1⟩, hx, rfl⟩ := of_map_some h
  have hI := forStep_some_inv 0 block_size rows _ _
    (fun i t => i % 128 = 0 ∧
      Logs b ldb s.2 (fun i' j' => i' < i ∧ i' < rows ∧ j' < cols) t)
    ?_ 0 s ⟨rfl, Logs.start b ldb _ s (by intro i j; omega)⟩ hx
  · exact hI.1.2.congr_logs (by intro i j; have := hI.2; omega)
  rintro i t t' ⟨hi4, hI⟩ hi ht
  refine ⟨by omega, ?_⟩
  obtain ⟨⟨j', t1⟩, hy, rfl⟩ := of_map_some ht
  have hJ := forStep_some_inv 0 block_size cols _ _
    (fun j u => j % 128 = 0 ∧ Logs b ldb s.2
      (fun i' j' => (i' < i ∧ i' < rows ∧ j' < cols) ∨
        (i ≤ i' ∧ i' < i + 128 ∧ i' < rows ∧ j' < j ∧ j' < cols)) u)
    ?_ 0 t ⟨rfl, hI.congr_logs (by intro i' j'; omega)⟩ hy
  · exact hJ.1.2.congr_logs (by intro i' j'; have := hJ.2; omega)
  rintro j u u' ⟨hj4, hJ⟩ hj hu
  refine ⟨by omega, ?_⟩
  exact Logs.call i j hJ
    (transpose_blocked4x4_logged_spec src u u' _ _ _ _ lda ldb (by omega) hu)
    rfl
    (by intro i' j' h; omega) (by omega) (by intro i' j' h; omega)
    (by intro i' j'; omega)

theorem transpose_oblivious_logged_spec (src : List α) (lda ldb : Nat) :
    ∀ (n rows cols : Nat), rows + cols = n → ∀ (s s' : List α × List Nat) (a b : Nat),
      (cols = 0 ∨ rows ≤ ldb) →
      transpose_oblivious_logged src s a b rows cols lda ldb = some s' →
      Logs b ldb s.2 (fun i j => i < rows ∧ j < cols) s' := by
  intro n
  induction n using Nat.strong_induction_on with
  | _ n ih =>
    intro rows cols hn s s' a b hldb h
    have hr : maskLow2 (rows / 2) = 4 * (rows / 8) := maskLow2_half rows
    have hc : maskLow2 (cols / 2) = 4 * (cols / 8) := maskLow2_half cols
    rw [transpose_oblivious_logged] at h
    split at h
    · exact transpose_naive_logged_spec src s s' a b rows cols lda ldb hldb h
    · dsimp only at h
      generalize maskLow2 (rows / 2) = halfRow at hr h
      generalize maskLow2 (cols / 2) = halfCol at hc h
      obtain ⟨s1, h1, h⟩ := of_bind_some h
      obtain ⟨s2, h2, h⟩ := of_bind_some h
      obtain ⟨s3, h3, h⟩ := of_bind_some h
      have l0 : Logs b ldb s.2 (fun i _ => i < 0) s :=
        Logs.start b ldb _ s (by intro i j; omega)
      have l1 : Logs b ldb s.2 (fun i j => i < halfRow ∧ j < halfCol) s1 :=
        Logs.call 0 0 l0 (ih _ (by omega) _ _ rfl s s1 _ _ (by omega) h1)
          (by omega) (by intro i j h; omega) (by omega) (by intro i j h; omega)
          (by intro i j; omega)
      have l2 : Logs b ldb s.2 (fun i j => i < halfRow ∧ j < cols) s2 :=
        Logs.call 0 halfCol l1
          (ih _ (by omega) _ _ rfl s1 s2 _ _ (by omega) h2)
          (by omega) (by intro i j h; omega) (by omega) (by intro i j h; omega)
          (by intro i j; omega)
      have l3 : Logs b ldb s.2
          (fun i j => (i < halfRow ∧ j < cols) ∨ (i < rows ∧ j < halfCol)) s3 :=
        Logs.call halfRow 0 l2
          (ih _ (by omega) _ _ rfl s2 s3 _ _ (by omega) h3)
          (by omega) (by intro i j h; omega) (by omega) (by intro i j h; omega)
          (by intro i j; omega)
      exact Logs.call halfRow halfCol l3
        (ih _ (by omega) _ _ rfl s3 s' _ _ (by omega) h)
        (by omega) (by intro i j h; omega) (by omega) (by intro i j h; omega)
        (by intro i j; omega)

theorem transpose_oblivious2_logged_spec (src : List α) (lda ldb : Nat) :
    ∀ (n rows cols : Nat), rows + cols = n → ∀ (s s' : List α × List Nat) (a b : Nat),
      (cols = 0 ∨ rows ≤ ldb) →
      transpose_oblivious2_logged src s a b rows cols lda ldb = some s' →
      Logs b ldb s.2 (fun i j => i < rows ∧ j < cols) s' := by
  intro n
  induction n using Nat.strong_induction_on with
  | _ n ih =>
    intro rows cols hn s s' a b hldb h
    have hr : maskLow2 (rows / 2) = 4 * (rows / 8) := maskLow2_half rows
    have hc : maskLow2 (cols / 2) = 4 * (cols / 8) := maskLow2_half cols
    have l0 : Logs b ldb s.2 (fun i _ => i < 0) s :=
      Logs.start b ldb _ s (by intro i j; omega)
    rw [transpose_oblivious2_logged] at h
    split at h
    · exact transpose_blocked4x4_logged_spec src s s' a b rows cols lda ldb hldb h
    split at h
    · dsimp only at h
      generalize maskLow2 (cols / 2) = halfCol at hc h
      obtain ⟨s1, h1, h⟩ := of_bind_some h
      have l1 : Logs b ldb s.2 (fun i j => i < rows ∧ j < halfCol) s1 :=
        Logs.call 0 0 l0 (ih _ (by omega) _ _ rfl s s1 _ _ (by omega) h1)
          (by omega) (by intro i j h; omega) (by omega) (by intro i j h; omega)
          (by intro i j; omega)
      exact Logs.call 0 halfCol l1 (ih _ (by omega) _ _ rfl s1 s' _ _ (by omega) h)
        (by omega) (by intro i j h; omega) (by omega) (by intro i j h; omega)
        (by intro i j; omega)
    split at h
    · dsimp only at h
      generalize maskLow2 (rows / 2) = halfRow at hr h
      obtain ⟨s1, h1, h⟩ := of_bind_some h
      have l1 : Logs b ldb s.2 (fun i j => i < halfRow ∧ j < cols) s1 :=
        Logs.call 0 0 l0 (ih _ (by omega) _ _ rfl s s1 _ _ (by omega) h1)
          (by omega) (by intro i j h; omega) (by omega) (by intro i j h; omega)
          (by intro i j; omega)
      exact Logs.call halfRow 0 l1 (ih _ (by omega) _ _ rfl s1 s' _ _ (by omega) h)
        (by omega) (by intro i j h; omega) (by omega) (by intro i j h; omega)
        (by intro i j; omega)
    · dsimp only at h
      generalize maskLow2 (rows / 2) = halfRow at hr h
      generalize maskLow2 (cols / 2) = halfCol at hc h
      obtain ⟨s1, h1, h⟩ := of_bind_some h
      obtain ⟨s2, h2, h⟩ := of_bind_some h
      obtain ⟨s3, h3, h⟩ := of_bind_some h
      have l1 : Logs b ldb s.2 (fun i j => i < halfRow ∧ j < halfCol) s1 :=
        Logs.call 0 0 l0 (ih _ (by omega) _ _ rfl s s1 _ _ (by omega) h1)
          (by omega) (by intro i j h; omega) (by omega) (by intro i j h; omega)
          (by intro i j; omega)
      have l2 : Logs b ldb s.2 (fun i j => i < halfRow ∧ j < cols) s2 :=
        Logs.call 0 halfCol l1
          (ih _ (by omega) _ _ rfl s1 s2 _ _ (by omega) h2)
          (by omega) (by intro i j h; omega) (by omega) (by intro i j h; omega)
          (by intro i j; omega)
      have l3 : Logs b ldb s.2
          (fun i j => (i < halfRow ∧ j < cols) ∨ (i < rows ∧ j < halfCol)) s3 :=
        Logs.call halfRow 0 l2
          (ih _ (by omega) _ _ rfl s2 s3 _ _ (by omega) h3)
          (by omega) (by intro i j h; omega) (by omega) (by intro i j h; omega)
          (by intro i j; omega)
      exact Logs.call halfRow halfCol l3
        (ih _ (by omega) _ _ rfl s3 s' _ _ (by omega) h)
        (by omega) (by intro i j h; omega) (by omega) (by intro i j h; omega)
        (by intro i j; omega)

/-- The log of a successful logged run of any strategy consists of the destination
cells of the matrix, each exactly once. -/
theorem Strategy.run_logged_spec (S : Strategy) (src dst : List α)
    (a b rows cols lda ldb : Nat) (hldb : cols = 0 ∨ rows ≤ ldb) (s' : List α × List Nat)
    (h : S.run_logged src dst a b rows cols lda ldb = some s') :
    Wrote b ldb (fun i j => i < rows ∧ j < cols) s'.2 := by
  have hl : Logs b ldb [] (fun i j => i < rows ∧ j < cols) s' := by
    cases S
    · exact transpose_naive_logged_spec src (dst, []) s' a b rows cols lda ldb hldb h
    · exact transpose_blocked_logged_spec src (dst, []) s' a b rows cols lda ldb hldb h
    · exact transpose_oblivious_logged_spec src lda ldb _ rows cols rfl (dst, []) s' a b hldb h
    · exact transpose_oblivious2_logged_spec src lda ldb _ rows cols rfl (dst, []) s' a b
        hldb h
  obtain ⟨W, hW, hw⟩ := hl
  rw [hW, List.nil_append]
  exact hw

/-- In unbounded integers.  Exact work.  For each of the four strategies, all `rows`, `cols`,
`ldb ≥ rows` and buffers that hold the two views: the logged run succeeds, it leaves
the destination buffer of the program itself, and its log `W` of element writes (a
`transpose_4x4` call contributes its 16 stores) has exactly `rows * cols` entries,
contains only cells `b[j*ldb + i]` of the matrix, and contains each such cell exactly
once. -/
theorem transpose_exact_work (S : Strategy) (src dst : List α)
    (a b rows cols lda ldb : Nat) (hldb : rows ≤ ldb)
    (hs : Fits a rows cols lda src.length) (hd : Fits b cols rows ldb dst.length) :
    ∃ dst' W, S.run_logged src dst a b rows cols lda ldb = some (dst', W) ∧
      S.run src dst a b rows cols lda ldb = some dst' ∧
      W.length = rows * cols ∧
      (∀ d ∈ W, ∃ i j, i < rows ∧ j < cols ∧ d = b + (j * ldb + i)) ∧
      (∀ i j, i < rows → j < cols → W.count (b + (j * ldb + i)) = 1) := by
  obtain ⟨dst', hrun, -⟩ := S.run_spec src dst a b rows cols lda ldb (Or.inr hldb) hs hd
  have herase := S.run_logged_erase src dst a b rows cols lda ldb
  rw [hrun] at herase
  obtain ⟨⟨d, W⟩, hlog, hd'⟩ := Option.map_eq_some'.1 herase.symm
  dsimp only at hd'
  subst hd'
  have hw := S.run_logged_spec src dst a b rows cols lda ldb (Or.inr hldb) _ hlog
  refine ⟨d, W, hlog, hrun, hw.length (Or.inr hldb), ?_, ?_⟩
  · intro x hx
    obtain ⟨i, j, ⟨hi, hj⟩, e⟩ := (hw.2 x).1 hx
    exact ⟨i, j, hi, hj, e⟩
  · intro i j hi hj
    exact List.count_eq_one_of_mem hw.1 ((hw.2 _).2 ⟨i, j, ⟨hi, hj⟩, rfl⟩)

/-- C19. Value-agnosticism.  For each strategy `S` (and for the micro-kernel), every
function `g` on element values and all arguments: running on the element-wise images
of the source and of the initial destination under `g` yields the element-wise image
under `g` of the result on the original buffers (in particular the two runs succeed
or fail together).  And on buffers that hold the two views with `ldb ≥ rows`, every
index `d` that the run writes ends up holding a copy of a source element: no value is
computed. -/
theorem transpose_value_agnostic (S : Strategy) (g : α → β) (src dst : List α)
    (a b rows cols lda ldb : Nat) :
    S.run (src.map g) (dst.map g) a b rows cols lda ldb =
      (S.run src dst a b rows cols lda ldb).map (List.map g) ∧
    transpose_4x4 (src.map g) (dst.map g) a b lda ldb =
      (transpose_4x4 src dst a b lda ldb).map (List.map g) ∧
    (rows ≤ ldb → Fits a rows cols lda src.length → Fits b cols rows ldb dst.length →
      ∃ dst' W, S.run_logged src dst a b rows cols lda ldb = some (dst', W) ∧
        S.run src dst a b rows cols lda ldb = some dst' ∧
        ∀ d ∈ W, ∃ (k : Nat) (v : α), src[k]? = some v ∧ dst'[d]? = some v) := by
  refine ⟨S.run_map g src dst a b rows cols lda ldb,
    transpose_4x4_map g src dst a b lda ldb, fun hldb hs hd => ?_⟩
  obtain ⟨dst', hrun, ht⟩ := S.run_spec src dst a b rows cols lda ldb (Or.inr hldb) hs hd
  have herase := S.run_logged_erase src dst a b rows cols lda ldb
  rw [hrun] at herase
  obtain ⟨⟨d, W⟩, hlog, hd'⟩ := Option.map_eq_some'.1 herase.symm
  dsimp only at hd'
  subst hd'
  have hw := S.run_logged_spec src dst a b rows cols lda ldb (Or.inr hldb) _ hlog
  refine ⟨d, W, hlog, hrun, fun x hx => ?_⟩
  obtain ⟨i, j, ⟨hi, hj⟩, rfl⟩ := (hw.2 x).1 hx
  obtain ⟨v, hv, hdv⟩ := ht.cell hs hi hj
  exact ⟨_, v, hv, hdv⟩

/-- Witness for C19: the 5x3 matrix through the blocked strategy. -/
theorem transpose_value_agnostic_witness :
    ∃ dst' W, Strategy.blocked.run_logged (List.range 15) (List.replicate 15 0) 0 0 5 3 3 5
        = some (dst', W) ∧
      Strategy.blocked.run (List.range 15) (List.replicate 15 0) 0 0 5 3 3 5 = some dst' ∧
      ∀ d ∈ W, ∃ (k : Nat) (v : Nat), (List.range 15)[k]? = some v ∧ dst'[d]? = some v :=
  (transpose_value_agnostic Strategy.blocked (fun x : Nat => x + 1) (List.range 15)
    (List.replicate 15 0) 0 0 5 3 3 5).2.2 (by decide) (by decide) (by decide)

/-! # Frame, recursion shape and machine arithmetic -/

/-! ## One address space: the source is not written -/

theorem Sim.of_eq (Inv : τ → Prop) {x : Option τ} (h : ∀ s, x = some s → Inv s) :
    Sim Inv x x := ⟨rfl, h⟩

theorem Sim.bind_sim {γ : Type} {Inv : τ → Prop} {Inv' : γ → Prop} {x y : Option τ}
    {f g : τ → Option γ} (h : Sim Inv x y) (hf : ∀ s, Inv s → Sim Inv' (f s) (g s)) :
    Sim Inv' (x >>= f) (y >>= g) := by
  obtain ⟨rfl, hx⟩ := h
  cases x with
  | none => exact ⟨rfl, fun s hs => by cases hs⟩
  | some s => exact hf s (hx s rfl)

theorem Sim.map_sim {γ : Type} {Inv : τ → Prop} {Inv' : γ → Prop} {x y : Option τ}
    {f : τ → γ} (h : Sim Inv x y) (hf : ∀ s, Inv s → Inv' (f s)) :
    Sim Inv' (f <$> x) (f <$> y) := by
  obtain ⟨rfl, hx⟩ := h
  cases x with
  | none => exact ⟨rfl, fun s hs => by cases hs⟩
  | some s =>
    refine ⟨rfl, fun s' hs' => ?_⟩
    cases hs'
    exact hf s (hx s rfl)

theorem forStep_sim (k step n : Nat) (hstep : 0 < step) (f g : Nat → σ → Option σ)
    (Inv : σ → Prop)
    (h : ∀ i s, i + k < n → Inv s → Sim Inv (f i s) (g i s)) (i : Nat) (s : σ)
    (h0 : Inv s) :
    Sim (fun r : Nat × σ => Inv r.2 ∧ ¬ (r.1 + k < n))
      (forStep k step n hstep f i s) (forStep k step n hstep g i s) := by
  obtain ⟨m, hm⟩ : ∃ m, n - i = m := ⟨_, rfl⟩
  induction m using Nat.strong_induction_on generalizing i s with
  | _ m ih =>
    rw [forStep, forStep.eq_1 k step n hstep g]
    by_cases hc : i + k < n
    · rw [if_pos hc, if_pos hc]
      exact (h i s hc h0).bind_sim fun s' hs' =>
        ih (n - (i + step)) (by omega) (i + step) s' hs' rfl
    · rw [if_neg hc, if_neg hc]
      refine ⟨rfl, fun r hr => ?_⟩
      cases hr
      exact ⟨h0, hc⟩

theorem Agree.load_eq {src m : List α} {a0 R C lda : Nat} (h : Agree src m a0 R C lda)
    {i j p : Nat} (hi : i < R) (hj : j < C) (hp : p = a0 + (i * lda + j)) :
    load m p = load src p := by
  subst hp
  exact h i hi j hj

theorem Agree.store_keeps {src m s : List α} {a0 b0 R C lda ldb : Nat}
    (h : Agree src m a0 R C lda) (hap : Apart a0 b0 R C lda ldb)
    {i j q : Nat} {v : α} (hi : i < R) (hj : j < C) (hq : q = b0 + (j * ldb + i))
    (hs : store m q v = some s) : Agree src s a0 R C lda := by
  unfold store at hs
  split at hs
  · cases hs
    intro i' hi' j' hj'
    rw [List.getElem?_set_ne, h i' hi' j' hj']
    rw [hq]
    exact Ne.symm (hap i' hi' j' hj' i hi j hj)
  · cases hs

theorem Agree.store_sim {src m : List α} {a0 b0 R C lda ldb : Nat}
    (h : Agree src m a0 R C lda) (hap : Apart a0 b0 R C lda ldb)
    {i j q : Nat} (v : α) (hi : i < R) (hj : j < C) (hq : q = b0 + (j * ldb + i)) :
    Sim (fun s => Agree src s a0 R C lda) (store m q v) (store m q v) :=
  Sim.of_eq _ fun _ hs => h.store_keeps hap hi hj hq hs

theorem transpose_naive_mem_sim (src : List α) {a0 b0 R C lda ldb : Nat}
    (hap : Apart a0 b0 R C lda ldb) (m : List α) {a b rows cols : Nat} (i0 j0 : Nat)
    (ha : a = a0 + (i0 * lda + j0)) (hb : b = b0 + (j0 * ldb + i0))
    (hr : rows = 0 ∨ i0 + rows ≤ R) (hc : cols = 0 ∨ j0 + cols ≤ C)
    (h : Agree src m a0 R C lda) :
    Sim (fun s => Agree src s a0 R C lda)
      (transpose_naive_mem m a b rows cols lda ldb)
      (transpose_naive src m a b rows cols lda ldb) := by
  unfold transpose_naive_mem transpose_naive
  refine Sim.map_sim (forStep_sim _ _ _ _ _ _ (fun s => Agree src s a0 R C lda) ?_ 0 m h)
    (fun r hr => hr.1)
  intro i s hi hs
  refine Sim.map_sim (forStep_sim _ _ _ _ _ _ (fun s => Agree src s a0 R C lda) ?_ 0 s hs)
    (fun r hr => hr.1)
  intro j s hj hs
  have hl : load s (a + (i * lda + j)) = load src (a + (i * lda + j)) :=
    hs.load_eq (i := i0 + i) (j := j0 + j) (by omega) (by omega)
      (by rw [ha, Nat.add_mul]; omega)
  rw [hl]
  refine Sim.bind_sim (Sim.of_eq (fun _ => True) fun _ _ => trivial) fun v _ => ?_
  exact hs.store_sim hap v (i := i0 + i) (j := j0 + j) (by omega) (by omega)
    (by rw [hb, Nat.add_mul]; omega)

theorem Agree.loadu_eq {src m : List α} {a0 R C lda : Nat} (h : Agree src m a0 R C lda)
    {i j p : Nat} (hi : i < R) (hj : j + 3 < C) (hp : p = a0 + (i * lda + j)) :
    _mm_loadu_ps m p = _mm_loadu_ps src p := by
  unfold _mm_loadu_ps
  rw [h.load_eq hi (by omega : j < C) hp,
    h.load_eq (p := p + 1) hi (by omega : j + 1 < C) (by omega),
    h.load_eq (p := p + 2) hi (by omega : j + 2 < C) (by omega),
    h.load_eq (p := p + 3) hi (by omega : j + 3 < C) (by omega)]

theorem Agree.storeu_sim {src m : List α} {a0 b0 R C lda ldb : Nat}
    (h : Agree src m a0 R C lda) (hap : Apart a0 b0 R C lda ldb)
    {i j q : Nat} (v : M128 α) (hi : i + 3 < R) (hj : j < C) (hq : q = b0 + (j * ldb + i)) :
    Sim (fun s => Agree src s a0 R C lda) (_mm_storeu_ps m q v) (_mm_storeu_ps m q v) := by
  unfold _mm_storeu_ps
  refine (h.store_sim hap _ (by omega : i < R) hj hq).bind_sim fun s1 h1 => ?_
  refine (h1.store_sim hap _ (by omega : i + 1 < R) hj (by omega)).bind_sim fun s2 h2 => ?_
  refine (h2.store_sim hap _ (by omega : i + 2 < R) hj (by omega)).bind_sim fun s3 h3 => ?_
  exact h3.store_sim hap _ (by omega : i + 3 < R) hj (by omega)

theorem transpose_4x4_mem_sim (src : List α) {a0 b0 R C lda ldb : Nat}
    (hap : Apart a0 b0 R C lda ldb) (m : List α) {a b : Nat} (i0 j0 : Nat)
    (ha : a = a0 + (i0 * lda + j0)) (hb : b = b0 + (j0 * ldb + i0))
    (hr : i0 + 4 ≤ R) (hc : j0 + 4 ≤ C) (h : Agree src m a0 R C lda) :
    Sim (fun s => Agree src s a0 R C lda)
      (transpose_4x4_mem m a b lda ldb) (transpose_4x4 src m a b lda ldb) := by
  unfold transpose_4x4_mem transpose_4x4
  rw [h.loadu_eq (i := i0) (j := j0) (by omega) (by omega) (by rw [ha]; omega),
    h.loadu_eq (i := i0 + 1) (j := j0) (by omega) (by omega) (by rw [ha, Nat.add_mul]; omega),
    h.loadu_eq (i := i0 + 2) (j := j0) (by omega) (by omega) (by rw [ha, Nat.add_mul]; omega),
    h.loadu_eq (i := i0 + 3) (j := j0) (by omega) (by omega) (by rw [ha, Nat.add_mul]; omega)]
  refine Sim.bind_sim (Sim.of_eq (fun _ => True) fun _ _ => trivial) fun r1 _ => ?_
  refine Sim.bind_sim (Sim.of_eq (fun _ => True) fun _ _ => trivial) fun r2 _ => ?_
  refine Sim.bind_sim (Sim.of_eq (fun _ => True) fun _ _ => trivial) fun r3 _ => ?_
  refine Sim.bind_sim (Sim.of_eq (fun _ => True) fun _ _ => trivial) fun r4 _ => ?_
  simp only [_MM_TRANSPOSE4_PS, _mm_unpacklo_ps, _mm_unpackhi_ps, _mm_movelh_ps,
    _mm_movehl_ps]
  refine (h.storeu_sim hap _ (i := i0) (j := j0) (by omega) (by omega)
    (by rw [hb]; omega)).bind_sim fun s1 h1 => ?_
  refine (h1.storeu_sim hap _ (i := i0) (j := j0 + 1) (by omega) (by omega)
    (by rw [hb, Nat.add_mul]; omega)).bind_sim fun s2 h2 => ?_
  refine (h2.storeu_sim hap _ (i := i0) (j := j0 + 2) (by omega) (by omega)
    (by rw [hb, Nat.add_mul]; omega)).bind_sim fun s3 h3 => ?_
  exact h3.storeu_sim hap _ (i := i0) (j := j0 + 3) (by omega) (by omega)
    (by rw [hb, Nat.add_mul]; omega)

theorem transpose_blocked4x4_mem_sim (src : List α) {a0 b0 R C lda ldb : Nat}
    (hap : Apart a0 b0 R C lda ldb) (m : List α) {a b rows cols : Nat} (i0 j0 : Nat)
    (ha : a = a0 + (i0 * lda + j0)) (hb : b = b0 + (j0 * ldb + i0))
    (hr : i0 + rows ≤ R) (hc : j0 + cols ≤ C) (h : Agree src m a0 R C lda) :
    Sim (fun s => Agree src s a0 R C lda)
      (transpose_blocked4x4_mem m a b rows cols lda ldb)
      (transpose_blocked4x4 src m a b rows cols lda ldb) := by
  unfold transpose_blocked4x4_mem transpose_blocked4x4
  refine (forStep_sim _ _ _ _ _ _ (fun s => Agree src s a0 R C lda) ?_ 0 m h).bind_sim ?_
  · intro i s hi hs
    refine (forStep_sim _ _ _ _ _ _ (fun s => Agree src s a0 R C lda) ?_ 0 s hs).bind_sim ?_
    · intro j s hj hs
      exact transpose_4x4_mem_sim src hap s (i0 + i) (j0 + j)
        (by rw [ha, Nat.add_mul]; omega) (by rw [hb, Nat.add_mul]; omega)
        (by omega) (by omega) hs
    · rintro ⟨j, s⟩ ⟨hs, _⟩
      dsimp only
      split
      · exact transpose_naive_mem_sim src hap s (i0 + i) (j0 + j)
          (by rw [ha, Nat.add_mul]; omega) (by rw [hb, Nat.add_mul]; omega)
          (Or.inr (by omega)) (Or.inr (by omega)) hs
      · exact Sim.of_eq _ fun s' hs' => by cases hs'; exact hs
  · rintro ⟨i, s⟩ ⟨hs, _⟩
    dsimp only
    split
    · refine (forStep_sim _ _ _ _ _ _ (fun s => Agree src s a0 R C lda) ?_ 0 s hs).bind_sim ?_
      · intro j s hj hs
        exact transpose_naive_mem_sim src hap s (i0 + i) (j0 + j)
          (by rw [ha, Nat.add_mul]; omega) (by rw [hb, Nat.add_mul]; omega)
          (Or.inr (by omega)) (Or.inr (by omega)) hs
      · rintro ⟨j, s⟩ ⟨hs, _⟩
        dsimp only
        split
        · exact transpose_naive_mem_sim src hap s (i0 + i) (j0 + j)
            (by rw [ha, Nat.add_mul]; omega) (by rw [hb, Nat.add_mul]; omega)
            (Or.inr (by omega)) (Or.inr (by omega)) hs
        · exact Sim.of_eq _ fun s' hs' => by cases hs'; exact hs
    · exact Sim.of_eq _ fun s' hs' => by cases hs'; exact hs

theorem transpose_blocked_mem_sim (src : List α) {a0 b0 R C lda ldb : Nat}
    (hap : Apart a0 b0 R C lda ldb) (m : List α) {a b rows cols : Nat} (i0 j0 : Nat)
    (ha : a = a0 + (i0 * lda + j0)) (hb : b = b0 + (j0 * ldb + i0))
    (hr : i0 + rows ≤ R) (hc : j0 + cols ≤ C) (h : Agree src m a0 R C lda) :
    Sim (fun s => Agree src s a0 R C lda)
      (transpose_blocked_mem m a b rows cols lda ldb)
      (transpose_blocked src m a b rows cols lda ldb) := by
  unfold transpose_blocked_mem transpose_blocked
  refine Sim.map_sim (forStep_sim _ _ _ _ _ _ (fun s => Agree src s a0 R C lda) ?_ 0 m h)
    (fun r hr => hr.1)
  intro i s hi hs
  refine Sim.map_sim (forStep_sim _ _ _ _ _ _ (fun s => Agree src s a0 R C lda) ?_ 0 s hs)
    (fun r hr => hr.1)
  intro j s hj hs
  exact transpose_blocked4x4_mem_sim src hap s (i0 + i) (j0 + j)
    (by rw [ha, Nat.add_mul]; omega) (by rw [hb, Nat.add_mul]; omega)
    (by omega) (by omega) hs

theorem transpose_oblivious_mem_sim (src : List α) {a0 b0 R C lda ldb : Nat}
    (hap : Apart a0 b0 R C lda ldb) :
    ∀ (n rows cols : Nat), rows + cols = n → ∀ (m : List α) (a b i0 j0 : Nat),
      a = a0 + (i0 * lda + j0) → b = b0 + (j0 * ldb + i0) → i0 + rows ≤ R → j0 + cols ≤ C →
      Agree src m a0 R C lda →
      Sim (fun s => Agree src s a0 R C lda)
        (transpose_oblivious_mem m a b rows cols lda ldb)
        (transpose_oblivious src m a b rows cols lda ldb) := by
  intro n
  induction n using Nat.strong_induction_on with
  | _ n ih =>
    intro rows cols hn m a b i0 j0 ha hb hr hc h
    rw [transpose_oblivious_mem, transpose_oblivious]
    split
    · exact transpose_naive_mem_sim src hap m i0 j0 ha hb (Or.inr hr) (Or.inr hc) h
    · have hR := maskLow2_half rows
      have hC := maskLow2_half cols
      refine (ih _ (by omega) _ _ rfl m a b i0 j0 ha hb (by omega) (by omega) h).bind_sim
        fun s1 h1 => ?_
      refine (ih _ (by omega) _ _ rfl s1 _ _ i0 (j0 + maskLow2 (cols / 2))
        (by rw [ha]; omega) (by rw [hb, Nat.add_mul]; omega) (by omega) (by omega)
        h1).bind_sim fun s2 h2 => ?_
      refine (ih _ (by omega) _ _ rfl s2 _ _ (i0 + maskLow2 (rows / 2)) j0
        (by rw [ha, Nat.add_mul]; omega) (by rw [hb]; omega) (by omega) (by omega)
        h2).bind_sim fun s3 h3 => ?_
      exact ih _ (by omega) _ _ rfl s3 _ _ (i0 + maskLow2 (rows / 2))
        (j0 + maskLow2 (cols / 2))
        (by rw [ha, Nat.add_mul]; omega) (by rw [hb, Nat.add_mul]; omega) (by omega)
        (by omega) h3

theorem transpose_oblivious2_mem_sim (src : List α) {a0 b0 R C lda ldb : Nat}
    (hap : Apart a0 b0 R C lda ldb) :
    ∀ (n rows cols : Nat), rows + cols = n → ∀ (m : List α) (a b i0 j0 : Nat),
      a = a0 + (i0 * lda + j0) → b = b0 + (j0 * ldb + i0) → i0 + rows ≤ R → j0 + cols ≤ C →
      Agree src m a0 R C lda →
      Sim (fun s => Agree src s a0 R C lda)
        (transpose_oblivious2_mem m a b rows cols lda ldb)
        (transpose_oblivious2 src m a b rows cols lda ldb) := by
  intro n
  induction n using Nat.strong_induction_on with
  | _ n ih =>
    intro rows cols hn m a b i0 j0 ha hb hr hc h
    rw [transpose_oblivious2_mem, transpose_oblivious2]
    have hR := maskLow2_half rows
    have hC := maskLow2_half cols
    split
    · exact transpose_blocked4x4_mem_sim src hap m i0 j0 ha hb hr hc h
    · split
      · refine (ih _ (by omega) _ _ rfl m a b i0 j0 ha hb (by omega) (by omega) h).bind_sim
          fun s1 h1 => ?_
        exact ih _ (by omega) _ _ rfl s1 _ _ i0 (j0 + maskLow2 (cols / 2))
          (by rw [ha]; omega) (by rw [hb, Nat.add_mul]; omega) (by omega) (by omega) h1
      · split
        · refine (ih _ (by omega) _ _ rfl m a b i0 j0 ha hb (by omega) (by omega) h).bind_sim
            fun s1 h1 => ?_
          exact ih _ (by omega) _ _ rfl s1 _ _ (i0 + maskLow2 (rows / 2)) j0
            (by rw [ha, Nat.add_mul]; omega) (by rw [hb]; omega) (by omega) (by omega) h1
        · refine (ih _ (by omega) _ _ rfl m a b i0 j0 ha hb (by omega) (by omega) h).bind_sim
            fun s1 h1 => ?_
          refine (ih _ (by omega) _ _ rfl s1 _ _ i0 (j0 + maskLow2 (cols / 2))
            (by rw [ha]; omega) (by rw [hb, Nat.add_mul]; omega) (by omega) (by omega)
            h1).bind_sim fun s2 h2 => ?_
          refine (ih _ (by omega) _ _ rfl s2 _ _ (i0 + maskLow2 (rows / 2)) j0
            (by rw [ha, Nat.add_mul]; omega) (by rw [hb]; omega) (by omega) (by omega)
            h2).bind_sim fun s3 h3 => ?_
          exact ih _ (by omega) _ _ rfl s3 _ _ (i0 + maskLow2 (rows / 2))
            (j0 + maskLow2 (cols / 2))
            (by rw [ha, Nat.add_mul]; omega) (by rw [hb, Nat.add_mul]; omega) (by omega)
            (by omega) h3

/-- On one memory in which no source cell is a destination cell, every strategy runs
as it does on two buffers, the source buffer being the memory at entry. -/
theorem Strategy.run_mem_eq (S : Strategy) (m : List α) (a b rows cols lda ldb : Nat)
    (hap : Apart a b rows cols lda ldb) :
    S.run_mem m a b rows cols lda ldb = S.run m m a b rows cols lda ldb := by
  have h : Agree m m a rows cols lda := fun _ _ _ _ => rfl
  cases S
  · exact (transpose_naive_mem_sim m hap m 0 0 (by omega) (by omega) (Or.inr (by omega))
      (Or.inr (by omega)) h).1
  · exact (transpose_blocked_mem_sim m hap m 0 0 (by omega) (by omega) (by omega)
      (by omega) h).1
  · exact (transpose_oblivious_mem_sim m hap _ rows cols rfl m a b 0 0 (by omega) (by omega)
      (by omega) (by omega) h).1
  · exact (transpose_oblivious2_mem_sim m hap _ rows cols rfl m a b 0 0 (by omega) (by omega)
      (by omega) (by omega) h).1

/-! ## Frame -/

/-- In unbounded integers.  Frame.  For each strategy, all `rows`, `cols`, every destination stride
`ldb ≥ rows` and all buffers that hold the two views, the call succeeds, the
destination keeps its length, and every destination index that is not of the form
`b + (j * ldb + i)` with `i < rows`, `j < cols` (the padding between the rows
when `ldb > rows`, everything before `b` and everything past the last row) holds
its original value after the call.  The source buffer is unchanged: on a single
memory `m` that holds both views, whose source cells are no destination cells, the
call succeeds with the result of the two-buffer run from the source `m`, and
afterwards every source cell, like every address that is no destination cell,
holds its original value, while the destination cells hold the transposed source.
(The hypothesis `lda ≥ cols` of the contract is not needed.) -/
theorem transpose_frame (S : Strategy) (rows cols lda ldb : Nat) (hldb : rows ≤ ldb) :
    (∀ (src dst : List α) (a b : Nat), Fits a rows cols lda src.length →
      Fits b cols rows ldb dst.length →
      ∃ dst', S.run src dst a b rows cols lda ldb = some dst' ∧
        dst'.length = dst.length ∧
        ∀ d, (∀ i j, i < rows → j < cols → d ≠ b + (j * ldb + i)) → dst'[d]? = dst[d]?) ∧
    (∀ (m : List α) (a b : Nat), Fits a rows cols lda m.length →
      Fits b cols rows ldb m.length → Apart a b rows cols lda ldb →
      ∃ m', S.run_mem m a b rows cols lda ldb = some m' ∧
        S.run m m a b rows cols lda ldb = some m' ∧
        m'.length = m.length ∧
        (∀ i j, i < rows → j < cols → m'[a + (i * lda + j)]? = m[a + (i * lda + j)]?) ∧
        (∀ d, (∀ i j, i < rows → j < cols → d ≠ b + (j * ldb + i)) → m'[d]? = m[d]?) ∧
        (∀ i j, i < rows → j < cols → m'[b + (j * ldb + i)]? = m[a + (i * lda + j)]?)) := by
  constructor
  · intro src dst a b hs hd
    obtain ⟨dst', hrun, hlen, _, hframe⟩ :=
      S.run_spec src dst a b rows cols lda ldb (Or.inr hldb) hs hd
    exact ⟨dst', hrun, hlen, fun d hd' => hframe d fun i j hij => hd' i j hij.1 hij.2⟩
  · intro m a b hs hd hap
    obtain ⟨m', hrun, hlen, hcell, hframe⟩ :=
      S.run_spec m m a b rows cols lda ldb (Or.inr hldb) hs hd
    refine ⟨m', by rw [S.run_mem_eq m a b rows cols lda ldb hap, hrun], hrun, hlen, ?_, ?_, ?_⟩
    · intro i j hi hj
      exact hframe _ fun i' j' hij => hap i hi j hj i' hij.1 j' hij.2
    · exact fun d hd' => hframe d fun i j hij => hd' i j hij.1 hij.2
    · exact fun i j hi hj => hcell i j ⟨hi, hj⟩

/-! ## Empty sub-rectangles in the recursion -/

/-- C22. No empty sub-rectangle in the adaptive recursion.  For all `rows, cols ≥ 1`
every call of the recursion tree of `transpose_oblivious2` (every dimension pair
reachable from the root through the call relation, the leaves handed to
`transpose_blocked4x4` included) has `rows' ≥ 1` and `cols' ≥ 1`.  Moreover each
recursive call made anywhere receives, for each side, either the caller's whole
side (the side is not split) or one of the two parts `h = (s / 2) & ~0b11` and
`s - h` of a split side, and then both parts have length at least 4. -/
theorem transpose_oblivious2_no_empty_call (rows cols : Nat) (hr : 1 ≤ rows)
    (hc : 1 ≤ cols) :
    (∀ p, Relation.ReflTransGen
        (fun parent child => CalledBy transpose_oblivious2_calls child parent)
        (rows, cols) p → 1 ≤ p.1 ∧ 1 ≤ p.2) ∧
    (∀ r c, ∀ call ∈ transpose_oblivious2_calls r c,
      (call.rows = r ∨
        (4 ≤ maskLow2 (r / 2) ∧ 4 ≤ r - maskLow2 (r / 2) ∧
          (call.rows = maskLow2 (r / 2) ∨ call.rows = r - maskLow2 (r / 2)))) ∧
      (call.cols = c ∨
        (4 ≤ maskLow2 (c / 2) ∧ 4 ≤ c - maskLow2 (c / 2) ∧
          (call.cols = maskLow2 (c / 2) ∨ call.cols = c - maskLow2 (c / 2))))) := by
  constructor
  · intro p hp
    induction hp with
    | refl => exact ⟨hr, hc⟩
    | tail _ hstep ih =>
      obtain ⟨call, hcall, rfl⟩ := hstep
      obtain ⟨hb, ⟨h8, h | h⟩ | ⟨h8, hc8, h | h⟩ | ⟨h8, hc8, h | h | h | h⟩⟩ :=
        mem_oblivious2_calls hcall <;> subst h <;> dsimp only <;> omega
  · intro r c call hcall
    rw [maskLow2_half, maskLow2_half]
    obtain ⟨hb, ⟨h8, h | h⟩ | ⟨h8, hc8, h | h⟩ | ⟨h8, hc8, h | h | h | h⟩⟩ :=
      mem_oblivious2_calls hcall
    all_goals
      subst h
      dsimp only
      constructor <;>
        first
          | exact Or.inl rfl
          | exact Or.inr ⟨by omega, by omega, Or.inl rfl⟩
          | exact Or.inr ⟨by omega, by omega, Or.inr rfl⟩

/-- Witness for C22: the 9x17 matrix, whose short side is split into 4 and 5. -/
theorem transpose_oblivious2_no_empty_call_witness :
    (∀ p, Relation.ReflTransGen
        (fun parent child => CalledBy transpose_oblivious2_calls child parent)
        (9, 17) p → 1 ≤ p.1 ∧ 1 ≤ p.2) ∧
    transpose_oblivious2_calls 9 17 =
      [⟨0, 0, 4, 8⟩, ⟨0, 8, 4, 9⟩, ⟨4, 0, 5, 8⟩, ⟨4, 8, 5, 9⟩] :=
  ⟨(transpose_oblivious2_no_empty_call 9 17 (by decide) (by decide)).1,
    by simp [transpose_oblivious2_calls, maskLow2_eq]⟩

/-- C23. Empty quadrants in the symmetric recursion.  Whenever `1 ≤ rows ≤ 7` and
`cols > 16`, the split point `halfRow = (rows / 2) & ~0b11` is 0, and
`transpose_oblivious` makes its four recursive calls on the quadrants
`0 x halfCol`, `0 x (cols - halfCol)`, `rows x halfCol`, `rows x (cols - halfCol)`
with `0 < halfCol < cols`: exactly two of the four calls are on sub-rectangles with
zero rows, the other two are on non-empty ones.  The program run is these four
calls in this order, and the two calls on the empty quadrants return the
destination as they received it. -/
theorem transpose_oblivious_empty_quadrants (rows cols : Nat) (hr : 1 ≤ rows)
    (hr7 : rows ≤ 7) (hc : 16 < cols) :
    maskLow2 (rows / 2) = 0 ∧
    0 < maskLow2 (cols / 2) ∧ maskLow2 (cols / 2) < cols ∧
    transpose_oblivious_calls rows cols =
      [⟨0, 0, 0, maskLow2 (cols / 2)⟩,
       ⟨0, maskLow2 (cols / 2), 0, cols - maskLow2 (cols / 2)⟩,
       ⟨0, 0, rows, maskLow2 (cols / 2)⟩,
       ⟨0, maskLow2 (cols / 2), rows, cols - maskLow2 (cols / 2)⟩] ∧
    ((transpose_oblivious_calls rows cols).filter
      (fun c => decide (c.rows = 0 ∨ c.cols = 0))).length = 2 ∧
    (∀ (γ : Type) (src dst : List γ) (a b lda ldb : Nat),
      transpose_oblivious src dst a b rows cols lda ldb =
        (transpose_oblivious src dst a b 0 (maskLow2 (cols / 2)) lda ldb).bind fun d1 =>
        (transpose_oblivious src d1 (a + maskLow2 (cols / 2))
          (b + maskLow2 (cols / 2) * ldb) 0 (cols - maskLow2 (cols / 2)) lda ldb).bind
        fun d2 =>
        (transpose_oblivious src d2 (a + 0 * lda) (b + 0) rows (maskLow2 (cols / 2))
          lda ldb).bind fun d3 =>
        transpose_oblivious src d3 (a + (0 * lda + maskLow2 (cols / 2)))
          (b + (maskLow2 (cols / 2) * ldb + 0)) rows (cols - maskLow2 (cols / 2)) lda ldb) ∧
    (∀ (γ : Type) (src dst : List γ) (a b c lda ldb : Nat),
      transpose_oblivious src dst a b 0 c lda ldb = some dst) := by
  have h0 : maskLow2 (rows / 2) = 0 := by rw [maskLow2_half]; omega
  have hcalls : transpose_oblivious_calls rows cols =
      [⟨0, 0, 0, maskLow2 (cols / 2)⟩,
       ⟨0, maskLow2 (cols / 2), 0, cols - maskLow2 (cols / 2)⟩,
       ⟨0, 0, rows, maskLow2 (cols / 2)⟩,
       ⟨0, maskLow2 (cols / 2), rows, cols - maskLow2 (cols / 2)⟩] := by
    unfold transpose_oblivious_calls
    rw [if_neg (by omega)]
    simp only [h0, Nat.sub_zero]
  have hpos : 0 < maskLow2 (cols / 2) := by rw [maskLow2_half]; omega
  have hlt : maskLow2 (cols / 2) < cols := by rw [maskLow2_half]; omega
  refine ⟨h0, hpos, hlt, hcalls, ?_, ?_, ?_⟩
  · rw [hcalls]
    have h1 : ¬ (rows = 0 ∨ maskLow2 (cols / 2) = 0) := by omega
    have h2 : ¬ (rows = 0 ∨ cols - maskLow2 (cols / 2) = 0) := by omega
    simp [List.filter, h1, h2]
  · intro γ src dst a b lda ldb
    rw [transpose_oblivious, if_neg (by omega)]
    simp only [h0, Nat.sub_zero]
    rfl
  · intro γ src dst a b c lda ldb
    obtain ⟨dst', hrun, ht⟩ := transpose_oblivious_spec src lda ldb _ 0 c rfl dst a b
      (Or.inr (Nat.zero_le _)) (by intro i hi j hj; omega) (by intro j hj i hi; omega)
    rw [hrun, ht.empty (Or.inl rfl)]

/-- Witness for C23: `rows = 7`, `cols = 20`, where `halfRow = 0` and `halfCol = 8`:
the first two of the four recursive calls have zero rows. -/
theorem transpose_oblivious_empty_quadrants_witness :
    transpose_oblivious_calls 7 20 =
      [⟨0, 0, 0, 8⟩, ⟨0, 8, 0, 12⟩, ⟨0, 0, 7, 8⟩, ⟨0, 8, 7, 12⟩] ∧
    ((transpose_oblivious_calls 7 20).filter
      (fun c => decide (c.rows = 0 ∨ c.cols = 0))).length = 2 :=
  ⟨by simp [transpose_oblivious_calls, maskLow2_eq],
    (transpose_oblivious_empty_quadrants 7 20 (by decide) (by decide) (by decide)).2.2.2.2.1⟩

/-! ## The destination stride below the row count -/

/-- On a single 4x4 tile `transpose_blocked4x4` is one call of the micro-kernel. -/
theorem transpose_blocked4x4_one_tile (src dst : List α) (a b lda ldb : Nat) :
    transpose_blocked4x4 src dst a b 4 4 lda ldb = transpose_4x4 src dst a b lda ldb := by
  simp only [transpose_blocked4x4]
  cases h : transpose_4x4 src dst a b lda ldb <;> simp [forStep, h]

/-- On a 4x4 matrix `transpose_blocked` is one call of `transpose_blocked4x4`. -/
theorem transpose_blocked_one_block (src dst : List α) (a b lda ldb : Nat) :
    transpose_blocked src dst a b 4 4 lda ldb =
      transpose_blocked4x4 src dst a b 4 4 lda ldb := by
  simp [transpose_blocked, forStep, block_size]

theorem transpose_blocked4x4_logged_one_tile (src : List α) (s : List α × List Nat)
    (a b lda ldb : Nat) :
    transpose_blocked4x4_logged src s a b 4 4 lda ldb =
      transpose_4x4_logged src s a b lda ldb := by
  simp only [transpose_blocked4x4_logged]
  cases h : transpose_4x4_logged src s a b lda ldb <;> simp [forStep, h]

theorem transpose_blocked_logged_one_block (src : List α) (s : List α × List Nat)
    (a b lda ldb : Nat) :
    transpose_blocked_logged src s a b 4 4 lda ldb =
      transpose_blocked4x4_logged src s a b 4 4 lda ldb := by
  simp [transpose_blocked_logged, forStep, block_size]

/-- C24. The precondition `ldb ≥ rows` cannot be dropped from the equivalence of
`transpose_blocked` and `transpose_naive`.  For `rows = cols = 4`, `lda = 4`,
`ldb = 1 < rows`, a 16-element source `x0 .. x15` and a 7-element destination, both
functions run to completion and write the same sequence of destination indices, in
which the indices 1 to 5 occur more than once (colliding writes); the value left at
such an index is the one written last.  `transpose_naive` leaves
`a[1*lda + 0] = x4` at `b[1]`, `transpose_blocked` leaves `a[0*lda + 1] = x1`
there: whenever `x4 ≠ x1` the two destination buffers differ. -/
theorem transpose_blocked_ne_naive_small_ldb
    (x0 x1 x2 x3 x4 x5 x6 x7 x8 x9 x10 x11 x12 x13 x14 x15 y0 y1 y2 y3 y4 y5 y6 : α)
    (h : x4 ≠ x1) :
    transpose_naive [x0, x1, x2, x3, x4, x5, x6, x7, x8, x9, x10, x11, x12, x13, x14, x15]
        [y0, y1, y2, y3, y4, y5, y6] 0 0 4 4 4 1 =
      some [x0, x4, x8, x12, x13, x14, x15] ∧
    transpose_blocked [x0, x1, x2, x3, x4, x5, x6, x7, x8, x9, x10, x11, x12, x13, x14, x15]
        [y0, y1, y2, y3, y4, y5, y6] 0 0 4 4 4 1 =
      some [x0, x1, x2, x3, x7, x11, x15] ∧
    transpose_blocked [x0, x1, x2, x3, x4, x5, x6, x7, x8, x9, x10, x11, x12, x13, x14, x15]
        [y0, y1, y2, y3, y4, y5, y6] 0 0 4 4 4 1 ≠
      transpose_naive [x0, x1, x2, x3, x4, x5, x6, x7, x8, x9, x10, x11, x12, x13, x14, x15]
        [y0, y1, y2, y3, y4, y5, y6] 0 0 4 4 4 1 ∧
    (transpose_naive_logged
        [x0, x1, x2, x3, x4, x5, x6, x7, x8, x9, x10, x11, x12, x13, x14, x15]
        ([y0, y1, y2, y3, y4, y5, y6], []) 0 0 4 4 4 1).map Prod.snd =
      some [0, 1, 2, 3, 1, 2, 3, 4, 2, 3, 4, 5, 3, 4, 5, 6] ∧
    (transpose_blocked_logged
        [x0, x1, x2, x3, x4, x5, x6, x7, x8, x9, x10, x11, x12, x13, x14, x15]
        ([y0, y1, y2, y3, y4, y5, y6], []) 0 0 4 4 4 1).map Prod.snd =
      some [0, 1, 2, 3, 1, 2, 3, 4, 2, 3, 4, 5, 3, 4, 5, 6] := by
  have hn : transpose_naive
      [x0, x1, x2, x3, x4, x5, x6, x7, x8, x9, x10, x11, x12, x13, x14, x15]
      [y0, y1, y2, y3, y4, y5, y6] 0 0 4 4 4 1 = some [x0, x4, x8, x12, x13, x14, x15] := by
    simp [transpose_naive, forStep, load, store]
  have hb : transpose_blocked
      [x0, x1, x2, x3, x4, x5, x6, x7, x8, x9, x10, x11, x12, x13, x14, x15]
      [y0, y1, y2, y3, y4, y5, y6] 0 0 4 4 4 1 = some [x0, x1, x2, x3, x7, x11, x15] := by
    rw [transpose_blocked_one_block, transpose_blocked4x4_one_tile]
    simp [transpose_4x4, _mm_loadu_ps, _mm_storeu_ps, _MM_TRANSPOSE4_PS, _mm_unpacklo_ps,
      _mm_unpackhi_ps, _mm_movelh_ps, _mm_movehl_ps, load, store]
  refine ⟨hn, hb, ?_, ?_, ?_⟩
  · rw [hn, hb]
    intro e
    injection e with e
    injection e with _ e
    injection e with e _
    exact h e.symm
  · simp [transpose_naive_logged, forStep, load, store, store_logged]
  · rw [transpose_blocked_logged_one_block, transpose_blocked4x4_logged_one_tile]
    simp [transpose_4x4_logged, _mm_loadu_ps, _mm_storeu_ps_logged, _MM_TRANSPOSE4_PS,
      _mm_unpacklo_ps, _mm_unpackhi_ps, _mm_movelh_ps, _mm_movehl_ps, load, store,
      store_logged]

/-- Witness for C24: the source `0 .. 15`, where `a[1*lda + 0] = 4` and
`a[0*lda + 1] = 1`. -/
theorem transpose_blocked_ne_naive_small_ldb_witness :
    transpose_naive [0, 1, 2, 3, 4, 5, 6, 7, 8, 9, 10, 11, 12, 13, 14, 15]
        [0, 0, 0, 0, 0, 0, 0] 0 0 4 4 4 1 = some [0, 4, 8, 12, 13, 14, 15] ∧
    transpose_blocked [0, 1, 2, 3, 4, 5, 6, 7, 8, 9, 10, 11, 12, 13, 14, 15]
        [0, 0, 0, 0, 0, 0, 0] 0 0 4 4 4 1 = some [0, 1, 2, 3, 7, 11, 15] :=
  have h := transpose_blocked_ne_naive_small_ldb (0 : Nat) 1 2 3 4 5 6 7 8 9 10 11 12 13 14 15
    0 0 0 0 0 0 0 (by decide)
  ⟨h.1, h.2.1⟩

/-! ## 32-bit arithmetic agrees with unbounded integers below the overflow bound -/

theorem wrap32_of_le (x : Nat) (hx : x ≤ 2 ^ 31 - 1) : wrap32 (x : Int) = x := by
  unfold wrap32
  norm_num at hx ⊢
  omega

theorem wrapping_exact : ExactBelow wrapping := by
  intro x hx
  unfold wrapping
  rw [wrap32_of_le x hx]

theorem checked_exact : ExactBelow checked := by
  intro x hx
  unfold checked
  rw [if_pos]
  norm_num at hx ⊢
  omega

/-- A multiple of `step` below `2^31` is at most `2^31 - step`, when `step` divides
`2^31`. -/
theorem counter_le {step i : Nat} (hdvd : step ∣ 2 ^ 31) (hi : step ∣ i) (h : i < 2 ^ 31) :
    i + step ≤ 2 ^ 31 := by
  have h1 : step ∣ 2 ^ 31 - i := Nat.dvd_sub' hdvd hi
  have h2 := Nat.le_of_dvd (by omega) h1
  omega

/-- A counter loop in machine arithmetic runs as in unbounded integers as long as the
value `2^31 - step` of the counter does not pass the test, i.e.
`n ≤ 2^31 - step + k`. -/
theorem forInt_eq (ar : Int → Option Int) (har : ExactBelow ar) (k step n : Nat)
    (hstep : 0 < step) (hdvd : step ∣ 2 ^ 31) (hk : k < step) (hn : n + step ≤ 2 ^ 31 + k)
    (tst : Int → Option Int)
    (htst : ∀ i : Nat, i + k ≤ 2 ^ 31 - 1 → tst i = some ((i + k : Nat) : Int))
    (f : Int → σ → Option σ) (g : Nat → σ → Option σ)
    (hfg : ∀ (i : Nat) s, i + k < n → f i s = g i s) :
    ∀ (fuel i : Nat) (s : σ), step ∣ i → i + k < n + step → n - i < fuel →
      forInt ar fuel tst step n f i s =
        (forStep k step n hstep g i s).map (fun r => ((r.1 : Int), r.2)) := by
  intro fuel
  induction fuel with
  | zero => intro i s _ _ h; omega
  | succ fuel ih =>
    intro i s hdi hi hfuel
    have hle := counter_le hdvd hdi (by omega)
    rw [forInt, forStep, htst i (by omega)]
    simp only [Option.bind_eq_bind, Option.some_bind, Nat.cast_lt]
    by_cases hc : i + k < n
    · rw [if_pos hc, if_pos hc, hfg i s hc]
      cases g i s with
      | none => rfl
      | some s' =>
        have h1 : ar ((i : Int) + (step : Int)) = some ((i + step : Nat) : Int) := by
          rw [← Nat.cast_add]
          exact har _ (by omega)
        simp only [Option.some_bind, h1]
        exact ih (i + step) s' (Nat.dvd_add hdi (Nat.dvd_refl _)) (by omega) (by omega)
    · rw [if_neg hc, if_neg hc]
      rfl

theorem forInt_map_eq (ar : Int → Option Int) (har : ExactBelow ar) (k step n : Nat)
    (hstep : 0 < step) (hdvd : step ∣ 2 ^ 31) (hk : k < step) (hn : n + step ≤ 2 ^ 31 + k)
    (tst : Int → Option Int)
    (htst : ∀ i : Nat, i + k ≤ 2 ^ 31 - 1 → tst i = some ((i + k : Nat) : Int))
    {f : Int → σ → Option σ} {g : Nat → σ → Option σ}
    (hfg : ∀ (i : Nat) s, i + k < n → f i s = g i s)
    (fuel : Nat) (s : σ) (hfuel : n < fuel) :
    Prod.snd <$> forInt ar fuel tst step n f (0 : Nat) s =
      Prod.snd <$> forStep k step n hstep g 0 s := by
  rw [forInt_eq ar har k step n hstep hdvd hk hn tst htst f g hfg fuel 0 s (Nat.dvd_zero _)
    (by omega) (by omega)]
  cases forStep k step n hstep g 0 s <;> rfl

theorem forInt_bind_eq {γ : Type} (ar : Int → Option Int) (har : ExactBelow ar)
    (k step n : Nat)
    (hstep : 0 < step) (hdvd : step ∣ 2 ^ 31) (hk : k < step) (hn : n + step ≤ 2 ^ 31 + k)
    (tst : Int → Option Int)
    (htst : ∀ i : Nat, i + k ≤ 2 ^ 31 - 1 → tst i = some ((i + k : Nat) : Int))
    {f : Int → σ → Option σ} {g : Nat → σ → Option σ}
    (hfg : ∀ (i : Nat) s, i + k < n → f i s = g i s)
    {F : Int × σ → Option γ} {G : Nat × σ → Option γ}
    (hFG : ∀ (i : Nat) s, F ((i : Int), s) = G (i, s))
    (fuel : Nat) (s : σ) (hfuel : n < fuel) :
    (forInt ar fuel tst step n f (0 : Nat) s >>= F) = (forStep k step n hstep g 0 s >>= G) := by
  rw [forInt_eq ar har k step n hstep hdvd hk hn tst htst f g hfg fuel 0 s (Nat.dvd_zero _)
    (by omega) (by omega)]
  cases forStep k step n hstep g 0 s with
  | none => rfl
  | some r => exact hFG r.1 r.2

theorem index32_eq {ar : Int → Option Int} (har : ExactBelow ar) (i ld j : Nat)
    (h : i * ld + j ≤ 2 ^ 31 - 1) :
    index32 ar i ld j = some ((i * ld + j : Nat) : Int) := by
  unfold index32
  rw [← Nat.cast_mul, har (i * ld) (by omega)]
  simp only [Option.bind_eq_bind, Option.some_bind]
  rw [← Nat.cast_add, har (i * ld + j) h]

theorem loadAt_cast (m : List α) (a p : Nat) :
    loadAt m ((a : Int) + (p : Int)) = load m (a + p) := by
  unfold loadAt
  rw [← Nat.cast_add, if_pos (Int.natCast_nonneg _), Int.toNat_natCast]

theorem storeAt_cast (m : List α) (b q : Nat) (v : α) :
    storeAt m ((b : Int) + (q : Int)) v = store m (b + q) v := by
  unfold storeAt
  rw [← Nat.cast_add, if_pos (Int.natCast_nonneg _), Int.toNat_natCast]

theorem test_self (i : Nat) (_ : i + 0 ≤ 2 ^ 31 - 1) :
    (pure (i : Int) : Option Int) = some ((i + 0 : Nat) : Int) := rfl

theorem test_plus3 {ar : Int → Option Int} (har : ExactBelow ar) (i : Nat)
    (h : i + 3 ≤ 2 ^ 31 - 1) : ar ((i : Int) + 3) = some ((i + 3 : Nat) : Int) := by
  have := har (i + 3) h
  rwa [Nat.cast_add] at this

theorem transpose_naive_i32_eq {ar : Int → Option Int} (har : ExactBelow ar) (fuel : Nat)
    (src dst : List α) (a b rows cols lda ldb : Nat)
    (hrows : rows ≤ 2 ^ 31 - 1) (hcols : cols ≤ 2 ^ 31 - 1)
    (hidx : ∀ i < rows, ∀ j < cols, i * lda + j ≤ 2 ^ 31 - 1 ∧ j * ldb + i ≤ 2 ^ 31 - 1)
    (hfr : rows < fuel) (hfc : cols < fuel) :
    transpose_naive_i32 ar fuel src dst a b rows cols lda ldb =
      transpose_naive src dst a b rows cols lda ldb := by
  unfold transpose_naive_i32 transpose_naive
  refine forInt_map_eq ar har 0 1 rows (by decide) (one_dvd _) (by decide) (by omega) pure
    test_self ?_ fuel dst hfr
  intro i s hi
  refine forInt_map_eq ar har 0 1 cols (by decide) (one_dvd _) (by decide) (by omega) pure
    test_self ?_ fuel s hfc
  intro j s hj
  have h := hidx i (by omega) j (by omega)
  rw [index32_eq har i lda j h.1, index32_eq har j ldb i h.2]
  simp only [Option.bind_eq_bind, Option.some_bind, loadAt_cast, storeAt_cast]

theorem loaduAt_eq {ar : Int → Option Int} (har : ExactBelow ar) (m : List α)
    (a k ld : Nat) (h : k * ld ≤ 2 ^ 31 - 1) :
    loaduAt ar m a k ld = _mm_loadu_ps m (a + k * ld) := by
  unfold loaduAt
  rw [← Nat.cast_mul, har (k * ld) h]
  simp only [Option.bind_eq_bind, Option.some_bind]
  rw [← Nat.cast_add, if_pos (Int.natCast_nonneg _), Int.toNat_natCast]

theorem storeuAt_eq {ar : Int → Option Int} (har : ExactBelow ar) (m : List α)
    (b k ld : Nat) (v : M128 α) (h : k * ld ≤ 2 ^ 31 - 1) :
    storeuAt ar m b k ld v = _mm_storeu_ps m (b + k * ld) v := by
  unfold storeuAt
  rw [← Nat.cast_mul, har (k * ld) h]
  simp only [Option.bind_eq_bind, Option.some_bind]
  rw [← Nat.cast_add, if_pos (Int.natCast_nonneg _), Int.toNat_natCast]

theorem transpose_4x4_i32_eq {ar : Int → Option Int} (har : ExactBelow ar)
    (src dst : List α) (a b lda ldb : Nat)
    (hlda : 3 * lda ≤ 2 ^ 31 - 1) (hldb : 3 * ldb ≤ 2 ^ 31 - 1) :
    transpose_4x4_i32 ar src dst a b lda ldb = transpose_4x4 src dst a b lda ldb := by
  have l0 : loaduAt ar src a 0 lda = _mm_loadu_ps src (a + 0 * lda) :=
    loaduAt_eq har src a 0 lda (by omega)
  have l1 : loaduAt ar src a 1 lda = _mm_loadu_ps src (a + 1 * lda) :=
    loaduAt_eq har src a 1 lda (by omega)
  have l2 : loaduAt ar src a 2 lda = _mm_loadu_ps src (a + 2 * lda) :=
    loaduAt_eq har src a 2 lda (by omega)
  have l3 : loaduAt ar src a 3 lda = _mm_loadu_ps src (a + 3 * lda) :=
    loaduAt_eq har src a 3 lda (by omega)
  have s0 : ∀ (m : List α) (v : M128 α), storeuAt ar m b 0 ldb v = _mm_storeu_ps m (b + 0 * ldb) v :=
    fun m v => storeuAt_eq har m b 0 ldb v (by omega)
  have s1 : ∀ (m : List α) (v : M128 α), storeuAt ar m b 1 ldb v = _mm_storeu_ps m (b + 1 * ldb) v :=
    fun m v => storeuAt_eq har m b 1 ldb v (by omega)
  have s2 : ∀ (m : List α) (v : M128 α), storeuAt ar m b 2 ldb v = _mm_storeu_ps m (b + 2 * ldb) v :=
    fun m v => storeuAt_eq har m b 2 ldb v (by omega)
  have s3 : ∀ (m : List α) (v : M128 α), storeuAt ar m b 3 ldb v = _mm_storeu_ps m (b + 3 * ldb) v :=
    fun m v => storeuAt_eq har m b 3 ldb v (by omega)
  unfold transpose_4x4_i32 transpose_4x4
  simp only [l0, l1, l2, l3, s0, s1, s2, s3]

theorem sub_exact {ar : Int → Option Int} (har : ExactBelow ar) (n i : Nat) (h : i ≤ n)
    (hn : n ≤ 2 ^ 31 - 1) : ar ((n : Int) - (i : Int)) = some ((n - i : Nat) : Int) := by
  rw [← Nat.cast_sub h]
  exact har _ (by omega)

theorem transpose_blocked4x4_i32_eq {ar : Int → Option Int} (har : ExactBelow ar)
    (fuel : Nat) (src dst : List α) (a b rows cols lda ldb : Nat)
    (hrows : rows ≤ 2 ^ 31 - 1) (hcols : cols ≤ 2 ^ 31 - 1)
    (hidx : ∀ i < rows, ∀ j < cols, i * lda + j ≤ 2 ^ 31 - 1 ∧ j * ldb + i ≤ 2 ^ 31 - 1)
    (hfr : rows < fuel) (hfc : cols < fuel) :
    transpose_blocked4x4_i32 ar fuel src dst a b rows cols lda ldb =
      transpose_blocked4x4 src dst a b rows cols lda ldb := by
  unfold transpose_blocked4x4_i32 transpose_blocked4x4
  have h4 : 4 ∣ 2 ^ 31 := ⟨2 ^ 29, by norm_num⟩
  refine forInt_bind_eq ar har 3 4 rows (by decide) h4 (by decide) (by omega) _
    (fun i h => test_plus3 har i h) ?_ ?_ fuel dst hfr
  · intro i s hi
    refine forInt_bind_eq ar har 3 4 cols (by decide) h4 (by decide) (by omega) _
      (fun i h => test_plus3 har i h) ?_ ?_ fuel s hfc
    · intro j s hj
      have h := hidx i (by omega) j (by omega)
      have h3 := hidx 3 (by omega) 0 (by omega)
      have h3' := hidx 0 (by omega) 3 (by omega)
      rw [index32_eq har i lda j h.1, index32_eq har j ldb i h.2]
      simp only [Option.bind_eq_bind, Option.some_bind]
      rw [← Nat.cast_add, ← Nat.cast_add]
      exact transpose_4x4_i32_eq har src s _ _ lda ldb (by omega) (by omega)
    · intro j s
      simp only [Nat.cast_lt]
      split
      · rename_i hj
        have h := hidx i (by omega) j hj
        rw [index32_eq har i lda j h.1, index32_eq har j ldb i h.2,
          sub_exact har cols j (by omega) (by omega)]
        simp only [Option.bind_eq_bind, Option.some_bind]
        rw [← Nat.cast_add, ← Nat.cast_add]
        exact transpose_naive_i32_eq har fuel src s _ _ 4 (cols - j) lda ldb (by omega)
          (by omega) (fun i' hi' j' hj' => hidx i' (by omega) j' (by omega)) (by omega)
          (by omega)
      · rfl
  · intro i s
    simp only [Nat.cast_lt]
    split
    · rename_i hi
      refine forInt_bind_eq ar har 3 4 cols (by decide) h4 (by decide) (by omega) _
        (fun i h => test_plus3 har i h) ?_ ?_ fuel s hfc
      · intro j s hj
        have h := hidx i hi j (by omega)
        rw [index32_eq har i lda j h.1, index32_eq har j ldb i h.2,
          sub_exact har rows i (by omega) (by omega)]
        simp only [Option.bind_eq_bind, Option.some_bind]
        rw [← Nat.cast_add, ← Nat.cast_add]
        exact transpose_naive_i32_eq har fuel src s _ _ (rows - i) 4 lda ldb (by omega)
          (by omega) (fun i' hi' j' hj' => hidx i' (by omega) j' (by omega)) (by omega)
          (by omega)
      · intro j s
        simp only [Nat.cast_lt]
        split
        · rename_i hj
          have h := hidx i hi j hj
          rw [index32_eq har i lda j h.1, index32_eq har j ldb i h.2,
            sub_exact har rows i (by omega) (by omega),
            sub_exact har cols j (by omega) (by omega)]
          simp only [Option.bind_eq_bind, Option.some_bind]
          rw [← Nat.cast_add, ← Nat.cast_add]
          exact transpose_naive_i32_eq har fuel src s _ _ (rows - i) (cols - j) lda ldb
            (by omega) (by omega) (fun i' hi' j' hj' => hidx i' (by omega) j' (by omega))
            (by omega) (by omega)
        · rfl
    · rfl

theorem transpose_blocked_i32_eq {ar : Int → Option Int} (har : ExactBelow ar)
    (fuel : Nat) (src dst : List α) (a b rows cols lda ldb : Nat)
    (hrows : rows + 128 ≤ 2 ^ 31) (hcols : rows = 0 ∨ cols + 128 ≤ 2 ^ 31)
    (hidx : ∀ i < rows, ∀ j < cols, i * lda + j ≤ 2 ^ 31 - 1 ∧ j * ldb + i ≤ 2 ^ 31 - 1)
    (hfr : rows < fuel) (hfc : cols < fuel) :
    transpose_blocked_i32 ar fuel src dst a b rows cols lda ldb =
      transpose_blocked src dst a b rows cols lda ldb := by
  unfold transpose_blocked_i32 transpose_blocked
  have h128 : block_size ∣ 2 ^ 31 := ⟨2 ^ 24, by norm_num [block_size]⟩
  refine forInt_map_eq ar har 0 block_size rows (by decide) h128 (by decide)
    (by unfold block_size; omega) pure test_self ?_ fuel dst hfr
  intro i s hi
  rw [sub_exact har rows i (by omega) (by omega)]
  simp only [Option.bind_eq_bind, Option.some_bind]
  refine forInt_map_eq ar har 0 block_size cols (by decide) h128 (by decide)
    (by unfold block_size; omega) pure test_self ?_ fuel s hfc
  intro j s hj
  have h := hidx i (by omega) j (by omega)
  rw [sub_exact har cols j (by omega) (by omega), index32_eq har i lda j h.1,
    index32_eq har j ldb i h.2]
  simp only [Option.bind_eq_bind, Option.some_bind]
  rw [← Nat.cast_add, ← Nat.cast_add, ← Nat.cast_min, ← Nat.cast_min]
  exact transpose_blocked4x4_i32_eq har fuel src s _ _ _ _ lda ldb
    (by unfold block_size; omega) (by unfold block_size; omega)
    (fun i' hi' j' hj' => hidx i' (by omega) j' (by omega)) (by omega) (by omega)

/-- A counter that stays a multiple of 128 inside the `int` range never reaches a
bound above `2^31 - 128`: the loop has no result, whatever its fuel and its body. -/
theorem forInt_no_exit (ar : Int → Option Int)
    (hp : ∀ x y, ar x = some y → -2147483648 ≤ y ∧ y ≤ 2147483647 ∧ y % 128 = x % 128)
    (n : Int) (hn : 2147483520 < n) (tst : Int → Option Int) (htst : ∀ i, tst i = some i)
    (body : Int → σ → Option σ) :
    ∀ (fuel : Nat) (i : Int) (s : σ), i % 128 = 0 → -2147483648 ≤ i → i ≤ 2147483647 →
      forInt ar fuel tst 128 n body i s = none := by
  intro fuel
  induction fuel with
  | zero => intro i s _ _ _; rfl
  | succ fuel ih =>
    intro i s h1 h2 h3
    rw [forInt, htst]
    simp only [Option.bind_eq_bind, Option.some_bind]
    rw [if_pos (by omega)]
    cases body i s with
    | none => rfl
    | some s' =>
      simp only [Option.some_bind]
      cases h : ar (i + 128) with
      | none => rfl
      | some i' =>
        have := hp _ _ h
        simp only [Option.some_bind]
        exact ih i' s' (by omega) (by omega) (by omega)

theorem wrapping_range (x y : Int) (h : wrapping x = some y) :
    -2147483648 ≤ y ∧ y ≤ 2147483647 ∧ y % 128 = x % 128 := by
  unfold wrapping wrap32 at h
  cases h
  norm_num
  omega

theorem checked_range (x y : Int) (h : checked x = some y) :
    -2147483648 ≤ y ∧ y ≤ 2147483647 ∧ y % 128 = x % 128 := by
  unfold checked at h
  split at h
  · cases h
    rename_i hx
    norm_num at hx
    omega
  · cases h

/-- Above `2^31 - 128` rows the 32-bit run of `transpose_blocked` has no result. -/
theorem transpose_blocked_i32_no_result (ar : Int → Option Int)
    (hp : ∀ x y, ar x = some y → -2147483648 ≤ y ∧ y ≤ 2147483647 ∧ y % 128 = x % 128)
    (fuel : Nat) (src dst : List α) (a b rows cols lda ldb : Int) (hrows : 2147483520 < rows) :
    transpose_blocked_i32 ar fuel src dst a b rows cols lda ldb = none := by
  unfold transpose_blocked_i32
  have h128 : ((block_size : Nat) : Int) = 128 := rfl
  rw [h128, forInt_no_exit ar hp rows hrows pure (fun _ => rfl) _ fuel 0 dst (by decide)
    (by decide) (by decide)]
  rfl

theorem index_bound {rows cols ld i j : Nat} (hi : i < rows) (hj : j < cols)
    (h : ((rows : Int) - 1) * ld + cols - 1 ≤ 2 ^ 31 - 1) : i * ld + j ≤ 2 ^ 31 - 1 := by
  have h1 : i * ld ≤ (rows - 1) * ld := Nat.mul_le_mul_right ld (by omega)
  have h2 : (((rows - 1) * ld : Nat) : Int) = ((rows : Int) - 1) * ld := by
    rw [Nat.cast_mul, Nat.cast_sub (by omega)]
    rfl
  have h3 : (((rows - 1) * ld : Nat) : Int) + cols - 1 ≤ 2147483647 := by
    rw [h2]
    norm_num at h
    omega
  norm_num
  omega

/-- With at least one row and more than `2^31 - 128` columns the 32-bit run of
`transpose_blocked` has no result: the counter `j` of the first block row never
passes `cols`. -/
theorem transpose_blocked_i32_no_result_cols (ar : Int → Option Int)
    (hp : ∀ x y, ar x = some y → -2147483648 ≤ y ∧ y ≤ 2147483647 ∧ y % 128 = x % 128)
    (fuel : Nat) (src dst : List α) (a b rows cols lda ldb : Int) (hrows : 0 < rows)
    (hcols : 2147483520 < cols) :
    transpose_blocked_i32 ar fuel src dst a b rows cols lda ldb = none := by
  unfold transpose_blocked_i32
  have h128 : ((block_size : Nat) : Int) = 128 := rfl
  cases fuel with
  | zero => rfl
  | succ fuel =>
    rw [forInt]
    simp only [Option.pure_def, Option.bind_eq_bind, Option.some_bind]
    rw [if_pos hrows]
    cases ar (rows - 0) with
    | none => rfl
    | some d =>
      simp only [Option.some_bind]
      simp only [h128]
      rw [forInt_no_exit ar hp cols hcols _ (fun _ => rfl) _ (fuel + 1) 0 dst (by decide)
        (by decide) (by decide)]
      rfl

/-- C25, as amended.  Modelling `int` as 32-bit two's complement: for all
`rows, cols ≥ 0`, strides and buffers such that the largest source index
`(rows-1)*lda + cols - 1` and the largest destination index `(cols-1)*ldb + rows - 1`
fit in a signed 32-bit `int`, and such that moreover `rows ≤ 2^31 - 128` and, unless
`rows = 0`, `cols ≤ 2^31 - 128`, the run of `transpose_blocked` in 32-bit arithmetic
(every loop given more fuel than `rows` and `cols`) coincides with the run in
unbounded integers: under wrap-around arithmetic, and equally under arithmetic
that has no result on overflow, so that no counter (the `i += 128`, `j += 128` and the
tests `i + 3 < rows`, `j + 3 < cols` included), no difference and no index expression
evaluated exceeds `2^31 - 1`.  On buffers that hold the two views with `ldb ≥ rows`
both 32-bit runs return the transposed destination. -/
theorem transpose_blocked_i32_coincides (fuel : Nat) (src dst : List α)
    (a b rows cols lda ldb : Nat)
    (hsrc : ((rows : Int) - 1) * lda + cols - 1 ≤ 2 ^ 31 - 1)
    (hdst : ((cols : Int) - 1) * ldb + rows - 1 ≤ 2 ^ 31 - 1)
    (hrows : rows ≤ 2 ^ 31 - 128) (hcols : rows = 0 ∨ cols ≤ 2 ^ 31 - 128)
    (hfr : rows < fuel) (hfc : cols < fuel) :
    transpose_blocked_i32 wrapping fuel src dst a b rows cols lda ldb =
      transpose_blocked src dst a b rows cols lda ldb ∧
    transpose_blocked_i32 checked fuel src dst a b rows cols lda ldb =
      transpose_blocked src dst a b rows cols lda ldb ∧
    (rows ≤ ldb → Fits a rows cols lda src.length → Fits b cols rows ldb dst.length →
      ∃ dst', transpose_blocked_i32 wrapping fuel src dst a b rows cols lda ldb = some dst' ∧
        transpose_blocked_i32 checked fuel src dst a b rows cols lda ldb = some dst' ∧
        Transposed src dst a b rows cols lda ldb dst') := by
  have hidx : ∀ i < rows, ∀ j < cols,
      i * lda + j ≤ 2 ^ 31 - 1 ∧ j * ldb + i ≤ 2 ^ 31 - 1 :=
    fun i hi j hj => ⟨index_bound hi hj hsrc, index_bound hj hi hdst⟩
  have hw := transpose_blocked_i32_eq wrapping_exact fuel src dst a b rows cols lda ldb
    (by omega) (by omega) hidx hfr hfc
  have hc := transpose_blocked_i32_eq checked_exact fuel src dst a b rows cols lda ldb
    (by omega) (by omega) hidx hfr hfc
  refine ⟨hw, hc, fun hldb hs hd => ?_⟩
  obtain ⟨dst', hrun, ht⟩ :=
    transpose_blocked_spec src dst a b rows cols lda ldb (Or.inr hldb) hs hd
  exact ⟨dst', hw.trans hrun, hc.trans hrun, ht⟩

/-- Witness for C25 (amended): the 2x3 matrix; the 32-bit run is evaluated, and by the
theorem its result is the result of the run in unbounded integers. -/
theorem transpose_blocked_i32_coincides_witness :
    transpose_blocked_i32 wrapping 4 [1, 2, 3, 4, 5, 6] [0, 0, 0, 0, 0, 0] 0 0 2 3 3 2
      = some [1, 4, 2, 5, 3, 6] ∧
    transpose_blocked_i32 wrapping 4 [1, 2, 3, 4, 5, 6] [0, 0, 0, 0, 0, 0]
        ((0 : Nat) : Int) ((0 : Nat) : Int) ((2 : Nat) : Int) ((3 : Nat) : Int)
        ((3 : Nat) : Int) ((2 : Nat) : Int) =
      transpose_blocked [1, 2, 3, 4, 5, 6] [0, 0, 0, 0, 0, 0] 0 0 2 3 3 2 :=
  ⟨by decide,
    (transpose_blocked_i32_coincides 4 [1, 2, 3, 4, 5, 6] [0, 0, 0, 0, 0, 0] 0 0 2 3 3 2
      (by norm_num) (by norm_num) (by norm_num) (Or.inr (by norm_num)) (by decide)
      (by decide)).1⟩

/-- C25, counterexample.  `rows = 2^31 - 1`, `cols = 1`, `lda = 1`, `ldb = 2^31 - 1`,
on buffers of `2^31 - 1` elements: `lda ≥ cols`, `ldb ≥ rows`, the largest source
index and the largest destination index are `2^31 - 2`, and the run in unbounded
integers returns.  The counter `i` of `transpose_blocked` takes the value
`2^31 - 128 < rows`, and `i += 128` then yields `2^31`, which wraps around to
`-2^31`: with wrap-around arithmetic the loop test never fails, so for every fuel the
32-bit run has no result, and neither has it with arithmetic that has no result on
overflow. -/
theorem transpose_blocked_i32_counterexample :
    ((1 : Int) ≤ 1 ∧ (2147483647 : Int) ≤ 2147483647 ∧
      ((2147483647 : Int) - 1) * 1 + 1 - 1 ≤ 2 ^ 31 - 1 ∧
      ((1 : Int) - 1) * 2147483647 + 2147483647 - 1 ≤ 2 ^ 31 - 1) ∧
    (∃ dst', transpose_blocked (List.replicate 2147483647 (0 : Nat))
      (List.replicate 2147483647 (0 : Nat)) 0 0 2147483647 1 1 2147483647 = some dst') ∧
    (∀ fuel, transpose_blocked_i32 wrapping fuel (List.replicate 2147483647 (0 : Nat))
      (List.replicate 2147483647 (0 : Nat)) 0 0 2147483647 1 1 2147483647 = none) ∧
    (∀ fuel, transpose_blocked_i32 checked fuel (List.replicate 2147483647 (0 : Nat))
      (List.replicate 2147483647 (0 : Nat)) 0 0 2147483647 1 1 2147483647 = none) ∧
    (2147483520 : Int) < 2147483647 ∧ (2 : Int) ^ 31 - 1 < 2147483520 + 128 ∧
    wrap32 (2147483520 + 128) = -2147483648 ∧ checked (2147483520 + 128) = none := by
  refine ⟨by norm_num, ?_, ?_, ?_, by norm_num, by norm_num, ?_, ?_⟩
  · obtain ⟨dst', hrun, _⟩ := transpose_blocked_spec (List.replicate 2147483647 (0 : Nat))
      (List.replicate 2147483647 (0 : Nat)) 0 0 2147483647 1 1 2147483647
      (Or.inr (Nat.le_refl _))
      (by intro i hi j hj; rw [List.length_replicate]; omega)
      (by intro i hi j hj; rw [List.length_replicate]; omega)
    exact ⟨dst', hrun⟩
  · intro fuel
    exact transpose_blocked_i32_no_result wrapping wrapping_range fuel _ _ _ _ _ _ _ _
      (by norm_num)
  · intro fuel
    exact transpose_blocked_i32_no_result checked checked_range fuel _ _ _ _ _ _ _ _
      (by norm_num)
  · unfold wrap32
    norm_num
  · unfold checked
    norm_num

/-! # The contract on the machine -/

/-! ## Arguments that fit -/

theorem IntFits.src_le {rows cols lda ldb i j : Nat} (h : IntFits rows cols lda ldb)
    (hi : i ≤ rows - 1) (hj : j ≤ cols - 1) : i * lda + j ≤ 2 ^ 31 - 1 := by
  have := Nat.mul_le_mul_right lda hi
  have := h.2.2.1
  omega

theorem IntFits.dst_le {rows cols lda ldb i j : Nat} (h : IntFits rows cols lda ldb)
    (hi : i ≤ rows - 1) (hj : j ≤ cols - 1) : j * ldb + i ≤ 2 ^ 31 - 1 := by
  have := Nat.mul_le_mul_right ldb hj
  have := h.2.2.2
  omega

theorem IntFits.shrink {rows cols lda ldb r c : Nat} (h : IntFits rows cols lda ldb)
    (hr : r ≤ rows) (hc : c ≤ cols) : IntFits r c lda ldb := by
  have h1 := h.src_le (by omega : r - 1 ≤ rows - 1) (by omega : c - 1 ≤ cols - 1)
  have h2 := h.dst_le (by omega : r - 1 ≤ rows - 1) (by omega : c - 1 ≤ cols - 1)
  exact ⟨by have := h.1; omega, by have := h.2.1; omega, h1, h2⟩

theorem IntFits.index {rows cols lda ldb : Nat} (h : IntFits rows cols lda ldb) :
    IndexFits rows cols lda ldb :=
  fun _ hi _ hj => ⟨h.src_le (by omega) (by omega), h.dst_le (by omega) (by omega)⟩

theorem maskLow2_int_half (n : Nat) :
    maskLow2_int (Int.tdiv (n : Int) 2) = ((maskLow2 (n / 2) : Nat) : Int) := by
  have h : Int.tdiv (n : Int) 2 = ((n / 2 : Nat) : Int) := (Int.ofNat_tdiv n 2).symm
  rw [h]
  unfold maskLow2_int maskLow2
  exact (Int.toNat_of_nonneg (Int.natCast_nonneg (Nat.ldiff (n / 2) 3))).symm

theorem mul_exact {ar : Int → Option Int} (har : ExactBelow ar) (i ld : Nat)
    (h : i * ld ≤ 2 ^ 31 - 1) : ar ((i : Int) * (ld : Int)) = some ((i * ld : Nat) : Int) := by
  rw [← Nat.cast_mul]
  exact har _ h

/-! ## The recursive transposers on the machine -/

theorem transpose_oblivious_i32_eq {ar : Int → Option Int} (har : ExactBelow ar)
    (src : List α) (lda ldb : Nat) :
    ∀ (fuel rows cols : Nat), rows + cols < fuel → IntFits rows cols lda ldb →
      ∀ (dst : List α) (a b : Nat),
        transpose_oblivious_i32 ar fuel src dst a b rows cols lda ldb =
          transpose_oblivious src dst a b rows cols lda ldb := by
  intro fuel
  induction fuel with
  | zero => intro rows cols h; omega
  | succ k ih =>
    intro rows cols hfuel hT dst a b
    rw [transpose_oblivious_i32, transpose_oblivious]
    by_cases hb : rows ≤ 16 ∧ cols ≤ 16
    · rw [if_pos hb, if_pos ⟨by omega, by omega⟩]
      exact transpose_naive_i32_eq har (k + 1) src dst a b rows cols lda ldb hT.1 hT.2.1
        hT.index (by omega) (by omega)
    · rw [if_neg hb, if_neg (by omega)]
      have hR := maskLow2_half rows
      have hC := maskLow2_half cols
      have hr1 : maskLow2 (rows / 2) ≤ rows - 1 := by omega
      have hc1 : maskLow2 (cols / 2) ≤ cols - 1 := by omega
      have e1 := mul_exact har (maskLow2 (cols / 2)) ldb
        (by have := hT.dst_le (Nat.zero_le _) hc1; omega)
      have e2 := mul_exact har (maskLow2 (rows / 2)) lda
        (by have := hT.src_le hr1 (Nat.zero_le _); omega)
      have e3 := sub_exact har rows (maskLow2 (rows / 2)) (by omega) hT.1
      have e4 := sub_exact har cols (maskLow2 (cols / 2)) (by omega) hT.2.1
      have e5 := index32_eq har (maskLow2 (rows / 2)) lda (maskLow2 (cols / 2))
        (hT.src_le hr1 hc1)
      have e6 := index32_eq har (maskLow2 (cols / 2)) ldb (maskLow2 (rows / 2))
        (hT.dst_le hr1 hc1)
      simp only [maskLow2_int_half, e1, e2, e3, e4, e5, e6, Option.bind_eq_bind,
        Option.some_bind, ← Nat.cast_add]
      rw [ih _ _ (by omega) (hT.shrink (by omega) (by omega))]
      refine congrArg _ (funext fun d1 => ?_)
      rw [ih _ _ (by omega) (hT.shrink (by omega) (by omega))]
      refine congrArg _ (funext fun d2 => ?_)
      rw [ih _ _ (by omega) (hT.shrink (by omega) (by omega))]
      refine congrArg _ (funext fun d3 => ?_)
      exact ih _ _ (by omega) (hT.shrink (by omega) (by omega)) _ _ _

theorem transpose_oblivious2_i32_eq {ar : Int → Option Int} (har : ExactBelow ar)
    (src : List α) (lda ldb : Nat) :
    ∀ (fuel rows cols : Nat), rows + cols < fuel → IntFits rows cols lda ldb →
      ∀ (dst : List α) (a b : Nat),
        transpose_oblivious2_i32 ar fuel src dst a b rows cols lda ldb =
          transpose_oblivious2 src dst a b rows cols lda ldb := by
  intro fuel
  induction fuel with
  | zero => intro rows cols h; omega
  | succ k ih =>
    intro rows cols hfuel hT dst a b
    rw [transpose_oblivious2_i32, transpose_oblivious2]
    have hR := maskLow2_half rows
    have hC := maskLow2_half cols
    have hr1 : maskLow2 (rows / 2) ≤ rows - 1 := by omega
    have hc1 : maskLow2 (cols / 2) ≤ cols - 1 := by omega
    have e1 := mul_exact har (maskLow2 (cols / 2)) ldb
      (by have := hT.dst_le (Nat.zero_le _) hc1; omega)
    have e2 := mul_exact har (maskLow2 (rows / 2)) lda
      (by have := hT.src_le hr1 (Nat.zero_le _); omega)
    have e3 := sub_exact har rows (maskLow2 (rows / 2)) (by omega) hT.1
    have e4 := sub_exact har cols (maskLow2 (cols / 2)) (by omega) hT.2.1
    have e5 := index32_eq har (maskLow2 (rows / 2)) lda (maskLow2 (cols / 2))
      (hT.src_le hr1 hc1)
    have e6 := index32_eq har (maskLow2 (cols / 2)) ldb (maskLow2 (rows / 2))
      (hT.dst_le hr1 hc1)
    by_cases hb : rows ≤ 16 ∧ cols ≤ 16
    · rw [if_pos hb, if_pos ⟨by omega, by omega⟩]
      exact transpose_blocked4x4_i32_eq har (k + 1) src dst a b rows cols lda ldb hT.1 hT.2.1
        hT.index (by omega) (by omega)
    · rw [if_neg hb, if_neg (by omega)]
      by_cases h8 : rows ≤ 8
      · rw [if_pos h8, if_pos (by omega)]
        simp only [maskLow2_int_half, e1, e4, Option.bind_eq_bind, Option.some_bind,
          ← Nat.cast_add]
        rw [ih _ _ (by omega) (hT.shrink (by omega) (by omega))]
        refine congrArg _ (funext fun d1 => ?_)
        exact ih _ _ (by omega) (hT.shrink (by omega) (by omega)) _ _ _
      · rw [if_neg h8, if_neg (by omega)]
        by_cases hc8 : cols ≤ 8
        · rw [if_pos hc8, if_pos (by omega)]
          simp only [maskLow2_int_half, e2, e3, Option.bind_eq_bind, Option.some_bind,
            ← Nat.cast_add]
          rw [ih _ _ (by omega) (hT.shrink (by omega) (by omega))]
          refine congrArg _ (funext fun d1 => ?_)
          exact ih _ _ (by omega) (hT.shrink (by omega) (by omega)) _ _ _
        · rw [if_neg hc8, if_neg (by omega)]
          simp only [maskLow2_int_half, e1, e2, e3, e4, e5, e6, Option.bind_eq_bind,
            Option.some_bind, ← Nat.cast_add]
          rw [ih _ _ (by omega) (hT.shrink (by omega) (by omega))]
          refine congrArg _ (funext fun d1 => ?_)
          rw [ih _ _ (by omega) (hT.shrink (by omega) (by omega))]
          refine congrArg _ (funext fun d2 => ?_)
          rw [ih _ _ (by omega) (hT.shrink (by omega) (by omega))]
          refine congrArg _ (funext fun d3 => ?_)
          exact ih _ _ (by omega) (hT.shrink (by omega) (by omega)) _ _ _

/-- On arguments that fit, every strategy runs on the machine as it does in unbounded
integers, for every arithmetic that is exact on representable values and every fuel
above `rows + cols`. -/
theorem Strategy.run_i32_eq (S : Strategy) {ar : Int → Option Int} (har : ExactBelow ar)
    (fuel : Nat) (src dst : List α) (a b rows cols lda ldb : Nat)
    (hfit : S.Fits32 rows cols lda ldb) (hfuel : rows + cols < fuel) :
    S.run_i32 ar fuel src dst a b rows cols lda ldb =
      S.run src dst a b rows cols lda ldb := by
  cases S
  · exact transpose_naive_i32_eq har fuel src dst a b rows cols lda ldb hfit.1 hfit.2.1
      hfit.2.2 (by omega) (by omega)
  · obtain ⟨hidx, hr, hc⟩ := hfit
    exact transpose_blocked_i32_eq har fuel src dst a b rows cols lda ldb (by omega)
      (by omega) hidx (by omega) (by omega)
  · exact transpose_oblivious_i32_eq har src lda ldb fuel rows cols hfuel hfit dst a b
  · exact transpose_oblivious2_i32_eq har src lda ldb fuel rows cols hfuel hfit dst a b

theorem IndexFits.restrict {rows cols lda ldb r c : Nat} (h : IndexFits rows cols lda ldb)
    (hr : r ≤ rows) (hc : c ≤ cols) : IndexFits r c lda ldb :=
  fun i hi j hj => h i (by omega) j (by omega)

/-- The quadrant decomposition runs on the machine as in unbounded integers when the
indices of each quadrant, relative to its origin, and the offsets of the origins
fit. -/
theorem transpose_naive_quadrants_i32_run {ar : Int → Option Int} (har : ExactBelow ar)
    (fuel : Nat) (src dst : List α) (a b rows cols hr hc lda ldb : Nat)
    (hhr : hr ≤ rows) (hhc : hc ≤ cols) (hrows : rows ≤ 2 ^ 31 - 1) (hcols : cols ≤ 2 ^ 31 - 1)
    (h1 : IndexFits hr hc lda ldb) (h2 : IndexFits hr (cols - hc) lda ldb)
    (h3 : IndexFits (rows - hr) hc lda ldb) (h4 : IndexFits (rows - hr) (cols - hc) lda ldb)
    (hq : hr * lda + hc ≤ 2 ^ 31 - 1) (hq' : hc * ldb + hr ≤ 2 ^ 31 - 1)
    (hfr : rows < fuel) (hfc : cols < fuel) :
    transpose_naive_quadrants_i32 ar fuel src dst a b rows cols hr hc lda ldb =
      transpose_naive_quadrants src dst a b rows cols hr hc lda ldb := by
  unfold transpose_naive_quadrants_i32 transpose_naive_quadrants
  have e1 := mul_exact har hc ldb (by omega)
  have e2 := mul_exact har hr lda (by omega)
  have e3 := sub_exact har rows hr hhr hrows
  have e4 := sub_exact har cols hc hhc hcols
  have e5 := index32_eq har hr lda hc hq
  have e6 := index32_eq har hc ldb hr hq'
  have hn : ∀ (d : List α) (p q r c : Nat), r ≤ rows → c ≤ cols → IndexFits r c lda ldb →
      transpose_naive_i32 ar fuel src d p q r c lda ldb =
        transpose_naive src d p q r c lda ldb := fun d p q r c hr' hc' hx =>
    transpose_naive_i32_eq har fuel src d p q r c lda ldb (by omega) (by omega) hx
      (by omega) (by omega)
  simp only [e1, e2, e3, e4, e5, e6, Option.bind_eq_bind, Option.some_bind, ← Nat.cast_add]
  rw [hn _ _ _ _ _ hhr hhc h1]
  refine congrArg _ (funext fun d1 => ?_)
  rw [hn _ _ _ _ _ hhr (by omega) h2]
  refine congrArg _ (funext fun d2 => ?_)
  rw [hn _ _ _ _ _ (by omega) hhc h3]
  refine congrArg _ (funext fun d3 => ?_)
  exact hn _ _ _ _ _ (by omega) (by omega) h4

/-! ## Runs without a result -/

/-- A loop `for (i = ..; i < n; ++i)` whose body has no result at the counter value
`i0 < n` has no result, whatever the fuel. -/
theorem forInt_none_at (ar : Int → Option Int) (har : ExactBelow ar) (n i0 : Nat)
    (hi0 : i0 < n) (hn : n ≤ 2 ^ 31) (f : Int → σ → Option σ)
    (hf : ∀ s, f (i0 : Int) s = none) :
    ∀ (fuel i : Nat) (s : σ), i ≤ i0 →
      forInt ar fuel pure 1 (n : Int) f (i : Int) s = none := by
  intro fuel
  induction fuel with
  | zero => intro i s _; rfl
  | succ fuel ih =>
    intro i s hi
    rw [forInt]
    simp only [Option.pure_def, Option.bind_eq_bind, Option.some_bind, Nat.cast_lt]
    rw [if_pos (by omega)]
    by_cases he : i = i0
    · rw [he, hf]
      rfl
    · cases f (i : Int) s with
      | none => rfl
      | some s' =>
        have h1 : ar ((i : Int) + 1) = some ((i + 1 : Nat) : Int) := by
          have := har (i + 1) (by omega)
          rwa [Nat.cast_add] at this
        simp only [Option.some_bind, h1]
        exact ih (i + 1) s' (by omega)

/-- `transpose_naive` on the machine has no result when the copy of some cell
`(i0, j0)` has none. -/
theorem transpose_naive_i32_no_result (ar : Int → Option Int) (har : ExactBelow ar)
    (src : List α) (a b lda ldb : Int) (rows cols i0 j0 : Nat) (hi0 : i0 < rows)
    (hj0 : j0 < cols) (hrows : rows ≤ 2 ^ 31) (hcols : cols ≤ 2 ^ 31)
    (hcell : ∀ dst : List α, (do
      let p ← index32 ar i0 lda j0
      let q ← index32 ar j0 ldb i0
      let v ← loadAt src (a + p)
      storeAt dst (b + q) v) = none)
    (fuel : Nat) (dst : List α) :
    transpose_naive_i32 ar fuel src dst a b rows cols lda ldb = none := by
  unfold transpose_naive_i32
  rw [show (0 : Int) = ((0 : Nat) : Int) from rfl,
    forInt_none_at ar har rows i0 hi0 hrows _ ?_ fuel 0 dst (Nat.zero_le _)]
  · rfl
  · intro s
    rw [forInt_none_at ar har cols j0 hj0 hcols _ hcell fuel 0 s (Nat.zero_le _)]
    rfl

/-- The copy of a cell has no result when its source index, as computed by the
machine, points below the buffer (or is not computed at all). -/
theorem cell_no_result (ar : Int → Option Int) (src : List α) (a b lda ldb : Int)
    (i j : Nat) (h : ∀ p, index32 ar i lda j = some p → a + p < 0) (dst : List α) :
    (do
      let p ← index32 ar i lda j
      let q ← index32 ar j ldb i
      let v ← loadAt src (a + p)
      storeAt dst (b + q) v) = none := by
  cases hp : index32 ar i lda j with
  | none => rfl
  | some p =>
    cases hq : index32 ar j ldb i with
    | none => rfl
    | some q =>
      have hl : loadAt src (a + p) = none := by
        unfold loadAt
        rw [if_neg (by have := h p hp; omega)]
      simp only [Option.bind_eq_bind, Option.some_bind, hl, Option.none_bind]

theorem index32_wrapping_overflow :
    index32 wrapping ((1 : Nat) : Int) 2147483647 ((1 : Nat) : Int) = some (-2147483648) := by
  norm_num [index32, wrapping, wrap32]

theorem index32_checked_overflow :
    index32 checked ((1 : Nat) : Int) 2147483647 ((1 : Nat) : Int) = none := by
  norm_num [index32, checked]

/-- With `lda = 2^31 - 1` the source index of cell `(1, 1)` is `2^31`: on the machine
`transpose_naive` has no result on a matrix with at least two rows and two columns,
under either arithmetic. -/
theorem transpose_naive_i32_stride_overflow (src dst : List α) (b ldb : Int)
    (rows cols : Nat) (hr : 2 ≤ rows) (hc : 2 ≤ cols) (hrows : rows ≤ 2 ^ 31)
    (hcols : cols ≤ 2 ^ 31) (fuel : Nat) :
    transpose_naive_i32 wrapping fuel src dst 0 b rows cols 2147483647 ldb = none ∧
    transpose_naive_i32 checked fuel src dst 0 b rows cols 2147483647 ldb = none := by
  constructor
  · refine transpose_naive_i32_no_result wrapping wrapping_exact src 0 b 2147483647 ldb rows
      cols 1 1 (by omega) (by omega) hrows hcols (fun d => ?_) fuel dst
    refine cell_no_result wrapping src 0 b 2147483647 ldb 1 1 (fun p hp => ?_) d
    rw [index32_wrapping_overflow] at hp
    cases hp
    decide
  · refine transpose_naive_i32_no_result checked checked_exact src 0 b 2147483647 ldb rows
      cols 1 1 (by omega) (by omega) hrows hcols (fun d => ?_) fuel dst
    refine cell_no_result checked src 0 b 2147483647 ldb 1 1 (fun p hp => ?_) d
    rw [index32_checked_overflow] at hp
    cases hp

/-- C1, counterexample.  `rows = cols = 2`, `lda = 2^31 - 1 ≥ cols`, `ldb = 2 ≥ rows`,
a source buffer of `lda + 2` elements and a destination buffer of 4 elements, which
hold the two views.  In unbounded integers the run returns.  On the machine the
source index of cell `(1, 1)` is `1 * lda + 1 = 2^31`: it wraps around to `-2^31`,
below the buffer, and the run has no result for any fuel, under wrap-around as under
trapping arithmetic; no destination with `b[1*ldb + 1] == a[1*lda + 1]` is
produced. -/
theorem transpose_naive_i32_counterexample :
    (2 ≤ 2147483647 ∧ 2 ≤ 2) ∧
    Fits 0 2 2 2147483647 (List.replicate 2147483649 (0 : Nat)).length ∧
    Fits 0 2 2 2 (List.replicate 4 (0 : Nat)).length ∧
    (∃ dst', transpose_naive (List.replicate 2147483649 (0 : Nat)) (List.replicate 4 0)
      0 0 2 2 2147483647 2 = some dst') ∧
    index32 wrapping ((1 : Nat) : Int) 2147483647 ((1 : Nat) : Int) = some (-2147483648) ∧
    index32 checked ((1 : Nat) : Int) 2147483647 ((1 : Nat) : Int) = none ∧
    (∀ fuel, transpose_naive_i32 wrapping fuel (List.replicate 2147483649 (0 : Nat))
      (List.replicate 4 0) 0 0 2 2 2147483647 2 = none) ∧
    (∀ fuel, transpose_naive_i32 checked fuel (List.replicate 2147483649 (0 : Nat))
      (List.replicate 4 0) 0 0 2 2 2147483647 2 = none) := by
  have hs : Fits 0 2 2 2147483647 (List.replicate 2147483649 (0 : Nat)).length := by
    intro i hi j hj; rw [List.length_replicate]; omega
  have hd : Fits 0 2 2 2 (List.replicate 4 (0 : Nat)).length := by
    intro i hi j hj; rw [List.length_replicate]; omega
  refine ⟨by decide, hs, hd, ?_, index32_wrapping_overflow, index32_checked_overflow,
    fun fuel => ?_, fun fuel => ?_⟩
  · obtain ⟨dst', hrun, _⟩ := transpose_naive_spec (List.replicate 2147483649 (0 : Nat))
      (List.replicate 4 0) 0 0 2 2 2147483647 2 (Or.inr (Nat.le_refl _)) hs hd
    exact ⟨dst', hrun⟩
  · exact (transpose_naive_i32_stride_overflow _ _ 0 2 2 2 (by decide) (by decide)
      (by norm_num) (by norm_num) fuel).1
  · exact (transpose_naive_i32_stride_overflow _ _ 0 2 2 2 (by decide) (by decide)
      (by norm_num) (by norm_num) fuel).2

/-! ## Correspondence and equivalence with `transpose_naive` -/

/-- C1, as amended.  For all `rows`, `cols`, `ldb ≥ rows` and buffers that hold the two
views, such that `rows`, `cols` and every index expression `i*lda + j`, `j*ldb + i`
with `i < rows`, `j < cols` fit in a signed 32-bit `int`: the run of
`transpose_naive(a, b, rows, cols, lda, ldb)` on the machine (under wrap-around as
under trapping arithmetic, with more fuel than `rows` and `cols`) returns, its result
is the result of the run in unbounded integers, and afterwards
`b[j*ldb + i] == a[i*lda + j]` for every `i < rows`, `j < cols` (both sides are an
element `v` actually stored in the buffers).  The hypothesis `lda ≥ cols` of the
contract is not needed. -/
theorem transpose_naive_i32_correspondence (fuel : Nat) (src dst : List α)
    (a b rows cols lda ldb : Nat) (hldb : rows ≤ ldb)
    (hs : Fits a rows cols lda src.length) (hd : Fits b cols rows ldb dst.length)
    (hrows : rows ≤ 2 ^ 31 - 1) (hcols : cols ≤ 2 ^ 31 - 1)
    (hidx : IndexFits rows cols lda ldb) (hfr : rows < fuel) (hfc : cols < fuel) :
    ∃ dst', transpose_naive_i32 wrapping fuel src dst a b rows cols lda ldb = some dst' ∧
      transpose_naive_i32 checked fuel src dst a b rows cols lda ldb = some dst' ∧
      transpose_naive src dst a b rows cols lda ldb = some dst' ∧
      ∀ i j, i < rows → j < cols →
        ∃ v, src[a + (i * lda + j)]? = some v ∧ dst'[b + (j * ldb + i)]? = some v := by
  obtain ⟨dst', hrun, hcell⟩ :=
    transpose_naive_correspondence src dst a b rows cols lda ldb hldb hs hd
  refine ⟨dst', ?_, ?_, hrun, hcell⟩
  · rw [transpose_naive_i32_eq wrapping_exact fuel src dst a b rows cols lda ldb hrows hcols
      hidx hfr hfc, hrun]
  · rw [transpose_naive_i32_eq checked_exact fuel src dst a b rows cols lda ldb hrows hcols
      hidx hfr hfc, hrun]

/-- Witness for C1 (amended): the 2x3 source `[1,2,3,4,5,6]` with `lda = 3`, `ldb = 2`
gives the destination `[1,4,2,5,3,6]` on the machine, and the theorem applies to
it. -/
theorem transpose_naive_i32_correspondence_witness :
    transpose_naive_i32 wrapping 4 [1, 2, 3, 4, 5, 6] [0, 0, 0, 0, 0, 0] 0 0 2 3 3 2
        = some [1, 4, 2, 5, 3, 6] ∧
      ∃ dst', transpose_naive_i32 wrapping 4 [1, 2, 3, 4, 5, 6] [0, 0, 0, 0, 0, 0]
          ((0 : Nat) : Int) ((0 : Nat) : Int) ((2 : Nat) : Int) ((3 : Nat) : Int)
          ((3 : Nat) : Int) ((2 : Nat) : Int) = some dst' ∧
        ∀ i j, i < 2 → j < 3 →
          ∃ v, [1, 2, 3, 4, 5, 6][0 + (i * 3 + j)]? = some v ∧
            dst'[0 + (j * 2 + i)]? = some v := by
  refine ⟨by decide, ?_⟩
  obtain ⟨dst', h1, _, _, h4⟩ := transpose_naive_i32_correspondence 4 [1, 2, 3, 4, 5, 6]
    [0, 0, 0, 0, 0, 0] 0 0 2 3 3 2 (by decide) (by decide) (by decide) (by norm_num)
    (by norm_num) (by decide) (by decide) (by decide)
  exact ⟨dst', h1, h4⟩

/-- C2, as amended.  For all `rows`, `cols`, `ldb ≥ rows` and buffers that hold the two
views, such that `rows`, `cols` and every index expression `i*lda + j`, `j*ldb + i`
of a cell fit in a signed 32-bit `int` and moreover `rows ≤ 2^31 - 128` and, unless
`rows = 0`, `cols ≤ 2^31 - 128`: on the machine (either arithmetic, more fuel than
`rows` and `cols`) `transpose_blocked` and `transpose_naive` both return and leave
the same final destination buffer, which is also the one of the runs in unbounded
integers.  (The hypothesis `lda ≥ cols` is not needed.) -/
theorem transpose_blocked_i32_eq_naive (fuel : Nat) (src dst : List α)
    (a b rows cols lda ldb : Nat) (hldb : rows ≤ ldb)
    (hs : Fits a rows cols lda src.length) (hd : Fits b cols rows ldb dst.length)
    (hcols : cols ≤ 2 ^ 31 - 1) (hidx : IndexFits rows cols lda ldb)
    (hblk : BlockFits rows cols) (hfr : rows < fuel) (hfc : cols < fuel) :
    ∃ dst', transpose_blocked_i32 wrapping fuel src dst a b rows cols lda ldb = some dst' ∧
      transpose_blocked_i32 checked fuel src dst a b rows cols lda ldb = some dst' ∧
      transpose_naive_i32 wrapping fuel src dst a b rows cols lda ldb = some dst' ∧
      transpose_naive_i32 checked fuel src dst a b rows cols lda ldb = some dst' ∧
      transpose_blocked src dst a b rows cols lda ldb = some dst' ∧
      transpose_naive src dst a b rows cols lda ldb = some dst' := by
  obtain ⟨dst', h1, h2⟩ := transpose_blocked_eq_naive src dst a b rows cols lda ldb hldb hs hd
  obtain ⟨hr, hc⟩ := hblk
  have eb : ∀ {ar : Int → Option Int}, ExactBelow ar →
      transpose_blocked_i32 ar fuel src dst a b rows cols lda ldb = some dst' :=
    fun har => (transpose_blocked_i32_eq har fuel src dst a b rows cols lda ldb (by omega)
      (by omega) hidx hfr hfc).trans h1
  have en : ∀ {ar : Int → Option Int}, ExactBelow ar →
      transpose_naive_i32 ar fuel src dst a b rows cols lda ldb = some dst' :=
    fun har => (transpose_naive_i32_eq har fuel src dst a b rows cols lda ldb (by omega)
      hcols hidx hfr hfc).trans h2
  exact ⟨dst', eb wrapping_exact, eb checked_exact, en wrapping_exact, en checked_exact,
    h1, h2⟩

/-- Witness for C2 (amended): the 2x3 matrix on the machine. -/
theorem transpose_blocked_i32_eq_naive_witness :
    transpose_blocked_i32 wrapping 4 [1, 2, 3, 4, 5, 6] [0, 0, 0, 0, 0, 0] 0 0 2 3 3 2
        = some [1, 4, 2, 5, 3, 6] ∧
      ∃ dst', transpose_blocked_i32 wrapping 4 [1, 2, 3, 4, 5, 6] [0, 0, 0, 0, 0, 0]
          ((0 : Nat) : Int) ((0 : Nat) : Int) ((2 : Nat) : Int) ((3 : Nat) : Int)
          ((3 : Nat) : Int) ((2 : Nat) : Int) = some dst' ∧
        transpose_naive_i32 wrapping 4 [1, 2, 3, 4, 5, 6] [0, 0, 0, 0, 0, 0]
          ((0 : Nat) : Int) ((0 : Nat) : Int) ((2 : Nat) : Int) ((3 : Nat) : Int)
          ((3 : Nat) : Int) ((2 : Nat) : Int) = some dst' := by
  refine ⟨by decide, ?_⟩
  obtain ⟨dst', h1, _, h3, _⟩ := transpose_blocked_i32_eq_naive 4 [1, 2, 3, 4, 5, 6]
    [0, 0, 0, 0, 0, 0] 0 0 2 3 3 2 (by decide) (by decide) (by decide) (by norm_num)
    (by decide) (by decide) (by decide) (by decide)
  exact ⟨dst', h1, h3⟩

/-- C2, counterexample.  `rows = 2^31 - 1`, `cols = 1`, `lda = 1 ≥ cols`,
`ldb = 2^31 - 1 ≥ rows`, on buffers of `2^31 - 1` elements, which hold the two views.
`transpose_naive` returns on the machine (its counter stops at `rows`), with the
result of the runs in unbounded integers; `transpose_blocked` has no result for any
fuel, under either arithmetic, because its counter `i += 128` overflows after
`i = 2^31 - 128 < rows`: the two do not leave the same destination buffer. -/
theorem transpose_blocked_i32_eq_naive_counterexample :
    ((1 : Nat) ≤ 1 ∧ (2147483647 : Nat) ≤ 2147483647) ∧
    Fits 0 2147483647 1 1 (List.replicate 2147483647 (0 : Nat)).length ∧
    Fits 0 1 2147483647 2147483647 (List.replicate 2147483647 (0 : Nat)).length ∧
    (∃ dst', transpose_naive_i32 wrapping 2147483648 (List.replicate 2147483647 (0 : Nat))
        (List.replicate 2147483647 (0 : Nat)) 0 0 2147483647 1 1 2147483647 = some dst' ∧
      transpose_naive_i32 checked 2147483648 (List.replicate 2147483647 (0 : Nat))
        (List.replicate 2147483647 (0 : Nat)) 0 0 2147483647 1 1 2147483647 = some dst' ∧
      transpose_blocked (List.replicate 2147483647 (0 : Nat))
        (List.replicate 2147483647 (0 : Nat)) 0 0 2147483647 1 1 2147483647 = some dst') ∧
    (∀ fuel, transpose_blocked_i32 wrapping fuel (List.replicate 2147483647 (0 : Nat))
      (List.replicate 2147483647 (0 : Nat)) 0 0 2147483647 1 1 2147483647 = none) ∧
    (∀ fuel, transpose_blocked_i32 checked fuel (List.replicate 2147483647 (0 : Nat))
      (List.replicate 2147483647 (0 : Nat)) 0 0 2147483647 1 1 2147483647 = none) := by
  have hs : Fits 0 2147483647 1 1 (List.replicate 2147483647 (0 : Nat)).length := by
    intro i hi j hj; rw [List.length_replicate]; omega
  have hd : Fits 0 1 2147483647 2147483647 (List.replicate 2147483647 (0 : Nat)).length := by
    intro i hi j hj; rw [List.length_replicate]; omega
  refine ⟨by decide, hs, hd, ?_, fun fuel => ?_, fun fuel => ?_⟩
  · obtain ⟨dst', h1, h2⟩ := transpose_blocked_eq_naive (List.replicate 2147483647 (0 : Nat))
      (List.replicate 2147483647 (0 : Nat)) 0 0 2147483647 1 1 2147483647 (Nat.le_refl _)
      hs hd
    have hidx : IndexFits 2147483647 1 1 2147483647 := by
      intro i hi j hj
      have : j = 0 := by omega
      subst this
      omega
    refine ⟨dst', ?_, ?_, h1⟩
    · exact (transpose_naive_i32_eq wrapping_exact 2147483648 _ _ 0 0 2147483647 1 1
        2147483647 (by norm_num) (by norm_num) hidx (by norm_num) (by norm_num)).trans h2
    · exact (transpose_naive_i32_eq checked_exact 2147483648 _ _ 0 0 2147483647 1 1
        2147483647 (by norm_num) (by norm_num) hidx (by norm_num) (by norm_num)).trans h2
  · exact transpose_blocked_i32_no_result wrapping wrapping_range fuel _ _ _ _ _ _ _ _
      (by norm_num)
  · exact transpose_blocked_i32_no_result checked checked_range fuel _ _ _ _ _ _ _ _
      (by norm_num)

theorem exact_lit {ar : Int → Option Int} (har : ExactBelow ar) :
    ar 0 = some 0 ∧ ar 2 = some 2 ∧ ar 3 = some 3 := by
  have h0 := har 0 (by norm_num)
  have h2 := har 2 (by norm_num)
  have h3 := har 3 (by norm_num)
  exact ⟨by simpa using h0, by simpa using h2, by simpa using h3⟩

/-- On a 2x2 matrix `transpose_blocked4x4` is one call of `transpose_naive`, on the
machine as well. -/
theorem transpose_blocked4x4_i32_two {ar : Int → Option Int} (har : ExactBelow ar)
    (k : Nat) (src dst : List α) (a b lda ldb : Int) :
    transpose_blocked4x4_i32 ar (k + 1) src dst a b 2 2 lda ldb =
      transpose_naive_i32 ar (k + 1) src dst a b 2 2 lda ldb := by
  obtain ⟨h0, h2, h3⟩ := exact_lit har
  simp [transpose_blocked4x4_i32, forInt, index32, h0, h2, h3]

/-- C3, as amended.  For all `rows`, `cols`, `ldb ≥ rows` and buffers that hold the
two views, such that `rows`, `cols`, the largest source index `(rows-1)*lda + cols-1`
and the largest destination index `(cols-1)*ldb + rows-1` fit in a signed 32-bit
`int` (an empty dimension counting as 1): on the machine (either arithmetic, more
fuel than `rows + cols`) the adaptive recursive transposer `transpose_oblivious2` and `transpose_naive` both return and
leave the same final destination buffer, which is also the one of the runs in
unbounded integers.  (The hypothesis `lda ≥ cols` is not needed.) -/
theorem transpose_oblivious2_i32_eq_naive (fuel : Nat) (src dst : List α)
    (a b rows cols lda ldb : Nat) (hldb : rows ≤ ldb)
    (hs : Fits a rows cols lda src.length) (hd : Fits b cols rows ldb dst.length)
    (hfit : IntFits rows cols lda ldb) (hfuel : rows + cols < fuel) :
    ∃ dst', transpose_oblivious2_i32 wrapping fuel src dst a b rows cols lda ldb = some dst' ∧
      transpose_oblivious2_i32 checked fuel src dst a b rows cols lda ldb = some dst' ∧
      transpose_naive_i32 wrapping fuel src dst a b rows cols lda ldb = some dst' ∧
      transpose_naive_i32 checked fuel src dst a b rows cols lda ldb = some dst' ∧
      transpose_oblivious2 src dst a b rows cols lda ldb = some dst' ∧
      transpose_naive src dst a b rows cols lda ldb = some dst' := by
  obtain ⟨dst', h1, h2⟩ := transpose_oblivious2_eq_naive src dst a b rows cols lda ldb hldb hs hd
  have eo : ∀ {ar : Int → Option Int}, ExactBelow ar →
      transpose_oblivious2_i32 ar fuel src dst a b rows cols lda ldb = some dst' :=
    fun har => (transpose_oblivious2_i32_eq har src lda ldb fuel rows cols hfuel hfit dst a b).trans h1
  have en : ∀ {ar : Int → Option Int}, ExactBelow ar →
      transpose_naive_i32 ar fuel src dst a b rows cols lda ldb = some dst' :=
    fun har => (transpose_naive_i32_eq har fuel src dst a b rows cols lda ldb hfit.1
      hfit.2.1 hfit.index (by omega) (by omega)).trans h2
  exact ⟨dst', eo wrapping_exact, eo checked_exact, en wrapping_exact, en checked_exact,
    h1, h2⟩

/-- C4, as amended.  For all `rows`, `cols`, `ldb ≥ rows` and buffers that hold the
two views, such that `rows`, `cols`, the largest source index `(rows-1)*lda + cols-1`
and the largest destination index `(cols-1)*ldb + rows-1` fit in a signed 32-bit
`int` (an empty dimension counting as 1): on the machine (either arithmetic, more
fuel than `rows + cols`) the symmetric recursive transposer `transpose_oblivious` and `transpose_naive` both return and
leave the same final destination buffer, which is also the one of the runs in
unbounded integers.  (The hypothesis `lda ≥ cols` is not needed.) -/
theorem transpose_oblivious_i32_eq_naive (fuel : Nat) (src dst : List α)
    (a b rows cols lda ldb : Nat) (hldb : rows ≤ ldb)
    (hs : Fits a rows cols lda src.length) (hd : Fits b cols rows ldb dst.length)
    (hfit : IntFits rows cols lda ldb) (hfuel : rows + cols < fuel) :
    ∃ dst', transpose_oblivious_i32 wrapping fuel src dst a b rows cols lda ldb = some dst' ∧
      transpose_oblivious_i32 checked fuel src dst a b rows cols lda ldb = some dst' ∧
      transpose_naive_i32 wrapping fuel src dst a b rows cols lda ldb = some dst' ∧
      transpose_naive_i32 checked fuel src dst a b rows cols lda ldb = some dst' ∧
      transpose_oblivious src dst a b rows cols lda ldb = some dst' ∧
      transpose_naive src dst a b rows cols lda ldb = some dst' := by
  obtain ⟨dst', h1, h2⟩ := transpose_oblivious_eq_naive src dst a b rows cols lda ldb hldb hs hd
  have eo : ∀ {ar : Int → Option Int}, ExactBelow ar →
      transpose_oblivious_i32 ar fuel src dst a b rows cols lda ldb = some dst' :=
    fun har => (transpose_oblivious_i32_eq har src lda ldb fuel rows cols hfuel hfit dst a b).trans h1
  have en : ∀ {ar : Int → Option Int}, ExactBelow ar →
      transpose_naive_i32 ar fuel src dst a b rows cols lda ldb = some dst' :=
    fun har => (transpose_naive_i32_eq har fuel src dst a b rows cols lda ldb hfit.1
      hfit.2.1 hfit.index (by omega) (by omega)).trans h2
  exact ⟨dst', eo wrapping_exact, eo checked_exact, en wrapping_exact, en checked_exact,
    h1, h2⟩

/-- C3, counterexample.  `rows = cols = 2`, `lda = 2^31 - 1 ≥ cols`,
`ldb = 2 ≥ rows`, a source buffer of `lda + 2` elements and a destination buffer of 4
elements, which hold the two views.  In unbounded integers `transpose_oblivious2` and
`transpose_naive` return the same buffer.  On the machine the source index of cell
`(1, 1)` is `1 * lda + 1 = 2^31`: `transpose_oblivious2`, which hands the
matrix to `transpose_blocked4x4` and this one to `transpose_naive`,
has no result for any fuel, under either arithmetic, and neither has
`transpose_naive`: no final destination buffer is left. -/
theorem transpose_oblivious2_i32_eq_naive_counterexample :
    (2 ≤ 2147483647 ∧ 2 ≤ 2) ∧
    Fits 0 2 2 2147483647 (List.replicate 2147483649 (0 : Nat)).length ∧
    Fits 0 2 2 2 (List.replicate 4 (0 : Nat)).length ∧
    (∃ dst', transpose_oblivious2 (List.replicate 2147483649 (0 : Nat)) (List.replicate 4 (0 : Nat)) 0 0 2 2 2147483647 2 = some dst' ∧
      transpose_naive (List.replicate 2147483649 (0 : Nat)) (List.replicate 4 (0 : Nat)) 0 0 2 2 2147483647 2 = some dst') ∧
    (∀ fuel, transpose_oblivious2_i32 wrapping fuel (List.replicate 2147483649 (0 : Nat)) (List.replicate 4 (0 : Nat)) 0 0 2 2 2147483647 2 = none) ∧
    (∀ fuel, transpose_oblivious2_i32 checked fuel (List.replicate 2147483649 (0 : Nat)) (List.replicate 4 (0 : Nat)) 0 0 2 2 2147483647 2 = none) ∧
    (∀ fuel, transpose_naive_i32 wrapping fuel (List.replicate 2147483649 (0 : Nat)) (List.replicate 4 (0 : Nat)) 0 0 2 2 2147483647 2
      = none) ∧
    (∀ fuel, transpose_naive_i32 checked fuel (List.replicate 2147483649 (0 : Nat)) (List.replicate 4 (0 : Nat)) 0 0 2 2 2147483647 2
      = none) := by
  have hs : Fits 0 2 2 2147483647 (List.replicate 2147483649 (0 : Nat)).length := by
    intro i hi j hj; rw [List.length_replicate]; omega
  have hd : Fits 0 2 2 2 (List.replicate 4 (0 : Nat)).length := by
    intro i hi j hj; rw [List.length_replicate]; omega
  have hn := fun fuel => transpose_naive_i32_stride_overflow (List.replicate 2147483649 (0 : Nat)) (List.replicate 4 (0 : Nat)) 0 2 2 2
    (by decide) (by decide) (by norm_num) (by norm_num) fuel
  refine ⟨by decide, hs, hd,
    transpose_oblivious2_eq_naive _ _ 0 0 2 2 2147483647 2 (Nat.le_refl _) hs hd,
    fun fuel => ?_, fun fuel => ?_, fun fuel => (hn fuel).1, fun fuel => (hn fuel).2⟩
  · cases fuel with
    | zero => rfl
    | succ k =>
      rw [transpose_oblivious2_i32, if_pos (by decide),
        transpose_blocked4x4_i32_two wrapping_exact]
      exact (hn (k + 1)).1
  · cases fuel with
    | zero => rfl
    | succ k =>
      rw [transpose_oblivious2_i32, if_pos (by decide),
        transpose_blocked4x4_i32_two checked_exact]
      exact (hn (k + 1)).2

/-- C4, counterexample.  `rows = cols = 2`, `lda = 2^31 - 1 ≥ cols`,
`ldb = 2 ≥ rows`, a source buffer of `lda + 2` elements and a destination buffer of 4
elements, which hold the two views.  In unbounded integers `transpose_oblivious` and
`transpose_naive` return the same buffer.  On the machine the source index of cell
`(1, 1)` is `1 * lda + 1 = 2^31`: `transpose_oblivious`, which hands the
matrix to `transpose_naive`,
has no result for any fuel, under either arithmetic, and neither has
`transpose_naive`: no final destination buffer is left. -/
theorem transpose_oblivious_i32_eq_naive_counterexample :
    (2 ≤ 2147483647 ∧ 2 ≤ 2) ∧
    Fits 0 2 2 2147483647 (List.replicate 2147483649 (0 : Nat)).length ∧
    Fits 0 2 2 2 (List.replicate 4 (0 : Nat)).length ∧
    (∃ dst', transpose_oblivious (List.replicate 2147483649 (0 : Nat)) (List.replicate 4 (0 : Nat)) 0 0 2 2 2147483647 2 = some dst' ∧
      transpose_naive (List.replicate 2147483649 (0 : Nat)) (List.replicate 4 (0 : Nat)) 0 0 2 2 2147483647 2 = some dst') ∧
    (∀ fuel, transpose_oblivious_i32 wrapping fuel (List.replicate 2147483649 (0 : Nat)) (List.replicate 4 (0 : Nat)) 0 0 2 2 2147483647 2 = none) ∧
    (∀ fuel, transpose_oblivious_i32 checked fuel (List.replicate 2147483649 (0 : Nat)) (List.replicate 4 (0 : Nat)) 0 0 2 2 2147483647 2 = none) ∧
    (∀ fuel, transpose_naive_i32 wrapping fuel (List.replicate 2147483649 (0 : Nat)) (List.replicate 4 (0 : Nat)) 0 0 2 2 2147483647 2
      = none) ∧
    (∀ fuel, transpose_naive_i32 checked fuel (List.replicate 2147483649 (0 : Nat)) (List.replicate 4 (0 : Nat)) 0 0 2 2 2147483647 2
      = none) := by
  have hs : Fits 0 2 2 2147483647 (List.replicate 2147483649 (0 : Nat)).length := by
    intro i hi j hj; rw [List.length_replicate]; omega
  have hd : Fits 0 2 2 2 (List.replicate 4 (0 : Nat)).length := by
    intro i hi j hj; rw [List.length_replicate]; omega
  have hn := fun fuel => transpose_naive_i32_stride_overflow (List.replicate 2147483649 (0 : Nat)) (List.replicate 4 (0 : Nat)) 0 2 2 2
    (by decide) (by decide) (by norm_num) (by norm_num) fuel
  refine ⟨by decide, hs, hd,
    transpose_oblivious_eq_naive _ _ 0 0 2 2 2147483647 2 (Nat.le_refl _) hs hd,
    fun fuel => ?_, fun fuel => ?_, fun fuel => (hn fuel).1, fun fuel => (hn fuel).2⟩
  · cases fuel with
    | zero => rfl
    | succ k =>
      rw [transpose_oblivious_i32, if_pos (by decide)]
      exact (hn (k + 1)).1
  · cases fuel with
    | zero => rfl
    | succ k =>
      rw [transpose_oblivious_i32, if_pos (by decide)]
      exact (hn (k + 1)).2

/-- Witness for C3 (amended): the skewed 4x400 matrix with entries `0 .. 1599`, and a
2x3 matrix evaluated on the machine. -/
theorem transpose_oblivious2_i32_eq_naive_witness :
    transpose_oblivious2_i32 wrapping 6 [1, 2, 3, 4, 5, 6] [0, 0, 0, 0, 0, 0] 0 0 2 3 3 2
        = some [1, 4, 2, 5, 3, 6] ∧
      ∃ dst', transpose_oblivious2_i32 wrapping 405 (List.range 1600) (List.replicate 1600 0)
          ((0 : Nat) : Int) ((0 : Nat) : Int) ((4 : Nat) : Int) ((400 : Nat) : Int)
          ((400 : Nat) : Int) ((4 : Nat) : Int) = some dst' ∧
        transpose_naive_i32 wrapping 405 (List.range 1600) (List.replicate 1600 0)
          ((0 : Nat) : Int) ((0 : Nat) : Int) ((4 : Nat) : Int) ((400 : Nat) : Int)
          ((400 : Nat) : Int) ((4 : Nat) : Int) = some dst' := by
  refine ⟨by decide, ?_⟩
  obtain ⟨dst', h1, _, h3, _⟩ := transpose_oblivious2_i32_eq_naive 405 (List.range 1600)
    (List.replicate 1600 0) 0 0 4 400 400 4 (by decide)
    (by intro i hi j hj; rw [List.length_range]; omega)
    (by intro i hi j hj; rw [List.length_replicate]; omega)
    (by unfold IntFits; norm_num) (by decide)
  exact ⟨dst', h1, h3⟩

/-- Witness for C4 (amended): the 17x17 matrix with `a[i*17 + j] = i*17 + j` (one side
above the threshold 16), and a 2x3 matrix evaluated on the machine. -/
theorem transpose_oblivious_i32_eq_naive_witness :
    transpose_oblivious_i32 wrapping 6 [1, 2, 3, 4, 5, 6] [0, 0, 0, 0, 0, 0] 0 0 2 3 3 2
        = some [1, 4, 2, 5, 3, 6] ∧
      ∃ dst', transpose_oblivious_i32 wrapping 35 (List.range 289) (List.replicate 289 0)
          ((0 : Nat) : Int) ((0 : Nat) : Int) ((17 : Nat) : Int) ((17 : Nat) : Int)
          ((17 : Nat) : Int) ((17 : Nat) : Int) = some dst' ∧
        transpose_naive_i32 wrapping 35 (List.range 289) (List.replicate 289 0)
          ((0 : Nat) : Int) ((0 : Nat) : Int) ((17 : Nat) : Int) ((17 : Nat) : Int)
          ((17 : Nat) : Int) ((17 : Nat) : Int) = some dst' := by
  refine ⟨by decide, ?_⟩
  obtain ⟨dst', h1, _, h3, _⟩ := transpose_oblivious_i32_eq_naive 35 (List.range 289)
    (List.replicate 289 0) 0 0 17 17 17 17 (by decide)
    (by intro i hi j hj; rw [List.length_range]; omega)
    (by intro i hi j hj; rw [List.length_replicate]; omega)
    (by unfold IntFits; norm_num) (by decide)
  exact ⟨dst', h1, h3⟩

/-- C12, as amended.  For all `rows`, `cols` (divisible by 4 or not), `ldb ≥ rows` and
buffers that hold the two views, such that `rows`, `cols` and every index expression
`i*lda + j`, `j*ldb + i` of a cell fit in a signed 32-bit `int`: on the machine
(either arithmetic, more fuel than `rows` and `cols`) `transpose_blocked4x4` and
`transpose_naive` both return and leave the same final destination buffer, also the
one of the runs in unbounded integers, in which every cell `b[j*ldb + i]` holds
`a[i*lda + j]`: the full tiles and the three naive fall-back rectangles cover every
cell with the correct value.  (The hypothesis `lda ≥ cols` is not needed.) -/
theorem transpose_blocked4x4_i32_eq_naive (fuel : Nat) (src dst : List α)
    (a b rows cols lda ldb : Nat) (hldb : rows ≤ ldb)
    (hs : Fits a rows cols lda src.length) (hd : Fits b cols rows ldb dst.length)
    (hrows : rows ≤ 2 ^ 31 - 1) (hcols : cols ≤ 2 ^ 31 - 1)
    (hidx : IndexFits rows cols lda ldb) (hfr : rows < fuel) (hfc : cols < fuel) :
    ∃ dst', transpose_blocked4x4_i32 wrapping fuel src dst a b rows cols lda ldb = some dst' ∧
      transpose_blocked4x4_i32 checked fuel src dst a b rows cols lda ldb = some dst' ∧
      transpose_naive_i32 wrapping fuel src dst a b rows cols lda ldb = some dst' ∧
      transpose_naive_i32 checked fuel src dst a b rows cols lda ldb = some dst' ∧
      transpose_blocked4x4 src dst a b rows cols lda ldb = some dst' ∧
      transpose_naive src dst a b rows cols lda ldb = some dst' ∧
      ∀ i j, i < rows → j < cols →
        ∃ v, src[a + (i * lda + j)]? = some v ∧ dst'[b + (j * ldb + i)]? = some v := by
  obtain ⟨dst', h1, h2, hcell⟩ :=
    transpose_blocked4x4_eq_naive src dst a b rows cols lda ldb hldb hs hd
  have eb : ∀ {ar : Int → Option Int}, ExactBelow ar →
      transpose_blocked4x4_i32 ar fuel src dst a b rows cols lda ldb = some dst' :=
    fun har => (transpose_blocked4x4_i32_eq har fuel src dst a b rows cols lda ldb hrows
      hcols hidx hfr hfc).trans h1
  have en : ∀ {ar : Int → Option Int}, ExactBelow ar →
      transpose_naive_i32 ar fuel src dst a b rows cols lda ldb = some dst' :=
    fun har => (transpose_naive_i32_eq har fuel src dst a b rows cols lda ldb hrows
      hcols hidx hfr hfc).trans h2
  exact ⟨dst', eb wrapping_exact, eb checked_exact, en wrapping_exact, en checked_exact,
    h1, h2, hcell⟩

/-- Witness for C12 (amended): the 5x3 matrix with entries `1 .. 15`, stored
contiguously, evaluated on the machine. -/
theorem transpose_blocked4x4_i32_eq_naive_witness :
    transpose_blocked4x4_i32 wrapping 6 [1, 2, 3, 4, 5, 6, 7, 8, 9, 10, 11, 12, 13, 14, 15]
        [0, 0, 0, 0, 0, 0, 0, 0, 0, 0, 0, 0, 0, 0, 0] 0 0 5 3 3 5
        = some [1, 4, 7, 10, 13, 2, 5, 8, 11, 14, 3, 6, 9, 12, 15] ∧
      ∃ dst', transpose_blocked4x4_i32 wrapping 6
          [1, 2, 3, 4, 5, 6, 7, 8, 9, 10, 11, 12, 13, 14, 15]
          [0, 0, 0, 0, 0, 0, 0, 0, 0, 0, 0, 0, 0, 0, 0]
          ((0 : Nat) : Int) ((0 : Nat) : Int) ((5 : Nat) : Int) ((3 : Nat) : Int)
          ((3 : Nat) : Int) ((5 : Nat) : Int) = some dst' ∧
        transpose_naive_i32 wrapping 6 [1, 2, 3, 4, 5, 6, 7, 8, 9, 10, 11, 12, 13, 14, 15]
          [0, 0, 0, 0, 0, 0, 0, 0, 0, 0, 0, 0, 0, 0, 0]
          ((0 : Nat) : Int) ((0 : Nat) : Int) ((5 : Nat) : Int) ((3 : Nat) : Int)
          ((3 : Nat) : Int) ((5 : Nat) : Int) = some dst' := by
  refine ⟨by decide, ?_⟩
  obtain ⟨dst', h1, _, h3, _⟩ := transpose_blocked4x4_i32_eq_naive 6
    [1, 2, 3, 4, 5, 6, 7, 8, 9, 10, 11, 12, 13, 14, 15]
    [0, 0, 0, 0, 0, 0, 0, 0, 0, 0, 0, 0, 0, 0, 0] 0 0 5 3 3 5 (by decide) (by decide)
    (by decide) (by norm_num) (by norm_num) (by decide) (by decide) (by decide)
  exact ⟨dst', h1, h3⟩

/-- C12, counterexample.  `rows = cols = 2`, `lda = 2^31 - 1 ≥ cols`,
`ldb = 2 ≥ rows`, a source buffer of `lda + 2` elements and a destination buffer of 4
elements, which hold the two views.  In unbounded integers `transpose_blocked4x4` and
`transpose_naive` return the same buffer.  On the machine the source index of cell
`(1, 1)` is `1 * lda + 1 = 2^31`: `transpose_blocked4x4`, which hands
the matrix to `transpose_naive`,
has no result for any fuel, under either arithmetic, and neither has
`transpose_naive`: no final destination buffer is left. -/
theorem transpose_blocked4x4_i32_eq_naive_counterexample :
    (2 ≤ 2147483647 ∧ 2 ≤ 2) ∧
    Fits 0 2 2 2147483647 (List.replicate 2147483649 (0 : Nat)).length ∧
    Fits 0 2 2 2 (List.replicate 4 (0 : Nat)).length ∧
    (∃ dst', transpose_blocked4x4 (List.replicate 2147483649 (0 : Nat)) (List.replicate 4 (0 : Nat)) 0 0 2 2 2147483647 2 = some dst' ∧
      transpose_naive (List.replicate 2147483649 (0 : Nat)) (List.replicate 4 (0 : Nat)) 0 0 2 2 2147483647 2 = some dst') ∧
    (∀ fuel, transpose_blocked4x4_i32 wrapping fuel (List.replicate 2147483649 (0 : Nat)) (List.replicate 4 (0 : Nat)) 0 0 2 2 2147483647 2 = none) ∧
    (∀ fuel, transpose_blocked4x4_i32 checked fuel (List.replicate 2147483649 (0 : Nat)) (List.replicate 4 (0 : Nat)) 0 0 2 2 2147483647 2 = none) ∧
    (∀ fuel, transpose_naive_i32 wrapping fuel (List.replicate 2147483649 (0 : Nat)) (List.replicate 4 (0 : Nat)) 0 0 2 2 2147483647 2
      = none) ∧
    (∀ fuel, transpose_naive_i32 checked fuel (List.replicate 2147483649 (0 : Nat)) (List.replicate 4 (0 : Nat)) 0 0 2 2 2147483647 2
      = none) := by
  have hs : Fits 0 2 2 2147483647 (List.replicate 2147483649 (0 : Nat)).length := by
    intro i hi j hj; rw [List.length_replicate]; omega
  have hd : Fits 0 2 2 2 (List.replicate 4 (0 : Nat)).length := by
    intro i hi j hj; rw [List.length_replicate]; omega
  have hn := fun fuel => transpose_naive_i32_stride_overflow (List.replicate 2147483649 (0 : Nat)) (List.replicate 4 (0 : Nat)) 0 2 2 2
    (by decide) (by decide) (by norm_num) (by norm_num) fuel
  refine ⟨by decide, hs, hd,
    (by
      obtain ⟨d, h1, h2, _⟩ :=
        transpose_blocked4x4_eq_naive _ _ 0 0 2 2 2147483647 2 (Nat.le_refl _) hs hd
      exact ⟨d, h1, h2⟩),
    fun fuel => ?_, fun fuel => ?_, fun fuel => (hn fuel).1, fun fuel => (hn fuel).2⟩
  · cases fuel with
    | zero => rfl
    | succ k =>
      rw [transpose_blocked4x4_i32_two wrapping_exact]
      exact (hn (k + 1)).1
  · cases fuel with
    | zero => rfl
    | succ k =>
      rw [transpose_blocked4x4_i32_two checked_exact]
      exact (hn (k + 1)).2

/-! ## The micro-kernel and the quadrant decomposition -/

/-- C5, as amended.  The `_MM_TRANSPOSE4_PS` network leaves in register `k` column `k`
of the four loaded rows; and for every `ldb ≥ 4`, strides such that the index
expressions `l*lda + k`, `k*ldb + l` of the tile (`k, l < 4`; the largest are
`3*lda + 3` and `3*ldb + 3`) fit in a signed 32-bit `int`, and buffers that hold the
two 4x4 tiles: on the machine (either arithmetic) `transpose_4x4(a, b, lda, ldb)`
returns, afterwards `b[k*ldb + l] == a[l*lda + k]` for all `k, l < 4`, and the final
destination buffer is the one `transpose_naive` leaves with `rows = cols = 4`, on
the machine as in unbounded integers.  (The hypothesis `lda ≥ 4` is not needed.) -/
theorem transpose_4x4_i32_correct (fuel : Nat) (src dst : List α) (a b lda ldb : Nat)
    (hldb : 4 ≤ ldb) (hs : Fits a 4 4 lda src.length) (hd : Fits b 4 4 ldb dst.length)
    (hidx : IndexFits 4 4 lda ldb) (hfuel : 4 < fuel) :
    (∀ r0 r1 r2 r3 : M128 α, _MM_TRANSPOSE4_PS r0 r1 r2 r3 =
      (⟨r0.f0, r1.f0, r2.f0, r3.f0⟩, ⟨r0.f1, r1.f1, r2.f1, r3.f1⟩,
       ⟨r0.f2, r1.f2, r2.f2, r3.f2⟩, ⟨r0.f3, r1.f3, r2.f3, r3.f3⟩)) ∧
    ∃ dst', transpose_4x4_i32 wrapping src dst a b lda ldb = some dst' ∧
      transpose_4x4_i32 checked src dst a b lda ldb = some dst' ∧
      transpose_4x4 src dst a b lda ldb = some dst' ∧
      (∀ k l, k < 4 → l < 4 →
        ∃ v, src[a + (l * lda + k)]? = some v ∧ dst'[b + (k * ldb + l)]? = some v) ∧
      transpose_naive_i32 wrapping fuel src dst a b 4 4 lda ldb = some dst' ∧
      transpose_naive_i32 checked fuel src dst a b 4 4 lda ldb = some dst' ∧
      transpose_naive src dst a b 4 4 lda ldb = some dst' := by
  obtain ⟨hnet, dst', h1, hcell, h2⟩ := transpose_4x4_correct src dst a b lda ldb hldb hs hd
  have h3 := hidx 3 (by decide) 0 (by decide)
  have h3' := hidx 0 (by decide) 3 (by decide)
  have ek : ∀ {ar : Int → Option Int}, ExactBelow ar →
      transpose_4x4_i32 ar src dst a b lda ldb = some dst' :=
    fun har => (transpose_4x4_i32_eq har src dst a b lda ldb (by omega) (by omega)).trans h1
  have en : ∀ {ar : Int → Option Int}, ExactBelow ar →
      transpose_naive_i32 ar fuel src dst a b (4 : Nat) (4 : Nat) lda ldb = some dst' :=
    fun har => (transpose_naive_i32_eq har fuel src dst a b 4 4 lda ldb (by norm_num)
      (by norm_num) hidx hfuel hfuel).trans h2
  exact ⟨hnet, dst', ek wrapping_exact, ek checked_exact, h1, hcell, en wrapping_exact,
    en checked_exact, h2⟩

/-- Witness for C5 (amended): the tile `0 .. 15` with `lda = ldb = 4`, evaluated on the
machine. -/
theorem transpose_4x4_i32_correct_witness :
    transpose_4x4_i32 wrapping [0, 1, 2, 3, 4, 5, 6, 7, 8, 9, 10, 11, 12, 13, 14, 15]
        [0, 0, 0, 0, 0, 0, 0, 0, 0, 0, 0, 0, 0, 0, 0, 0] 0 0 4 4
        = some [0, 4, 8, 12, 1, 5, 9, 13, 2, 6, 10, 14, 3, 7, 11, 15] ∧
      ∃ dst', transpose_4x4_i32 wrapping [0, 1, 2, 3, 4, 5, 6, 7, 8, 9, 10, 11, 12, 13, 14, 15]
          [0, 0, 0, 0, 0, 0, 0, 0, 0, 0, 0, 0, 0, 0, 0, 0]
          ((0 : Nat) : Int) ((0 : Nat) : Int) ((4 : Nat) : Int) ((4 : Nat) : Int)
          = some dst' ∧
        transpose_naive_i32 wrapping 5 [0, 1, 2, 3, 4, 5, 6, 7, 8, 9, 10, 11, 12, 13, 14, 15]
          [0, 0, 0, 0, 0, 0, 0, 0, 0, 0, 0, 0, 0, 0, 0, 0]
          ((0 : Nat) : Int) ((0 : Nat) : Int) 4 4 ((4 : Nat) : Int) ((4 : Nat) : Int)
          = some dst' := by
  refine ⟨by decide, ?_⟩
  obtain ⟨dst', h1, _, _, _, h5, _⟩ := (transpose_4x4_i32_correct 5
    [0, 1, 2, 3, 4, 5, 6, 7, 8, 9, 10, 11, 12, 13, 14, 15]
    [0, 0, 0, 0, 0, 0, 0, 0, 0, 0, 0, 0, 0, 0, 0, 0] 0 0 4 4 (by decide) (by decide)
    (by decide) (by decide) (by decide)).2
  exact ⟨dst', h1, h5⟩

theorem loaduAt_overflow (src : List α) :
    loaduAt wrapping src 0 3 715827883 = none ∧ loaduAt checked src 0 3 715827883 = none := by
  constructor
  · norm_num [loaduAt, wrapping, wrap32]
  · norm_num [loaduAt, checked]

/-- C5, counterexample.  `lda = 715827883 ≥ 4`, `ldb = 4`, a source buffer of
`3*lda + 4` elements and a destination buffer of 16 elements, which hold the two
tiles.  In unbounded integers the kernel returns.  On the machine the offset
`3 * lda = 2147483649` of the fourth row exceeds `2^31 - 1`: it wraps around to
`-2147483647`, below the buffer, so that the fourth load, and with it the kernel, has
no result, under either arithmetic. -/
theorem transpose_4x4_i32_counterexample :
    (4 ≤ 715827883 ∧ 4 ≤ 4) ∧
    Fits 0 4 4 715827883 (List.replicate 2147483653 (0 : Nat)).length ∧
    Fits 0 4 4 4 (List.replicate 16 (0 : Nat)).length ∧
    (∃ dst', transpose_4x4 (List.replicate 2147483653 (0 : Nat)) (List.replicate 16 0)
      0 0 715827883 4 = some dst') ∧
    wrap32 (3 * 715827883) = -2147483647 ∧ checked (3 * 715827883) = none ∧
    transpose_4x4_i32 wrapping (List.replicate 2147483653 (0 : Nat)) (List.replicate 16 0)
      0 0 715827883 4 = none ∧
    transpose_4x4_i32 checked (List.replicate 2147483653 (0 : Nat)) (List.replicate 16 0)
      0 0 715827883 4 = none := by
  have hs : Fits 0 4 4 715827883 (List.replicate 2147483653 (0 : Nat)).length := by
    intro i hi j hj; rw [List.length_replicate]; omega
  have hd : Fits 0 4 4 4 (List.replicate 16 (0 : Nat)).length := by
    intro i hi j hj; rw [List.length_replicate]; omega
  have hl := loaduAt_overflow (List.replicate 2147483653 (0 : Nat))
  refine ⟨by decide, hs, hd, ?_, by norm_num [wrap32], by norm_num [checked], ?_, ?_⟩
  · obtain ⟨dst', hrun, _⟩ := transpose_4x4_spec (List.replicate 2147483653 (0 : Nat))
      (List.replicate 16 0) 0 0 715827883 4 (Nat.le_refl _) hs hd
    exact ⟨dst', hrun⟩
  · unfold transpose_4x4_i32
    rw [hl.1]
    cases loaduAt wrapping (List.replicate 2147483653 (0 : Nat)) 0 0 715827883 <;>
      cases loaduAt wrapping (List.replicate 2147483653 (0 : Nat)) 0 1 715827883 <;>
      cases loaduAt wrapping (List.replicate 2147483653 (0 : Nat)) 0 2 715827883 <;> rfl
  · unfold transpose_4x4_i32
    rw [hl.2]
    cases loaduAt checked (List.replicate 2147483653 (0 : Nat)) 0 0 715827883 <;>
      cases loaduAt checked (List.replicate 2147483653 (0 : Nat)) 0 1 715827883 <;>
      cases loaduAt checked (List.replicate 2147483653 (0 : Nat)) 0 2 715827883 <;> rfl

/-- C13, as amended.  Quadrant decomposition identity.  For every split point
`hr ≤ rows`, `hc ≤ cols`, `ldb ≥ rows` and buffers that hold the two views, such that
`rows`, `cols`, every index expression `i*lda + j`, `j*ldb + i` of a cell and the
offsets `hr*lda + hc`, `hc*ldb + hr` of the fourth quadrant fit in a signed 32-bit
`int`: on the machine (either arithmetic, more fuel than `rows` and `cols`) running
`transpose_naive` on the four quadrants with the offsets used by
`transpose_oblivious` returns and leaves the same destination buffer as a single
`transpose_naive` call on the whole `rows` x `cols` matrix, also the one of the runs
in unbounded integers.  (The hypothesis `lda ≥ cols` is not needed.) -/
theorem transpose_naive_quadrants_i32_eq (fuel : Nat) (src dst : List α)
    (a b rows cols hr hc lda ldb : Nat) (hhr : hr ≤ rows) (hhc : hc ≤ cols)
    (hldb : rows ≤ ldb) (hs : Fits a rows cols lda src.length)
    (hd : Fits b cols rows ldb dst.length) (hrows : rows ≤ 2 ^ 31 - 1)
    (hcols : cols ≤ 2 ^ 31 - 1) (hidx : IndexFits rows cols lda ldb)
    (hq : hr * lda + hc ≤ 2 ^ 31 - 1) (hq' : hc * ldb + hr ≤ 2 ^ 31 - 1)
    (hfr : rows < fuel) (hfc : cols < fuel) :
    ∃ dst',
      transpose_naive_quadrants_i32 wrapping fuel src dst a b rows cols hr hc lda ldb
        = some dst' ∧
      transpose_naive_quadrants_i32 checked fuel src dst a b rows cols hr hc lda ldb
        = some dst' ∧
      transpose_naive_i32 wrapping fuel src dst a b rows cols lda ldb = some dst' ∧
      transpose_naive_i32 checked fuel src dst a b rows cols lda ldb = some dst' ∧
      transpose_naive_quadrants src dst a b rows cols hr hc lda ldb = some dst' ∧
      transpose_naive src dst a b rows cols lda ldb = some dst' := by
  obtain ⟨dst', h1, h2⟩ :=
    transpose_naive_quadrants_eq src dst a b rows cols hr hc lda ldb hhr hhc hldb hs hd
  have eq : ∀ {ar : Int → Option Int}, ExactBelow ar →
      transpose_naive_quadrants_i32 ar fuel src dst a b rows cols hr hc lda ldb = some dst' :=
    fun har => (transpose_naive_quadrants_i32_run har fuel src dst a b rows cols hr hc lda ldb
      hhr hhc hrows hcols (hidx.restrict hhr hhc) (hidx.restrict hhr (by omega))
      (hidx.restrict (by omega) hhc) (hidx.restrict (by omega) (by omega)) hq hq' hfr hfc).trans h1
  have en : ∀ {ar : Int → Option Int}, ExactBelow ar →
      transpose_naive_i32 ar fuel src dst a b rows cols lda ldb = some dst' :=
    fun har => (transpose_naive_i32_eq har fuel src dst a b rows cols lda ldb hrows
      hcols hidx hfr hfc).trans h2
  exact ⟨dst', eq wrapping_exact, eq checked_exact, en wrapping_exact, en checked_exact,
    h1, h2⟩

/-- Witness for C13 (amended): the 2x3 matrix split at `(1, 2)`, evaluated on the
machine. -/
theorem transpose_naive_quadrants_i32_eq_witness :
    transpose_naive_quadrants_i32 wrapping 4 [1, 2, 3, 4, 5, 6] [0, 0, 0, 0, 0, 0]
        0 0 2 3 1 2 3 2 = some [1, 4, 2, 5, 3, 6] ∧
      ∃ dst', transpose_naive_quadrants_i32 wrapping 4 [1, 2, 3, 4, 5, 6] [0, 0, 0, 0, 0, 0]
          ((0 : Nat) : Int) ((0 : Nat) : Int) ((2 : Nat) : Int) ((3 : Nat) : Int)
          ((1 : Nat) : Int) ((2 : Nat) : Int) ((3 : Nat) : Int) ((2 : Nat) : Int)
          = some dst' ∧
        transpose_naive_i32 wrapping 4 [1, 2, 3, 4, 5, 6] [0, 0, 0, 0, 0, 0]
          ((0 : Nat) : Int) ((0 : Nat) : Int) ((2 : Nat) : Int) ((3 : Nat) : Int)
          ((3 : Nat) : Int) ((2 : Nat) : Int) = some dst' := by
  refine ⟨by decide, ?_⟩
  obtain ⟨dst', h1, _, h3, _⟩ := transpose_naive_quadrants_i32_eq 4 [1, 2, 3, 4, 5, 6]
    [0, 0, 0, 0, 0, 0] 0 0 2 3 1 2 3 2 (by decide) (by decide) (by decide) (by decide)
    (by decide) (by norm_num) (by norm_num) (by decide) (by norm_num) (by norm_num)
    (by decide) (by decide)
  exact ⟨dst', h1, h3⟩

/-- C13, counterexample.  `rows = cols = 2`, split point `hr = 1`, `hc = 0`,
`lda = 2^31 - 1 ≥ cols`, `ldb = 2 ≥ rows`, a source buffer of `lda + 2` elements and a
destination buffer of 4 elements, which hold the two views.  The quadrants are the
two rows; their origins have the offsets `0` and `1 * lda = 2^31 - 1`, and inside a
quadrant the indices are 0 and 1: on the machine the four calls return, with the
buffer of the runs in unbounded integers.  The single call computes the index
`1 * lda + 1 = 2^31` of cell `(1, 1)` and has no result, under either arithmetic: the
two do not leave the same destination buffer. -/
theorem transpose_naive_quadrants_i32_eq_counterexample :
    ((1 : Nat) ≤ 2 ∧ (0 : Nat) ≤ 2 ∧ 2 ≤ 2147483647 ∧ 2 ≤ 2) ∧
    Fits 0 2 2 2147483647 (List.replicate 2147483649 (0 : Nat)).length ∧
    Fits 0 2 2 2 (List.replicate 4 (0 : Nat)).length ∧
    (∃ dst', transpose_naive_quadrants_i32 wrapping 3 (List.replicate 2147483649 (0 : Nat))
        (List.replicate 4 (0 : Nat)) 0 0 2 2 1 0 2147483647 2 = some dst' ∧
      transpose_naive_quadrants_i32 checked 3 (List.replicate 2147483649 (0 : Nat))
        (List.replicate 4 (0 : Nat)) 0 0 2 2 1 0 2147483647 2 = some dst' ∧
      transpose_naive (List.replicate 2147483649 (0 : Nat)) (List.replicate 4 (0 : Nat))
        0 0 2 2 2147483647 2 = some dst') ∧
    (∀ fuel, transpose_naive_i32 wrapping fuel (List.replicate 2147483649 (0 : Nat))
      (List.replicate 4 (0 : Nat)) 0 0 2 2 2147483647 2 = none) ∧
    (∀ fuel, transpose_naive_i32 checked fuel (List.replicate 2147483649 (0 : Nat))
      (List.replicate 4 (0 : Nat)) 0 0 2 2 2147483647 2 = none) := by
  have hs : Fits 0 2 2 2147483647 (List.replicate 2147483649 (0 : Nat)).length := by
    intro i hi j hj; rw [List.length_replicate]; omega
  have hd : Fits 0 2 2 2 (List.replicate 4 (0 : Nat)).length := by
    intro i hi j hj; rw [List.length_replicate]; omega
  have hn := fun fuel => transpose_naive_i32_stride_overflow
    (List.replicate 2147483649 (0 : Nat)) (List.replicate 4 (0 : Nat)) 0 2 2 2
    (by decide) (by decide) (by norm_num) (by norm_num) fuel
  refine ⟨by decide, hs, hd, ?_, fun fuel => (hn fuel).1, fun fuel => (hn fuel).2⟩
  obtain ⟨dst', h1, h2⟩ := transpose_naive_quadrants_eq (List.replicate 2147483649 (0 : Nat))
    (List.replicate 4 (0 : Nat)) 0 0 2 2 1 0 2147483647 2 (by decide) (by decide)
    (Nat.le_refl _) hs hd
  have hrow : IndexFits 1 2 2147483647 2 := by
    intro i hi j hj
    have : i = 0 := by omega
    subst this
    omega
  have hnil : IndexFits 1 0 2147483647 2 := fun i _ j hj => absurd hj (Nat.not_lt_zero j)
  have eq : ∀ {ar : Int → Option Int}, ExactBelow ar →
      transpose_naive_quadrants_i32 ar 3 (List.replicate 2147483649 (0 : Nat))
        (List.replicate 4 (0 : Nat)) 0 0 2 2 1 0 2147483647 2 = some dst' :=
    fun har => (transpose_naive_quadrants_i32_run har 3 _ _ 0 0 2 2 1 0 2147483647 2
      (by decide) (by decide) (by norm_num) (by norm_num) hnil hrow hnil hrow
      (by norm_num) (by norm_num) (by decide) (by decide)).trans h1
  exact ⟨dst', eq wrapping_exact, eq checked_exact, h2⟩

/-! ## The strategies on the machine -/

/-- Above `2^31 - 128` rows `transpose_blocked`, run as a strategy on the machine, has
no result for any fuel, under either arithmetic. -/
theorem Strategy.blocked_run_i32_no_result (fuel : Nat) (src dst : List α)
    (a b rows cols lda ldb : Int) (hrows : 2147483520 < rows) :
    Strategy.blocked.run_i32 wrapping fuel src dst a b rows cols lda ldb = none ∧
    Strategy.blocked.run_i32 checked fuel src dst a b rows cols lda ldb = none :=
  ⟨transpose_blocked_i32_no_result wrapping wrapping_range fuel src dst a b rows cols lda ldb
      hrows,
    transpose_blocked_i32_no_result checked checked_range fuel src dst a b rows cols lda ldb
      hrows⟩

/-- With `lda = 2^31 - 1`, at least two rows and two columns, `transpose_naive`, run
as a strategy on the machine, has no result for any fuel, under either arithmetic. -/
theorem Strategy.naive_run_i32_no_result (fuel : Nat) (src dst : List α) (b ldb : Int)
    (rows cols : Nat) (hr : 2 ≤ rows) (hc : 2 ≤ cols) (hrows : rows ≤ 2 ^ 31)
    (hcols : cols ≤ 2 ^ 31) :
    Strategy.naive.run_i32 wrapping fuel src dst 0 b rows cols 2147483647 ldb = none ∧
    Strategy.naive.run_i32 checked fuel src dst 0 b rows cols 2147483647 ldb = none :=
  transpose_naive_i32_stride_overflow src dst b ldb rows cols hr hc hrows hcols fuel

/-- On arguments that fit, a strategy runs on the machine, under either arithmetic, as
it does in unbounded integers. -/
theorem Strategy.run_i32_some (S : Strategy) (fuel : Nat) (src dst dst' : List α)
    (a b rows cols lda ldb : Nat) (hfit : S.Fits32 rows cols lda ldb)
    (hfuel : rows + cols < fuel) (h : S.run src dst a b rows cols lda ldb = some dst') :
    S.run_i32 wrapping fuel src dst a b rows cols lda ldb = some dst' ∧
    S.run_i32 checked fuel src dst a b rows cols lda ldb = some dst' :=
  ⟨(S.run_i32_eq wrapping_exact fuel src dst a b rows cols lda ldb hfit hfuel).trans h,
    (S.run_i32_eq checked_exact fuel src dst a b rows cols lda ldb hfit hfuel).trans h⟩

theorem fits_long_column : Fits 0 2147483647 1 1 (List.replicate 2147483647 (0 : Nat)).length := by
  intro i hi j hj; rw [List.length_replicate]; omega

theorem fits_long_column_dst :
    Fits 0 1 2147483647 2147483647 (List.replicate 2147483647 (0 : Nat)).length := by
  intro i hi j hj; rw [List.length_replicate]; omega

theorem fits_wide_stride : Fits 0 2 2 2147483647 (List.replicate 2147483649 (0 : Nat)).length := by
  intro i hi j hj; rw [List.length_replicate]; omega

theorem fits_wide_stride_dst : Fits 0 2 2 2 (List.replicate 4 (0 : Nat)).length := by
  intro i hi j hj; rw [List.length_replicate]; omega

/-! ## Involution -/

/-- C6, as amended.  Involution with stride bookkeeping.  For each of the four
strategies `S`, all `rows`, `cols`, `ldb ≥ rows`, `ldc ≥ cols` and buffers that hold
the three views, such that the arguments of both calls fit in a signed 32-bit `int`
(`S.Fits32`: the dimensions and every index expression of a cell fit, and for
`transpose_blocked` the dimensions are at most `2^31 - 128`): on the machine, under
either arithmetic and with more fuel than `rows + cols`,
`S(a, b, rows, cols, lda, ldb)` followed by `S(b, c, cols, rows, ldb, ldc)` succeeds
and yields `c[i*ldc + j] == a[i*lda + j]` for every `i < rows`, `j < cols`.  (The
hypothesis `lda ≥ cols` is not needed.) -/
theorem transpose_i32_involution (S : Strategy) (fuel : Nat) (srcA dstB dstC : List α)
    (a b c rows cols lda ldb ldc : Nat) (hldb : rows ≤ ldb) (hldc : cols ≤ ldc)
    (hA : Fits a rows cols lda srcA.length) (hB : Fits b cols rows ldb dstB.length)
    (hC : Fits c rows cols ldc dstC.length) (hfit : S.Fits32 rows cols lda ldb)
    (hfit' : S.Fits32 cols rows ldb ldc) (hfuel : rows + cols < fuel) :
    ∃ bufB bufC,
      S.run_i32 wrapping fuel srcA dstB a b rows cols lda ldb = some bufB ∧
      S.run_i32 checked fuel srcA dstB a b rows cols lda ldb = some bufB ∧
      S.run_i32 wrapping fuel bufB dstC b c cols rows ldb ldc = some bufC ∧
      S.run_i32 checked fuel bufB dstC b c cols rows ldb ldc = some bufC ∧
      ∀ i j, i < rows → j < cols →
        ∃ v, srcA[a + (i * lda + j)]? = some v ∧ bufC[c + (i * ldc + j)]? = some v := by
  obtain ⟨bufB, bufC, h1, h2, h3⟩ :=
    transpose_involution S srcA dstB dstC a b c rows cols lda ldb ldc hldb hldc hA hB hC
  have e1 := S.run_i32_some fuel srcA dstB bufB a b rows cols lda ldb hfit hfuel h1
  have e2 := S.run_i32_some fuel bufB dstC bufC b c cols rows ldb ldc hfit'
    (by omega) h2
  exact ⟨bufB, bufC, e1.1, e1.2, e2.1, e2.2, h3⟩

/-- Witness for C6 (amended): `transpose_blocked` on a 2x3 matrix and back. -/
theorem transpose_i32_involution_witness :
    ∃ bufB bufC,
      Strategy.blocked.run_i32 wrapping 6 [1, 2, 3, 4, 5, 6] [0, 0, 0, 0, 0, 0]
        ((0 : Nat) : Int) ((0 : Nat) : Int) ((2 : Nat) : Int) ((3 : Nat) : Int)
        ((3 : Nat) : Int) ((2 : Nat) : Int) = some bufB ∧
      Strategy.blocked.run_i32 wrapping 6 bufB [9, 9, 9, 9, 9, 9]
        ((0 : Nat) : Int) ((0 : Nat) : Int) ((3 : Nat) : Int) ((2 : Nat) : Int)
        ((2 : Nat) : Int) ((3 : Nat) : Int) = some bufC ∧
      ∀ i j, i < 2 → j < 3 →
        ∃ v, [1, 2, 3, 4, 5, 6][0 + (i * 3 + j)]? = some v ∧
          bufC[0 + (i * 3 + j)]? = some v := by
  obtain ⟨bufB, bufC, h1, _, h3, _, h5⟩ := transpose_i32_involution Strategy.blocked 6
    [1, 2, 3, 4, 5, 6] [0, 0, 0, 0, 0, 0] [9, 9, 9, 9, 9, 9] 0 0 0 2 3 3 2 3
    (by decide) (by decide) (by decide) (by decide) (by decide) (by decide) (by decide)
    (by decide)
  exact ⟨bufB, bufC, h1, h3, h5⟩

/-- C6, counterexample.  (1) `transpose_blocked` with `rows = 2^31 - 1`, `cols = 1`,
`lda = 1`, `ldb = 2^31 - 1 ≥ rows`, `ldc = 1 ≥ cols` on three buffers of `2^31 - 1`
elements, which hold the three views: in unbounded integers the two calls succeed,
on the machine the first call has no result for any fuel, under either arithmetic
(the counter `i += 128` overflows).  (2) `transpose_naive` with `rows = cols = 2`,
`lda = 2^31 - 1`, `ldb = ldc = 2`: the first call has no result on the machine (the
index `1 * lda + 1` overflows). -/
theorem transpose_i32_involution_counterexample :
    ((2147483647 : Nat) ≤ 2147483647 ∧ (1 : Nat) ≤ 1 ∧
      Fits 0 2147483647 1 1 (List.replicate 2147483647 (0 : Nat)).length ∧
      Fits 0 1 2147483647 2147483647 (List.replicate 2147483647 (0 : Nat)).length ∧
      (∃ bufB bufC, Strategy.blocked.run (List.replicate 2147483647 (0 : Nat))
          (List.replicate 2147483647 (0 : Nat)) 0 0 2147483647 1 1 2147483647 = some bufB ∧
        Strategy.blocked.run bufB (List.replicate 2147483647 (0 : Nat)) 0 0 1 2147483647
          2147483647 1 = some bufC) ∧
      ∀ fuel,
        Strategy.blocked.run_i32 wrapping fuel (List.replicate 2147483647 (0 : Nat))
          (List.replicate 2147483647 (0 : Nat)) 0 0 2147483647 1 1 2147483647 = none ∧
        Strategy.blocked.run_i32 checked fuel (List.replicate 2147483647 (0 : Nat))
          (List.replicate 2147483647 (0 : Nat)) 0 0 2147483647 1 1 2147483647 = none) ∧
    ((2 : Nat) ≤ 2 ∧ (2 : Nat) ≤ 2 ∧
      Fits 0 2 2 2147483647 (List.replicate 2147483649 (0 : Nat)).length ∧
      Fits 0 2 2 2 (List.replicate 4 (0 : Nat)).length ∧
      (∃ bufB bufC, Strategy.naive.run (List.replicate 2147483649 (0 : Nat))
          (List.replicate 4 (0 : Nat)) 0 0 2 2 2147483647 2 = some bufB ∧
        Strategy.naive.run bufB (List.replicate 4 (0 : Nat)) 0 0 2 2 2 2 = some bufC) ∧
      ∀ fuel,
        Strategy.naive.run_i32 wrapping fuel (List.replicate 2147483649 (0 : Nat))
          (List.replicate 4 (0 : Nat)) 0 0 2 2 2147483647 2 = none ∧
        Strategy.naive.run_i32 checked fuel (List.replicate 2147483649 (0 : Nat))
          (List.replicate 4 (0 : Nat)) 0 0 2 2 2147483647 2 = none) := by
  refine ⟨⟨Nat.le_refl _, Nat.le_refl _, fits_long_column, fits_long_column_dst, ?_, fun fuel => ?_⟩,
    ⟨Nat.le_refl _, Nat.le_refl _, fits_wide_stride, fits_wide_stride_dst, ?_, fun fuel => ?_⟩⟩
  · obtain ⟨bufB, bufC, h1, h2, _⟩ := transpose_involution Strategy.blocked
      (List.replicate 2147483647 (0 : Nat)) (List.replicate 2147483647 (0 : Nat))
      (List.replicate 2147483647 (0 : Nat)) 0 0 0 2147483647 1 1 2147483647 1
      (Nat.le_refl _) (Nat.le_refl _) fits_long_column fits_long_column_dst fits_long_column
    exact ⟨bufB, bufC, h1, h2⟩
  · exact Strategy.blocked_run_i32_no_result fuel _ _ _ _ _ _ _ _ (by norm_num)
  · obtain ⟨bufB, bufC, h1, h2, _⟩ := transpose_involution Strategy.naive
      (List.replicate 2147483649 (0 : Nat)) (List.replicate 4 (0 : Nat))
      (List.replicate 4 (0 : Nat)) 0 0 0 2 2 2147483647 2 2
      (Nat.le_refl _) (Nat.le_refl _) fits_wide_stride fits_wide_stride_dst fits_wide_stride_dst
    exact ⟨bufB, bufC, h1, h2⟩
  · exact Strategy.naive_run_i32_no_result fuel _ _ 0 2 2 2 (by decide) (by decide)
      (by norm_num) (by norm_num)

/-! ## Empty input -/

/-- C7, as amended.  Empty input is a no-op.  If `rows == 0` or `cols == 0` and the
arguments fit in a signed 32-bit `int` (`S.Fits32`: for `transpose_naive` the
dimensions fit; for `transpose_blocked` the dimensions are at most `2^31 - 128`; for
the two recursive strategies the dimensions and the products `(rows - 1) * lda`,
`(cols - 1) * ldb` fit), each of the four strategies returns on the machine, under
either arithmetic and with more fuel than `rows + cols`, with the destination buffer
unchanged.  The buffers are arbitrary, the empty ones included, on which any load or
store would fail: no access is attempted. -/
theorem transpose_i32_empty_noop (S : Strategy) (fuel : Nat) (src dst : List α)
    (a b rows cols lda ldb : Nat) (h0 : rows = 0 ∨ cols = 0)
    (hfit : S.Fits32 rows cols lda ldb) (hfuel : rows + cols < fuel) :
    S.run_i32 wrapping fuel src dst a b rows cols lda ldb = some dst ∧
    S.run_i32 checked fuel src dst a b rows cols lda ldb = some dst :=
  S.run_i32_some fuel src dst dst a b rows cols lda ldb hfit hfuel
    (transpose_empty_noop S src dst a b rows cols lda ldb h0)

/-- Witness for C7 (amended): `transpose_oblivious2` on 40 rows and no column, on
the empty buffers. -/
theorem transpose_i32_empty_noop_witness :
    Strategy.oblivious2.run_i32 wrapping 41 ([] : List Nat) []
        ((0 : Nat) : Int) ((0 : Nat) : Int) ((40 : Nat) : Int) ((0 : Nat) : Int)
        ((7 : Nat) : Int) ((40 : Nat) : Int) = some [] ∧
      Strategy.oblivious2.run_i32 checked 41 ([] : List Nat) []
        ((0 : Nat) : Int) ((0 : Nat) : Int) ((40 : Nat) : Int) ((0 : Nat) : Int)
        ((7 : Nat) : Int) ((40 : Nat) : Int) = some [] :=
  transpose_i32_empty_noop Strategy.oblivious2 41 [] [] 0 0 40 0 7 40 (Or.inr rfl)
    (by decide) (by decide)

/-- Under trapping arithmetic `transpose_oblivious` has no result on 32 rows, no
column and `lda = 2^31 - 1`: the offset `halfRow * lda = 16 * lda` of the third
quadrant is not representable. -/
theorem transpose_oblivious_i32_checked_no_result (fuel : Nat) (src dst : List α)
    (a b : Int) :
    transpose_oblivious_i32 checked fuel src dst a b 32 0 2147483647 0 = none := by
  cases fuel with
  | zero => rfl
  | succ k =>
    rw [transpose_oblivious_i32, if_neg (by decide)]
    have hR : maskLow2_int (Int.tdiv 32 2) = 16 := by
      rw [show (32 : Int) = ((32 : Nat) : Int) from rfl, maskLow2_int_half, maskLow2_eq]
      rfl
    have hC : maskLow2_int (Int.tdiv 0 2) = 0 := by
      rw [show (0 : Int) = ((0 : Nat) : Int) from rfl, maskLow2_int_half, maskLow2_eq]
    simp only [hR, hC]
    cases transpose_oblivious_i32 checked k src dst a b 16 0 2147483647 0 with
    | none => rfl
    | some d1 =>
      have e1 : checked (0 * 0) = some 0 := by decide
      have e2 : checked (0 - 0) = some 0 := by decide
      have e3 : checked (16 * 2147483647) = none := by decide
      simp only [Option.bind_eq_bind, Option.some_bind, e1, e2]
      cases transpose_oblivious_i32 checked k src d1 (a + 0) (b + 0) 16 0 2147483647 0 with
      | none => rfl
      | some d2 =>
        simp only [Option.some_bind, e3, Option.none_bind]

/-- C7, counterexample.  (1) `rows = 2^31 - 1`, `cols = 0`, all strides 0, on the
empty buffers: in unbounded integers `transpose_blocked` returns with the destination
unchanged; on the machine it has no result for any fuel, under either arithmetic,
because its counter `i += 128` overflows after `i = 2^31 - 128 < rows`.  (2) `rows =
32`, `cols = 0`, `lda = 2^31 - 1`: `transpose_oblivious` computes the offset `16 *
lda` of its third quadrant, which is not representable; under trapping arithmetic it
has no result for any fuel. -/
theorem transpose_i32_empty_noop_counterexample :
    ((0 : Nat) = 0 ∧
      Strategy.blocked.run ([] : List Nat) [] 0 0 2147483647 0 0 0 = some [] ∧
      ∀ fuel,
        Strategy.blocked.run_i32 wrapping fuel ([] : List Nat) [] 0 0 2147483647 0 0 0
          = none ∧
        Strategy.blocked.run_i32 checked fuel ([] : List Nat) [] 0 0 2147483647 0 0 0
          = none) ∧
    ((0 : Nat) = 0 ∧
      Strategy.oblivious.run ([] : List Nat) [] 0 0 32 0 2147483647 0 = some [] ∧
      ∀ fuel, Strategy.oblivious.run_i32 checked fuel ([] : List Nat) [] 0 0 32 0
        2147483647 0 = none) :=
  ⟨⟨rfl, transpose_empty_noop Strategy.blocked [] [] 0 0 2147483647 0 0 0 (Or.inr rfl),
      fun fuel => Strategy.blocked_run_i32_no_result fuel _ _ _ _ _ _ _ _ (by norm_num)⟩,
    ⟨rfl, transpose_empty_noop Strategy.oblivious [] [] 0 0 32 0 2147483647 0 (Or.inr rfl),
      fun fuel => transpose_oblivious_i32_checked_no_result fuel [] [] 0 0⟩⟩

/-! ## Shape law -/

/-- C8, as amended.  Shape law.  For all `rows`, `cols` and the contiguous layout
`lda = cols`, `ldb = rows`: the index map `i*cols + j ↦ j*rows + i` is a bijection of
`[0, rows*cols)`; when the arguments fit in a signed 32-bit `int` (`S.Fits32`: the
dimensions and every index expression of a cell fit, and for `transpose_blocked` the
dimensions are at most `2^31 - 128`), each strategy succeeds on the machine, under
either arithmetic and with more fuel than `rows + cols`, on buffers of at least
`rows*cols` elements, fills destination position `transposeIndex k` with source
element `k`, and the first `rows*cols` destination elements are a permutation of the
first `rows*cols` source elements. -/
theorem transpose_i32_shape_law (S : Strategy) (fuel : Nat) (src dst : List α)
    (rows cols : Nat) (hs : rows * cols ≤ src.length) (hd : rows * cols ≤ dst.length)
    (hfit : S.Fits32 rows cols cols rows) (hfuel : rows + cols < fuel) :
    Set.BijOn (transposeIndex rows cols) (Set.Iio (rows * cols)) (Set.Iio (rows * cols)) ∧
    (∀ i j, i < rows → j < cols → transposeIndex rows cols (i * cols + j) = j * rows + i) ∧
    ∃ dst', S.run_i32 wrapping fuel src dst ((0 : Nat) : Int) ((0 : Nat) : Int) rows cols
        cols rows = some dst' ∧
      S.run_i32 checked fuel src dst ((0 : Nat) : Int) ((0 : Nat) : Int) rows cols
        cols rows = some dst' ∧
      (∀ k, k < rows * cols → dst'[transposeIndex rows cols k]? = src[k]?) ∧
      (dst'.take (rows * cols)).Perm (src.take (rows * cols)) := by
  obtain ⟨h1, h2, dst', h3, h4, h5⟩ := transpose_shape_law S src dst rows cols hs hd
  have e := S.run_i32_some fuel src dst dst' 0 0 rows cols cols rows hfit hfuel h3
  exact ⟨h1, h2, dst', e.1, e.2, h4, h5⟩

/-- Witness for C8 (amended): `transpose_oblivious` on a contiguous 2x3 matrix. -/
theorem transpose_i32_shape_law_witness :
    ∃ dst', Strategy.oblivious.run_i32 wrapping 6 [1, 2, 3, 4, 5, 6] [0, 0, 0, 0, 0, 0]
        ((0 : Nat) : Int) ((0 : Nat) : Int) ((2 : Nat) : Int) ((3 : Nat) : Int)
        ((3 : Nat) : Int) ((2 : Nat) : Int) = some dst' ∧
      (dst'.take (2 * 3)).Perm ([1, 2, 3, 4, 5, 6].take (2 * 3)) := by
  obtain ⟨_, _, dst', h1, _, _, h4⟩ := transpose_i32_shape_law Strategy.oblivious 6
    [1, 2, 3, 4, 5, 6] [0, 0, 0, 0, 0, 0] 2 3 (by decide) (by decide) (by decide)
    (by decide)
  exact ⟨dst', h1, h4⟩

/-- C8, counterexample.  (1) `transpose_blocked` with `rows = 2^31 - 1`, `cols = 1`,
contiguous (`lda = 1`, `ldb = 2^31 - 1`), on buffers of `rows * cols` elements: in
unbounded integers the run succeeds, on the machine it has no result for any fuel,
under either arithmetic (the counter `i += 128` overflows).  (2) `transpose_naive`
with `rows = cols = 46341`, contiguous, on buffers of `rows * cols = 2147488281`
elements: the index `46340 * 46341 + 46340` of the last cell is not representable, and
the run has no result on the machine. -/
theorem transpose_i32_shape_law_counterexample :
    (2147483647 * 1 ≤ (List.replicate 2147483647 (0 : Nat)).length ∧
      (∃ dst', Strategy.blocked.run (List.replicate 2147483647 (0 : Nat))
        (List.replicate 2147483647 (0 : Nat)) 0 0 2147483647 1 1 2147483647 = some dst') ∧
      ∀ fuel,
        Strategy.blocked.run_i32 wrapping fuel (List.replicate 2147483647 (0 : Nat))
          (List.replicate 2147483647 (0 : Nat)) 0 0 2147483647 1 1 2147483647 = none ∧
        Strategy.blocked.run_i32 checked fuel (List.replicate 2147483647 (0 : Nat))
          (List.replicate 2147483647 (0 : Nat)) 0 0 2147483647 1 1 2147483647 = none) ∧
    (46341 * 46341 ≤ (List.replicate 2147488281 (0 : Nat)).length ∧
      (∃ dst', Strategy.naive.run (List.replicate 2147488281 (0 : Nat))
        (List.replicate 2147488281 (0 : Nat)) 0 0 46341 46341 46341 46341 = some dst') ∧
      ∀ fuel,
        Strategy.naive.run_i32 wrapping fuel (List.replicate 2147488281 (0 : Nat))
          (List.replicate 2147488281 (0 : Nat)) 0 0 46341 46341 46341 46341 = none ∧
        Strategy.naive.run_i32 checked fuel (List.replicate 2147488281 (0 : Nat))
          (List.replicate 2147488281 (0 : Nat)) 0 0 46341 46341 46341 46341 = none) := by
  have l1 : 2147483647 * 1 ≤ (List.replicate 2147483647 (0 : Nat)).length := by
    rw [List.length_replicate]
  have l2 : 46341 * 46341 ≤ (List.replicate 2147488281 (0 : Nat)).length := by
    rw [List.length_replicate]
  refine ⟨⟨l1, ?_, fun fuel => ?_⟩, ⟨l2, ?_, fun fuel => ⟨?_, ?_⟩⟩⟩
  · obtain ⟨_, _, dst', h, _⟩ := transpose_shape_law Strategy.blocked
      (List.replicate 2147483647 (0 : Nat)) (List.replicate 2147483647 (0 : Nat))
      2147483647 1 l1 l1
    exact ⟨dst', h⟩
  · exact Strategy.blocked_run_i32_no_result fuel _ _ _ _ _ _ _ _ (by norm_num)
  · obtain ⟨_, _, dst', h, _⟩ := transpose_shape_law Strategy.naive
      (List.replicate 2147488281 (0 : Nat)) (List.replicate 2147488281 (0 : Nat))
      46341 46341 l2 l2
    exact ⟨dst', h⟩
  · refine transpose_naive_i32_no_result wrapping wrapping_exact _ 0 0 46341 46341 46341
      46341 46340 46340 (by decide) (by decide) (by norm_num) (by norm_num) (fun d => ?_)
      fuel _
    refine cell_no_result wrapping _ 0 0 46341 46341 46340 46340 (fun p hp => ?_) d
    have : index32 wrapping ((46340 : Nat) : Int) 46341 ((46340 : Nat) : Int)
        = some (-2147479016) := by
      norm_num [index32, wrapping, wrap32]
    rw [this] at hp
    cases hp
    decide
  · refine transpose_naive_i32_no_result checked checked_exact _ 0 0 46341 46341 46341
      46341 46340 46340 (by decide) (by decide) (by norm_num) (by norm_num) (fun d => ?_)
      fuel _
    refine cell_no_result checked _ 0 0 46341 46341 46340 46340 (fun p hp => ?_) d
    have : index32 checked ((46340 : Nat) : Int) 46341 ((46340 : Nat) : Int) = none := by
      norm_num [index32, checked]
    rw [this] at hp
    cases hp

/-! ## In-bounds access -/

/-- C9, as amended.  In-bounds access.  For all `rows, cols ≥ 1`, `ldb ≥ rows`, a
source buffer of length `(rows-1)*lda + cols` and a destination buffer of length
`(cols-1)*ldb + rows`: each of the four strategies whose arguments fit in a signed
32-bit `int` (`S.Fits32`: the dimensions and every index expression of a cell fit,
and for `transpose_blocked` the dimensions are at most `2^31 - 128`), and under the
same condition on dimensions and indices `transpose_blocked4x4` with its 4-wide
vector loads and stores, runs to completion on the machine, under either arithmetic
and with enough fuel: the bounds-checked loads and stores never take their
out-of-bounds branch.  (The hypothesis `lda ≥ cols` is not needed.) -/
theorem transpose_i32_in_bounds (fuel : Nat) (src dst : List α) (rows cols lda ldb : Nat)
    (hrows : 1 ≤ rows) (hcols : 1 ≤ cols) (hldb : rows ≤ ldb)
    (hsrc : src.length = (rows - 1) * lda + cols)
    (hdst : dst.length = (cols - 1) * ldb + rows) (hfuel : rows + cols < fuel) :
    (∀ S : Strategy, S.Fits32 rows cols lda ldb →
      (S.run_i32 wrapping fuel src dst ((0 : Nat) : Int) ((0 : Nat) : Int) rows cols
        lda ldb).isSome ∧
      (S.run_i32 checked fuel src dst ((0 : Nat) : Int) ((0 : Nat) : Int) rows cols
        lda ldb).isSome) ∧
    (rows ≤ 2 ^ 31 - 1 → cols ≤ 2 ^ 31 - 1 → IndexFits rows cols lda ldb →
      (transpose_blocked4x4_i32 wrapping fuel src dst ((0 : Nat) : Int) ((0 : Nat) : Int)
        rows cols lda ldb).isSome ∧
      (transpose_blocked4x4_i32 checked fuel src dst ((0 : Nat) : Int) ((0 : Nat) : Int)
        rows cols lda ldb).isSome) := by
  obtain ⟨h1, h2⟩ := transpose_in_bounds src dst rows cols lda ldb hrows hcols hldb hsrc hdst
  refine ⟨fun S hfit => ?_, fun hr hc hidx => ?_⟩
  · rw [S.run_i32_eq wrapping_exact fuel src dst 0 0 rows cols lda ldb hfit hfuel,
      S.run_i32_eq checked_exact fuel src dst 0 0 rows cols lda ldb hfit hfuel]
    exact ⟨h1 S, h1 S⟩
  · rw [transpose_blocked4x4_i32_eq wrapping_exact fuel src dst 0 0 rows cols lda ldb hr hc
        hidx (by omega) (by omega),
      transpose_blocked4x4_i32_eq checked_exact fuel src dst 0 0 rows cols lda ldb hr hc
        hidx (by omega) (by omega)]
    exact ⟨h2, h2⟩

/-- Witness for C9 (amended): a 5x6 matrix with `lda = 7`, `ldb = 5`; all four
strategies and `transpose_blocked4x4` run to completion on the machine. -/
theorem transpose_i32_in_bounds_witness :
    (∀ S : Strategy,
      (S.run_i32 wrapping 12 (List.replicate 34 (0 : Nat)) (List.replicate 30 (0 : Nat))
        ((0 : Nat) : Int) ((0 : Nat) : Int) ((5 : Nat) : Int) ((6 : Nat) : Int)
        ((7 : Nat) : Int) ((5 : Nat) : Int)).isSome) ∧
    (transpose_blocked4x4_i32 wrapping 12 (List.replicate 34 (0 : Nat))
      (List.replicate 30 (0 : Nat)) ((0 : Nat) : Int) ((0 : Nat) : Int) ((5 : Nat) : Int)
      ((6 : Nat) : Int) ((7 : Nat) : Int) ((5 : Nat) : Int)).isSome := by
  have h := transpose_i32_in_bounds 12 (List.replicate 34 (0 : Nat))
    (List.replicate 30 (0 : Nat)) 5 6 7 5 (by decide) (by decide) (by decide)
    (by decide) (by decide) (by decide)
  exact ⟨fun S => (h.1 S (by cases S <;> decide)).1,
    (h.2 (by norm_num) (by norm_num) (by decide)).1⟩

/-- C9, counterexample.  (1) `rows = cols = 2`, `lda = 2^31 - 1`, `ldb = 2 ≥ rows`, a
source buffer of `(rows-1)*lda + cols = 2^31 + 1` elements and a destination buffer
of `(cols-1)*ldb + rows = 4` elements.  The source index of cell `(1, 1)` is `2^31`;
on the machine it wraps around to `-2^31`, and the load through `a - 2^31` is out of
bounds: `transpose_naive` and `transpose_blocked4x4` do not run to completion, for
any fuel, under either arithmetic.  (2) `rows = 2^31 - 1`, `cols = 1`, `lda = 1`,
`ldb = 2^31 - 1`, buffers of `2^31 - 1` elements: `transpose_blocked` does not run to
completion on the machine, because its counter `i += 128` overflows. -/
theorem transpose_i32_in_bounds_counterexample :
    ((1 : Nat) ≤ 2 ∧ (2 : Nat) ≤ 2 ∧
      (List.replicate 2147483649 (0 : Nat)).length = (2 - 1) * 2147483647 + 2 ∧
      (List.replicate 4 (0 : Nat)).length = (2 - 1) * 2 + 2 ∧
      index32 wrapping ((1 : Nat) : Int) 2147483647 ((1 : Nat) : Int)
        = some (-2147483648) ∧
      loadAt (List.replicate 2147483649 (0 : Nat)) (0 + (-2147483648)) = none ∧
      ∀ fuel,
        (Strategy.naive.run_i32 wrapping fuel (List.replicate 2147483649 (0 : Nat))
          (List.replicate 4 (0 : Nat)) 0 0 2 2 2147483647 2).isSome = false ∧
        (Strategy.naive.run_i32 checked fuel (List.replicate 2147483649 (0 : Nat))
          (List.replicate 4 (0 : Nat)) 0 0 2 2 2147483647 2).isSome = false ∧
        (transpose_blocked4x4_i32 wrapping fuel (List.replicate 2147483649 (0 : Nat))
          (List.replicate 4 (0 : Nat)) 0 0 2 2 2147483647 2).isSome = false ∧
        (transpose_blocked4x4_i32 checked fuel (List.replicate 2147483649 (0 : Nat))
          (List.replicate 4 (0 : Nat)) 0 0 2 2 2147483647 2).isSome = false) ∧
    ((1 : Nat) ≤ 2147483647 ∧ (1 : Nat) ≤ 1 ∧ (2147483647 : Nat) ≤ 2147483647 ∧
      (List.replicate 2147483647 (0 : Nat)).length = (2147483647 - 1) * 1 + 1 ∧
      (List.replicate 2147483647 (0 : Nat)).length = (1 - 1) * 2147483647 + 2147483647 ∧
      ∀ fuel,
        (Strategy.blocked.run_i32 wrapping fuel (List.replicate 2147483647 (0 : Nat))
          (List.replicate 2147483647 (0 : Nat)) 0 0 2147483647 1 1 2147483647).isSome
          = false ∧
        (Strategy.blocked.run_i32 checked fuel (List.replicate 2147483647 (0 : Nat))
          (List.replicate 2147483647 (0 : Nat)) 0 0 2147483647 1 1 2147483647).isSome
          = false) := by
  refine ⟨⟨by decide, by decide, by rw [List.length_replicate],
      by rw [List.length_replicate], index32_wrapping_overflow, ?_, fun fuel => ?_⟩,
    ⟨by decide, by decide, by decide, by rw [List.length_replicate],
      by rw [List.length_replicate], fun fuel => ?_⟩⟩
  · unfold loadAt
    rw [if_neg (by decide)]
  · have hn := Strategy.naive_run_i32_no_result fuel (List.replicate 2147483649 (0 : Nat))
      (List.replicate 4 (0 : Nat)) 0 2 2 2 (by decide) (by decide) (by norm_num)
      (by norm_num)
    have hb : ∀ {ar : Int → Option Int}, ExactBelow ar →
        transpose_naive_i32 ar fuel (List.replicate 2147483649 (0 : Nat))
          (List.replicate 4 (0 : Nat)) 0 0 2 2 2147483647 2 = none →
        transpose_blocked4x4_i32 ar fuel (List.replicate 2147483649 (0 : Nat))
          (List.replicate 4 (0 : Nat)) 0 0 2 2 2147483647 2 = none := by
      intro ar har h
      cases fuel with
      | zero => rfl
      | succ k =>
        rw [transpose_blocked4x4_i32_two har]
        exact h
    refine ⟨?_, ?_, ?_, ?_⟩
    · exact congrArg Option.isSome hn.1
    · exact congrArg Option.isSome hn.2
    · rw [hb wrapping_exact hn.1]; rfl
    · rw [hb checked_exact hn.2]; rfl
  · have hn := Strategy.blocked_run_i32_no_result fuel (List.replicate 2147483647 (0 : Nat))
      (List.replicate 2147483647 (0 : Nat)) 0 0 2147483647 1 1 2147483647 (by norm_num)
    exact ⟨by rw [hn.1]; rfl, by rw [hn.2]; rfl⟩

/-! ## The blocks of `transpose_blocked` on the machine -/

/-- An observed counter loop in machine arithmetic exits, with the state of the loop
in unbounded integers, as long as the value `2^31 - step` of the counter does not
pass the test. -/
theorem forIntObs_eq (ar : Int → Option Int) (har : ExactBelow ar) (step n : Nat)
    (hstep : 0 < step) (hdvd : step ∣ 2 ^ 31) (hn : n + step ≤ 2 ^ 31)
    (φ : τ → σ) (f : Int → σ → Except σ σ) (g : Nat → τ → Id τ)
    (hfg : ∀ (i : Nat) s, i < n → f i (φ s) = .ok (φ (g i s))) :
    ∀ (fuel i : Nat) (s : τ), step ∣ i → i < n + step → n - i < fuel →
      forIntObs ar fuel step n f i (φ s) =
        .ok (φ (forStep 0 step n hstep g i s).2) := by
  intro fuel
  induction fuel with
  | zero => intro i s _ _ h; omega
  | succ fuel ih =>
    intro i s hdi hi hfuel
    have hle := counter_le hdvd hdi (by omega)
    rw [forIntObs, forStep]
    simp only [Nat.cast_lt, Nat.add_zero]
    by_cases hc : i < n
    · rw [if_pos hc, if_pos hc, hfg i s hc]
      have h1 : ar ((i : Int) + (step : Int)) = some ((i + step : Nat) : Int) := by
        have := har (i + step) (by omega)
        rwa [Nat.cast_add] at this
      simp only [h1]
      exact ih (i + step) (g i s) (Dvd.dvd.add hdi (dvd_refl _)) (by omega) (by omega)
    · rw [if_neg hc, if_neg hc]
      rfl

/-- On dimensions that fit, the blocks passed on the machine are the blocks of the
run in unbounded integers, and the observed loops exit. -/
theorem transpose_blocked_blocks_i32_eq {ar : Int → Option Int} (har : ExactBelow ar)
    (fuel rows cols : Nat) (hfit : BlockFits rows cols) (hfr : rows < fuel)
    (hfc : cols < fuel) :
    transpose_blocked_blocks_i32 ar fuel rows cols =
      .ok ((transpose_blocked_blocks rows cols).map SubCall.toBlock32) := by
  have h128 : block_size ∣ 2 ^ 31 := ⟨2 ^ 24, by norm_num [block_size]⟩
  have hbs : block_size = 128 := rfl
  obtain ⟨hr, hc⟩ := hfit
  unfold transpose_blocked_blocks_i32
  refine forIntObs_eq ar har block_size rows (by decide) h128 (by omega)
    (List.map SubCall.toBlock32) _ _ ?_ fuel 0 [] (Nat.dvd_zero _) (by omega) (by omega)
  intro i log hi
  rw [sub_exact har rows i (by omega) (by omega)]
  dsimp only
  refine forIntObs_eq ar har block_size cols (by decide) h128 (by omega)
    (List.map SubCall.toBlock32) _ _ ?_ fuel 0 log (Nat.dvd_zero _) (by omega) (by omega)
  intro j log hj
  rw [sub_exact har cols j (by omega) (by omega)]
  dsimp only
  rw [← Nat.cast_min, ← Nat.cast_min]
  show _ = Except.ok (List.map SubCall.toBlock32 (log ++ [_]))
  rw [List.map_append]
  rfl

/-- The loops of `transpose_blocked`, around any call, are the execution of the call
on the recorded blocks, in order. -/
theorem blocked_loops_eq_blocks (call : SubCall → σ → Option σ) (rows cols : Nat) (s : σ) :
    (Prod.snd <$> forStep 0 block_size rows (by decide) (fun i s =>
      Prod.snd <$> forStep 0 block_size cols (by decide) (fun j s =>
        call ⟨i, j, min block_size (rows - i), min block_size (cols - j)⟩ s) 0 s) 0 s) =
      (transpose_blocked_blocks rows cols).foldlM (fun s blk => call blk s) s := by
  obtain ⟨i', E, hI, hO⟩ := forStep_trace 0 block_size rows (by decide)
    (fun i s =>
      Prod.snd <$> forStep 0 block_size cols (by decide) (fun j s =>
        call ⟨i, j, min block_size (rows - i), min block_size (cols - j)⟩ s) 0 s)
    (fun i log =>
      let r := min block_size (rows - i)
      Prod.snd <$> forStep (m := Id) 0 block_size cols (by decide) (fun j log =>
        let c := min block_size (cols - j)
        pure (log ++ [(⟨i, j, r, c⟩ : SubCall)])) 0 log)
    (fun s blk => call blk s)
    (fun i _ => by
      obtain ⟨j', F, hJ, hP⟩ := forStep_trace 0 block_size cols (by decide)
        (fun j s => call ⟨i, j, min block_size (rows - i), min block_size (cols - j)⟩ s)
        (fun j log =>
          let c := min block_size (cols - j)
          pure (log ++ [(⟨i, j, min block_size (rows - i), c⟩ : SubCall)]))
        (fun s blk => call blk s)
        (fun j _ => ⟨[⟨i, j, min block_size (rows - i), min block_size (cols - j)⟩],
          fun log => rfl, fun s => by simp⟩) 0
      refine ⟨F, fun log => ?_, fun s => ?_⟩
      · dsimp only
        rw [hJ]; rfl
      · dsimp only
        rw [hP]
        cases List.foldlM (fun s blk => call blk s) s F <;> rfl) 0
  unfold transpose_blocked_blocks Id.run
  rw [hO, hI, List.nil_append]
  cases List.foldlM (fun s blk => call blk s) s E <;> rfl

/-- On dimensions that fit, whatever the strides and the pointers are, the machine
run of `transpose_blocked` is the execution of `transpose_blocked4x4` on the
recorded blocks, in order. -/
theorem transpose_blocked_i32_eq_blocks {ar : Int → Option Int} (har : ExactBelow ar)
    (fuel : Nat) (src dst : List α) (a b : Int) (rows cols : Nat) (lda ldb : Int)
    (hfit : BlockFits rows cols) (hfr : rows < fuel) (hfc : cols < fuel) :
    transpose_blocked_i32 ar fuel src dst a b rows cols lda ldb =
      (transpose_blocked_blocks rows cols).foldlM (fun dst blk => do
        let p ← index32 ar blk.i lda blk.j
        let q ← index32 ar blk.j ldb blk.i
        transpose_blocked4x4_i32 ar fuel src dst (a + p) (b + q) blk.rows blk.cols
          lda ldb) dst := by
  have h128 : block_size ∣ 2 ^ 31 := ⟨2 ^ 24, by norm_num [block_size]⟩
  have hbs : block_size = 128 := rfl
  obtain ⟨hr, hc⟩ := hfit
  refine Eq.trans ?_ (blocked_loops_eq_blocks (fun (blk : SubCall) (dst : List α) => do
    let p ← index32 ar blk.i lda blk.j
    let q ← index32 ar blk.j ldb blk.i
    transpose_blocked4x4_i32 ar fuel src dst (a + p) (b + q) blk.rows blk.cols
      lda ldb) rows cols dst)
  unfold transpose_blocked_i32
  refine forInt_map_eq ar har 0 block_size rows (by decide) h128 (by decide)
    (by omega) pure test_self ?_ fuel dst hfr
  intro i s hi
  rw [sub_exact har rows i (by omega) (by omega)]
  simp only [Option.bind_eq_bind, Option.some_bind]
  refine forInt_map_eq ar har 0 block_size cols (by decide) h128 (by decide)
    (by omega) pure test_self ?_ fuel s hfc
  intro j s hj
  rw [sub_exact har cols j (by omega) (by omega)]
  simp only [Option.bind_eq_bind, Option.some_bind]
  rw [← Nat.cast_min, ← Nat.cast_min]

/-- A counter that stays a multiple of 128 inside the `int` range never reaches a
bound above `2^31 - 128`: the observed loop does not exit, whatever its fuel and its
body. -/
theorem forIntObs_no_exit (ar : Int → Option Int)
    (hp : ∀ x y, ar x = some y → -2147483648 ≤ y ∧ y ≤ 2147483647 ∧ y % 128 = x % 128)
    (n : Int) (hn : 2147483520 < n) (body : Int → σ → Except σ σ) :
    ∀ (fuel : Nat) (i : Int) (s : σ), i % 128 = 0 → -2147483648 ≤ i → i ≤ 2147483647 →
      ∃ s', forIntObs ar fuel 128 n body i s = .error s' := by
  intro fuel
  induction fuel with
  | zero => intro i s _ _ _; exact ⟨s, rfl⟩
  | succ fuel ih =>
    intro i s h1 h2 h3
    rw [forIntObs, if_pos (by omega)]
    cases body i s with
    | error s' => exact ⟨s', rfl⟩
    | ok s' =>
      dsimp only
      cases h : ar (i + 128) with
      | none => exact ⟨s', rfl⟩
      | some i' =>
        have := hp _ _ h
        exact ih i' s' (by omega) this.1 this.2.1

/-- With `rows = 2^31 - 1` and wrap-around arithmetic the outer loop of
`transpose_blocked`, started `k` steps before `i = 2^31 - 128` and observed for
`k + 2` tests, has passed the block with `i = -2^31` and `r = -1`. -/
theorem blocks_reach_wrap (body : Int → List Block32 → Except (List Block32) (List Block32))
    (hbody : ∀ i log, body i log =
      .ok (log ++ [⟨i, 0, min 128 (wrap32 (2147483647 - i)), 1⟩])) :
    ∀ (k : Nat) (i : Int) (log : List Block32), i = 2147483520 - 128 * (k : Int) → 0 ≤ i →
      ∃ log', forIntObs wrapping (k + 1 + 1) 128 2147483647 body i log = .error log' ∧
        (⟨-2147483648, 0, -1, 1⟩ : Block32) ∈ log' := by
  intro k
  induction k with
  | zero =>
    intro i log hi _
    have hi' : i = 2147483520 := by simpa using hi
    subst hi'
    have e1 : wrapping (2147483520 + 128) = some (-2147483648) := by
      norm_num [wrapping, wrap32]
    have e2 : min (128 : Int) (wrap32 (2147483647 - -2147483648)) = -1 := by
      norm_num [wrap32]
    have e3 : wrapping (-2147483648 + 128) = some (-2147483520) := by
      norm_num [wrapping, wrap32]
    rw [forIntObs, if_pos (by norm_num), hbody]
    dsimp only
    rw [e1]
    dsimp only
    rw [forIntObs, if_pos (by norm_num), hbody]
    dsimp only
    rw [e2, e3]
    dsimp only
    rw [forIntObs]
    exact ⟨_, rfl, by simp⟩
  | succ k ih =>
    intro i log hi h0
    have e1 : wrapping (i + 128) = some (i + 128) := by
      unfold wrapping wrap32
      push_cast at hi
      congr 1
      omega
    rw [forIntObs, if_pos (by push_cast at hi; omega), hbody]
    dsimp only
    rw [e1]
    dsimp only
    exact ih (i + 128) _ (by push_cast at hi; omega) (by omega)

/-- With `cols = 1` the inner loop of `transpose_blocked` passes one block. -/
theorem blocks_inner_one (F : Nat) (i r : Int) (log : List Block32) :
    forIntObs wrapping (F + 1 + 1) 128 1 (fun j log =>
      match wrapping (1 - j) with
      | none => Except.error log
      | some e => Except.ok (log ++ [(⟨i, j, r, min 128 e⟩ : Block32)])) 0 log =
      .ok (log ++ [⟨i, 0, r, 1⟩]) := by
  have e1 : wrapping (1 - 0) = some 1 := by norm_num [wrapping, wrap32]
  have e2 : wrapping (0 + 128) = some 128 := by norm_num [wrapping, wrap32]
  rw [forIntObs, if_pos (by decide), e1]
  dsimp only
  rw [e2]
  dsimp only
  rw [forIntObs, if_neg (by decide)]
  rfl

/-- C16, as amended.  Outer blocking.  For all `rows ≤ 2^31 - 128` and all `cols`
with `rows = 0` or `cols ≤ 2^31 - 128`: on the machine, under either arithmetic and
with more fuel than `rows` and `cols`, the loops of `transpose_blocked` exit, and the
blocks `(i, j, r, c)` passed to `transpose_blocked4x4` are the blocks of the run in
unbounded integers; every block has `1 ≤ r ≤ 128`, `1 ≤ c ≤ 128`, `i + r ≤ rows`,
`j + c ≤ cols`, `r = min(128, rows - i)` and `c = min(128, cols - j)`; no block is
passed twice; every cell of `[0, rows) x [0, cols)` lies in exactly one block; and
the machine run of the program, whatever the strides and the pointers are, is the
execution of `transpose_blocked4x4` on exactly these blocks, in order. -/
theorem transpose_blocked_i32_partition (fuel rows cols : Nat) (hfit : BlockFits rows cols)
    (hfr : rows < fuel) (hfc : cols < fuel) :
    transpose_blocked_blocks_i32 wrapping fuel rows cols =
      .ok ((transpose_blocked_blocks rows cols).map SubCall.toBlock32) ∧
    transpose_blocked_blocks_i32 checked fuel rows cols =
      .ok ((transpose_blocked_blocks rows cols).map SubCall.toBlock32) ∧
    (∀ blk ∈ transpose_blocked_blocks rows cols,
      1 ≤ blk.rows ∧ blk.rows ≤ 128 ∧ 1 ≤ blk.cols ∧ blk.cols ≤ 128 ∧
      blk.i + blk.rows ≤ rows ∧ blk.j + blk.cols ≤ cols ∧
      blk.rows = min 128 (rows - blk.i) ∧ blk.cols = min 128 (cols - blk.j)) ∧
    (transpose_blocked_blocks rows cols).Nodup ∧
    (∀ x y, x < rows → y < cols →
      ∃! blk, blk ∈ transpose_blocked_blocks rows cols ∧
        blk.i ≤ x ∧ x < blk.i + blk.rows ∧ blk.j ≤ y ∧ y < blk.j + blk.cols) ∧
    (∀ (β : Type) (src dst : List β) (a b lda ldb : Int),
      transpose_blocked_i32 wrapping fuel src dst a b rows cols lda ldb =
        (transpose_blocked_blocks rows cols).foldlM (fun dst blk => do
          let p ← index32 wrapping blk.i lda blk.j
          let q ← index32 wrapping blk.j ldb blk.i
          transpose_blocked4x4_i32 wrapping fuel src dst (a + p) (b + q) blk.rows blk.cols
            lda ldb) dst ∧
      transpose_blocked_i32 checked fuel src dst a b rows cols lda ldb =
        (transpose_blocked_blocks rows cols).foldlM (fun dst blk => do
          let p ← index32 checked blk.i lda blk.j
          let q ← index32 checked blk.j ldb blk.i
          transpose_blocked4x4_i32 checked fuel src dst (a + p) (b + q) blk.rows blk.cols
            lda ldb) dst) := by
  obtain ⟨h1, h2, h3, _⟩ := transpose_blocked_partition rows cols
  exact ⟨transpose_blocked_blocks_i32_eq wrapping_exact fuel rows cols hfit hfr hfc,
    transpose_blocked_blocks_i32_eq checked_exact fuel rows cols hfit hfr hfc, h1, h2, h3,
    fun β src dst a b lda ldb =>
      ⟨transpose_blocked_i32_eq_blocks wrapping_exact fuel src dst a b rows cols lda ldb
          hfit hfr hfc,
        transpose_blocked_i32_eq_blocks checked_exact fuel src dst a b rows cols lda ldb
          hfit hfr hfc⟩⟩

/-- Witness for C16 (amended): on 300 x 130 the machine passes the six blocks
`(0, 0, 128, 128)`, `(0, 128, 128, 2)`, `(128, 0, 128, 128)`, `(128, 128, 128, 2)`,
`(256, 0, 44, 128)`, `(256, 128, 44, 2)`. -/
theorem transpose_blocked_i32_partition_witness :
    transpose_blocked_blocks_i32 wrapping 301 300 130 =
        .ok [⟨0, 0, 128, 128⟩, ⟨0, 128, 128, 2⟩, ⟨128, 0, 128, 128⟩, ⟨128, 128, 128, 2⟩,
          ⟨256, 0, 44, 128⟩, ⟨256, 128, 44, 2⟩] ∧
      transpose_blocked_blocks_i32 wrapping 301 ((300 : Nat) : Int) ((130 : Nat) : Int) =
        .ok ((transpose_blocked_blocks 300 130).map SubCall.toBlock32) ∧
      (transpose_blocked_blocks 300 130).Nodup :=
  ⟨rfl,
    (transpose_blocked_i32_partition 301 300 130 (by decide) (by decide) (by decide)).1,
    (transpose_blocked_i32_partition 301 300 130 (by decide) (by decide)
      (by decide)).2.2.2.1⟩

/-- C16, counterexample.  `rows = 2^31 - 1`, `cols = 1`.  On the machine the loops of
`transpose_blocked` do not exit, whatever the fuel, under either arithmetic: the
counter `i += 128` overflows after `i = 2^31 - 128 < rows`.  Under wrap-around
arithmetic the counter continues at `-2^31`, where `rows - i` wraps around to `-1`:
within `2^24 + 1` tests of the outer loop the block `(i, j, r, c) = (-2^31, 0, -1, 1)`
is passed to `transpose_blocked4x4`, which has neither `1 ≤ r` nor `0 ≤ i`. -/
theorem transpose_blocked_i32_partition_counterexample :
    (∀ fuel, ∃ log,
      transpose_blocked_blocks_i32 wrapping fuel 2147483647 1 = .error log) ∧
    (∀ fuel, ∃ log,
      transpose_blocked_blocks_i32 checked fuel 2147483647 1 = .error log) ∧
    (∃ log, transpose_blocked_blocks_i32 wrapping 16777217 2147483647 1 = .error log ∧
      (⟨-2147483648, 0, -1, 1⟩ : Block32) ∈ log) ∧
    ¬ (1 ≤ (⟨-2147483648, 0, -1, 1⟩ : Block32).rows) := by
  have h128 : ((block_size : Nat) : Int) = 128 := rfl
  refine ⟨fun fuel => ?_, fun fuel => ?_, ?_, by decide⟩
  · unfold transpose_blocked_blocks_i32
    rw [h128]
    exact forIntObs_no_exit wrapping wrapping_range 2147483647 (by norm_num) _ fuel 0 []
      (by decide) (by decide) (by decide)
  · unfold transpose_blocked_blocks_i32
    rw [h128]
    exact forIntObs_no_exit checked checked_range 2147483647 (by norm_num) _ fuel 0 []
      (by decide) (by decide) (by decide)
  · unfold transpose_blocked_blocks_i32
    rw [h128]
    refine blocks_reach_wrap _ (fun i log => ?_) 16777215 0 [] (by norm_num) (by decide)
    show (match wrapping (2147483647 - i) with
      | none => Except.error log
      | some d => forIntObs wrapping (16777215 + 1 + 1) 128 1 (fun j log =>
          match wrapping (1 - j) with
          | none => Except.error log
          | some e => Except.ok (log ++ [(⟨i, j, min 128 d, min 128 e⟩ : Block32)])) 0 log) = _
    rw [show wrapping (2147483647 - i) = some (wrap32 (2147483647 - i)) from rfl]
    exact blocks_inner_one 16777215 i _ log

/-! ## The logged programs and the programs on one memory, on the machine -/

theorem storeAt_logged_cast (s : List α × List Nat) (b q : Nat) (v : α) :
    storeAt_logged s ((b : Int) + (q : Int)) v = store_logged s (b + q) v := by
  unfold storeAt_logged
  rw [← Nat.cast_add, if_pos (Int.natCast_nonneg _), Int.toNat_natCast]

theorem storeuAt_logged_eq {ar : Int → Option Int} (har : ExactBelow ar)
    (s : List α × List Nat) (b k ld : Nat) (v : M128 α) (h : k * ld ≤ 2 ^ 31 - 1) :
    storeuAt_logged ar s b k ld v = _mm_storeu_ps_logged s (b + k * ld) v := by
  unfold storeuAt_logged
  rw [← Nat.cast_mul, har (k * ld) h]
  simp only [Option.bind_eq_bind, Option.some_bind]
  rw [← Nat.cast_add, if_pos (Int.natCast_nonneg _), Int.toNat_natCast]

theorem transpose_naive_i32_logged_eq {ar : Int → Option Int} (har : ExactBelow ar) (fuel : Nat)
    (src : List α) (dst : List α × List Nat) (a b rows cols lda ldb : Nat)
    (hrows : rows ≤ 2 ^ 31 - 1) (hcols : cols ≤ 2 ^ 31 - 1)
    (hidx : ∀ i < rows, ∀ j < cols, i * lda + j ≤ 2 ^ 31 - 1 ∧ j * ldb + i ≤ 2 ^ 31 - 1)
    (hfr : rows < fuel) (hfc : cols < fuel) :
    transpose_naive_i32_logged ar fuel src dst a b rows cols lda ldb =
      transpose_naive_logged src dst a b rows cols lda ldb := by
  unfold transpose_naive_i32_logged transpose_naive_logged
  refine forInt_map_eq ar har 0 1 rows (by decide) (one_dvd _) (by decide) (by omega) pure
    test_self ?_ fuel dst hfr
  intro i s hi
  refine forInt_map_eq ar har 0 1 cols (by decide) (one_dvd _) (by decide) (by omega) pure
    test_self ?_ fuel s hfc
  intro j s hj
  have h := hidx i (by omega) j (by omega)
  rw [index32_eq har i lda j h.1, index32_eq har j ldb i h.2]
  simp only [Option.bind_eq_bind, Option.some_bind, loadAt_cast, storeAt_logged_cast]

theorem transpose_4x4_i32_logged_eq {ar : Int → Option Int} (har : ExactBelow ar)
    (src : List α) (dst : List α × List Nat) (a b lda ldb : Nat)
    (hlda : 3 * lda ≤ 2 ^ 31 - 1) (hldb : 3 * ldb ≤ 2 ^ 31 - 1) :
    transpose_4x4_i32_logged ar src dst a b lda ldb = transpose_4x4_logged src dst a b lda ldb := by
  have l0 : loaduAt ar src a 0 lda = _mm_loadu_ps src (a + 0 * lda) :=
    loaduAt_eq har src a 0 lda (by omega)
  have l1 : loaduAt ar src a 1 lda = _mm_loadu_ps src (a + 1 * lda) :=
    loaduAt_eq har src a 1 lda (by omega)
  have l2 : loaduAt ar src a 2 lda = _mm_loadu_ps src (a + 2 * lda) :=
    loaduAt_eq har src a 2 lda (by omega)
  have l3 : loaduAt ar src a 3 lda = _mm_loadu_ps src (a + 3 * lda) :=
    loaduAt_eq har src a 3 lda (by omega)
  have s0 : ∀ (m : List α × List Nat) (v : M128 α), storeuAt_logged ar m b 0 ldb v = _mm_storeu_ps_logged m (b + 0 * ldb) v :=
    fun m v => storeuAt_logged_eq har m b 0 ldb v (by omega)
  have s1 : ∀ (m : List α × List Nat) (v : M128 α), storeuAt_logged ar m b 1 ldb v = _mm_storeu_ps_logged m (b + 1 * ldb) v :=
    fun m v => storeuAt_logged_eq har m b 1 ldb v (by omega)
  have s2 : ∀ (m : List α × List Nat) (v : M128 α), storeuAt_logged ar m b 2 ldb v = _mm_storeu_ps_logged m (b + 2 * ldb) v :=
    fun m v => storeuAt_logged_eq har m b 2 ldb v (by omega)
  have s3 : ∀ (m : List α × List Nat) (v : M128 α), storeuAt_logged ar m b 3 ldb v = _mm_storeu_ps_logged m (b + 3 * ldb) v :=
    fun m v => storeuAt_logged_eq har m b 3 ldb v (by omega)
  unfold transpose_4x4_i32_logged transpose_4x4_logged
  simp only [l0, l1, l2, l3, s0, s1, s2, s3]

theorem transpose_blocked4x4_i32_logged_eq {ar : Int → Option Int} (har : ExactBelow ar)
    (fuel : Nat) (src : List α) (dst : List α × List Nat) (a b rows cols lda ldb : Nat)
    (hrows : rows ≤ 2 ^ 31 - 1) (hcols : cols ≤ 2 ^ 31 - 1)
    (hidx : ∀ i < rows, ∀ j < cols, i * lda + j ≤ 2 ^ 31 - 1 ∧ j * ldb + i ≤ 2 ^ 31 - 1)
    (hfr : rows < fuel) (hfc : cols < fuel) :
    transpose_blocked4x4_i32_logged ar fuel src dst a b rows cols lda ldb =
      transpose_blocked4x4_logged src dst a b rows cols lda ldb := by
  unfold transpose_blocked4x4_i32_logged transpose_blocked4x4_logged
  have h4 : 4 ∣ 2 ^ 31 := ⟨2 ^ 29, by norm_num⟩
  refine forInt_bind_eq ar har 3 4 rows (by decide) h4 (by decide) (by omega) _
    (fun i h => test_plus3 har i h) ?_ ?_ fuel dst hfr
  · intro i s hi
    refine forInt_bind_eq ar har 3 4 cols (by decide) h4 (by decide) (by omega) _
      (fun i h => test_plus3 har i h) ?_ ?_ fuel s hfc
    · intro j s hj
      have h := hidx i (by omega) j (by omega)
      have h3 := hidx 3 (by omega) 0 (by omega)
      have h3' := hidx 0 (by omega) 3 (by omega)
      rw [index32_eq har i lda j h.1, index32_eq har j ldb i h.2]
      simp only [Option.bind_eq_bind, Option.some_bind]
      rw [← Nat.cast_add, ← Nat.cast_add]
      exact transpose_4x4_i32_logged_eq har src s _ _ lda ldb (by omega) (by omega)
    · intro j s
      simp only [Nat.cast_lt]
      split
      · rename_i hj
        have h := hidx i (by omega) j hj
        rw [index32_eq har i lda j h.1, index32_eq har j ldb i h.2,
          sub_exact har cols j (by omega) (by omega)]
        simp only [Option.bind_eq_bind, Option.some_bind]
        rw [← Nat.cast_add, ← Nat.cast_add]
        exact transpose_naive_i32_logged_eq har fuel src s _ _ 4 (cols - j) lda ldb (by omega)
          (by omega) (fun i' hi' j' hj' => hidx i' (by omega) j' (by omega)) (by omega)
          (by omega)
      · rfl
  · intro i s
    simp only [Nat.cast_lt]
    split
    · rename_i hi
      refine forInt_bind_eq ar har 3 4 cols (by decide) h4 (by decide) (by omega) _
        (fun i h => test_plus3 har i h) ?_ ?_ fuel s hfc
      · intro j s hj
        have h := hidx i hi j (by omega)
        rw [index32_eq har i lda j h.1, index32_eq har j ldb i h.2,
          sub_exact har rows i (by omega) (by omega)]
        simp only [Option.bind_eq_bind, Option.some_bind]
        rw [← Nat.cast_add, ← Nat.cast_add]
        exact transpose_naive_i32_logged_eq har fuel src s _ _ (rows - i) 4 lda ldb (by omega)
          (by omega) (fun i' hi' j' hj' => hidx i' (by omega) j' (by omega)) (by omega)
          (by omega)
      · intro j s
        simp only [Nat.cast_lt]
        split
        · rename_i hj
          have h := hidx i hi j hj
          rw [index32_eq har i lda j h.1, index32_eq har j ldb i h.2,
            sub_exact har rows i (by omega) (by omega),
            sub_exact har cols j (by omega) (by omega)]
          simp only [Option.bind_eq_bind, Option.some_bind]
          rw [← Nat.cast_add, ← Nat.cast_add]
          exact transpose_naive_i32_logged_eq har fuel src s _ _ (rows - i) (cols - j) lda ldb
            (by omega) (by omega) (fun i' hi' j' hj' => hidx i' (by omega) j' (by omega))
            (by omega) (by omega)
        · rfl
    · rfl

theorem transpose_blocked_i32_logged_eq {ar : Int → Option Int} (har : ExactBelow ar)
    (fuel : Nat) (src : List α) (dst : List α × List Nat) (a b rows cols lda ldb : Nat)
    (hrows : rows + 128 ≤ 2 ^ 31) (hcols : rows = 0 ∨ cols + 128 ≤ 2 ^ 31)
    (hidx : ∀ i < rows, ∀ j < cols, i * lda + j ≤ 2 ^ 31 - 1 ∧ j * ldb + i ≤ 2 ^ 31 - 1)
    (hfr : rows < fuel) (hfc : cols < fuel) :
    transpose_blocked_i32_logged ar fuel src dst a b rows cols lda ldb =
      transpose_blocked_logged src dst a b rows cols lda ldb := by
  unfold transpose_blocked_i32_logged transpose_blocked_logged
  have h128 : block_size ∣ 2 ^ 31 := ⟨2 ^ 24, by norm_num [block_size]⟩
  refine forInt_map_eq ar har 0 block_size rows (by decide) h128 (by decide)
    (by unfold block_size; omega) pure test_self ?_ fuel dst hfr
  intro i s hi
  rw [sub_exact har rows i (by omega) (by omega)]
  simp only [Option.bind_eq_bind, Option.some_bind]
  refine forInt_map_eq ar har 0 block_size cols (by decide) h128 (by decide)
    (by unfold block_size; omega) pure test_self ?_ fuel s hfc
  intro j s hj
  have h := hidx i (by omega) j (by omega)
  rw [sub_exact har cols j (by omega) (by omega), index32_eq har i lda j h.1,
    index32_eq har j ldb i h.2]
  simp only [Option.bind_eq_bind, Option.some_bind]
  rw [← Nat.cast_add, ← Nat.cast_add, ← Nat.cast_min, ← Nat.cast_min]
  exact transpose_blocked4x4_i32_logged_eq har fuel src s _ _ _ _ lda ldb
    (by unfold block_size; omega) (by unfold block_size; omega)
    (fun i' hi' j' hj' => hidx i' (by omega) j' (by omega)) (by omega) (by omega)

theorem transpose_oblivious_i32_logged_eq {ar : Int → Option Int} (har : ExactBelow ar)
    (src : List α) (lda ldb : Nat) :
    ∀ (fuel rows cols : Nat), rows + cols < fuel → IntFits rows cols lda ldb →
      ∀ (dst : List α × List Nat) (a b : Nat),
        transpose_oblivious_i32_logged ar fuel src dst a b rows cols lda ldb =
          transpose_oblivious_logged src dst a b rows cols lda ldb := by
  intro fuel
  induction fuel with
  | zero => intro rows cols h; omega
  | succ k ih =>
    intro rows cols hfuel hT dst a b
    rw [transpose_oblivious_i32_logged, transpose_oblivious_logged]
    by_cases hb : rows ≤ 16 ∧ cols ≤ 16
    · rw [if_pos hb, if_pos ⟨by omega, by omega⟩]
      exact transpose_naive_i32_logged_eq har (k + 1) src dst a b rows cols lda ldb hT.1 hT.2.1
        hT.index (by omega) (by omega)
    · rw [if_neg hb, if_neg (by omega)]
      have hR := maskLow2_half rows
      have hC := maskLow2_half cols
      have hr1 : maskLow2 (rows / 2) ≤ rows - 1 := by omega
      have hc1 : maskLow2 (cols / 2) ≤ cols - 1 := by omega
      have e1 := mul_exact har (maskLow2 (cols / 2)) ldb
        (by have := hT.dst_le (Nat.zero_le _) hc1; omega)
      have e2 := mul_exact har (maskLow2 (rows / 2)) lda
        (by have := hT.src_le hr1 (Nat.zero_le _); omega)
      have e3 := sub_exact har rows (maskLow2 (rows / 2)) (by omega) hT.1
      have e4 := sub_exact har cols (maskLow2 (cols / 2)) (by omega) hT.2.1
      have e5 := index32_eq har (maskLow2 (rows / 2)) lda (maskLow2 (cols / 2))
        (hT.src_le hr1 hc1)
      have e6 := index32_eq har (maskLow2 (cols / 2)) ldb (maskLow2 (rows / 2))
        (hT.dst_le hr1 hc1)
      simp only [maskLow2_int_half, e1, e2, e3, e4, e5, e6, Option.bind_eq_bind,
        Option.some_bind, ← Nat.cast_add]
      rw [ih _ _ (by omega) (hT.shrink (by omega) (by omega))]
      refine congrArg _ (funext fun d1 => ?_)
      rw [ih _ _ (by omega) (hT.shrink (by omega) (by omega))]
      refine congrArg _ (funext fun d2 => ?_)
      rw [ih _ _ (by omega) (hT.shrink (by omega) (by omega))]
      refine congrArg _ (funext fun d3 => ?_)
      exact ih _ _ (by omega) (hT.shrink (by omega) (by omega)) _ _ _

theorem transpose_oblivious2_i32_logged_eq {ar : Int → Option Int} (har : ExactBelow ar)
    (src : List α) (lda ldb : Nat) :
    ∀ (fuel rows cols : Nat), rows + cols < fuel → IntFits rows cols lda ldb →
      ∀ (dst : List α × List Nat) (a b : Nat),
        transpose_oblivious2_i32_logged ar fuel src dst a b rows cols lda ldb =
          transpose_oblivious2_logged src dst a b rows cols lda ldb := by
  intro fuel
  induction fuel with
  | zero => intro rows cols h; omega
  | succ k ih =>
    intro rows cols hfuel hT dst a b
    rw [transpose_oblivious2_i32_logged, transpose_oblivious2_logged]
    have hR := maskLow2_half rows
    have hC := maskLow2_half cols
    have hr1 : maskLow2 (rows / 2) ≤ rows - 1 := by omega
    have hc1 : maskLow2 (cols / 2) ≤ cols - 1 := by omega
    have e1 := mul_exact har (maskLow2 (cols / 2)) ldb
      (by have := hT.dst_le (Nat.zero_le _) hc1; omega)
    have e2 := mul_exact har (maskLow2 (rows / 2)) lda
      (by have := hT.src_le hr1 (Nat.zero_le _); omega)
    have e3 := sub_exact har rows (maskLow2 (rows / 2)) (by omega) hT.1
    have e4 := sub_exact har cols (maskLow2 (cols / 2)) (by omega) hT.2.1
    have e5 := index32_eq har (maskLow2 (rows / 2)) lda (maskLow2 (cols / 2))
      (hT.src_le hr1 hc1)
    have e6 := index32_eq har (maskLow2 (cols / 2)) ldb (maskLow2 (rows / 2))
      (hT.dst_le hr1 hc1)
    by_cases hb : rows ≤ 16 ∧ cols ≤ 16
    · rw [if_pos hb, if_pos ⟨by omega, by omega⟩]
      exact transpose_blocked4x4_i32_logged_eq har (k + 1) src dst a b rows cols lda ldb hT.1 hT.2.1
        hT.index (by omega) (by omega)
    · rw [if_neg hb, if_neg (by omega)]
      by_cases h8 : rows ≤ 8
      · rw [if_pos h8, if_pos (by omega)]
        simp only [maskLow2_int_half, e1, e4, Option.bind_eq_bind, Option.some_bind,
          ← Nat.cast_add]
        rw [ih _ _ (by omega) (hT.shrink (by omega) (by omega))]
        refine congrArg _ (funext fun d1 => ?_)
        exact ih _ _ (by omega) (hT.shrink (by omega) (by omega)) _ _ _
      · rw [if_neg h8, if_neg (by omega)]
        by_cases hc8 : cols ≤ 8
        · rw [if_pos hc8, if_pos (by omega)]
          simp only [maskLow2_int_half, e2, e3, Option.bind_eq_bind, Option.some_bind,
            ← Nat.cast_add]
          rw [ih _ _ (by omega) (hT.shrink (by omega) (by omega))]
          refine congrArg _ (funext fun d1 => ?_)
          exact ih _ _ (by omega) (hT.shrink (by omega) (by omega)) _ _ _
        · rw [if_neg hc8, if_neg (by omega)]
          simp only [maskLow2_int_half, e1, e2, e3, e4, e5, e6, Option.bind_eq_bind,
            Option.some_bind, ← Nat.cast_add]
          rw [ih _ _ (by omega) (hT.shrink (by omega) (by omega))]
          refine congrArg _ (funext fun d1 => ?_)
          rw [ih _ _ (by omega) (hT.shrink (by omega) (by omega))]
          refine congrArg _ (funext fun d2 => ?_)
          rw [ih _ _ (by omega) (hT.shrink (by omega) (by omega))]
          refine congrArg _ (funext fun d3 => ?_)
          exact ih _ _ (by omega) (hT.shrink (by omega) (by omega)) _ _ _

theorem transpose_naive_i32_mem_eq {ar : Int → Option Int} (har : ExactBelow ar) (fuel : Nat)
    (m : List α) (a b rows cols lda ldb : Nat)
    (hrows : rows ≤ 2 ^ 31 - 1) (hcols : cols ≤ 2 ^ 31 - 1)
    (hidx : ∀ i < rows, ∀ j < cols, i * lda + j ≤ 2 ^ 31 - 1 ∧ j * ldb + i ≤ 2 ^ 31 - 1)
    (hfr : rows < fuel) (hfc : cols < fuel) :
    transpose_naive_i32_mem ar fuel m a b rows cols lda ldb =
      transpose_naive_mem m a b rows cols lda ldb := by
  unfold transpose_naive_i32_mem transpose_naive_mem
  refine forInt_map_eq ar har 0 1 rows (by decide) (one_dvd _) (by decide) (by omega) pure
    test_self ?_ fuel m hfr
  intro i s hi
  refine forInt_map_eq ar har 0 1 cols (by decide) (one_dvd _) (by decide) (by omega) pure
    test_self ?_ fuel s hfc
  intro j s hj
  have h := hidx i (by omega) j (by omega)
  rw [index32_eq har i lda j h.1, index32_eq har j ldb i h.2]
  simp only [Option.bind_eq_bind, Option.some_bind, loadAt_cast, storeAt_cast]

theorem transpose_4x4_i32_mem_eq {ar : Int → Option Int} (har : ExactBelow ar)
    (m : List α) (a b lda ldb : Nat)
    (hlda : 3 * lda ≤ 2 ^ 31 - 1) (hldb : 3 * ldb ≤ 2 ^ 31 - 1) :
    transpose_4x4_i32_mem ar m a b lda ldb = transpose_4x4_mem m a b lda ldb := by
  have l0 : loaduAt ar m a 0 lda = _mm_loadu_ps m (a + 0 * lda) :=
    loaduAt_eq har m a 0 lda (by omega)
  have l1 : loaduAt ar m a 1 lda = _mm_loadu_ps m (a + 1 * lda) :=
    loaduAt_eq har m a 1 lda (by omega)
  have l2 : loaduAt ar m a 2 lda = _mm_loadu_ps m (a + 2 * lda) :=
    loaduAt_eq har m a 2 lda (by omega)
  have l3 : loaduAt ar m a 3 lda = _mm_loadu_ps m (a + 3 * lda) :=
    loaduAt_eq har m a 3 lda (by omega)
  have s0 : ∀ (m : List α) (v : M128 α), storeuAt ar m b 0 ldb v = _mm_storeu_ps m (b + 0 * ldb) v :=
    fun m v => storeuAt_eq har m b 0 ldb v (by omega)
  have s1 : ∀ (m : List α) (v : M128 α), storeuAt ar m b 1 ldb v = _mm_storeu_ps m (b + 1 * ldb) v :=
    fun m v => storeuAt_eq har m b 1 ldb v (by omega)
  have s2 : ∀ (m : List α) (v : M128 α), storeuAt ar m b 2 ldb v = _mm_storeu_ps m (b + 2 * ldb) v :=
    fun m v => storeuAt_eq har m b 2 ldb v (by omega)
  have s3 : ∀ (m : List α) (v : M128 α), storeuAt ar m b 3 ldb v = _mm_storeu_ps m (b + 3 * ldb) v :=
    fun m v => storeuAt_eq har m b 3 ldb v (by omega)
  unfold transpose_4x4_i32_mem transpose_4x4_mem
  simp only [l0, l1, l2, l3, s0, s1, s2, s3]

theorem transpose_blocked4x4_i32_mem_eq {ar : Int → Option Int} (har : ExactBelow ar)
    (fuel : Nat) (m : List α) (a b rows cols lda ldb : Nat)
    (hrows : rows ≤ 2 ^ 31 - 1) (hcols : cols ≤ 2 ^ 31 - 1)
    (hidx : ∀ i < rows, ∀ j < cols, i * lda + j ≤ 2 ^ 31 - 1 ∧ j * ldb + i ≤ 2 ^ 31 - 1)
    (hfr : rows < fuel) (hfc : cols < fuel) :
    transpose_blocked4x4_i32_mem ar fuel m a b rows cols lda ldb =
      transpose_blocked4x4_mem m a b rows cols lda ldb := by
  unfold transpose_blocked4x4_i32_mem transpose_blocked4x4_mem
  have h4 : 4 ∣ 2 ^ 31 := ⟨2 ^ 29, by norm_num⟩
  refine forInt_bind_eq ar har 3 4 rows (by decide) h4 (by decide) (by omega) _
    (fun i h => test_plus3 har i h) ?_ ?_ fuel m hfr
  · intro i s hi
    refine forInt_bind_eq ar har 3 4 cols (by decide) h4 (by decide) (by omega) _
      (fun i h => test_plus3 har i h) ?_ ?_ fuel s hfc
    · intro j s hj
      have h := hidx i (by omega) j (by omega)
      have h3 := hidx 3 (by omega) 0 (by omega)
      have h3' := hidx 0 (by omega) 3 (by omega)
      rw [index32_eq har i lda j h.1, index32_eq har j ldb i h.2]
      simp only [Option.bind_eq_bind, Option.some_bind]
      rw [← Nat.cast_add, ← Nat.cast_add]
      exact transpose_4x4_i32_mem_eq har s _ _ lda ldb (by omega) (by omega)
    · intro j s
      simp only [Nat.cast_lt]
      split
      · rename_i hj
        have h := hidx i (by omega) j hj
        rw [index32_eq har i lda j h.1, index32_eq har j ldb i h.2,
          sub_exact har cols j (by omega) (by omega)]
        simp only [Option.bind_eq_bind, Option.some_bind]
        rw [← Nat.cast_add, ← Nat.cast_add]
        exact transpose_naive_i32_mem_eq har fuel s _ _ 4 (cols - j) lda ldb (by omega)
          (by omega) (fun i' hi' j' hj' => hidx i' (by omega) j' (by omega)) (by omega)
          (by omega)
      · rfl
  · intro i s
    simp only [Nat.cast_lt]
    split
    · rename_i hi
      refine forInt_bind_eq ar har 3 4 cols (by decide) h4 (by decide) (by omega) _
        (fun i h => test_plus3 har i h) ?_ ?_ fuel s hfc
      · intro j s hj
        have h := hidx i hi j (by omega)
        rw [index32_eq har i lda j h.1, index32_eq har j ldb i h.2,
          sub_exact har rows i (by omega) (by omega)]
        simp only [Option.bind_eq_bind, Option.some_bind]
        rw [← Nat.cast_add, ← Nat.cast_add]
        exact transpose_naive_i32_mem_eq har fuel s _ _ (rows - i) 4 lda ldb (by omega)
          (by omega) (fun i' hi' j' hj' => hidx i' (by omega) j' (by omega)) (by omega)
          (by omega)
      · intro j s
        simp only [Nat.cast_lt]
        split
        · rename_i hj
          have h := hidx i hi j hj
          rw [index32_eq har i lda j h.1, index32_eq har j ldb i h.2,
            sub_exact har rows i (by omega) (by omega),
            sub_exact har cols j (by omega) (by omega)]
          simp only [Option.bind_eq_bind, Option.some_bind]
          rw [← Nat.cast_add, ← Nat.cast_add]
          exact transpose_naive_i32_mem_eq har fuel s _ _ (rows - i) (cols - j) lda ldb
            (by omega) (by omega) (fun i' hi' j' hj' => hidx i' (by omega) j' (by omega))
            (by omega) (by omega)
        · rfl
    · rfl

theorem transpose_blocked_i32_mem_eq {ar : Int → Option Int} (har : ExactBelow ar)
    (fuel : Nat) (m : List α) (a b rows cols lda ldb : Nat)
    (hrows : rows + 128 ≤ 2 ^ 31) (hcols : rows = 0 ∨ cols + 128 ≤ 2 ^ 31)
    (hidx : ∀ i < rows, ∀ j < cols, i * lda + j ≤ 2 ^ 31 - 1 ∧ j * ldb + i ≤ 2 ^ 31 - 1)
    (hfr : rows < fuel) (hfc : cols < fuel) :
    transpose_blocked_i32_mem ar fuel m a b rows cols lda ldb =
      transpose_blocked_mem m a b rows cols lda ldb := by
  unfold transpose_blocked_i32_mem transpose_blocked_mem
  have h128 : block_size ∣ 2 ^ 31 := ⟨2 ^ 24, by norm_num [block_size]⟩
  refine forInt_map_eq ar har 0 block_size rows (by decide) h128 (by decide)
    (by unfold block_size; omega) pure test_self ?_ fuel m hfr
  intro i s hi
  rw [sub_exact har rows i (by omega) (by omega)]
  simp only [Option.bind_eq_bind, Option.some_bind]
  refine forInt_map_eq ar har 0 block_size cols (by decide) h128 (by decide)
    (by unfold block_size; omega) pure test_self ?_ fuel s hfc
  intro j s hj
  have h := hidx i (by omega) j (by omega)
  rw [sub_exact har cols j (by omega) (by omega), index32_eq har i lda j h.1,
    index32_eq har j ldb i h.2]
  simp only [Option.bind_eq_bind, Option.some_bind]
  rw [← Nat.cast_add, ← Nat.cast_add, ← Nat.cast_min, ← Nat.cast_min]
  exact transpose_blocked4x4_i32_mem_eq har fuel s _ _ _ _ lda ldb
    (by unfold block_size; omega) (by unfold block_size; omega)
    (fun i' hi' j' hj' => hidx i' (by omega) j' (by omega)) (by omega) (by omega)

theorem transpose_oblivious_i32_mem_eq {ar : Int → Option Int} (har : ExactBelow ar)
    (lda ldb : Nat) :
    ∀ (fuel rows cols : Nat), rows + cols < fuel → IntFits rows cols lda ldb →
      ∀ (m : List α) (a b : Nat),
        transpose_oblivious_i32_mem ar fuel m a b rows cols lda ldb =
          transpose_oblivious_mem m a b rows cols lda ldb := by
  intro fuel
  induction fuel with
  | zero => intro rows cols h; omega
  | succ k ih =>
    intro rows cols hfuel hT m a b
    rw [transpose_oblivious_i32_mem, transpose_oblivious_mem]
    by_cases hb : rows ≤ 16 ∧ cols ≤ 16
    · rw [if_pos hb, if_pos ⟨by omega, by omega⟩]
      exact transpose_naive_i32_mem_eq har (k + 1) m a b rows cols lda ldb hT.1 hT.2.1
        hT.index (by omega) (by omega)
    · rw [if_neg hb, if_neg (by omega)]
      have hR := maskLow2_half rows
      have hC := maskLow2_half cols
      have hr1 : maskLow2 (rows / 2) ≤ rows - 1 := by omega
      have hc1 : maskLow2 (cols / 2) ≤ cols - 1 := by omega
      have e1 := mul_exact har (maskLow2 (cols / 2)) ldb
        (by have := hT.dst_le (Nat.zero_le _) hc1; omega)
      have e2 := mul_exact har (maskLow2 (rows / 2)) lda
        (by have := hT.src_le hr1 (Nat.zero_le _); omega)
      have e3 := sub_exact har rows (maskLow2 (rows / 2)) (by omega) hT.1
      have e4 := sub_exact har cols (maskLow2 (cols / 2)) (by omega) hT.2.1
      have e5 := index32_eq har (maskLow2 (rows / 2)) lda (maskLow2 (cols / 2))
        (hT.src_le hr1 hc1)
      have e6 := index32_eq har (maskLow2 (cols / 2)) ldb (maskLow2 (rows / 2))
        (hT.dst_le hr1 hc1)
      simp only [maskLow2_int_half, e1, e2, e3, e4, e5, e6, Option.bind_eq_bind,
        Option.some_bind, ← Nat.cast_add]
      rw [ih _ _ (by omega) (hT.shrink (by omega) (by omega))]
      refine congrArg _ (funext fun d1 => ?_)
      rw [ih _ _ (by omega) (hT.shrink (by omega) (by omega))]
      refine congrArg _ (funext fun d2 => ?_)
      rw [ih _ _ (by omega) (hT.shrink (by omega) (by omega))]
      refine congrArg _ (funext fun d3 => ?_)
      exact ih _ _ (by omega) (hT.shrink (by omega) (by omega)) _ _ _

theorem transpose_oblivious2_i32_mem_eq {ar : Int → Option Int} (har : ExactBelow ar)
    (lda ldb : Nat) :
    ∀ (fuel rows cols : Nat), rows + cols < fuel → IntFits rows cols lda ldb →
      ∀ (m : List α) (a b : Nat),
        transpose_oblivious2_i32_mem ar fuel m a b rows cols lda ldb =
          transpose_oblivious2_mem m a b rows cols lda ldb := by
  intro fuel
  induction fuel with
  | zero => intro rows cols h; omega
  | succ k ih =>
    intro rows cols hfuel hT m a b
    rw [transpose_oblivious2_i32_mem, transpose_oblivious2_mem]
    have hR := maskLow2_half rows
    have hC := maskLow2_half cols
    have hr1 : maskLow2 (rows / 2) ≤ rows - 1 := by omega
    have hc1 : maskLow2 (cols / 2) ≤ cols - 1 := by omega
    have e1 := mul_exact har (maskLow2 (cols / 2)) ldb
      (by have := hT.dst_le (Nat.zero_le _) hc1; omega)
    have e2 := mul_exact har (maskLow2 (rows / 2)) lda
      (by have := hT.src_le hr1 (Nat.zero_le _); omega)
    have e3 := sub_exact har rows (maskLow2 (rows / 2)) (by omega) hT.1
    have e4 := sub_exact har cols (maskLow2 (cols / 2)) (by omega) hT.2.1
    have e5 := index32_eq har (maskLow2 (rows / 2)) lda (maskLow2 (cols / 2))
      (hT.src_le hr1 hc1)
    have e6 := index32_eq har (maskLow2 (cols / 2)) ldb (maskLow2 (rows / 2))
      (hT.dst_le hr1 hc1)
    by_cases hb : rows ≤ 16 ∧ cols ≤ 16
    · rw [if_pos hb, if_pos ⟨by omega, by omega⟩]
      exact transpose_blocked4x4_i32_mem_eq har (k + 1) m a b rows cols lda ldb hT.1 hT.2.1
        hT.index (by omega) (by omega)
    · rw [if_neg hb, if_neg (by omega)]
      by_cases h8 : rows ≤ 8
      · rw [if_pos h8, if_pos (by omega)]
        simp only [maskLow2_int_half, e1, e4, Option.bind_eq_bind, Option.some_bind,
          ← Nat.cast_add]
        rw [ih _ _ (by omega) (hT.shrink (by omega) (by omega))]
        refine congrArg _ (funext fun d1 => ?_)
        exact ih _ _ (by omega) (hT.shrink (by omega) (by omega)) _ _ _
      · rw [if_neg h8, if_neg (by omega)]
        by_cases hc8 : cols ≤ 8
        · rw [if_pos hc8, if_pos (by omega)]
          simp only [maskLow2_int_half, e2, e3, Option.bind_eq_bind, Option.some_bind,
            ← Nat.cast_add]
          rw [ih _ _ (by omega) (hT.shrink (by omega) (by omega))]
          refine congrArg _ (funext fun d1 => ?_)
          exact ih _ _ (by omega) (hT.shrink (by omega) (by omega)) _ _ _
        · rw [if_neg hc8, if_neg (by omega)]
          simp only [maskLow2_int_half, e1, e2, e3, e4, e5, e6, Option.bind_eq_bind,
            Option.some_bind, ← Nat.cast_add]
          rw [ih _ _ (by omega) (hT.shrink (by omega) (by omega))]
          refine congrArg _ (funext fun d1 => ?_)
          rw [ih _ _ (by omega) (hT.shrink (by omega) (by omega))]
          refine congrArg _ (funext fun d2 => ?_)
          rw [ih _ _ (by omega) (hT.shrink (by omega) (by omega))]
          refine congrArg _ (funext fun d3 => ?_)
          exact ih _ _ (by omega) (hT.shrink (by omega) (by omega)) _ _ _

/-- Above `2^31 - 128` rows the 32-bit run of `transpose_blocked_logged` has no result. -/
theorem transpose_blocked_i32_logged_no_result (ar : Int → Option Int)
    (hp : ∀ x y, ar x = some y → -2147483648 ≤ y ∧ y ≤ 2147483647 ∧ y % 128 = x % 128)
    (fuel : Nat) (src : List α) (dst : List α × List Nat) (a b rows cols lda ldb : Int) (hrows : 2147483520 < rows) :
    transpose_blocked_i32_logged ar fuel src dst a b rows cols lda ldb = none := by
  unfold transpose_blocked_i32_logged
  have h128 : ((block_size : Nat) : Int) = 128 := rfl
  rw [h128, forInt_no_exit ar hp rows hrows pure (fun _ => rfl) _ fuel 0 dst (by decide)
    (by decide) (by decide)]
  rfl

/-- Above `2^31 - 128` rows the 32-bit run of `transpose_blocked_mem` has no result. -/
theorem transpose_blocked_i32_mem_no_result (ar : Int → Option Int)
    (hp : ∀ x y, ar x = some y → -2147483648 ≤ y ∧ y ≤ 2147483647 ∧ y % 128 = x % 128)
    (fuel : Nat) (m : List α) (a b rows cols lda ldb : Int) (hrows : 2147483520 < rows) :
    transpose_blocked_i32_mem ar fuel m a b rows cols lda ldb = none := by
  unfold transpose_blocked_i32_mem
  have h128 : ((block_size : Nat) : Int) = 128 := rfl
  rw [h128, forInt_no_exit ar hp rows hrows pure (fun _ => rfl) _ fuel 0 m (by decide)
    (by decide) (by decide)]
  rfl

/-- `transpose_naive` with logged stores has no result on the machine when the copy of some cell
`(i0, j0)` has none. -/
theorem transpose_naive_i32_logged_no_result (ar : Int → Option Int) (har : ExactBelow ar)
    (src : List α) (a b lda ldb : Int) (rows cols i0 j0 : Nat) (hi0 : i0 < rows)
    (hj0 : j0 < cols) (hrows : rows ≤ 2 ^ 31) (hcols : cols ≤ 2 ^ 31)
    (hcell : ∀ dst : List α × List Nat, (do
      let p ← index32 ar i0 lda j0
      let q ← index32 ar j0 ldb i0
      let v ← loadAt src (a + p)
      storeAt_logged dst (b + q) v) = none)
    (fuel : Nat) (dst : List α × List Nat) :
    transpose_naive_i32_logged ar fuel src dst a b rows cols lda ldb = none := by
  unfold transpose_naive_i32_logged
  rw [show (0 : Int) = ((0 : Nat) : Int) from rfl,
    forInt_none_at ar har rows i0 hi0 hrows _ ?_ fuel 0 dst (Nat.zero_le _)]
  · rfl
  · intro s
    rw [forInt_none_at ar har cols j0 hj0 hcols _ hcell fuel 0 s (Nat.zero_le _)]
    rfl

/-- The copy of a cell has no result when its source index, as computed by the
machine, points below the buffer (or is not computed at all). -/
theorem cell_logged_no_result (ar : Int → Option Int) (src : List α) (a b lda ldb : Int)
    (i j : Nat) (h : ∀ p, index32 ar i lda j = some p → a + p < 0) (dst : List α × List Nat) :
    (do
      let p ← index32 ar i lda j
      let q ← index32 ar j ldb i
      let v ← loadAt src (a + p)
      storeAt_logged dst (b + q) v) = none := by
  cases hp : index32 ar i lda j with
  | none => rfl
  | some p =>
    cases hq : index32 ar j ldb i with
    | none => rfl
    | some q =>
      have hl : loadAt src (a + p) = none := by
        unfold loadAt
        rw [if_neg (by have := h p hp; omega)]
      simp only [Option.bind_eq_bind, Option.some_bind, hl, Option.none_bind]

/-- With `lda = 2^31 - 1` the source index of cell `(1, 1)` is `2^31`: on the machine
`transpose_naive` with logged stores has no result on a matrix with at least two rows
and two columns,
under either arithmetic. -/
theorem transpose_naive_i32_logged_stride_overflow (src : List α) (dst : List α × List Nat) (b ldb : Int)
    (rows cols : Nat) (hr : 2 ≤ rows) (hc : 2 ≤ cols) (hrows : rows ≤ 2 ^ 31)
    (hcols : cols ≤ 2 ^ 31) (fuel : Nat) :
    transpose_naive_i32_logged wrapping fuel src dst 0 b rows cols 2147483647 ldb = none ∧
    transpose_naive_i32_logged checked fuel src dst 0 b rows cols 2147483647 ldb = none := by
  constructor
  · refine transpose_naive_i32_logged_no_result wrapping wrapping_exact src 0 b 2147483647 ldb rows
      cols 1 1 (by omega) (by omega) hrows hcols (fun d => ?_) fuel dst
    refine cell_logged_no_result wrapping src 0 b 2147483647 ldb 1 1 (fun p hp => ?_) d
    rw [index32_wrapping_overflow] at hp
    cases hp
    decide
  · refine transpose_naive_i32_logged_no_result checked checked_exact src 0 b 2147483647 ldb rows
      cols 1 1 (by omega) (by omega) hrows hcols (fun d => ?_) fuel dst
    refine cell_logged_no_result checked src 0 b 2147483647 ldb 1 1 (fun p hp => ?_) d
    rw [index32_checked_overflow] at hp
    cases hp

/-- `transpose_naive` on one memory has no result on the machine when the copy of some cell
`(i0, j0)` has none. -/
theorem transpose_naive_i32_mem_no_result (ar : Int → Option Int) (har : ExactBelow ar)
    (a b lda ldb : Int) (rows cols i0 j0 : Nat) (hi0 : i0 < rows)
    (hj0 : j0 < cols) (hrows : rows ≤ 2 ^ 31) (hcols : cols ≤ 2 ^ 31)
    (hcell : ∀ m : List α, (do
      let p ← index32 ar i0 lda j0
      let q ← index32 ar j0 ldb i0
      let v ← loadAt m (a + p)
      storeAt m (b + q) v) = none)
    (fuel : Nat) (m : List α) :
    transpose_naive_i32_mem ar fuel m a b rows cols lda ldb = none := by
  unfold transpose_naive_i32_mem
  rw [show (0 : Int) = ((0 : Nat) : Int) from rfl,
    forInt_none_at ar har rows i0 hi0 hrows _ ?_ fuel 0 m (Nat.zero_le _)]
  · rfl
  · intro s
    rw [forInt_none_at ar har cols j0 hj0 hcols _ hcell fuel 0 s (Nat.zero_le _)]
    rfl

/-- The copy of a cell has no result when its source index, as computed by the
machine, points below the buffer (or is not computed at all). -/
theorem cell_mem_no_result (ar : Int → Option Int) (a b lda ldb : Int)
    (i j : Nat) (h : ∀ p, index32 ar i lda j = some p → a + p < 0) (m : List α) :
    (do
      let p ← index32 ar i lda j
      let q ← index32 ar j ldb i
      let v ← loadAt m (a + p)
      storeAt m (b + q) v) = none := by
  cases hp : index32 ar i lda j with
  | none => rfl
  | some p =>
    cases hq : index32 ar j ldb i with
    | none => rfl
    | some q =>
      have hl : loadAt m (a + p) = none := by
        unfold loadAt
        rw [if_neg (by have := h p hp; omega)]
      simp only [Option.bind_eq_bind, Option.some_bind, hl, Option.none_bind]

/-- With `lda = 2^31 - 1` the source index of cell `(1, 1)` is `2^31`: on the machine
`transpose_naive` on one memory has no result on a matrix with at least two rows and
two columns,
under either arithmetic. -/
theorem transpose_naive_i32_mem_stride_overflow (m : List α) (b ldb : Int)
    (rows cols : Nat) (hr : 2 ≤ rows) (hc : 2 ≤ cols) (hrows : rows ≤ 2 ^ 31)
    (hcols : cols ≤ 2 ^ 31) (fuel : Nat) :
    transpose_naive_i32_mem wrapping fuel m 0 b rows cols 2147483647 ldb = none ∧
    transpose_naive_i32_mem checked fuel m 0 b rows cols 2147483647 ldb = none := by
  constructor
  · refine transpose_naive_i32_mem_no_result wrapping wrapping_exact 0 b 2147483647 ldb rows
      cols 1 1 (by omega) (by omega) hrows hcols (fun d => ?_) fuel m
    refine cell_mem_no_result wrapping 0 b 2147483647 ldb 1 1 (fun p hp => ?_) d
    rw [index32_wrapping_overflow] at hp
    cases hp
    decide
  · refine transpose_naive_i32_mem_no_result checked checked_exact 0 b 2147483647 ldb rows
      cols 1 1 (by omega) (by omega) hrows hcols (fun d => ?_) fuel m
    refine cell_mem_no_result checked 0 b 2147483647 ldb 1 1 (fun p hp => ?_) d
    rw [index32_checked_overflow] at hp
    cases hp

/-- On arguments that fit, the logged run of every strategy on the machine is its
logged run in unbounded integers. -/
theorem Strategy.run_i32_logged_eq (S : Strategy) {ar : Int → Option Int}
    (har : ExactBelow ar) (fuel : Nat) (src dst : List α) (a b rows cols lda ldb : Nat)
    (hfit : S.Fits32 rows cols lda ldb) (hfuel : rows + cols < fuel) :
    S.run_i32_logged ar fuel src dst a b rows cols lda ldb =
      S.run_logged src dst a b rows cols lda ldb := by
  cases S
  · exact transpose_naive_i32_logged_eq har fuel src (dst, []) a b rows cols lda ldb hfit.1
      hfit.2.1 hfit.2.2 (by omega) (by omega)
  · obtain ⟨hidx, hr, hc⟩ := hfit
    exact transpose_blocked_i32_logged_eq har fuel src (dst, []) a b rows cols lda ldb
      (by omega) (by omega) hidx (by omega) (by omega)
  · exact transpose_oblivious_i32_logged_eq har src lda ldb fuel rows cols hfuel hfit
      (dst, []) a b
  · exact transpose_oblivious2_i32_logged_eq har src lda ldb fuel rows cols hfuel hfit
      (dst, []) a b

/-- On arguments that fit, the run of every strategy on one memory of the machine is
its run on one memory in unbounded integers. -/
theorem Strategy.run_i32_mem_eq (S : Strategy) {ar : Int → Option Int}
    (har : ExactBelow ar) (fuel : Nat) (m : List α) (a b rows cols lda ldb : Nat)
    (hfit : S.Fits32 rows cols lda ldb) (hfuel : rows + cols < fuel) :
    S.run_i32_mem ar fuel m a b rows cols lda ldb = S.run_mem m a b rows cols lda ldb := by
  cases S
  · exact transpose_naive_i32_mem_eq har fuel m a b rows cols lda ldb hfit.1
      hfit.2.1 hfit.2.2 (by omega) (by omega)
  · obtain ⟨hidx, hr, hc⟩ := hfit
    exact transpose_blocked_i32_mem_eq har fuel m a b rows cols lda ldb
      (by omega) (by omega) hidx (by omega) (by omega)
  · exact transpose_oblivious_i32_mem_eq har lda ldb fuel rows cols hfuel hfit m a b
  · exact transpose_oblivious2_i32_mem_eq har lda ldb fuel rows cols hfuel hfit m a b

/-! ## Exact work -/

/-- C20, as amended.  Exact work.  For each of the four strategies, all `rows`,
`cols`, `ldb ≥ rows` and buffers that hold the two views, such that the arguments
fit in a signed 32-bit `int` (`S.Fits32`: the dimensions and every index expression
of a cell fit, and for `transpose_blocked` the dimensions are at most `2^31 - 128`):
on the machine, under either arithmetic and with more fuel than `rows + cols`, the
logged run succeeds, it leaves the destination buffer of the program itself, and its
log `W` of element writes (a `transpose_4x4` call contributes its 16 stores) has
exactly `rows * cols` entries, contains only cells `b[j*ldb + i]` of the matrix, and
contains each such cell exactly once. -/
theorem transpose_i32_exact_work (S : Strategy) (fuel : Nat) (src dst : List α)
    (a b rows cols lda ldb : Nat) (hldb : rows ≤ ldb)
    (hs : Fits a rows cols lda src.length) (hd : Fits b cols rows ldb dst.length)
    (hfit : S.Fits32 rows cols lda ldb) (hfuel : rows + cols < fuel) :
    ∃ dst' W,
      S.run_i32_logged wrapping fuel src dst a b rows cols lda ldb = some (dst', W) ∧
      S.run_i32_logged checked fuel src dst a b rows cols lda ldb = some (dst', W) ∧
      S.run_i32 wrapping fuel src dst a b rows cols lda ldb = some dst' ∧
      S.run_i32 checked fuel src dst a b rows cols lda ldb = some dst' ∧
      W.length = rows * cols ∧
      (∀ d ∈ W, ∃ i j, i < rows ∧ j < cols ∧ d = b + (j * ldb + i)) ∧
      (∀ i j, i < rows → j < cols → W.count (b + (j * ldb + i)) = 1) := by
  obtain ⟨dst', W, h1, h2, h3, h4, h5⟩ :=
    transpose_exact_work S src dst a b rows cols lda ldb hldb hs hd
  have e := S.run_i32_some fuel src dst dst' a b rows cols lda ldb hfit hfuel h2
  exact ⟨dst', W,
    (S.run_i32_logged_eq wrapping_exact fuel src dst a b rows cols lda ldb hfit hfuel).trans h1,
    (S.run_i32_logged_eq checked_exact fuel src dst a b rows cols lda ldb hfit hfuel).trans h1,
    e.1, e.2, h3, h4, h5⟩

/-- Witness for C20 (amended): the 2x3 matrix through `transpose_naive` writes the
destination indices `0, 2, 4, 1, 3, 5` in this order; and the 5x3 matrix through the
adaptive recursive strategy. -/
theorem transpose_i32_exact_work_witness :
    Strategy.naive.run_i32_logged wrapping 4 [1, 2, 3, 4, 5, 6] [0, 0, 0, 0, 0, 0]
        0 0 2 3 3 2 = some ([1, 4, 2, 5, 3, 6], [0, 2, 4, 1, 3, 5]) ∧
    ∃ dst' W, Strategy.oblivious2.run_i32_logged wrapping 9 (List.range 15)
        (List.replicate 15 0) ((0 : Nat) : Int) ((0 : Nat) : Int) ((5 : Nat) : Int)
        ((3 : Nat) : Int) ((3 : Nat) : Int) ((5 : Nat) : Int) = some (dst', W) ∧
      W.length = 5 * 3 ∧
      (∀ i j, i < 5 → j < 3 → W.count (0 + (j * 5 + i)) = 1) := by
  refine ⟨by decide, ?_⟩
  obtain ⟨dst', W, h1, _, _, _, h5, _, h7⟩ := transpose_i32_exact_work Strategy.oblivious2 9
    (List.range 15) (List.replicate 15 0) 0 0 5 3 3 5 (by decide) (by decide) (by decide)
    (by decide) (by decide)
  exact ⟨dst', W, h1, h5, h7⟩

/-- C20, counterexample.  (1) `transpose_blocked` with `rows = 2^31 - 1`, `cols = 1`,
`lda = 1`, `ldb = 2^31 - 1 ≥ rows` on buffers of `2^31 - 1` elements, which hold the
two views: on the machine the logged call, like the call itself, has no result for
any fuel, under either arithmetic, because the counter `i += 128` overflows before
the loop exits; the call does not complete with `rows * cols` writes.  (2)
`transpose_naive` with `rows = cols = 2`, `lda = 2^31 - 1`, `ldb = 2`: the index
`1 * lda + 1` of cell `(1, 1)` overflows, and the logged call has no result on the
machine; cell `b[1*ldb + 1]` is not written. -/
theorem transpose_i32_exact_work_counterexample :
    ((2147483647 : Nat) ≤ 2147483647 ∧
      Fits 0 2147483647 1 1 (List.replicate 2147483647 (0 : Nat)).length ∧
      Fits 0 1 2147483647 2147483647 (List.replicate 2147483647 (0 : Nat)).length ∧
      ∀ fuel,
        Strategy.blocked.run_i32_logged wrapping fuel (List.replicate 2147483647 (0 : Nat))
          (List.replicate 2147483647 (0 : Nat)) 0 0 2147483647 1 1 2147483647 = none ∧
        Strategy.blocked.run_i32_logged checked fuel (List.replicate 2147483647 (0 : Nat))
          (List.replicate 2147483647 (0 : Nat)) 0 0 2147483647 1 1 2147483647 = none ∧
        Strategy.blocked.run_i32 wrapping fuel (List.replicate 2147483647 (0 : Nat))
          (List.replicate 2147483647 (0 : Nat)) 0 0 2147483647 1 1 2147483647 = none ∧
        Strategy.blocked.run_i32 checked fuel (List.replicate 2147483647 (0 : Nat))
          (List.replicate 2147483647 (0 : Nat)) 0 0 2147483647 1 1 2147483647 = none) ∧
    ((2 : Nat) ≤ 2 ∧
      Fits 0 2 2 2147483647 (List.replicate 2147483649 (0 : Nat)).length ∧
      Fits 0 2 2 2 (List.replicate 4 (0 : Nat)).length ∧
      ∀ fuel,
        Strategy.naive.run_i32_logged wrapping fuel (List.replicate 2147483649 (0 : Nat))
          (List.replicate 4 (0 : Nat)) 0 0 2 2 2147483647 2 = none ∧
        Strategy.naive.run_i32_logged checked fuel (List.replicate 2147483649 (0 : Nat))
          (List.replicate 4 (0 : Nat)) 0 0 2 2 2147483647 2 = none ∧
        Strategy.naive.run_i32 wrapping fuel (List.replicate 2147483649 (0 : Nat))
          (List.replicate 4 (0 : Nat)) 0 0 2 2 2147483647 2 = none ∧
        Strategy.naive.run_i32 checked fuel (List.replicate 2147483649 (0 : Nat))
          (List.replicate 4 (0 : Nat)) 0 0 2 2 2147483647 2 = none) := by
  refine ⟨⟨Nat.le_refl _, fits_long_column, fits_long_column_dst, fun fuel => ⟨?_, ?_, ?_⟩⟩,
    ⟨Nat.le_refl _, fits_wide_stride, fits_wide_stride_dst, fun fuel => ⟨?_, ?_, ?_⟩⟩⟩
  · exact transpose_blocked_i32_logged_no_result wrapping wrapping_range fuel _ _ _ _ _ _ _ _
      (by norm_num)
  · exact transpose_blocked_i32_logged_no_result checked checked_range fuel _ _ _ _ _ _ _ _
      (by norm_num)
  · exact Strategy.blocked_run_i32_no_result fuel _ _ _ _ _ _ _ _ (by norm_num)
  · exact (transpose_naive_i32_logged_stride_overflow _ _ 0 2 2 2 (by decide) (by decide)
      (by norm_num) (by norm_num) fuel).1
  · exact (transpose_naive_i32_logged_stride_overflow _ _ 0 2 2 2 (by decide) (by decide)
      (by norm_num) (by norm_num) fuel).2
  · exact Strategy.naive_run_i32_no_result fuel _ _ 0 2 2 2 (by decide) (by decide)
      (by norm_num) (by norm_num)

/-! ## Frame -/

/-- C21, as amended.  Frame.  For each strategy, all `rows`, `cols`, every destination
stride `ldb ≥ rows` such that the arguments fit in a signed 32-bit `int` (`S.Fits32`:
the dimensions and every index expression of a cell fit, and for `transpose_blocked`
the dimensions are at most `2^31 - 128`), and all buffers that hold the two views:
the machine run succeeds, under either arithmetic and with more fuel than
`rows + cols`, the destination keeps its length, and every destination index that is
not of the form `b + (j * ldb + i)` with `i < rows`, `j < cols` (the padding between
the rows when `ldb > rows`, everything before `b` and everything past the last row)
holds its original value after the call.  The source buffer is unchanged: on a single
memory `m` that holds both views, whose source cells are no destination cells, the
machine run on the one memory succeeds with the result of the two-buffer machine run
from the source `m`, and afterwards every source cell, like every address that is no
destination cell, holds its original value, while the destination cells hold the
transposed source.  (The hypothesis `lda ≥ cols` of the contract is not needed.) -/
theorem transpose_i32_frame (S : Strategy) (fuel rows cols lda ldb : Nat) (hldb : rows ≤ ldb)
    (hfit : S.Fits32 rows cols lda ldb) (hfuel : rows + cols < fuel) :
    (∀ (src dst : List α) (a b : Nat), Fits a rows cols lda src.length →
      Fits b cols rows ldb dst.length →
      ∃ dst', S.run_i32 wrapping fuel src dst a b rows cols lda ldb = some dst' ∧
        S.run_i32 checked fuel src dst a b rows cols lda ldb = some dst' ∧
        dst'.length = dst.length ∧
        ∀ d, (∀ i j, i < rows → j < cols → d ≠ b + (j * ldb + i)) → dst'[d]? = dst[d]?) ∧
    (∀ (m : List α) (a b : Nat), Fits a rows cols lda m.length →
      Fits b cols rows ldb m.length → Apart a b rows cols lda ldb →
      ∃ m', S.run_i32_mem wrapping fuel m a b rows cols lda ldb = some m' ∧
        S.run_i32_mem checked fuel m a b rows cols lda ldb = some m' ∧
        S.run_i32 wrapping fuel m m a b rows cols lda ldb = some m' ∧
        S.run_i32 checked fuel m m a b rows cols lda ldb = some m' ∧
        m'.length = m.length ∧
        (∀ i j, i < rows → j < cols → m'[a + (i * lda + j)]? = m[a + (i * lda + j)]?) ∧
        (∀ d, (∀ i j, i < rows → j < cols → d ≠ b + (j * ldb + i)) → m'[d]? = m[d]?) ∧
        (∀ i j, i < rows → j < cols → m'[b + (j * ldb + i)]? = m[a + (i * lda + j)]?)) := by
  obtain ⟨h1, h2⟩ := @transpose_frame α S rows cols lda ldb hldb
  refine ⟨fun src dst a b hs hd => ?_, fun m a b hs hd hap => ?_⟩
  · obtain ⟨dst', e1, e2, e3⟩ := h1 src dst a b hs hd
    have e := S.run_i32_some fuel src dst dst' a b rows cols lda ldb hfit hfuel e1
    exact ⟨dst', e.1, e.2, e2, e3⟩
  · obtain ⟨m', e1, e2, e3⟩ := h2 m a b hs hd hap
    have e := S.run_i32_some fuel m m m' a b rows cols lda ldb hfit hfuel e2
    exact ⟨m',
      (S.run_i32_mem_eq wrapping_exact fuel m a b rows cols lda ldb hfit hfuel).trans e1,
      (S.run_i32_mem_eq checked_exact fuel m a b rows cols lda ldb hfit hfuel).trans e1,
      e.1, e.2, e3⟩

/-- Witness for C21 (amended): a 2x3 matrix written with `ldb = 4` into a buffer of
14 elements starting at `b = 1`: the padding, the element before `b` and the elements
past the last row keep their value 9.  On one memory the source occupies the
addresses `0 .. 5`, the destination view starts at `b = 6` with `ldb = 3`. -/
theorem transpose_i32_frame_witness :
    Strategy.naive.run_i32 wrapping 6 [1, 2, 3, 4, 5, 6]
        [9, 9, 9, 9, 9, 9, 9, 9, 9, 9, 9, 9, 9, 9] 0 1 2 3 3 4
        = some [9, 1, 4, 9, 9, 2, 5, 9, 9, 3, 6, 9, 9, 9] ∧
    (∃ dst', Strategy.blocked.run_i32 wrapping 6 [1, 2, 3, 4, 5, 6]
        [9, 9, 9, 9, 9, 9, 9, 9, 9, 9, 9, 9, 9, 9] ((0 : Nat) : Int) ((1 : Nat) : Int)
        ((2 : Nat) : Int) ((3 : Nat) : Int) ((3 : Nat) : Int) ((4 : Nat) : Int)
        = some dst' ∧
      dst'.length = [9, 9, 9, 9, 9, 9, 9, 9, 9, 9, 9, 9, 9, 9].length ∧
      ∀ d, (∀ i j, i < 2 → j < 3 → d ≠ 1 + (j * 4 + i)) →
        dst'[d]? = [9, 9, 9, 9, 9, 9, 9, 9, 9, 9, 9, 9, 9, 9][d]?) ∧
    Strategy.naive.run_i32_mem wrapping 6 [1, 2, 3, 4, 5, 6, 9, 9, 9, 9, 9, 9, 9, 9, 9, 9]
        0 6 2 3 3 3 = some [1, 2, 3, 4, 5, 6, 1, 4, 9, 2, 5, 9, 3, 6, 9, 9] ∧
    (∃ m', Strategy.oblivious2.run_i32_mem wrapping 6
        [1, 2, 3, 4, 5, 6, 9, 9, 9, 9, 9, 9, 9, 9, 9, 9] ((0 : Nat) : Int) ((6 : Nat) : Int)
        ((2 : Nat) : Int) ((3 : Nat) : Int) ((3 : Nat) : Int) ((3 : Nat) : Int)
        = some m' ∧
      ∀ i j, i < 2 → j < 3 →
        m'[0 + (i * 3 + j)]? =
          [1, 2, 3, 4, 5, 6, 9, 9, 9, 9, 9, 9, 9, 9, 9, 9][0 + (i * 3 + j)]?) := by
  refine ⟨by decide, ?_, by decide, ?_⟩
  · obtain ⟨dst', h1, _, h3⟩ :=
      (transpose_i32_frame Strategy.blocked 6 2 3 3 4 (by decide) (by decide)
        (by decide)).1
        [1, 2, 3, 4, 5, 6] [9, 9, 9, 9, 9, 9, 9, 9, 9, 9, 9, 9, 9, 9] 0 1 (by decide)
        (by decide)
    exact ⟨dst', h1, h3⟩
  · obtain ⟨m', h1, _, _, _, _, h6, _⟩ :=
      (transpose_i32_frame Strategy.oblivious2 6 2 3 3 3 (by decide) (by decide)
        (by decide)).2
        [1, 2, 3, 4, 5, 6, 9, 9, 9, 9, 9, 9, 9, 9, 9, 9] 0 6 (by decide) (by decide)
        (by decide)
    exact ⟨m', h1, h6⟩

/-- C21, counterexample.  (1) `transpose_naive` with `rows = cols = 2`,
`lda = 2^31 - 1`, `ldb = 2 ≥ rows`, a source buffer of `lda + 2` elements and a
destination buffer of 4 elements, which hold the two views: on the machine the source
index of cell `(1, 1)` wraps around to `-2^31`, another address than `a[1*lda + 1]`,
and the call has no result for any fuel, under either arithmetic; so has the call on
one memory of `lda + 6` elements with the source view at `a = 0` and the destination
view at `b = lda + 2`, which are apart.  (2) `transpose_blocked` with
`rows = 2^31 - 1`, `cols = 1`, `lda = 1`, `ldb = 2^31 - 1` on buffers of `2^31 - 1`
elements: the call has no result on the machine, because the counter `i += 128`
overflows.  In these cases there is no state after the call in which the destination
indices outside the matrix hold their original values. -/
theorem transpose_i32_frame_counterexample :
    ((2 : Nat) ≤ 2147483647 ∧ (2 : Nat) ≤ 2 ∧
      Fits 0 2 2 2147483647 (List.replicate 2147483649 (0 : Nat)).length ∧
      Fits 0 2 2 2 (List.replicate 4 (0 : Nat)).length ∧
      index32 wrapping ((1 : Nat) : Int) 2147483647 ((1 : Nat) : Int)
        = some (-2147483648) ∧
      ∀ fuel,
        Strategy.naive.run_i32 wrapping fuel (List.replicate 2147483649 (0 : Nat))
          (List.replicate 4 (0 : Nat)) 0 0 2 2 2147483647 2 = none ∧
        Strategy.naive.run_i32 checked fuel (List.replicate 2147483649 (0 : Nat))
          (List.replicate 4 (0 : Nat)) 0 0 2 2 2147483647 2 = none) ∧
    (Fits 0 2 2 2147483647 (List.replicate 2147483653 (0 : Nat)).length ∧
      Fits 2147483649 2 2 2 (List.replicate 2147483653 (0 : Nat)).length ∧
      Apart 0 2147483649 2 2 2147483647 2 ∧
      ∀ fuel,
        Strategy.naive.run_i32_mem wrapping fuel (List.replicate 2147483653 (0 : Nat))
          0 2147483649 2 2 2147483647 2 = none ∧
        Strategy.naive.run_i32_mem checked fuel (List.replicate 2147483653 (0 : Nat))
          0 2147483649 2 2 2147483647 2 = none) ∧
    ((1 : Nat) ≤ 1 ∧ (2147483647 : Nat) ≤ 2147483647 ∧
      Fits 0 2147483647 1 1 (List.replicate 2147483647 (0 : Nat)).length ∧
      Fits 0 1 2147483647 2147483647 (List.replicate 2147483647 (0 : Nat)).length ∧
      ∀ fuel,
        Strategy.blocked.run_i32 wrapping fuel (List.replicate 2147483647 (0 : Nat))
          (List.replicate 2147483647 (0 : Nat)) 0 0 2147483647 1 1 2147483647 = none ∧
        Strategy.blocked.run_i32 checked fuel (List.replicate 2147483647 (0 : Nat))
          (List.replicate 2147483647 (0 : Nat)) 0 0 2147483647 1 1 2147483647 = none) := by
  refine ⟨⟨by decide, Nat.le_refl _, fits_wide_stride, fits_wide_stride_dst, index32_wrapping_overflow,
      fun fuel => Strategy.naive_run_i32_no_result fuel _ _ 0 2 2 2 (by decide) (by decide)
        (by norm_num) (by norm_num)⟩,
    ⟨?_, ?_, ?_, fun fuel => transpose_naive_i32_mem_stride_overflow _ 2147483649 2 2 2
        (by decide) (by decide) (by norm_num) (by norm_num) fuel⟩,
    ⟨Nat.le_refl _, Nat.le_refl _, fits_long_column, fits_long_column_dst,
      fun fuel => Strategy.blocked_run_i32_no_result fuel _ _ _ _ _ _ _ _ (by norm_num)⟩⟩
  · intro i hi j hj; rw [List.length_replicate]; omega
  · intro i hi j hj; rw [List.length_replicate]; omega
  · intro i hi j hj i' hi' j' hj'; omega

end Transpose
